import Mathlib

/-!
# SIRIUS `sddk::FFT3D`: a shallow embedding of the single-process CPU engine

The development follows `src/SDDK/fft3d.hpp`.

* Buffers (`mdarray<double_complex, 1>`, the FFTW scratch arrays, the caller's coefficient
  arrays) are total functions `ℕ → K` from the linear index to the stored value.
* `double_complex` is an arbitrary field `K` with a conjugation (`star`).  The theorems
  instantiate `K` with `ℂ`; the definitions stay executable for every computable `K`.
* FFTW is an external library.  Its plans are modelled by their documented contract, the exact
  unnormalised discrete Fourier transform; the twiddle factor `exp (2 π i / n)` is supplied by
  the parameter `root : ℕ → K`.
* `#pragma omp parallel for` loops are executed sequentially with the scratch buffers of one thread:
  the iterations of every such loop write disjoint locations.
* Only the host path (`pu_ == CPU`, no `__GPU`) is embedded: first the engine of
  `comm_.size() == 1`, then (under "Several processes") the engines of all ranks of `comm_`.
-/

namespace sddk

open Finset

/-! ## Loops and bulk memory operations -/

/-- The loop `for (i = 0; i < n; i++) s = body(i, s)`. -/
def forLoop {σ : Type} (n : ℕ) (body : ℕ → σ → σ) (s : σ) : σ :=
  match n with
  | 0 => s
  | m + 1 => body m (forLoop m body s)

/-- The loop `for (i = lo; i < hi; i++) s = body(i, s)`. -/
def forLoopFrom {σ : Type} (lo hi : ℕ) (body : ℕ → σ → σ) (s : σ) : σ :=
  forLoop (hi - lo) (fun k => body (lo + k)) s

/-- A loop whose body may hit `TERMINATE`: the first failing iteration ends the run. -/
def forLoopE {σ : Type} (n : ℕ) (body : ℕ → σ → Except String σ) (s : σ) : Except String σ :=
  match n with
  | 0 => Except.ok s
  | m + 1 => (forLoopE m body s).bind (body m)

/-- `std::fill(buf, buf + n, 0)`. -/
def fill_zero {K : Type} [Zero K] (n : ℕ) (buf : ℕ → K) : ℕ → K :=
  fun k => if k < n then 0 else buf k

/-- `std::copy(src + s, src + s + n, dst + d)` for two distinct arrays. -/
def copy_range {K : Type} (src : ℕ → K) (s n : ℕ) (dst : ℕ → K) (d : ℕ) : ℕ → K :=
  fun k => if d ≤ k ∧ k < d + n then src (s + (k - d)) else dst k

/-! ## Collaborators: grid, G-vector partition, FFTW -/

/-- The FFT grid descriptor: the three extents of the box. -/
structure FFT3D_grid where
  size_x : ℕ
  size_y : ℕ
  size_z : ℕ
deriving DecidableEq, Repr

/-- `grid.size(idim)`: the extent of dimension `idim`. -/
def FFT3D_grid.size (g : FFT3D_grid) (idim : ℕ) : ℕ :=
  match idim with
  | 0 => g.size_x
  | 1 => g.size_y
  | _ => g.size_z

/-- `grid.size()`: the total number of grid points. -/
def FFT3D_grid.size_total (g : FFT3D_grid) : ℕ :=
  g.size 0 * g.size 1 * g.size 2

/-- Modelled from the spec: `fft3d_grid.hpp` is not among the sources.  The grid descriptor
"maps a signed frequency index to a buffer coordinate": a non-negative frequency is its own
coordinate and a negative frequency `i` sits at `i + size(idim)`. -/
def FFT3D_grid.coord_by_gvec (g : FFT3D_grid) (i : ℤ) (idim : ℕ) : ℤ :=
  if i < 0 then i + (g.size idim : ℤ) else i

/-- A column of G-vectors: fixed `(x, y)` and the list of stored z-frequencies. -/
structure z_column_descriptor where
  x : ℤ
  y : ℤ
  z : List ℤ
deriving DecidableEq, Repr

/-- The part of `Gvec_partition` (`gvec.hpp`, not among the sources) that the engine reads:
the ordered columns, the offset of every column inside the coefficient array and the
`reduced` flag. -/
structure Gvec_partition where
  zcols : List z_column_descriptor
  offs : ℕ → ℕ
  is_reduced : Bool

/-- `gvec.num_zcol()`. -/
def Gvec_partition.num_zcol (gv : Gvec_partition) : ℕ := gv.zcols.length

/-- `gvec.zcol(i)`. -/
def Gvec_partition.zcol (gv : Gvec_partition) (i : ℕ) : z_column_descriptor :=
  gv.zcols.getD i ⟨0, 0, []⟩

/-- `gvec.zcol_offs(i)`. -/
def Gvec_partition.zcol_offs (gv : Gvec_partition) (i : ℕ) : ℕ := gv.offs i

/-- `gvec.reduced()`. -/
def Gvec_partition.reduced (gv : Gvec_partition) : Bool := gv.is_reduced

/-- `gvec.zcol(i).z[j]`. -/
def Gvec_partition.zfreq (gv : Gvec_partition) (i j : ℕ) : ℤ := (gv.zcol i).z.getD j 0

/-- A one-dimensional array with its allocated length. -/
structure mdarray (K : Type) where
  size : ℕ
  data : ℕ → K

/-- The two-dimensional integer table `z_col_pos_` with its extents. -/
structure mdarray2 where
  dim0 : ℕ
  dim1 : ℕ
  data : ℕ → ℕ → ℤ

section Defs

variable {K : Type} [Field K] [StarRing K]

/-- Executing a plan of `fftw_plan_dft_1d(n, buf, buf, sign, _)`: the in-place unnormalised DFT
`Y[k] = ∑ j, X[j] * w ^ (j * k)` with `w = exp (sign * 2 π i / n)`. -/
def fftw_dft_1d (w : K) (n : ℕ) (buf : ℕ → K) : ℕ → K :=
  fun k => if k < n then ∑ j ∈ range n, buf j * w ^ (j * k) else buf k

/-- Executing a plan of `fftw_plan_dft_2d(n0, n1, buf, buf, sign, _)` on a row-major `n0 × n1`
array: `Y[k0 * n1 + k1] = ∑ j0 j1, X[j0 * n1 + j1] * w0 ^ (j0 * k0) * w1 ^ (j1 * k1)`. -/
def fftw_dft_2d (w0 w1 : K) (n0 n1 : ℕ) (buf : ℕ → K) : ℕ → K :=
  fun k => if k < n0 * n1 then
      ∑ j0 ∈ range n0, ∑ j1 ∈ range n1,
        buf (j0 * n1 + j1) * (w0 ^ (j0 * (k / n1)) * w1 ^ (j1 * (k % n1)))
    else buf k

/-- The twiddle factor of a plan: `FFTW_BACKWARD = +1` uses `exp (+2 π i / n)` and
`FFTW_FORWARD = -1` its inverse. -/
def fftw_twiddle (root : ℕ → K) (n : ℕ) (sign : ℤ) : K :=
  if sign = 1 then root n else (root n)⁻¹

/-- The constructor `double_complex(re, im)`. -/
def double_complex (I : K) (re im : K) : K := re + im * I

/-! ## The engine -/

/-- State of one `FFT3D` object (host side, one worker thread). -/
structure FFT3D (K : Type) where
  grid_ : FFT3D_grid
  local_size_z_ : ℕ
  offset_z_ : ℕ
  fft_buffer_ : ℕ → K
  fft_buffer_aux1_ : mdarray K
  fft_buffer_aux2_ : mdarray K
  fftw_buffer_z_ : ℕ → K
  fftw_buffer_xy_ : ℕ → K
  z_col_pos_ : mdarray2
  prepared_ : Bool
  /-- What freshly allocated memory happens to contain. -/
  uninit_ : ℕ → K

/-- `FFT3D::grid()`. -/
def FFT3D.grid (e : FFT3D K) : FFT3D_grid := e.grid_

/-- `FFT3D::size()`. -/
def FFT3D.size (e : FFT3D K) : ℕ := e.grid_.size_total

/-- `FFT3D::local_size()`. -/
def FFT3D.local_size (e : FFT3D K) : ℕ := e.grid_.size 0 * e.grid_.size 1 * e.local_size_z_

/-- The constructor for `comm_.size() == 1`: the whole z-extent is local; the buffers are
allocated but not initialised. -/
def FFT3D.create (grid : FFT3D_grid) (mem : ℕ → K) : FFT3D K where
  grid_ := grid
  local_size_z_ := grid.size 2
  offset_z_ := 0
  fft_buffer_ := mem
  fft_buffer_aux1_ := ⟨0, mem⟩
  fft_buffer_aux2_ := ⟨0, mem⟩
  fftw_buffer_z_ := mem
  fftw_buffer_xy_ := mem
  z_col_pos_ := ⟨0, 0, fun _ _ => 0⟩
  prepared_ := false
  uninit_ := mem

/-- `FFT3D::input` on the host: the first `local_size()` entries of the main buffer are
overwritten with the caller's data. -/
def FFT3D.input (e : FFT3D K) (data : ℕ → K) : FFT3D K :=
  { e with fft_buffer_ := fun i => if i < e.local_size then data i else e.fft_buffer_ i }

/-- Executing `plan_backward_z_[tid]`. -/
def FFT3D.plan_backward_z (root : ℕ → K) (e : FFT3D K) (buf : ℕ → K) : ℕ → K :=
  fftw_dft_1d (fftw_twiddle root (e.grid_.size 2) 1) (e.grid_.size 2) buf

/-- Executing `plan_forward_z_[tid]`. -/
def FFT3D.plan_forward_z (root : ℕ → K) (e : FFT3D K) (buf : ℕ → K) : ℕ → K :=
  fftw_dft_1d (fftw_twiddle root (e.grid_.size 2) (-1)) (e.grid_.size 2) buf

/-- Executing `plan_backward_xy_[tid]`, a plan of `fftw_plan_dft_2d(size(1), size(0), ..)`. -/
def FFT3D.plan_backward_xy (root : ℕ → K) (e : FFT3D K) (buf : ℕ → K) : ℕ → K :=
  fftw_dft_2d (fftw_twiddle root (e.grid_.size 1) 1) (fftw_twiddle root (e.grid_.size 0) 1)
    (e.grid_.size 1) (e.grid_.size 0) buf

/-- Executing `plan_forward_xy_[tid]`. -/
def FFT3D.plan_forward_xy (root : ℕ → K) (e : FFT3D K) (buf : ℕ → K) : ℕ → K :=
  fftw_dft_2d (fftw_twiddle root (e.grid_.size 1) (-1)) (fftw_twiddle root (e.grid_.size 0) (-1))
    (e.grid_.size 1) (e.grid_.size 0) buf

/-- One iteration of the loop of `FFT3D::prepare` that fills `z_col_pos_`. -/
def FFT3D.prepare_col (grid : FFT3D_grid) (gvec : Gvec_partition) (i : ℕ)
    (t : ℕ → ℕ → ℤ) : ℕ → ℕ → ℤ :=
  let x := grid.coord_by_gvec (gvec.zcol i).x 0
  let y := grid.coord_by_gvec (gvec.zcol i).y 1
  let t1 := Function.update t i (Function.update (t i) 0 (x + y * (grid.size 0 : ℤ)))
  if gvec.reduced = true then
    let x1 := grid.coord_by_gvec (-(gvec.zcol i).x) 0
    let y1 := grid.coord_by_gvec (-(gvec.zcol i).y) 1
    Function.update t1 i (Function.update (t1 i) 1 (x1 + y1 * (grid.size 0 : ℤ)))
  else t1

/-- `FFT3D::prepare` on the host. -/
def FFT3D.prepare (e : FFT3D K) (gvec : Gvec_partition) : FFT3D K :=
  let nc := if gvec.reduced = true then 2 else 1
  { e with
    z_col_pos_ := ⟨gvec.num_zcol, nc,
      forLoop gvec.num_zcol (FFT3D.prepare_col e.grid gvec) (fun _ _ => 0)⟩
    prepared_ := true }

/-- `FFT3D::dismiss` on the host. -/
def FFT3D.dismiss (e : FFT3D K) : FFT3D K :=
  { e with prepared_ := false }

/-! ### Column stage, `transform_z_serial` -/

/-- What the column stage reads and writes: the thread's z scratch, the caller's coefficient
array and the auxiliary buffer passed by reference. -/
structure z_state (K : Type) where
  fftw_buffer_z : ℕ → K
  data : ℕ → K
  aux : ℕ → K

/-- "Load column into local FFT buffer", followed under `use_reduction && !i` by "load remaining
part of {0,0,z} column": the two scatter loops of `case 1`, applied to the scratch `b`. -/
def FFT3D.z_load (use_reduction : Bool) (e : FFT3D K) (gvec : Gvec_partition) (i : ℕ)
    (data : ℕ → K) (b : ℕ → K) : ℕ → K :=
  let data_offset := gvec.zcol_offs i
  let b1 := forLoop (gvec.zcol i).z.length
    (fun j c => Function.update c (e.grid.coord_by_gvec (gvec.zfreq i j) 2).toNat
      (data (data_offset + j))) b
  if use_reduction = true ∧ i = 0 then
    forLoop (gvec.zcol 0).z.length
      (fun j c => Function.update c (e.grid.coord_by_gvec (-(gvec.zfreq i j)) 2).toNat
        (star (data (data_offset + j)))) b1
  else b1

/-- Body of `case 1` of `transform_z_serial` for column `i`. -/
def FFT3D.z_col_backward (root : ℕ → K) (use_reduction : Bool) (e : FFT3D K)
    (gvec : Gvec_partition) (i : ℕ) (s : z_state K) : z_state K :=
  let b0 := fill_zero (e.grid_.size 2) s.fftw_buffer_z
  let b2 := e.z_load use_reduction gvec i s.data b0
  let b3 := e.plan_backward_z root b2
  { fftw_buffer_z := b3
    data := s.data
    aux := copy_range b3 0 (e.grid_.size 2) s.aux (i * e.grid_.size 2) }

/-- "Store PW coefficients": the gather loop of `case -1` for column `i`, reading the
transformed scratch `b`. -/
def FFT3D.z_store (e : FFT3D K) (gvec : Gvec_partition) (i : ℕ) (b : ℕ → K)
    (data : ℕ → K) : ℕ → K :=
  let norm : K := 1 / (e.size : K)
  let data_offset := gvec.zcol_offs i
  forLoop (gvec.zcol i).z.length
    (fun j d => Function.update d (data_offset + j)
      (b (e.grid.coord_by_gvec (gvec.zfreq i j) 2).toNat * norm)) data

/-- Body of `case -1` of `transform_z_serial` for column `i`. -/
def FFT3D.z_col_forward (root : ℕ → K) (e : FFT3D K)
    (gvec : Gvec_partition) (i : ℕ) (s : z_state K) : z_state K :=
  let b0 := copy_range s.aux (i * e.grid_.size 2) (e.grid_.size 2) s.fftw_buffer_z 0
  let b1 := e.plan_forward_z root b0
  { fftw_buffer_z := b1
    data := e.z_store gvec i b1 s.data
    aux := s.aux }

/-- `FFT3D::transform_z_serial<direction, use_reduction>`. -/
def FFT3D.transform_z_serial (root : ℕ → K) (direction : ℤ) (use_reduction : Bool)
    (e : FFT3D K) (gvec : Gvec_partition) (s : z_state K) : Except String (z_state K) :=
  forLoopE gvec.num_zcol
    (fun i s =>
      if direction = 1 then Except.ok (e.z_col_backward root use_reduction gvec i s)
      else if direction = -1 then Except.ok (e.z_col_forward root gvec i s)
      else Except.error "wrong direction") s

/-! ### Plane stage, `transform_xy` -/

/-- What the plane stage of one field reads and writes. -/
structure xy_state (K : Type) where
  fftw_buffer_xy : ℕ → K
  fft_buffer : ℕ → K
  aux : ℕ → K

/-- "Load z-columns into proper location": the scatter loop of `case 1` for the plane `iz`,
applied to the scratch `b`. -/
def FFT3D.xy_load (use_reduction : Bool) (e : FFT3D K) (gvec : Gvec_partition) (iz : ℕ)
    (aux : ℕ → K) (b : ℕ → K) : ℕ → K :=
  forLoop gvec.num_zcol
    (fun i c =>
      let c1 := Function.update c (e.z_col_pos_.data i 0).toNat (aux (iz + i * e.local_size_z_))
      if use_reduction = true ∧ i ≠ 0 then
        Function.update c1 (e.z_col_pos_.data i 1).toNat (star (c1 (e.z_col_pos_.data i 0).toNat))
      else c1) b

/-- Body of `case 1` of the one-field `transform_xy` for the plane `iz`. -/
def FFT3D.xy_plane_backward (root : ℕ → K) (use_reduction : Bool) (e : FFT3D K)
    (gvec : Gvec_partition) (iz : ℕ) (s : xy_state K) : xy_state K :=
  let size_xy := e.grid_.size 0 * e.grid_.size 1
  let b0 := fill_zero size_xy s.fftw_buffer_xy
  let b1 := e.xy_load use_reduction gvec iz s.aux b0
  let b2 := e.plan_backward_xy root b1
  { fftw_buffer_xy := b2
    fft_buffer := copy_range b2 0 size_xy s.fft_buffer (iz * size_xy)
    aux := s.aux }

/-- "Get z-columns": the gather loop of `case -1` for the plane `iz`, reading the transformed
scratch `b`. -/
def FFT3D.xy_get (e : FFT3D K) (gvec : Gvec_partition) (iz : ℕ) (b : ℕ → K)
    (aux : ℕ → K) : ℕ → K :=
  forLoop gvec.num_zcol
    (fun i a => Function.update a (iz + i * e.local_size_z_) (b (e.z_col_pos_.data i 0).toNat))
    aux

/-- Body of `case -1` of the one-field `transform_xy` for the plane `iz`. -/
def FFT3D.xy_plane_forward (root : ℕ → K) (e : FFT3D K)
    (gvec : Gvec_partition) (iz : ℕ) (s : xy_state K) : xy_state K :=
  let size_xy := e.grid_.size 0 * e.grid_.size 1
  let b0 := copy_range s.fft_buffer (iz * size_xy) size_xy s.fftw_buffer_xy 0
  let b1 := e.plan_forward_xy root b0
  { fftw_buffer_xy := b1
    fft_buffer := s.fft_buffer
    aux := e.xy_get gvec iz b1 s.aux }

/-- `FFT3D::transform_xy<direction, use_reduction>` for one complex function (host loop). -/
def FFT3D.transform_xy (root : ℕ → K) (direction : ℤ) (use_reduction : Bool)
    (e : FFT3D K) (gvec : Gvec_partition) (s : xy_state K) : Except String (xy_state K) :=
  forLoopE e.local_size_z_
    (fun iz s =>
      if direction = 1 then Except.ok (e.xy_plane_backward root use_reduction gvec iz s)
      else if direction = -1 then Except.ok (e.xy_plane_forward root gvec iz s)
      else Except.error "wrong direction") s

/-- What the plane stage of two real fields reads and writes. -/
structure xy2_state (K : Type) where
  fftw_buffer_xy : ℕ → K
  fft_buffer : ℕ → K
  aux1 : ℕ → K
  aux2 : ℕ → K

/-- "Load first z-column" and "load remaining z-columns into proper location": the scatter of
`case 1` of the two-field plane stage for the plane `iz`, applied to the scratch `b`. -/
def FFT3D.xy2_load (I : K) (e : FFT3D K) (gvec : Gvec_partition) (iz : ℕ)
    (aux1 aux2 : ℕ → K) (b : ℕ → K) : ℕ → K :=
  let lsz := e.local_size_z_
  let b1 := Function.update b (e.z_col_pos_.data 0 0).toNat
    (aux1 iz + double_complex I 0 1 * aux2 iz)
  forLoopFrom 1 gvec.num_zcol
    (fun i c =>
      let c1 := Function.update c (e.z_col_pos_.data i 0).toNat
        (aux1 (iz + i * lsz) + double_complex I 0 1 * aux2 (iz + i * lsz))
      Function.update c1 (e.z_col_pos_.data i 1).toNat
        (star (aux1 (iz + i * lsz)) + double_complex I 0 1 * star (aux2 (iz + i * lsz)))) b1

/-- Body of `case 1` of the two-field `transform_xy` for the plane `iz`. -/
def FFT3D.xy2_plane_backward (root : ℕ → K) (I : K) (e : FFT3D K)
    (gvec : Gvec_partition) (iz : ℕ) (s : xy2_state K) : xy2_state K :=
  let size_xy := e.grid_.size 0 * e.grid_.size 1
  let b0 := fill_zero size_xy s.fftw_buffer_xy
  let b2 := e.xy2_load I gvec iz s.aux1 s.aux2 b0
  let b3 := e.plan_backward_xy root b2
  { fftw_buffer_xy := b3
    fft_buffer := copy_range b3 0 size_xy s.fft_buffer (iz * size_xy)
    aux1 := s.aux1
    aux2 := s.aux2 }

/-- "Get z-columns" of the two-field plane stage: the first field of column `i` in plane `iz`
from the transformed scratch `b`. -/
def FFT3D.xy2_get1 (e : FFT3D K) (gvec : Gvec_partition) (iz : ℕ) (b : ℕ → K)
    (aux1 : ℕ → K) : ℕ → K :=
  forLoop gvec.num_zcol
    (fun i a => Function.update a (iz + i * e.local_size_z_)
      ((1 / 2 : K) * (b (e.z_col_pos_.data i 0).toNat + star (b (e.z_col_pos_.data i 1).toNat))))
    aux1

/-- "Get z-columns" of the two-field plane stage: the second field. -/
def FFT3D.xy2_get2 (I : K) (e : FFT3D K) (gvec : Gvec_partition) (iz : ℕ) (b : ℕ → K)
    (aux2 : ℕ → K) : ℕ → K :=
  forLoop gvec.num_zcol
    (fun i a => Function.update a (iz + i * e.local_size_z_)
      (double_complex I 0 (-(1 / 2)) *
        (b (e.z_col_pos_.data i 0).toNat - star (b (e.z_col_pos_.data i 1).toNat))))
    aux2

/-- Body of `case -1` of the two-field `transform_xy` for the plane `iz`. The loop writes two
different arrays, so it is split into one loop per array. -/
def FFT3D.xy2_plane_forward (root : ℕ → K) (I : K) (e : FFT3D K)
    (gvec : Gvec_partition) (iz : ℕ) (s : xy2_state K) : xy2_state K :=
  let size_xy := e.grid_.size 0 * e.grid_.size 1
  let b0 := copy_range s.fft_buffer (iz * size_xy) size_xy s.fftw_buffer_xy 0
  let b1 := e.plan_forward_xy root b0
  { fftw_buffer_xy := b1
    fft_buffer := s.fft_buffer
    aux1 := e.xy2_get1 gvec iz b1 s.aux1
    aux2 := e.xy2_get2 I gvec iz b1 s.aux2 }

/-- `FFT3D::transform_xy<direction>` for two real functions (host loop). -/
def FFT3D.transform_xy2 (root : ℕ → K) (I : K) (direction : ℤ)
    (e : FFT3D K) (gvec : Gvec_partition) (s : xy2_state K) : Except String (xy2_state K) :=
  if gvec.reduced = false then Except.error "reduced set of G-vectors is required"
  else
    forLoopE e.local_size_z_
      (fun iz s =>
        if direction = 1 then Except.ok (e.xy2_plane_backward root I gvec iz s)
        else if direction = -1 then Except.ok (e.xy2_plane_forward root I gvec iz s)
        else Except.error "wrong direction") s

/-! ### The public transforms -/

/-- "Reallocate auxiliary buffer if needed": a larger array replaces the old one, its contents
are whatever the allocator returns. -/
def FFT3D.realloc (e : FFT3D K) (sz_max : ℕ) (a : mdarray K) : mdarray K :=
  if sz_max > a.size then ⟨sz_max, e.uninit_⟩ else a

/-- Running the column stage on the auxiliary buffer `aux`; returns the engine with the new
scratch, the coefficient array and the new contents of `aux`. -/
def FFT3D.run_z (root : ℕ → K) (direction : ℤ) (use_reduction : Bool) (e : FFT3D K)
    (gvec : Gvec_partition) (data : ℕ → K) (aux : mdarray K) :
    Except String (FFT3D K × (ℕ → K) × mdarray K) :=
  (e.transform_z_serial root direction use_reduction gvec ⟨e.fftw_buffer_z_, data, aux.data⟩).map
    fun s => ({ e with fftw_buffer_z_ := s.fftw_buffer_z }, s.data, ⟨aux.size, s.aux⟩)

/-- Running the one-field plane stage on the auxiliary buffer `aux`. -/
def FFT3D.run_xy (root : ℕ → K) (direction : ℤ) (use_reduction : Bool) (e : FFT3D K)
    (gvec : Gvec_partition) (aux : mdarray K) : Except String (FFT3D K × mdarray K) :=
  (e.transform_xy root direction use_reduction gvec
      ⟨e.fftw_buffer_xy_, e.fft_buffer_, aux.data⟩).map
    fun s => ({ e with fftw_buffer_xy_ := s.fftw_buffer_xy, fft_buffer_ := s.fft_buffer },
      ⟨aux.size, s.aux⟩)

/-- `FFT3D::transform<direction>(gvec, data)` for `comm_.size() == 1` on the host. Returns the
engine after the call and the caller's coefficient array. -/
def FFT3D.transform (root : ℕ → K) (direction : ℤ) (e : FFT3D K) (gvec : Gvec_partition)
    (data : ℕ → K) : Except String (FFT3D K × (ℕ → K)) :=
  if e.prepared_ = false then Except.error "FFT3D is not ready"
  else
    let sz_max := e.grid_.size 2 * gvec.num_zcol
    let e0 : FFT3D K := { e with fft_buffer_aux1_ := e.realloc sz_max e.fft_buffer_aux1_ }
    if direction = 1 then
      (e0.run_z root 1 gvec.reduced gvec data e0.fft_buffer_aux1_).bind fun r1 =>
      (r1.1.run_xy root 1 gvec.reduced gvec r1.2.2).bind fun r2 =>
      Except.ok ({ r2.1 with fft_buffer_aux1_ := r2.2 }, r1.2.1)
    else if direction = -1 then
      (e0.run_xy root (-1) false gvec e0.fft_buffer_aux1_).bind fun r1 =>
      (r1.1.run_z root (-1) false gvec data r1.2).bind fun r2 =>
      Except.ok ({ r2.1 with fft_buffer_aux1_ := r2.2.2 }, r2.2.1)
    else Except.error "wrong direction"

/-- `FFT3D::transform<direction>(gvec, data1, data2)` for `comm_.size() == 1` on the host.
Returns the engine after the call and the two coefficient arrays. -/
def FFT3D.transform2 (root : ℕ → K) (I : K) (direction : ℤ) (e : FFT3D K)
    (gvec : Gvec_partition) (data1 data2 : ℕ → K) :
    Except String (FFT3D K × (ℕ → K) × (ℕ → K)) :=
  if e.prepared_ = false then Except.error "FFT3D is not ready"
  else if gvec.reduced = false then Except.error "reduced set of G-vectors is required"
  else
    let sz_max := e.grid_.size 2 * gvec.num_zcol
    let e0 : FFT3D K :=
      { e with
        fft_buffer_aux1_ := e.realloc sz_max e.fft_buffer_aux1_
        fft_buffer_aux2_ := e.realloc sz_max e.fft_buffer_aux2_ }
    if direction = 1 then
      (e0.run_z root 1 true gvec data1 e0.fft_buffer_aux1_).bind fun r1 =>
      (r1.1.run_z root 1 true gvec data2 e0.fft_buffer_aux2_).bind fun r2 =>
      (r2.1.transform_xy2 root I 1 gvec
        ⟨r2.1.fftw_buffer_xy_, r2.1.fft_buffer_, r1.2.2.data, r2.2.2.data⟩).bind fun s =>
      Except.ok
        ({ r2.1 with
            fftw_buffer_xy_ := s.fftw_buffer_xy
            fft_buffer_ := s.fft_buffer
            fft_buffer_aux1_ := ⟨r1.2.2.size, s.aux1⟩
            fft_buffer_aux2_ := ⟨r2.2.2.size, s.aux2⟩ }, r1.2.1, r2.2.1)
    else if direction = -1 then
      (e0.transform_xy2 root I (-1) gvec
        ⟨e0.fftw_buffer_xy_, e0.fft_buffer_, e0.fft_buffer_aux1_.data,
          e0.fft_buffer_aux2_.data⟩).bind fun s =>
      let e1 : FFT3D K :=
        { e0 with fftw_buffer_xy_ := s.fftw_buffer_xy, fft_buffer_ := s.fft_buffer }
      (e1.run_z root (-1) false gvec data1 ⟨e0.fft_buffer_aux1_.size, s.aux1⟩).bind fun r1 =>
      (r1.1.run_z root (-1) false gvec data2 ⟨e0.fft_buffer_aux2_.size, s.aux2⟩).bind fun r2 =>
      Except.ok
        ({ r2.1 with fft_buffer_aux1_ := r1.2.2, fft_buffer_aux2_ := r2.2.2 }, r1.2.1, r2.2.1)
    else Except.error "wrong direction"

end Defs

/-! ## Well-formedness of a partition with respect to a grid -/

/-- The frequency `i` has its coordinate inside dimension `idim` of the grid. -/
def FFT3D_grid.on_grid (g : FFT3D_grid) (i : ℤ) (idim : ℕ) : Prop :=
  -(g.size idim : ℤ) ≤ i ∧ i < (g.size idim : ℤ)

/-- Every stored frequency of the partition has its coordinate inside the grid. -/
def Gvec_partition.fits (gv : Gvec_partition) (g : FFT3D_grid) : Prop :=
  ∀ i, i < gv.num_zcol →
    g.on_grid (gv.zcol i).x 0 ∧ g.on_grid (gv.zcol i).y 1 ∧
      ∀ j, j < (gv.zcol i).z.length → g.on_grid (gv.zfreq i j) 2

/-- Also the negated column frequencies `-x`, `-y`, which the symmetry-reduced paths address
through the second entry of the position table, have their coordinates inside the grid. -/
def Gvec_partition.fits_neg (gv : Gvec_partition) (g : FFT3D_grid) : Prop :=
  ∀ i, i < gv.num_zcol → g.on_grid (-(gv.zcol i).x) 0 ∧ g.on_grid (-(gv.zcol i).y) 1

/-- Different columns have different `(x, y)` grid coordinates. -/
def Gvec_partition.distinct_columns (gv : Gvec_partition) (g : FFT3D_grid) : Prop :=
  ∀ i, i < gv.num_zcol → ∀ l, l < gv.num_zcol →
    g.coord_by_gvec (gv.zcol i).x 0 = g.coord_by_gvec (gv.zcol l).x 0 →
    g.coord_by_gvec (gv.zcol i).y 1 = g.coord_by_gvec (gv.zcol l).y 1 → i = l

/-- Inside every column different entries have different z grid coordinates. -/
def Gvec_partition.distinct_z (gv : Gvec_partition) (g : FFT3D_grid) : Prop :=
  ∀ i, i < gv.num_zcol → ∀ j, j < (gv.zcol i).z.length → ∀ l, l < (gv.zcol i).z.length →
    g.coord_by_gvec (gv.zfreq i j) 2 = g.coord_by_gvec (gv.zfreq i l) 2 → j = l

/-- Different stored coefficients occupy different entries of the coefficient array. -/
def Gvec_partition.distinct_slots (gv : Gvec_partition) : Prop :=
  ∀ i, i < gv.num_zcol → ∀ j, j < (gv.zcol i).z.length →
    ∀ l, l < gv.num_zcol → ∀ k, k < (gv.zcol l).z.length →
      gv.zcol_offs i + j = gv.zcol_offs l + k → i = l ∧ j = k

/-- Column 0 is the `(x, y) = (0, 0)` column and stores only non-negative z-frequencies. -/
def Gvec_partition.dc_column_first (gv : Gvec_partition) : Prop :=
  0 < gv.num_zcol ∧ (gv.zcol 0).x = 0 ∧ (gv.zcol 0).y = 0 ∧
    ∀ j, j < (gv.zcol 0).z.length → 0 ≤ gv.zfreq 0 j

/-- The negated position of a column other than column 0 is not the position of any column
(every column other than column 0 is one member of a `±(x, y)` pair), in grid coordinates. -/
def Gvec_partition.neg_columns_apart (gv : Gvec_partition) (g : FFT3D_grid) : Prop :=
  ∀ i, i < gv.num_zcol → ∀ l, l < gv.num_zcol → l ≠ 0 →
    ¬(g.coord_by_gvec (-(gv.zcol l).x) 0 = g.coord_by_gvec (gv.zcol i).x 0 ∧
      g.coord_by_gvec (-(gv.zcol l).y) 1 = g.coord_by_gvec (gv.zcol i).y 1)

/-- In column 0 the negated z-position of an entry is the z-position of an entry only for the
frequency `0`. -/
def Gvec_partition.dc_neg_z_apart (gv : Gvec_partition) (g : FFT3D_grid) : Prop :=
  ∀ j, j < (gv.zcol 0).z.length → ∀ l, l < (gv.zcol 0).z.length →
    g.coord_by_gvec (-(gv.zfreq 0 j)) 2 = g.coord_by_gvec (gv.zfreq 0 l) 2 → gv.zfreq 0 j = 0

/-- The data-model invariants of a reduced partition on a grid: column 0 is the `(0, 0)`
column with non-negative z-frequencies, all frequencies and negated column frequencies lie on
the grid, and all positions and negated positions are pairwise distinct. -/
def Gvec_partition.reduced_invariants (gv : Gvec_partition) (g : FFT3D_grid) : Prop :=
  gv.dc_column_first ∧ gv.fits g ∧ gv.fits_neg g ∧ gv.distinct_columns g ∧ gv.distinct_z g ∧
    gv.neg_columns_apart g ∧ gv.dc_neg_z_apart g

/-- Every frequency `f` of a dimension of extent `N` satisfies `2 * |f| < N`. -/
def Gvec_partition.half_range (gv : Gvec_partition) (g : FFT3D_grid) : Prop :=
  ∀ i, i < gv.num_zcol →
    2 * |(gv.zcol i).x| < (g.size 0 : ℤ) ∧ 2 * |(gv.zcol i).y| < (g.size 1 : ℤ) ∧
      ∀ j, j < (gv.zcol i).z.length → 2 * |gv.zfreq i j| < (g.size 2 : ℤ)

/-- Every column other than column 0 is exactly one member of a `±(x, y)` pair: no column is
the negative of a column other than column 0. -/
def Gvec_partition.one_of_each_pair (gv : Gvec_partition) : Prop :=
  ∀ i, i < gv.num_zcol → ∀ l, l < gv.num_zcol → l ≠ 0 →
    ¬((gv.zcol i).x = -(gv.zcol l).x ∧ (gv.zcol i).y = -(gv.zcol l).y)

instance (g : FFT3D_grid) (i : ℤ) (idim : ℕ) : Decidable (g.on_grid i idim) := by
  unfold FFT3D_grid.on_grid
  infer_instance

instance (gv : Gvec_partition) (g : FFT3D_grid) : Decidable (gv.fits g) := by
  unfold Gvec_partition.fits
  infer_instance

instance (gv : Gvec_partition) (g : FFT3D_grid) : Decidable (gv.fits_neg g) := by
  unfold Gvec_partition.fits_neg
  infer_instance

instance (gv : Gvec_partition) (g : FFT3D_grid) : Decidable (gv.distinct_columns g) := by
  unfold Gvec_partition.distinct_columns
  infer_instance

instance (gv : Gvec_partition) (g : FFT3D_grid) : Decidable (gv.distinct_z g) := by
  unfold Gvec_partition.distinct_z
  infer_instance

instance (gv : Gvec_partition) : Decidable gv.distinct_slots := by
  unfold Gvec_partition.distinct_slots
  exact Nat.decidableBallLT _ _

instance (gv : Gvec_partition) : Decidable gv.dc_column_first := by
  unfold Gvec_partition.dc_column_first
  infer_instance

instance (gv : Gvec_partition) (g : FFT3D_grid) : Decidable (gv.neg_columns_apart g) := by
  unfold Gvec_partition.neg_columns_apart
  infer_instance

instance (gv : Gvec_partition) (g : FFT3D_grid) : Decidable (gv.dc_neg_z_apart g) := by
  unfold Gvec_partition.dc_neg_z_apart
  infer_instance

instance (gv : Gvec_partition) (g : FFT3D_grid) : Decidable (gv.reduced_invariants g) := by
  unfold Gvec_partition.reduced_invariants
  infer_instance

instance (gv : Gvec_partition) (g : FFT3D_grid) : Decidable (gv.half_range g) := by
  unfold Gvec_partition.half_range
  infer_instance

instance (gv : Gvec_partition) : Decidable gv.one_of_each_pair := by
  unfold Gvec_partition.one_of_each_pair
  infer_instance

/-! ## The concrete scenario of the specification -/

/-- Grid 4 × 4 × 4. -/
def scenario_grid : FFT3D_grid := ⟨4, 4, 4⟩

/-- A single column at `(x, y) = (0, 0)` holding the z-frequencies `{0, 1, 2, 3}`, all other
columns absent, `reduced = false`. -/
def scenario_partition : Gvec_partition := ⟨[⟨0, 0, [0, 1, 2, 3]⟩], fun _ => 0, false⟩

/-- The coefficients `[1, 0, 0, 0]`. -/
def scenario_coeffs {K : Type} [Zero K] [One K] : ℕ → K := fun k => if k = 0 then 1 else 0

/-! ## Small test inputs -/

/-- Grid 2 × 2 × 2. -/
def sample_grid : FFT3D_grid := ⟨2, 2, 2⟩

/-- A non-reduced partition of the 2 × 2 × 2 grid: the column `(0, 0)` with z-frequencies
`{0, -1}` and the column `(-1, 0)` with the z-frequency `0`. -/
def sample_partition : Gvec_partition := ⟨[⟨0, 0, [0, -1]⟩, ⟨-1, 0, [0]⟩], fun i => 2 * i, false⟩

/-- The coefficient array `c[k] = k + 1`. -/
def sample_coeffs {K : Type} [NatCast K] : ℕ → K := fun k => ((k + 1 : ℕ) : K)

/-- A freshly constructed single-process engine on the 2 × 2 × 2 grid with zeroed memory. -/
def sample_engine {K : Type} [Field K] : FFT3D K := FFT3D.create sample_grid (fun _ => 0)

/-- A reduced partition of the 4 × 4 × 4 grid: the column `(0, 0)` with the non-negative
z-frequencies `{0, 1}` first, then one member of each of the pairs `±(1, 0)`, `±(0, 1)`,
`±(1, 1)` and `±(1, -1)`. -/
def sample_reduced_partition : Gvec_partition :=
  ⟨[⟨0, 0, [0, 1]⟩, ⟨1, 0, [0, 1, -1]⟩, ⟨0, 1, [0, -1]⟩, ⟨1, 1, [1]⟩, ⟨1, -1, [0]⟩],
    fun i => [0, 2, 5, 7, 8].getD i 0, true⟩

/-- A freshly constructed single-process engine on the 4 × 4 × 4 grid with zeroed memory. -/
def sample_engine4 {K : Type} [Field K] : FFT3D K := FFT3D.create scenario_grid (fun _ => 0)

/-- The FFTW plans are exact complex DFTs: the twiddle factor of length `n` is
`exp (2 π i / n)`. -/
def exact_dft (root : ℕ → ℂ) : Prop :=
  ∀ n : ℕ, root n = Complex.exp (2 * (Real.pi : ℂ) * Complex.I / (n : ℂ))

/-! ## Frequencies centred on the grid -/

/-- The frequency `i` lies in the centred range of dimension `idim`:
`-size(idim) < 2 * i ≤ size(idim)`. -/
def FFT3D_grid.centred (g : FFT3D_grid) (i : ℤ) (idim : ℕ) : Prop :=
  -(g.size idim : ℤ) < 2 * i ∧ 2 * i ≤ (g.size idim : ℤ)

instance (g : FFT3D_grid) (i : ℤ) (idim : ℕ) : Decidable (g.centred i idim) := by
  unfold FFT3D_grid.centred
  infer_instance

/-! ## A reduced partition with one conjugate pair -/

/-- Grid 3 × 1 × 1. -/
def pair_grid : FFT3D_grid := ⟨3, 1, 1⟩

/-- A reduced partition on the 3 × 1 × 1 grid: the `(0, 0)` column with the frequency `0` and the
column `(1, 0)`, which stands for the pair `±(1, 0)`. -/
def pair_partition : Gvec_partition := ⟨[⟨0, 0, [0]⟩, ⟨1, 0, [0]⟩], fun i => i, true⟩

/-- A freshly constructed single-process engine on the 3 × 1 × 1 grid with zeroed memory. -/
def pair_engine {K : Type} [Field K] : FFT3D K := FFT3D.create pair_grid (fun _ => 0)

section Memory
variable {K : Type} [Field K] [StarRing K]

/-! ## The memory at the end of a call -/

/-- The memory at the moment `FFT3D::transform<direction>(gvec, data)` ends, by returning or by
`TERMINATE`: the engine and the caller's coefficient array. `TERMINATE("FFT3D is not ready")`
comes before every access to a buffer; the `TERMINATE("wrong direction")` of the `switch` comes
after the reallocation of the auxiliary buffer. No stage terminates once the `switch` has
selected it. -/
def FFT3D.transform_memory (root : ℕ → K) (direction : ℤ) (e : FFT3D K)
    (gvec : Gvec_partition) (data : ℕ → K) : FFT3D K × (ℕ → K) :=
  if e.prepared_ = false then (e, data)
  else
    let sz_max := e.grid_.size 2 * gvec.num_zcol
    let e0 : FFT3D K := { e with fft_buffer_aux1_ := e.realloc sz_max e.fft_buffer_aux1_ }
    match e.transform root direction gvec data with
    | Except.ok r => r
    | Except.error _ => (e0, data)

/-- The memory at the moment `FFT3D::transform<direction>(gvec, data1, data2)` ends, by
returning or by `TERMINATE`: the engine and the caller's two coefficient arrays. The two
checks at the head come before every access to a buffer; the `TERMINATE("wrong direction")`
of the `switch` comes after the reallocation of the two auxiliary buffers. -/
def FFT3D.transform2_memory (root : ℕ → K) (I : K) (direction : ℤ) (e : FFT3D K)
    (gvec : Gvec_partition) (data1 data2 : ℕ → K) : FFT3D K × (ℕ → K) × (ℕ → K) :=
  if e.prepared_ = false then (e, data1, data2)
  else if gvec.reduced = false then (e, data1, data2)
  else
    let sz_max := e.grid_.size 2 * gvec.num_zcol
    let e0 : FFT3D K :=
      { e with
        fft_buffer_aux1_ := e.realloc sz_max e.fft_buffer_aux1_
        fft_buffer_aux2_ := e.realloc sz_max e.fft_buffer_aux2_ }
    match e.transform2 root I direction gvec data1 data2 with
    | Except.ok r => r
    | Except.error _ => (e0, data1, data2)

/-! ## Sequences of life-cycle calls -/

/-- A call of the life cycle of the engine: `prepare(gvec)` or `dismiss()`. -/
inductive lifecycle_call where
  | prepare (gvec : Gvec_partition)
  | dismiss

/-- The engine after a sequence of `prepare` and `dismiss` calls, first call first. -/
def FFT3D.lifecycle (e : FFT3D K) : List lifecycle_call → FFT3D K
  | [] => e
  | lifecycle_call.prepare gvec :: calls => (e.prepare gvec).lifecycle calls
  | lifecycle_call.dismiss :: calls => e.dismiss.lifecycle calls

/-! ## Accelerator-hybrid mode: the device mirrors -/

/-- Which arrays of the engine have an accelerator-side mirror allocated (`pu_ == GPU`). -/
structure device_mirrors where
  fft_buffer_ : Bool
  fft_buffer_aux1_ : Bool
  fft_buffer_aux2_ : Bool
  z_col_pos_ : Bool
  cufft_work_buf_ : Bool
deriving DecidableEq, Repr

/-- Modelled from the spec: `mdarray.hpp` is not among the sources. What
`mdarray::allocate(memory_t::device)` does for an array whose accelerator-side mirror is
`allocated`: "re-preparing with a different partition while accelerator resources are still
allocated is an error — `dismiss` first", so allocating the mirror of an array whose mirror is
still allocated fails, and otherwise the mirror is allocated. -/
def mdarray_allocate_device (allocated : Bool) : Except String Bool :=
  if allocated = true then Except.error "accelerator resources are still allocated"
  else Except.ok true

/-- Modelled from the spec: `mdarray.hpp` is not among the sources.
`mdarray::deallocate_on_device()` "releases accelerator-side allocations". -/
def mdarray_deallocate_on_device (_allocated : Bool) : Bool := false

/-- `FFT3D::prepare` with `pu_ == GPU`: the host part builds the table; the accelerator part
replaces `cufft_work_buf_` by a new device array and allocates the mirrors of
`fft_buffer_aux1_`, `fft_buffer_aux2_`, `fft_buffer_` and of the new `z_col_pos_`, in this
order; `prepared_` is set at the end. -/
def FFT3D.prepare_hybrid (e : FFT3D K) (dev : device_mirrors) (gvec : Gvec_partition) :
    Except String (FFT3D K × device_mirrors) :=
  (mdarray_allocate_device dev.fft_buffer_aux1_).bind fun a1 =>
  (mdarray_allocate_device dev.fft_buffer_aux2_).bind fun a2 =>
  (mdarray_allocate_device dev.fft_buffer_).bind fun fb =>
  (mdarray_allocate_device false).bind fun zc =>
  Except.ok (e.prepare gvec, ⟨fb, a1, a2, zc, true⟩)

/-- `FFT3D::dismiss` with `pu_ == GPU`: the five mirrors are released and `prepared_` is
cleared. -/
def FFT3D.dismiss_hybrid (e : FFT3D K) (dev : device_mirrors) : FFT3D K × device_mirrors :=
  (e.dismiss,
    ⟨mdarray_deallocate_on_device dev.fft_buffer_,
      mdarray_deallocate_on_device dev.fft_buffer_aux1_,
      mdarray_deallocate_on_device dev.fft_buffer_aux2_,
      mdarray_deallocate_on_device dev.z_col_pos_,
      mdarray_deallocate_on_device dev.cufft_work_buf_⟩)

end Memory

section Parallel
variable {K : Type} [Field K] [StarRing K]

/-! ## Several processes

The ranks of `comm_` execute every call together.  The collaborators `splindex<block>`,
`block_data_descriptor` and `Communicator` are not among the sources. -/

/-- Modelled from the spec: `splindex.hpp` is not among the sources.  The split of the z-extent
into the slabs of the ranks ("the sum of per-process z-slab depths equals grid depth"):
`counts r` is the depth of the slab of rank `r`. -/
structure splindex where
  counts : ℕ → ℕ

/-- `spl_z_.local_size(r)`. -/
def splindex.local_size (s : splindex) (r : ℕ) : ℕ := s.counts r

/-- `spl_z_.global_offset(r)`: the slabs follow each other in rank order. -/
def splindex.global_offset (s : splindex) (r : ℕ) : ℕ := ∑ q ∈ range r, s.counts q

/-- Modelled from the spec: `block_data_descriptor` is not among the sources.  The per-peer
counts and offsets of a collective ("per-process column counts/offsets"). -/
structure block_data_descriptor where
  counts : ℕ → ℕ
  offsets : ℕ → ℕ

/-- `calc_offsets()`: "each rank's send and receive offsets are the prefix sums of its
counts". -/
def block_data_descriptor.calc_offsets (d : block_data_descriptor) : block_data_descriptor :=
  ⟨d.counts, fun r => ∑ q ∈ range r, d.counts q⟩

/-- Modelled from the spec: `Communicator` is not among the sources.
`comm_.alltoall(sendbuf, send.counts, send.offsets, recvbuf, recv.counts, recv.offsets)` as a
pure exchange of the per-peer blocks, on all `P` ranks at once: the receive buffer of rank `me`
gets from every rank `r` the `(send r).counts me` values that start at `(send r).offsets me` in
the send buffer of `r`, stored from `(recv me).offsets r` on. -/
def alltoall (P : ℕ) (sendbuf : ℕ → ℕ → K) (send : ℕ → block_data_descriptor)
    (recvbuf : ℕ → ℕ → K) (recv : ℕ → block_data_descriptor) : ℕ → ℕ → K :=
  fun me => forLoop P
    (fun r buf => copy_range (sendbuf r) ((send r).offsets me) ((send r).counts me) buf
      ((recv me).offsets r)) (recvbuf me)

/-- Every rank `r < P` executes `f r` on its own state; a rank that terminates ends the run. -/
def for_ranks {σ : Type} (P : ℕ) (f : ℕ → σ → Except String σ) (st : ℕ → σ) :
    Except String (ℕ → σ) :=
  forLoopE P (fun r st => (f r (st r)).map (fun s => Function.update st r s)) st

/-- The `FFT3D` objects of all ranks of `comm_`: `size` is `comm_.size()`, `spl_z_` the split of
the z-extent and `at_rank r` the host state of the object of rank `r`. -/
structure FFT3D_comm (K : Type) where
  size : ℕ
  spl_z_ : splindex
  at_rank : ℕ → FFT3D K

/-- The constructor on every rank: `local_size_z_ = spl_z_.local_size()` and
`offset_z_ = spl_z_.global_offset()`. -/
def FFT3D_comm.create (grid : FFT3D_grid) (P : ℕ) (spl : splindex) (mem : ℕ → ℕ → K) :
    FFT3D_comm K where
  size := P
  spl_z_ := spl
  at_rank := fun r =>
    { FFT3D.create grid (mem r) with
      local_size_z_ := spl.local_size r
      offset_z_ := spl.global_offset r }

/-- `FFT3D::prepare` on every rank. -/
def FFT3D_comm.prepare (w : FFT3D_comm K) (gvec : Gvec_partition) : FFT3D_comm K :=
  { w with at_rank := fun r => (w.at_rank r).prepare gvec }

/-! ### Column stage, `transform_z_parallel` -/

/-- The descriptor `send` of `transform_z_parallel` on rank `rank`, after `calc_offsets()`.
`zcol_distr_fft` is `gvec.zcol_distr_fft()`. -/
def FFT3D.z_parallel_send (direction : ℤ) (spl : splindex) (zcol_distr_fft : block_data_descriptor)
    (rank : ℕ) : block_data_descriptor :=
  if direction = -1 then
    (⟨fun r => spl.local_size rank * zcol_distr_fft.counts r, fun _ => 0⟩ :
      block_data_descriptor).calc_offsets
  else
    (⟨fun r => spl.local_size r * zcol_distr_fft.counts rank, fun _ => 0⟩ :
      block_data_descriptor).calc_offsets

/-- The descriptor `recv` of `transform_z_parallel` on rank `rank`, after `calc_offsets()`. -/
def FFT3D.z_parallel_recv (direction : ℤ) (spl : splindex) (zcol_distr_fft : block_data_descriptor)
    (rank : ℕ) : block_data_descriptor :=
  if direction = -1 then
    (⟨fun r => spl.local_size r * zcol_distr_fft.counts rank, fun _ => 0⟩ :
      block_data_descriptor).calc_offsets
  else
    (⟨fun r => spl.local_size rank * zcol_distr_fft.counts r, fun _ => 0⟩ :
      block_data_descriptor).calc_offsets

/-- The two scatter loops of `case 1` of `transform_z_parallel` for the global column `icol`:
"load z column of PW coefficients into buffer" and, under `use_reduction && !icol`, "load
remaining part of {0,0,z} column". -/
def FFT3D.z_load_parallel (use_reduction : Bool) (e : FFT3D K) (gvec : Gvec_partition)
    (icol : ℕ) (data : ℕ → K) (b : ℕ → K) : ℕ → K :=
  let data_offset := gvec.zcol_offs icol
  let b1 := forLoop (gvec.zcol icol).z.length
    (fun j c => Function.update c (e.grid.coord_by_gvec (gvec.zfreq icol j) 2).toNat
      (data (data_offset + j))) b
  if use_reduction = true ∧ icol = 0 then
    forLoop (gvec.zcol icol).z.length
      (fun j c => Function.update c (e.grid.coord_by_gvec (-(gvec.zfreq icol j)) 2).toNat
        (star (data (data_offset + j)))) b1
  else b1

/-- "Redistribute z-column for a forthcoming all-to-all": the piece of the transformed local
column `i` that lies in the slab of rank `r` goes to
`fft_buffer_aux[offs * num_zcol_local + i * lsz]`. -/
def FFT3D.z_redistribute (P : ℕ) (spl : splindex) (num_zcol_local i : ℕ) (b : ℕ → K)
    (aux : ℕ → K) : ℕ → K :=
  forLoop P
    (fun r a => copy_range b (spl.global_offset r) (spl.local_size r) a
      (spl.global_offset r * num_zcol_local + i * spl.local_size r)) aux

/-- "Collect full z-column": the inverse copy of `z_redistribute`, into the z scratch. -/
def FFT3D.z_collect (P : ℕ) (spl : splindex) (num_zcol_local i : ℕ) (aux : ℕ → K)
    (b : ℕ → K) : ℕ → K :=
  forLoop P
    (fun r c => copy_range aux (spl.global_offset r * num_zcol_local + i * spl.local_size r)
      (spl.local_size r) c (spl.global_offset r)) b

/-- Body of `case 1` of the column loop of `transform_z_parallel` for the local column `i` of
rank `rank`. -/
def FFT3D.z_col_parallel_backward (root : ℕ → K) (use_reduction : Bool) (e : FFT3D K)
    (P : ℕ) (spl : splindex) (zcol_distr_fft : block_data_descriptor) (rank : ℕ)
    (gvec : Gvec_partition) (i : ℕ) (s : z_state K) : z_state K :=
  let num_zcol_local := zcol_distr_fft.counts rank
  let icol := zcol_distr_fft.offsets rank + i
  let b0 := fill_zero (e.grid_.size 2) s.fftw_buffer_z
  let b2 := e.z_load_parallel use_reduction gvec icol s.data b0
  let b3 := e.plan_backward_z root b2
  { fftw_buffer_z := b3
    data := s.data
    aux := FFT3D.z_redistribute P spl num_zcol_local i b3 s.aux }

/-- Body of `case -1` of the column loop of `transform_z_parallel` for the local column `i` of
rank `rank`. -/
def FFT3D.z_col_parallel_forward (root : ℕ → K) (e : FFT3D K)
    (P : ℕ) (spl : splindex) (zcol_distr_fft : block_data_descriptor) (rank : ℕ)
    (gvec : Gvec_partition) (i : ℕ) (s : z_state K) : z_state K :=
  let num_zcol_local := zcol_distr_fft.counts rank
  let icol := zcol_distr_fft.offsets rank + i
  let b0 := FFT3D.z_collect P spl num_zcol_local i s.aux s.fftw_buffer_z
  let b1 := e.plan_forward_z root b0
  { fftw_buffer_z := b1
    data := e.z_store gvec icol b1 s.data
    aux := s.aux }

/-- The column loop of `transform_z_parallel<direction, use_reduction>` on rank `rank`. -/
def FFT3D.z_parallel_columns (root : ℕ → K) (direction : ℤ) (use_reduction : Bool)
    (e : FFT3D K) (P : ℕ) (spl : splindex) (zcol_distr_fft : block_data_descriptor) (rank : ℕ)
    (gvec : Gvec_partition) (s : z_state K) : Except String (z_state K) :=
  forLoopE (zcol_distr_fft.counts rank)
    (fun i s =>
      if direction = 1 then
        Except.ok (e.z_col_parallel_backward root use_reduction P spl zcol_distr_fft rank gvec i s)
      else if direction = -1 then
        Except.ok (e.z_col_parallel_forward root P spl zcol_distr_fft rank gvec i s)
      else Except.error "wrong direction") s

/-- The block `if (direction == -1)` at the head of `transform_z_parallel`, on all ranks: the
first `num_zcol * local_size_z_` entries of the auxiliary buffer are copied into the main
buffer, which is exchanged into the auxiliary buffer.  Returns the main buffers and the
auxiliary buffers. -/
def FFT3D_comm.exchange_forward (w : FFT3D_comm K) (gvec : Gvec_partition)
    (zcol_distr_fft : block_data_descriptor) (aux : ℕ → ℕ → K) :
    (ℕ → ℕ → K) × (ℕ → ℕ → K) :=
  let fb : ℕ → ℕ → K := fun r =>
    copy_range (aux r) 0 (gvec.num_zcol * (w.at_rank r).local_size_z_) (w.at_rank r).fft_buffer_ 0
  (fb, alltoall w.size fb (FFT3D.z_parallel_send (-1) w.spl_z_ zcol_distr_fft) aux
    (FFT3D.z_parallel_recv (-1) w.spl_z_ zcol_distr_fft))

/-- The block `if (direction == 1)` at the end of `transform_z_parallel`, on all ranks:
"scatter z-columns" exchanges the auxiliary buffer into the main buffer, and "copy local
fractions of z-columns into auxiliary buffer" copies its first `num_zcol * local_size_z_`
entries back.  Returns the main buffers and the auxiliary buffers. -/
def FFT3D_comm.exchange_backward (w : FFT3D_comm K) (gvec : Gvec_partition)
    (zcol_distr_fft : block_data_descriptor) (aux : ℕ → ℕ → K) :
    (ℕ → ℕ → K) × (ℕ → ℕ → K) :=
  let fb : ℕ → ℕ → K :=
    alltoall w.size aux (FFT3D.z_parallel_send 1 w.spl_z_ zcol_distr_fft)
      (fun r => (w.at_rank r).fft_buffer_) (FFT3D.z_parallel_recv 1 w.spl_z_ zcol_distr_fft)
  (fb, fun r => copy_range (fb r) 0 (gvec.num_zcol * (w.at_rank r).local_size_z_) (aux r) 0)

/-- `FFT3D::transform_z_parallel<direction, use_reduction>(gvec, data, fft_buffer_aux)` on all
ranks; `data r` and `aux r` are the arguments of rank `r`.  Returns the engines, the
coefficient arrays and the auxiliary buffers. -/
def FFT3D_comm.transform_z_parallel (root : ℕ → K) (direction : ℤ) (use_reduction : Bool)
    (w : FFT3D_comm K) (gvec : Gvec_partition) (zcol_distr_fft : block_data_descriptor)
    (data : ℕ → ℕ → K) (aux : ℕ → mdarray K) :
    Except String (FFT3D_comm K × (ℕ → ℕ → K) × (ℕ → mdarray K)) :=
  let x0 : (ℕ → ℕ → K) × (ℕ → ℕ → K) :=
    if direction = -1 then w.exchange_forward gvec zcol_distr_fft (fun r => (aux r).data)
    else (fun r => (w.at_rank r).fft_buffer_, fun r => (aux r).data)
  let w0 : FFT3D_comm K := { w with at_rank := fun r => { w.at_rank r with fft_buffer_ := x0.1 r } }
  (for_ranks w.size
    (fun r s => (w0.at_rank r).z_parallel_columns root direction use_reduction w.size w.spl_z_
      zcol_distr_fft r gvec s)
    (fun r => ⟨(w0.at_rank r).fftw_buffer_z_, data r, x0.2 r⟩)).map fun st =>
  let w1 : FFT3D_comm K :=
    { w0 with at_rank := fun r => { w0.at_rank r with fftw_buffer_z_ := (st r).fftw_buffer_z } }
  let x1 : (ℕ → ℕ → K) × (ℕ → ℕ → K) :=
    if direction = 1 then w1.exchange_backward gvec zcol_distr_fft (fun r => (st r).aux)
    else (fun r => (w1.at_rank r).fft_buffer_, fun r => (st r).aux)
  ({ w1 with at_rank := fun r => { w1.at_rank r with fft_buffer_ := x1.1 r } },
    fun r => (st r).data, fun r => ⟨(aux r).size, x1.2 r⟩)

/-! ### Plane stage on every rank -/

/-- `transform_xy<direction, use_reduction>(gvec, fft_buffer_aux)` on every rank. -/
def FFT3D_comm.transform_xy (root : ℕ → K) (direction : ℤ) (use_reduction : Bool)
    (w : FFT3D_comm K) (gvec : Gvec_partition) (aux : ℕ → mdarray K) :
    Except String (FFT3D_comm K × (ℕ → mdarray K)) :=
  (for_ranks w.size (fun _ s => s.1.run_xy root direction use_reduction gvec s.2)
    (fun r => (w.at_rank r, aux r))).map fun st =>
  ({ w with at_rank := fun r => (st r).1 }, fun r => (st r).2)

/-- Running the two-field plane stage on the auxiliary buffers `aux1`, `aux2`. -/
def FFT3D.run_xy2 (root : ℕ → K) (I : K) (direction : ℤ) (e : FFT3D K)
    (gvec : Gvec_partition) (aux1 aux2 : mdarray K) :
    Except String (FFT3D K × mdarray K × mdarray K) :=
  (e.transform_xy2 root I direction gvec
      ⟨e.fftw_buffer_xy_, e.fft_buffer_, aux1.data, aux2.data⟩).map
    fun s => ({ e with fftw_buffer_xy_ := s.fftw_buffer_xy, fft_buffer_ := s.fft_buffer },
      ⟨aux1.size, s.aux1⟩, ⟨aux2.size, s.aux2⟩)

/-- `transform_xy<direction>(gvec, fft_buffer_aux1, fft_buffer_aux2)` on every rank. -/
def FFT3D_comm.transform_xy2 (root : ℕ → K) (I : K) (direction : ℤ)
    (w : FFT3D_comm K) (gvec : Gvec_partition) (aux1 aux2 : ℕ → mdarray K) :
    Except String (FFT3D_comm K × (ℕ → mdarray K) × (ℕ → mdarray K)) :=
  (for_ranks w.size (fun _ s => s.1.run_xy2 root I direction gvec s.2.1 s.2.2)
    (fun r => (w.at_rank r, aux1 r, aux2 r))).map fun st =>
  ({ w with at_rank := fun r => (st r).1 }, fun r => (st r).2.1, fun r => (st r).2.2)

/-! ### The public transforms on all ranks -/

/-- The size `sz_max` that `transform` requires of an auxiliary buffer on rank `rank`. -/
def FFT3D_comm.sz_max (w : FFT3D_comm K) (gvec : Gvec_partition)
    (zcol_distr_fft : block_data_descriptor) (rank : ℕ) : ℕ :=
  if w.size > 1 then
    max ((w.at_rank rank).grid_.size 2 * zcol_distr_fft.counts rank) (w.at_rank rank).local_size
  else (w.at_rank rank).grid_.size 2 * gvec.num_zcol

/-- `FFT3D::transform<direction>(gvec, data)` on all ranks; `data r` is the coefficient array
of rank `r`.  For `comm_.size() == 1` this is the single-process transform of rank 0. -/
def FFT3D_comm.transform (root : ℕ → K) (direction : ℤ) (w : FFT3D_comm K)
    (gvec : Gvec_partition) (zcol_distr_fft : block_data_descriptor) (data : ℕ → ℕ → K) :
    Except String (FFT3D_comm K × (ℕ → ℕ → K)) :=
  if w.size = 1 then
    ((w.at_rank 0).transform root direction gvec (data 0)).map fun r =>
      ({ w with at_rank := Function.update w.at_rank 0 r.1 }, Function.update data 0 r.2)
  else if ∃ r, r < w.size ∧ (w.at_rank r).prepared_ = false then
    Except.error "FFT3D is not ready"
  else
    let w0 : FFT3D_comm K :=
      { w with at_rank := fun r =>
          { w.at_rank r with
            fft_buffer_aux1_ := (w.at_rank r).realloc (w.sz_max gvec zcol_distr_fft r)
              (w.at_rank r).fft_buffer_aux1_ } }
    if direction = 1 then
      (w0.transform_z_parallel root 1 gvec.reduced gvec zcol_distr_fft data
        (fun r => (w0.at_rank r).fft_buffer_aux1_)).bind fun r1 =>
      (r1.1.transform_xy root 1 gvec.reduced gvec r1.2.2).bind fun r2 =>
      Except.ok
        ({ r2.1 with at_rank := fun r => { r2.1.at_rank r with fft_buffer_aux1_ := r2.2 r } },
          r1.2.1)
    else if direction = -1 then
      (w0.transform_xy root (-1) false gvec (fun r => (w0.at_rank r).fft_buffer_aux1_)).bind
        fun r1 =>
      (r1.1.transform_z_parallel root (-1) false gvec zcol_distr_fft data r1.2).bind fun r2 =>
      Except.ok
        ({ r2.1 with at_rank := fun r => { r2.1.at_rank r with fft_buffer_aux1_ := r2.2.2 r } },
          r2.2.1)
    else Except.error "wrong direction"

/-- `FFT3D::transform<direction>(gvec, data1, data2)` on all ranks.  For `comm_.size() == 1`
this is the single-process transform of rank 0. -/
def FFT3D_comm.transform2 (root : ℕ → K) (I : K) (direction : ℤ) (w : FFT3D_comm K)
    (gvec : Gvec_partition) (zcol_distr_fft : block_data_descriptor) (data1 data2 : ℕ → ℕ → K) :
    Except String (FFT3D_comm K × (ℕ → ℕ → K) × (ℕ → ℕ → K)) :=
  if w.size = 1 then
    ((w.at_rank 0).transform2 root I direction gvec (data1 0) (data2 0)).map fun r =>
      ({ w with at_rank := Function.update w.at_rank 0 r.1 }, Function.update data1 0 r.2.1,
        Function.update data2 0 r.2.2)
  else if ∃ r, r < w.size ∧ (w.at_rank r).prepared_ = false then
    Except.error "FFT3D is not ready"
  else if gvec.reduced = false then Except.error "reduced set of G-vectors is required"
  else
    let w0 : FFT3D_comm K :=
      { w with at_rank := fun r =>
          { w.at_rank r with
            fft_buffer_aux1_ := (w.at_rank r).realloc (w.sz_max gvec zcol_distr_fft r)
              (w.at_rank r).fft_buffer_aux1_
            fft_buffer_aux2_ := (w.at_rank r).realloc (w.sz_max gvec zcol_distr_fft r)
              (w.at_rank r).fft_buffer_aux2_ } }
    if direction = 1 then
      (w0.transform_z_parallel root 1 true gvec zcol_distr_fft data1
        (fun r => (w0.at_rank r).fft_buffer_aux1_)).bind fun r1 =>
      (r1.1.transform_z_parallel root 1 true gvec zcol_distr_fft data2
        (fun r => (w0.at_rank r).fft_buffer_aux2_)).bind fun r2 =>
      (r2.1.transform_xy2 root I 1 gvec r1.2.2 r2.2.2).bind fun r3 =>
      Except.ok
        ({ r3.1 with at_rank := fun r =>
            { r3.1.at_rank r with fft_buffer_aux1_ := r3.2.1 r, fft_buffer_aux2_ := r3.2.2 r } },
          r1.2.1, r2.2.1)
    else if direction = -1 then
      (w0.transform_xy2 root I (-1) gvec (fun r => (w0.at_rank r).fft_buffer_aux1_)
        (fun r => (w0.at_rank r).fft_buffer_aux2_)).bind fun r1 =>
      (r1.1.transform_z_parallel root (-1) false gvec zcol_distr_fft data1 r1.2.1).bind fun r2 =>
      (r2.1.transform_z_parallel root (-1) false gvec zcol_distr_fft data2 r1.2.2).bind fun r3 =>
      Except.ok
        ({ r3.1 with at_rank := fun r =>
            { r3.1.at_rank r with fft_buffer_aux1_ := r2.2.2 r, fft_buffer_aux2_ := r3.2.2 r } },
          r2.2.1, r3.2.1)
    else Except.error "wrong direction"

/-! ### Sequences of transform calls -/

/-- A transform call on all ranks: the single-field or the paired-field transform with its
template argument and its arguments. -/
inductive transform_call (K : Type) where
  | single (direction : ℤ) (gvec : Gvec_partition) (zcol_distr_fft : block_data_descriptor)
      (data : ℕ → ℕ → K)
  | paired (direction : ℤ) (gvec : Gvec_partition) (zcol_distr_fft : block_data_descriptor)
      (data1 data2 : ℕ → ℕ → K)

/-- The engines after one transform call. -/
def FFT3D_comm.call (root : ℕ → K) (I : K) (w : FFT3D_comm K) :
    transform_call K → Except String (FFT3D_comm K)
  | transform_call.single direction gvec distr data =>
      (w.transform root direction gvec distr data).map fun r => r.1
  | transform_call.paired direction gvec distr data1 data2 =>
      (w.transform2 root I direction gvec distr data1 data2).map fun r => r.1

/-- The engines after a sequence of transform calls, first call first; a call that terminates
ends the run. -/
def FFT3D_comm.calls (root : ℕ → K) (I : K) (w : FFT3D_comm K) :
    List (transform_call K) → Except String (FFT3D_comm K)
  | [] => Except.ok w
  | c :: rest => (w.call root I c).bind fun w1 => w1.calls root I rest

/-- A contiguous distribution of the columns of `gvec` over `P` ranks: the offsets are the
prefix sums of the counts and the counts add up to the number of columns. -/
def Gvec_partition.distributed (gv : Gvec_partition) (zcol_distr_fft : block_data_descriptor)
    (P : ℕ) : Prop :=
  (∀ r, r ≤ P → zcol_distr_fft.offsets r = ∑ q ∈ range r, zcol_distr_fft.counts q) ∧
    ∑ q ∈ range P, zcol_distr_fft.counts q = gv.num_zcol

instance (gv : Gvec_partition) (d : block_data_descriptor) (P : ℕ) :
    Decidable (gv.distributed d P) := by
  unfold Gvec_partition.distributed
  infer_instance

end Parallel

/-! ## Bulk copies out of the main buffer -/

section Output
variable {K : Type} [Field K] [StarRing K]

/-- `FFT3D::output(double_complex* data__)` on the host (`case CPU`): the `std::memcpy` of the
first `local_size()` entries of the main buffer into the caller's array.  Returns the engine,
no member of which the function assigns, and the caller's array. -/
def FFT3D.output (e : FFT3D K) (data : ℕ → K) : FFT3D K × (ℕ → K) :=
  (e, copy_range e.fft_buffer_ 0 e.local_size data 0)

end Output

/-- `FFT3D::input<double>(double* data__)` on the host: `fft_buffer_[i] = data__[i]` converts
every real value to a complex one. -/
def FFT3D.input_real (e : FFT3D ℂ) (data : ℕ → ℝ) : FFT3D ℂ :=
  e.input (fun i => ((data i : ℝ) : ℂ))

/-- `FFT3D::output(double* data__)` on the host: the loop
`data__[i] = fft_buffer_[i].real()` over `i < local_size()`.  Returns the engine, no member of
which the function assigns, and the caller's array. -/
def FFT3D.output_real (e : FFT3D ℂ) (data : ℕ → ℝ) : FFT3D ℂ × (ℕ → ℝ) :=
  (e, forLoop e.local_size (fun i d => Function.update d i (e.fft_buffer_ i).re) data)

/-! ## A reduced partition whose `(0, 0)` column is not the first one -/

/-- A partition of the 4 × 4 × 4 grid with `reduced = true` whose column 0 is `(1, 0)` and whose
column 1 is `(0, 0)`, both with the z-frequencies `{0, 1}`. -/
def swapped_partition : Gvec_partition :=
  ⟨[⟨1, 0, [0, 1]⟩, ⟨0, 0, [0, 1]⟩], fun i => 2 * i, true⟩

/-! ## `sirius::radial_functions_index` (`src/Unit_cell/radial_functions_index.hpp`) -/

/-- `radial_function_index_descriptor` after its constructor has run: the orbital quantum
number `l`, the order of the function for this `l` and, for a local orbital, its index
`idxlo` in the list of local-orbital descriptors (`-1` otherwise).  The field `j` (a `double`
that the constructor copies) is read by no index map and is left out. -/
structure radial_function_index_descriptor where
  l : ℕ
  order : ℕ
  idxlo : ℤ
deriving DecidableEq, Repr

/-- The constructors `radial_function_index_descriptor(l, order, idxlo)` and
`radial_function_index_descriptor(l, j, order, idxlo)` with their assertions `l >= 0` and
`order >= 0`. -/
def radial_function_index_descriptor.create (l order idxlo : ℤ) :
    Except String radial_function_index_descriptor :=
  if l < 0 then Except.error "assertion l >= 0 failed"
  else if order < 0 then Except.error "assertion order >= 0 failed"
  else Except.ok ⟨l.toNat, order.toNat, idxlo⟩

/-- The part of `local_orbital_descriptor` (not among the sources) that `init` reads for the
index maps: the orbital quantum number `l`. -/
structure local_orbital_descriptor where
  l : ℤ
deriving DecidableEq, Repr

/-- State of a `radial_functions_index` object.  The vectors `num_rf_`, `num_lo_` of length
`lmax_ + 1` and the arrays `index_by_l_order_`, `index_by_idxlo_` are functions of the
index. -/
structure radial_functions_index where
  radial_function_index_descriptors_ : List radial_function_index_descriptor
  index_by_l_order_ : ℕ → ℕ → ℤ
  index_by_idxlo_ : ℕ → ℤ
  num_rf_ : ℕ → ℕ
  num_lo_ : ℕ → ℕ
  max_num_rf_ : ℕ
  lmax_aw_ : ℤ
  lmax_lo_ : ℤ
  lmax_ : ℤ

/-- The statements `radial_function_index_descriptors_.push_back(radial_function_index_descriptor(l,
num_rf_[l])); num_rf_[l]++;` of the loop over the augmented-wave descriptors. -/
def radial_functions_index.push_aw (l : ℕ) (r : radial_functions_index) :
    Except String radial_functions_index :=
  (radial_function_index_descriptor.create (l : ℤ) (r.num_rf_ l : ℤ) (-1)).map fun d =>
    { r with
      radial_function_index_descriptors_ := r.radial_function_index_descriptors_ ++ [d]
      num_rf_ := Function.update r.num_rf_ l (r.num_rf_ l + 1) }

/-- Body of the loop over the local orbitals for the index `idxlo`: the descriptor
`(l, num_rf_[l], idxlo)` is appended and `num_rf_[l]`, `num_lo_[l]` are incremented. -/
def radial_functions_index.push_lo (lo_descriptors : List local_orbital_descriptor) (idxlo : ℕ)
    (r : radial_functions_index) : Except String radial_functions_index :=
  let l := (lo_descriptors.getD idxlo ⟨0⟩).l
  (radial_function_index_descriptor.create l (r.num_rf_ l.toNat : ℤ) (idxlo : ℤ)).map fun d =>
    { r with
      radial_function_index_descriptors_ := r.radial_function_index_descriptors_ ++ [d]
      num_rf_ := Function.update r.num_rf_ l.toNat (r.num_rf_ l.toNat + 1)
      num_lo_ := Function.update r.num_lo_ l.toNat (r.num_lo_ l.toNat + 1) }

/-- Body of the last loop of `init` for the composite index `i`:
`index_by_l_order_(l, order) = i; if (idxlo >= 0) index_by_idxlo_(idxlo) = i;`. -/
def radial_functions_index.fill_index (i : ℕ) (r : radial_functions_index) :
    radial_functions_index :=
  let d := r.radial_function_index_descriptors_.getD i ⟨0, 0, -1⟩
  { r with
    index_by_l_order_ :=
      Function.update r.index_by_l_order_ d.l (Function.update (r.index_by_l_order_ d.l) d.order i)
    index_by_idxlo_ :=
      if d.idxlo ≥ 0 then Function.update r.index_by_idxlo_ d.idxlo.toNat i
      else r.index_by_idxlo_ }

/-- `radial_functions_index::init(aw_descriptors, lo_descriptors)`.  `aw_descriptors` is given
by the sizes `aw_descriptors[l].size()` (`radial_solution_descriptor_set` is not among the
sources and only its size is read); `mem2` and `mem1` are what the freshly allocated index
arrays happen to contain. -/
def radial_functions_index.init (aw_descriptors : List ℕ)
    (lo_descriptors : List local_orbital_descriptor) (mem2 : ℕ → ℕ → ℤ) (mem1 : ℕ → ℤ) :
    Except String radial_functions_index :=
  let lmax_aw : ℤ := (aw_descriptors.length : ℤ) - 1
  let lmax_lo : ℤ :=
    forLoop lo_descriptors.length (fun idxlo m => max m (lo_descriptors.getD idxlo ⟨0⟩).l) (-1)
  let lmax : ℤ := max lmax_aw lmax_lo
  let r0 : radial_functions_index :=
    ⟨[], mem2, mem1, fun _ => 0, fun _ => 0, 0, lmax_aw, lmax_lo, lmax⟩
  (forLoopE aw_descriptors.length
    (fun l r =>
      if aw_descriptors.getD l 0 > 3 then
        Except.error "assertion aw_descriptors[l].size() <= 3 failed"
      else forLoopE (aw_descriptors.getD l 0) (fun _ r => r.push_aw l) r) r0).bind fun r1 =>
  (forLoopE lo_descriptors.length (fun idxlo r => r.push_lo lo_descriptors idxlo) r1).bind
    fun r2 =>
  let r3 : radial_functions_index :=
    { r2 with
      max_num_rf_ := forLoop (lmax + 1).toNat (fun l m => max m (r2.num_rf_ l)) 0 }
  Except.ok
    (forLoop r3.radial_function_index_descriptors_.length
      (fun i r => r.fill_index i) r3)

/-- `radial_functions_index::size()`. -/
def radial_functions_index.size (r : radial_functions_index) : ℕ :=
  r.radial_function_index_descriptors_.length

/-- `radial_functions_index::operator[](i)` with its assertion `i >= 0 && i < size()`. -/
def radial_functions_index.get (r : radial_functions_index) (i : ℤ) :
    Except String radial_function_index_descriptor :=
  if 0 ≤ i ∧ i < (r.radial_function_index_descriptors_.length : ℤ) then
    Except.ok (r.radial_function_index_descriptors_.getD i.toNat ⟨0, 0, -1⟩)
  else Except.error "assertion i >= 0 && i < size() failed"

/-- `radial_functions_index::index_by_l_order(l, order)`. -/
def radial_functions_index.index_by_l_order (r : radial_functions_index) (l order : ℕ) : ℤ :=
  r.index_by_l_order_ l order

/-- `radial_functions_index::num_rf(l)` with its assertion `l >= 0 && l < num_rf_.size()`. -/
def radial_functions_index.num_rf (r : radial_functions_index) (l : ℤ) : Except String ℕ :=
  if 0 ≤ l ∧ l < r.lmax_ + 1 then Except.ok (r.num_rf_ l.toNat)
  else Except.error "assertion l >= 0 && l < num_rf_.size() failed"

/-! ## Frequencies of a partition centred on the grid -/

/-- Every column frequency `x`, `y` and every stored z-frequency of the partition lies in the
centred range of its dimension. -/
def Gvec_partition.centred (gv : Gvec_partition) (g : FFT3D_grid) : Prop :=
  ∀ i, i < gv.num_zcol →
    g.centred (gv.zcol i).x 0 ∧ g.centred (gv.zcol i).y 1 ∧
      ∀ j, j < (gv.zcol i).z.length → g.centred (gv.zfreq i j) 2

instance (gv : Gvec_partition) (g : FFT3D_grid) : Decidable (gv.centred g) := by
  unfold Gvec_partition.centred
  infer_instance

section Checked
variable {K : Type} [Field K] [StarRing K]

/-! ## Execution with the array bounds checked

Every buffer of the engine has an allocated length: the z scratch `grid_.size(2)`, the plane
scratch `grid_.size(0) * grid_.size(1)`, the main buffer `local_size()` and the auxiliary
buffer `fft_buffer_aux__.size()`.  The stages below are the stages of `fft3d.hpp` once more,
statement by statement, with every access to one of these four buffers checked against the
length; an access outside ends the run.  The caller's coefficient array, whose length the
engine does not know, and the table `z_col_pos_` are read and written as before.  A plan
transforms the elements of the scratch buffer it was created for. -/

/-- The read `buf[i]` of an array of `len` elements. -/
def checked_read (len : ℕ) (buf : ℕ → K) (i : ℕ) : Except String K :=
  if i < len then Except.ok (buf i) else Except.error "index out of range"

/-- The write `buf[i] = v` into an array of `len` elements. -/
def checked_write (len : ℕ) (buf : ℕ → K) (i : ℕ) (v : K) : Except String (ℕ → K) :=
  if i < len then Except.ok (Function.update buf i v) else Except.error "index out of range"

/-- The read `buf[z]` with an `int` index of an array of `len` elements. -/
def checked_read_int (len : ℕ) (buf : ℕ → K) (z : ℤ) : Except String K :=
  if 0 ≤ z ∧ z < (len : ℤ) then Except.ok (buf z.toNat)
  else Except.error "index out of range"

/-- The write `buf[z] = v` with an `int` index into an array of `len` elements. -/
def checked_write_int (len : ℕ) (buf : ℕ → K) (z : ℤ) (v : K) : Except String (ℕ → K) :=
  if 0 ≤ z ∧ z < (len : ℤ) then Except.ok (Function.update buf z.toNat v)
  else Except.error "index out of range"

/-- `std::fill(buf, buf + n, 0)` on an array of `len` elements. -/
def checked_fill (len n : ℕ) (buf : ℕ → K) : Except String (ℕ → K) :=
  if n ≤ len then Except.ok (fill_zero n buf) else Except.error "index out of range"

/-- `std::copy(src + s, src + s + n, dst + d)` from an array of `srclen` elements into an array
of `dstlen` elements. -/
def checked_copy (srclen : ℕ) (src : ℕ → K) (s n : ℕ) (dstlen : ℕ) (dst : ℕ → K) (d : ℕ) :
    Except String (ℕ → K) :=
  if s + n ≤ srclen ∧ d + n ≤ dstlen then Except.ok (copy_range src s n dst d)
  else Except.error "index out of range"

/-! ### Column stage, serial -/

/-- The two scatter loops of `case 1` of `transform_z_serial` (see `FFT3D.z_load`) with the
writes into the z scratch checked. -/
def FFT3D.z_load_checked (use_reduction : Bool) (e : FFT3D K) (gvec : Gvec_partition) (i : ℕ)
    (data : ℕ → K) (b : ℕ → K) : Except String (ℕ → K) :=
  let data_offset := gvec.zcol_offs i
  (forLoopE (gvec.zcol i).z.length
    (fun j c => checked_write_int (e.grid_.size 2) c (e.grid.coord_by_gvec (gvec.zfreq i j) 2)
      (data (data_offset + j))) b).bind fun b1 =>
  if use_reduction = true ∧ i = 0 then
    forLoopE (gvec.zcol 0).z.length
      (fun j c => checked_write_int (e.grid_.size 2) c
        (e.grid.coord_by_gvec (-(gvec.zfreq i j)) 2) (star (data (data_offset + j)))) b1
  else Except.ok b1

/-- Body of `case 1` of `transform_z_serial` for column `i` (see `FFT3D.z_col_backward`);
`aux_size` is `fft_buffer_aux__.size()`. -/
def FFT3D.z_col_backward_checked (root : ℕ → K) (use_reduction : Bool) (e : FFT3D K)
    (gvec : Gvec_partition) (aux_size : ℕ) (i : ℕ) (s : z_state K) :
    Except String (z_state K) :=
  (checked_fill (e.grid_.size 2) (e.grid_.size 2) s.fftw_buffer_z).bind fun b0 =>
  (e.z_load_checked use_reduction gvec i s.data b0).bind fun b2 =>
  let b3 := e.plan_backward_z root b2
  (checked_copy (e.grid_.size 2) b3 0 (e.grid_.size 2) aux_size s.aux
    (i * e.grid_.size 2)).map fun a =>
  { fftw_buffer_z := b3
    data := s.data
    aux := a }

/-- "Store PW coefficients" (see `FFT3D.z_store`) with the reads of the z scratch checked. -/
def FFT3D.z_store_checked (e : FFT3D K) (gvec : Gvec_partition) (i : ℕ) (b : ℕ → K)
    (data : ℕ → K) : Except String (ℕ → K) :=
  let norm : K := 1 / (e.size : K)
  let data_offset := gvec.zcol_offs i
  forLoopE (gvec.zcol i).z.length
    (fun j d =>
      (checked_read_int (e.grid_.size 2) b (e.grid.coord_by_gvec (gvec.zfreq i j) 2)).map
        fun v => Function.update d (data_offset + j) (v * norm)) data

/-- Body of `case -1` of `transform_z_serial` for column `i` (see `FFT3D.z_col_forward`). -/
def FFT3D.z_col_forward_checked (root : ℕ → K) (e : FFT3D K)
    (gvec : Gvec_partition) (aux_size : ℕ) (i : ℕ) (s : z_state K) :
    Except String (z_state K) :=
  (checked_copy aux_size s.aux (i * e.grid_.size 2) (e.grid_.size 2) (e.grid_.size 2)
    s.fftw_buffer_z 0).bind fun b0 =>
  let b1 := e.plan_forward_z root b0
  (e.z_store_checked gvec i b1 s.data).map fun d =>
  { fftw_buffer_z := b1
    data := d
    aux := s.aux }

/-- `FFT3D::transform_z_serial<direction, use_reduction>` with the accesses checked. -/
def FFT3D.transform_z_serial_checked (root : ℕ → K) (direction : ℤ) (use_reduction : Bool)
    (e : FFT3D K) (gvec : Gvec_partition) (aux_size : ℕ) (s : z_state K) :
    Except String (z_state K) :=
  forLoopE gvec.num_zcol
    (fun i s =>
      if direction = 1 then e.z_col_backward_checked root use_reduction gvec aux_size i s
      else if direction = -1 then e.z_col_forward_checked root gvec aux_size i s
      else Except.error "wrong direction") s

/-! ### Plane stage -/

/-- "Load z-columns into proper location" (see `FFT3D.xy_load`) with the reads of the
auxiliary buffer and the accesses to the plane scratch checked. -/
def FFT3D.xy_load_checked (use_reduction : Bool) (e : FFT3D K) (gvec : Gvec_partition)
    (aux_size : ℕ) (iz : ℕ) (aux : ℕ → K) (b : ℕ → K) : Except String (ℕ → K) :=
  forLoopE gvec.num_zcol
    (fun i c =>
      (checked_read aux_size aux (iz + i * e.local_size_z_)).bind fun v =>
      (checked_write_int (e.grid_.size 0 * e.grid_.size 1) c (e.z_col_pos_.data i 0) v).bind
        fun c1 =>
      if use_reduction = true ∧ i ≠ 0 then
        (checked_read_int (e.grid_.size 0 * e.grid_.size 1) c1 (e.z_col_pos_.data i 0)).bind
          fun u =>
        checked_write_int (e.grid_.size 0 * e.grid_.size 1) c1 (e.z_col_pos_.data i 1) (star u)
      else Except.ok c1) b

/-- Body of `case 1` of the one-field `transform_xy` for the plane `iz` (see
`FFT3D.xy_plane_backward`). -/
def FFT3D.xy_plane_backward_checked (root : ℕ → K) (use_reduction : Bool) (e : FFT3D K)
    (gvec : Gvec_partition) (aux_size : ℕ) (iz : ℕ) (s : xy_state K) :
    Except String (xy_state K) :=
  let size_xy := e.grid_.size 0 * e.grid_.size 1
  (checked_fill size_xy size_xy s.fftw_buffer_xy).bind fun b0 =>
  (e.xy_load_checked use_reduction gvec aux_size iz s.aux b0).bind fun b1 =>
  let b2 := e.plan_backward_xy root b1
  (checked_copy size_xy b2 0 size_xy e.local_size s.fft_buffer (iz * size_xy)).map fun f =>
  { fftw_buffer_xy := b2
    fft_buffer := f
    aux := s.aux }

/-- "Get z-columns" (see `FFT3D.xy_get`) with the reads of the plane scratch and the writes
into the auxiliary buffer checked. -/
def FFT3D.xy_get_checked (e : FFT3D K) (gvec : Gvec_partition) (aux_size : ℕ) (iz : ℕ)
    (b : ℕ → K) (aux : ℕ → K) : Except String (ℕ → K) :=
  forLoopE gvec.num_zcol
    (fun i a =>
      (checked_read_int (e.grid_.size 0 * e.grid_.size 1) b (e.z_col_pos_.data i 0)).bind
        fun v => checked_write aux_size a (iz + i * e.local_size_z_) v) aux

/-- Body of `case -1` of the one-field `transform_xy` for the plane `iz` (see
`FFT3D.xy_plane_forward`). -/
def FFT3D.xy_plane_forward_checked (root : ℕ → K) (e : FFT3D K)
    (gvec : Gvec_partition) (aux_size : ℕ) (iz : ℕ) (s : xy_state K) :
    Except String (xy_state K) :=
  let size_xy := e.grid_.size 0 * e.grid_.size 1
  (checked_copy e.local_size s.fft_buffer (iz * size_xy) size_xy size_xy
    s.fftw_buffer_xy 0).bind fun b0 =>
  let b1 := e.plan_forward_xy root b0
  (e.xy_get_checked gvec aux_size iz b1 s.aux).map fun a =>
  { fftw_buffer_xy := b1
    fft_buffer := s.fft_buffer
    aux := a }

/-- `FFT3D::transform_xy<direction, use_reduction>` for one complex function (host loop) with
the accesses checked. -/
def FFT3D.transform_xy_checked (root : ℕ → K) (direction : ℤ) (use_reduction : Bool)
    (e : FFT3D K) (gvec : Gvec_partition) (aux_size : ℕ) (s : xy_state K) :
    Except String (xy_state K) :=
  forLoopE e.local_size_z_
    (fun iz s =>
      if direction = 1 then e.xy_plane_backward_checked root use_reduction gvec aux_size iz s
      else if direction = -1 then e.xy_plane_forward_checked root gvec aux_size iz s
      else Except.error "wrong direction") s

/-! ### Column stage, distributed -/

/-- The value of `fft_buffer_aux1_.size()` on rank `rank` after "reallocate auxiliary buffer if
needed" of `transform`: the size the stages of the single-field transform work with. -/
def FFT3D_comm.aux_size (w : FFT3D_comm K) (gvec : Gvec_partition)
    (zcol_distr_fft : block_data_descriptor) (rank : ℕ) : ℕ :=
  ((w.at_rank rank).realloc (w.sz_max gvec zcol_distr_fft rank)
    (w.at_rank rank).fft_buffer_aux1_).size

end Checked

/-! # Verification -/

section Loops
variable {σ : Type}

theorem forLoop_succ (n : ℕ) (body : ℕ → σ → σ) (s : σ) :
    forLoop (n + 1) body s = body n (forLoop n body s) := rfl

theorem forLoop_congr (n : ℕ) (f g : ℕ → σ → σ) (s : σ)
    (h : ∀ i, i < n → ∀ t, f i t = g i t) : forLoop n f s = forLoop n g s := by
  induction n with
  | zero => rfl
  | succ m ih =>
    rw [forLoop_succ, forLoop_succ, ih (fun i hi t => h i (Nat.lt_succ_of_lt hi) t),
      h m (Nat.lt_succ_self m)]

theorem forLoopE_ok (n : ℕ) (body : ℕ → σ → Except String σ) (f : ℕ → σ → σ) (s : σ)
    (h : ∀ i t, body i t = Except.ok (f i t)) :
    forLoopE n body s = Except.ok (forLoop n f s) := by
  induction n with
  | zero => rfl
  | succ m ih =>
    show (forLoopE m body s).bind (body m) = _
    rw [ih]
    exact h m _

end Loops

section Scatter
variable {K : Type}

/-- An entry that no iteration addresses keeps its initial value. -/
theorem forLoop_update_of_ne (n : ℕ) (p : ℕ → ℕ) (v : ℕ → K) (b : ℕ → K) (k : ℕ)
    (h : ∀ j, j < n → p j ≠ k) :
    forLoop n (fun j c => Function.update c (p j) (v j)) b k = b k := by
  induction n with
  | zero => rfl
  | succ m ih =>
    rw [forLoop_succ, Function.update_noteq (h m (Nat.lt_succ_self m)).symm]
    exact ih (fun j hj => h j (Nat.lt_succ_of_lt hj))

/-- With pairwise distinct addresses every iteration's value survives the loop. -/
theorem forLoop_update_of_inj (n : ℕ) (p : ℕ → ℕ) (v : ℕ → K) (b : ℕ → K)
    (hinj : ∀ j, j < n → ∀ l, l < n → p j = p l → j = l) (j : ℕ) (hj : j < n) :
    forLoop n (fun j c => Function.update c (p j) (v j)) b (p j) = v j := by
  induction n with
  | zero => exact absurd hj (Nat.not_lt_zero j)
  | succ m ih =>
    rw [forLoop_succ]
    rcases Nat.lt_succ_iff_lt_or_eq.mp hj with hlt | heq
    · have hne : p j ≠ p m := fun he =>
        absurd (hinj j hj m (Nat.lt_succ_self m) he) (Nat.ne_of_lt hlt)
      rw [Function.update_noteq hne]
      exact ih (fun a ha l hl => hinj a (Nat.lt_succ_of_lt ha) l (Nat.lt_succ_of_lt hl)) hlt
    · subst heq
      exact Function.update_same _ _ _

/-- The value an update loop leaves at `k` depends on the initial buffer only through its
entry `k`. -/
theorem forLoop_update_congr_at (n : ℕ) (p : ℕ → ℕ) (v : ℕ → K) (b c : ℕ → K) (k : ℕ)
    (h : b k = c k) :
    forLoop n (fun j d => Function.update d (p j) (v j)) b k =
      forLoop n (fun j d => Function.update d (p j) (v j)) c k := by
  induction n with
  | zero => exact h
  | succ m ih =>
    rw [forLoop_succ, forLoop_succ]
    by_cases hk : k = p m
    · subst hk; simp
    · rw [Function.update_noteq hk, Function.update_noteq hk]; exact ih

end Scatter

section ScatterSum
variable {K : Type} [Field K]

theorem sum_update_mul (N : ℕ) (B f : ℕ → K) (a : ℕ) (x : K) (ha : a < N) :
    ∑ k ∈ range N, Function.update B a x k * f k =
      ∑ k ∈ range N, B k * f k + (x - B a) * f a := by
  have h1 : ∀ k, Function.update B a x k * f k =
      B k * f k + (if k = a then (x - B a) * f a else 0) := by
    intro k
    by_cases hk : k = a
    · subst hk; simp; ring
    · simp [Function.update_noteq hk, hk]
  simp only [h1, sum_add_distrib, sum_ite_eq', mem_range, ha, if_true]

/-- The weighted sum over a scattered buffer is the weighted sum over the scattered values. -/
theorem sum_forLoop_update (N n : ℕ) (p : ℕ → ℕ) (v : ℕ → K) (b f : ℕ → K)
    (hb : ∀ k, k < N → b k = 0)
    (hinj : ∀ j, j < n → ∀ l, l < n → p j = p l → j = l)
    (hp : ∀ j, j < n → p j < N) :
    ∑ k ∈ range N, forLoop n (fun j c => Function.update c (p j) (v j)) b k * f k =
      ∑ j ∈ range n, v j * f (p j) := by
  induction n with
  | zero =>
    simp only [forLoop, range_zero, sum_empty]
    exact sum_eq_zero (fun k hk => by rw [hb k (mem_range.mp hk), zero_mul])
  | succ m ih =>
    rw [forLoop_succ, sum_update_mul N _ f (p m) (v m) (hp m (Nat.lt_succ_self m)),
      ih (fun a ha l hl => hinj a (Nat.lt_succ_of_lt ha) l (Nat.lt_succ_of_lt hl))
        (fun j hj => hp j (Nat.lt_succ_of_lt hj)), sum_range_succ]
    have h0 : forLoop m (fun j c => Function.update c (p j) (v j)) b (p m) = 0 := by
      rw [forLoop_update_of_ne m p v b (p m)
        (fun j hj he => absurd (hinj j (Nat.lt_succ_of_lt hj) m (Nat.lt_succ_self m) he)
          (Nat.ne_of_lt hj))]
      exact hb _ (hp m (Nat.lt_succ_self m))
    rw [h0, sub_zero]

end ScatterSum

section DFT
variable {K : Type} [Field K]

/-- Orthogonality of the characters of `ℤ / n`. -/
theorem sum_twiddle_orth (w : K) (n : ℕ) (hw : IsPrimitiveRoot w n) (j l : ℕ) (hj : j < n)
    (hl : l < n) :
    ∑ k ∈ range n, w ^ (j * k) * w⁻¹ ^ (k * l) = if j = l then (n : K) else 0 := by
  have hn : 0 < n := lt_of_le_of_lt (Nat.zero_le j) hj
  have hw0 : w ≠ 0 := hw.ne_zero (Nat.pos_iff_ne_zero.mp hn)
  have hterm : ∀ k, w ^ (j * k) * w⁻¹ ^ (k * l) = (w ^ j * w⁻¹ ^ l) ^ k := by
    intro k
    rw [mul_pow, ← pow_mul, ← pow_mul, mul_comm l k]
  simp only [hterm]
  by_cases hjl : j = l
  · subst hjl
    have h1 : w ^ j * w⁻¹ ^ j = 1 := by
      rw [← mul_pow, mul_inv_cancel₀ hw0, one_pow]
    rw [if_pos rfl, h1]
    simp
  · rw [if_neg hjl]
    have hne : w ^ j * w⁻¹ ^ l ≠ 1 := by
      intro h
      apply hjl
      apply hw.pow_inj hj hl
      have h2 : w ^ l ≠ 0 := pow_ne_zero l hw0
      rw [inv_pow] at h
      field_simp at h
      exact h
    have hpow : (w ^ j * w⁻¹ ^ l) ^ n = 1 := by
      rw [mul_pow, ← pow_mul, ← pow_mul, mul_comm j n, mul_comm l n, pow_mul, pow_mul,
        hw.pow_eq_one, inv_pow, hw.pow_eq_one]
      simp
    rw [geom_sum_eq hne, hpow, sub_self, zero_div]

/-- A forward DFT undoes a backward DFT up to the factor `n`. -/
theorem fftw_dft_1d_inv (w : K) (n : ℕ) (hw : IsPrimitiveRoot w n) (b : ℕ → K) (l : ℕ)
    (hl : l < n) :
    fftw_dft_1d w⁻¹ n (fftw_dft_1d w n b) l = (n : K) * b l := by
  unfold fftw_dft_1d
  rw [if_pos hl]
  have h1 : ∀ k ∈ range n,
      (if k < n then ∑ j ∈ range n, b j * w ^ (j * k) else b k) * w⁻¹ ^ (k * l) =
        ∑ j ∈ range n, b j * (w ^ (j * k) * w⁻¹ ^ (k * l)) := by
    intro k hk
    rw [if_pos (mem_range.mp hk), sum_mul]
    exact sum_congr rfl (fun j _ => by ring)
  rw [sum_congr rfl h1, sum_comm]
  have h2 : ∀ j ∈ range n,
      ∑ k ∈ range n, b j * (w ^ (j * k) * w⁻¹ ^ (k * l)) =
        b j * (if j = l then (n : K) else 0) := by
    intro j hj
    rw [← mul_sum, sum_twiddle_orth w n hw j l (mem_range.mp hj) hl]
  rw [sum_congr rfl h2]
  simp [mul_ite, sum_ite_eq', hl, mul_comm]

end DFT

section DFT2
variable {K : Type} [Field K]

/-- A sum over a row-major `n0 × n1` array, row by row. -/
theorem sum_range_mul_rows (n0 n1 : ℕ) (F : ℕ → K) :
    ∑ p ∈ range (n0 * n1), F p = ∑ j0 ∈ range n0, ∑ j1 ∈ range n1, F (j0 * n1 + j1) := by
  induction n0 with
  | zero => simp
  | succ m ih =>
    rw [Nat.succ_mul, sum_range_add, ih, sum_range_succ]

theorem sum_sum_kernel (s t : Finset ℕ) (B : ℕ → ℕ → K) (a c : ℕ → ℕ → K) (a' c' : ℕ → K) :
    ∑ k0 ∈ s, ∑ k1 ∈ t, (∑ j0 ∈ s, ∑ j1 ∈ t, B j0 j1 * (a j0 k0 * c j1 k1)) * (a' k0 * c' k1) =
      ∑ j0 ∈ s, ∑ j1 ∈ t, B j0 j1 *
        ((∑ k0 ∈ s, a j0 k0 * a' k0) * (∑ k1 ∈ t, c j1 k1 * c' k1)) := by
  have hL : ∀ k0 ∈ s, ∀ k1 ∈ t,
      (∑ j0 ∈ s, ∑ j1 ∈ t, B j0 j1 * (a j0 k0 * c j1 k1)) * (a' k0 * c' k1) =
        ∑ j0 ∈ s, ∑ j1 ∈ t, B j0 j1 * (a j0 k0 * a' k0) * (c j1 k1 * c' k1) := by
    intro k0 _ k1 _
    rw [sum_mul]
    refine sum_congr rfl (fun j0 _ => ?_)
    rw [sum_mul]
    exact sum_congr rfl (fun j1 _ => by ring)
  have hR : ∀ j0 ∈ s, ∀ j1 ∈ t,
      B j0 j1 * ((∑ k0 ∈ s, a j0 k0 * a' k0) * (∑ k1 ∈ t, c j1 k1 * c' k1)) =
        ∑ k0 ∈ s, ∑ k1 ∈ t, B j0 j1 * (a j0 k0 * a' k0) * (c j1 k1 * c' k1) := by
    intro j0 _ j1 _
    rw [sum_mul_sum, mul_sum]
    refine sum_congr rfl (fun k0 _ => ?_)
    rw [mul_sum]
    exact sum_congr rfl (fun k1 _ => by ring)
  rw [sum_congr rfl (fun k0 hk0 => sum_congr rfl (fun k1 hk1 => hL k0 hk0 k1 hk1)),
    sum_congr rfl (fun j0 hj0 => sum_congr rfl (fun j1 hj1 => hR j0 hj0 j1 hj1))]
  calc ∑ k0 ∈ s, ∑ k1 ∈ t, ∑ j0 ∈ s, ∑ j1 ∈ t, B j0 j1 * (a j0 k0 * a' k0) * (c j1 k1 * c' k1)
      = ∑ k0 ∈ s, ∑ j0 ∈ s, ∑ k1 ∈ t, ∑ j1 ∈ t,
          B j0 j1 * (a j0 k0 * a' k0) * (c j1 k1 * c' k1) :=
        sum_congr rfl (fun k0 _ => sum_comm)
    _ = ∑ j0 ∈ s, ∑ k0 ∈ s, ∑ k1 ∈ t, ∑ j1 ∈ t,
          B j0 j1 * (a j0 k0 * a' k0) * (c j1 k1 * c' k1) := sum_comm
    _ = ∑ j0 ∈ s, ∑ k0 ∈ s, ∑ j1 ∈ t, ∑ k1 ∈ t,
          B j0 j1 * (a j0 k0 * a' k0) * (c j1 k1 * c' k1) :=
        sum_congr rfl (fun j0 _ => sum_congr rfl (fun k0 _ => sum_comm))
    _ = ∑ j0 ∈ s, ∑ j1 ∈ t, ∑ k0 ∈ s, ∑ k1 ∈ t,
          B j0 j1 * (a j0 k0 * a' k0) * (c j1 k1 * c' k1) :=
        sum_congr rfl (fun j0 _ => sum_comm)

theorem fftw_dft_2d_apply (w0 w1 : K) (n0 n1 : ℕ) (b : ℕ → K) (k : ℕ) (hk : k < n0 * n1) :
    fftw_dft_2d w0 w1 n0 n1 b k =
      ∑ j0 ∈ range n0, ∑ j1 ∈ range n1,
        b (j0 * n1 + j1) * (w0 ^ (j0 * (k / n1)) * w1 ^ (j1 * (k % n1))) := by
  unfold fftw_dft_2d
  rw [if_pos hk]

/-- The 2-D transform as one sum over the linear positions of the plane. -/
theorem fftw_dft_2d_eq_sum (w0 w1 : K) (n0 n1 : ℕ) (b : ℕ → K) (k : ℕ) (hk : k < n0 * n1) :
    fftw_dft_2d w0 w1 n0 n1 b k =
      ∑ p ∈ range (n0 * n1), b p * (w0 ^ (p / n1 * (k / n1)) * w1 ^ (p % n1 * (k % n1))) := by
  unfold fftw_dft_2d
  rw [if_pos hk, sum_range_mul_rows]
  refine sum_congr rfl (fun j0 _ => sum_congr rfl (fun j1 hj1 => ?_))
  have h1 : j1 < n1 := mem_range.mp hj1
  have hpos : 0 < n1 := lt_of_le_of_lt (Nat.zero_le j1) h1
  have hd : (j0 * n1 + j1) / n1 = j0 := by
    rw [Nat.add_comm, Nat.add_mul_div_right _ _ hpos, Nat.div_eq_of_lt h1, Nat.zero_add]
  have hm : (j0 * n1 + j1) % n1 = j1 := by
    rw [Nat.add_comm, Nat.add_mul_mod_self_right, Nat.mod_eq_of_lt h1]
  rw [hd, hm]

/-- A forward 2-D DFT undoes a backward 2-D DFT up to the factor `n0 * n1`. -/
theorem fftw_dft_2d_inv (w0 w1 : K) (n0 n1 : ℕ) (h0 : IsPrimitiveRoot w0 n0)
    (h1 : IsPrimitiveRoot w1 n1) (b : ℕ → K) (l : ℕ) (hl : l < n0 * n1) :
    fftw_dft_2d w0⁻¹ w1⁻¹ n0 n1 (fftw_dft_2d w0 w1 n0 n1 b) l = ((n0 * n1 : ℕ) : K) * b l := by
  have hn1 : 0 < n1 := Nat.pos_of_ne_zero (fun h => by simp [h] at hl)
  have hl0 : l / n1 < n0 := (Nat.div_lt_iff_lt_mul hn1).mpr hl
  have hl1 : l % n1 < n1 := Nat.mod_lt l hn1
  have hinner : ∀ k0 ∈ range n0, ∀ k1 ∈ range n1,
      fftw_dft_2d w0 w1 n0 n1 b (k0 * n1 + k1) =
        ∑ j0 ∈ range n0, ∑ j1 ∈ range n1, b (j0 * n1 + j1) * (w0 ^ (j0 * k0) * w1 ^ (j1 * k1)) := by
    intro k0 hk0 k1 hk1
    have hk1' : k1 < n1 := mem_range.mp hk1
    have hk0' : k0 < n0 := mem_range.mp hk0
    have hlt : k0 * n1 + k1 < n0 * n1 := by
      calc k0 * n1 + k1 < k0 * n1 + n1 := Nat.add_lt_add_left hk1' _
        _ = (k0 + 1) * n1 := (Nat.succ_mul k0 n1).symm
        _ ≤ n0 * n1 := Nat.mul_le_mul_right n1 hk0'
    have hd : (k0 * n1 + k1) / n1 = k0 := by
      rw [Nat.add_comm, Nat.add_mul_div_right _ _ hn1, Nat.div_eq_of_lt hk1', Nat.zero_add]
    have hm : (k0 * n1 + k1) % n1 = k1 := by
      rw [Nat.add_comm, Nat.add_mul_mod_self_right, Nat.mod_eq_of_lt hk1']
    rw [fftw_dft_2d_apply w0 w1 n0 n1 b _ hlt, hd, hm]
  have houter : fftw_dft_2d w0⁻¹ w1⁻¹ n0 n1 (fftw_dft_2d w0 w1 n0 n1 b) l =
      ∑ k0 ∈ range n0, ∑ k1 ∈ range n1,
        (∑ j0 ∈ range n0, ∑ j1 ∈ range n1,
          b (j0 * n1 + j1) * (w0 ^ (j0 * k0) * w1 ^ (j1 * k1))) *
          (w0⁻¹ ^ (k0 * (l / n1)) * w1⁻¹ ^ (k1 * (l % n1))) := by
    rw [fftw_dft_2d_apply w0⁻¹ w1⁻¹ n0 n1 _ l hl]
    exact sum_congr rfl (fun k0 hk0 => sum_congr rfl (fun k1 hk1 => by
      rw [hinner k0 hk0 k1 hk1]))
  rw [houter, sum_sum_kernel (range n0) (range n1) (fun j0 j1 => b (j0 * n1 + j1))
    (fun j0 k0 => w0 ^ (j0 * k0)) (fun j1 k1 => w1 ^ (j1 * k1))
    (fun k0 => w0⁻¹ ^ (k0 * (l / n1))) (fun k1 => w1⁻¹ ^ (k1 * (l % n1)))]
  have horth : ∀ j0 ∈ range n0, ∀ j1 ∈ range n1,
      b (j0 * n1 + j1) * ((∑ k0 ∈ range n0, w0 ^ (j0 * k0) * w0⁻¹ ^ (k0 * (l / n1))) *
        (∑ k1 ∈ range n1, w1 ^ (j1 * k1) * w1⁻¹ ^ (k1 * (l % n1)))) =
        if j1 = l % n1 then (if j0 = l / n1 then ((n0 * n1 : ℕ) : K) * b (j0 * n1 + j1) else 0)
        else 0 := by
    intro j0 hj0 j1 hj1
    rw [sum_twiddle_orth w0 n0 h0 j0 (l / n1) (mem_range.mp hj0) hl0,
      sum_twiddle_orth w1 n1 h1 j1 (l % n1) (mem_range.mp hj1) hl1]
    by_cases ha : j0 = l / n1 <;> by_cases hb : j1 = l % n1 <;> simp [ha, hb]
    ring
  rw [sum_congr rfl (fun j0 hj0 => sum_congr rfl (fun j1 hj1 => horth j0 hj0 j1 hj1))]
  simp only [sum_ite_eq', mem_range, hl0, hl1, if_true]
  rw [Nat.div_add_mod' l n1]

end DFT2

section Mem
variable {K : Type}

theorem copy_range_inside (src : ℕ → K) (s n : ℕ) (dst : ℕ → K) (d k : ℕ) (hk : k < n) :
    copy_range src s n dst d (d + k) = src (s + k) := by
  unfold copy_range
  rw [if_pos ⟨Nat.le_add_right d k, Nat.add_lt_add_left hk d⟩, Nat.add_sub_cancel_left]

theorem copy_range_outside (src : ℕ → K) (s n : ℕ) (dst : ℕ → K) (d k : ℕ)
    (hk : k < d ∨ d + n ≤ k) : copy_range src s n dst d k = dst k := by
  unfold copy_range
  rw [if_neg]
  rintro ⟨h1, h2⟩
  rcases hk with h | h
  · exact absurd h1 (Nat.not_le_of_lt h)
  · exact absurd h2 (Nat.not_lt_of_le h)

theorem fill_zero_inside [Zero K] (n : ℕ) (b : ℕ → K) (k : ℕ) (hk : k < n) :
    fill_zero n b k = 0 := by
  unfold fill_zero
  rw [if_pos hk]

/-- A loop whose body acts entry by entry yields at `k` a value that depends on the initial
buffer only through its entry `k`. -/
theorem forLoop_congr_at (n : ℕ) (F : ℕ → (ℕ → K) → (ℕ → K)) (k : ℕ)
    (hF : ∀ i b c, b k = c k → F i b k = F i c k) (b c : ℕ → K) (h : b k = c k) :
    forLoop n F b k = forLoop n F c k := by
  induction n with
  | zero => exact h
  | succ m ih => exact hF m _ _ ih

theorem update_congr_at (a : ℕ) (x : K) (b c : ℕ → K) (k : ℕ) (h : b k = c k) :
    Function.update b a x k = Function.update c a x k := by
  by_cases hk : k = a
  · subst hk; simp
  · rw [Function.update_noteq hk, Function.update_noteq hk]; exact h

theorem block_index_lt (i m n k : ℕ) (hi : i < m) (hk : k < n) : i * n + k < m * n :=
  calc i * n + k < i * n + n := Nat.add_lt_add_left hk _
    _ = (i + 1) * n := (Nat.succ_mul i n).symm
    _ ≤ m * n := Nat.mul_le_mul_right n hi

end Mem

section StageField
variable {K : Type} [Field K]

theorem fftw_dft_1d_congr (w : K) (n : ℕ) (b c : ℕ → K) (h : ∀ j, j < n → b j = c j) (k : ℕ)
    (hk : k < n) : fftw_dft_1d w n b k = fftw_dft_1d w n c k := by
  unfold fftw_dft_1d
  rw [if_pos hk, if_pos hk]
  exact sum_congr rfl (fun j hj => by rw [h j (mem_range.mp hj)])

theorem fftw_dft_2d_congr (w0 w1 : K) (n0 n1 : ℕ) (b c : ℕ → K)
    (h : ∀ p, p < n0 * n1 → b p = c p) (k : ℕ) (hk : k < n0 * n1) :
    fftw_dft_2d w0 w1 n0 n1 b k = fftw_dft_2d w0 w1 n0 n1 c k := by
  rw [fftw_dft_2d_apply w0 w1 n0 n1 b k hk, fftw_dft_2d_apply w0 w1 n0 n1 c k hk]
  refine sum_congr rfl (fun j0 hj0 => sum_congr rfl (fun j1 hj1 => ?_))
  rw [h _ (block_index_lt j0 n0 n1 j1 (mem_range.mp hj0) (mem_range.mp hj1))]

end StageField

section Stage
variable {K : Type} [Field K] [StarRing K]

/-! ### The stages return -/

theorem transform_z_serial_backward (root : ℕ → K) (ur : Bool) (e : FFT3D K)
    (gvec : Gvec_partition) (s : z_state K) :
    e.transform_z_serial root 1 ur gvec s =
      Except.ok (forLoop gvec.num_zcol (e.z_col_backward root ur gvec) s) := by
  unfold FFT3D.transform_z_serial
  exact forLoopE_ok _ _ _ _ (fun i t => by simp)

theorem transform_z_serial_forward (root : ℕ → K) (ur : Bool) (e : FFT3D K)
    (gvec : Gvec_partition) (s : z_state K) :
    e.transform_z_serial root (-1) ur gvec s =
      Except.ok (forLoop gvec.num_zcol (e.z_col_forward root gvec) s) := by
  unfold FFT3D.transform_z_serial
  exact forLoopE_ok _ _ _ _ (fun i t => by simp)

theorem transform_xy_backward (root : ℕ → K) (ur : Bool) (e : FFT3D K)
    (gvec : Gvec_partition) (s : xy_state K) :
    e.transform_xy root 1 ur gvec s =
      Except.ok (forLoop e.local_size_z_ (e.xy_plane_backward root ur gvec) s) := by
  unfold FFT3D.transform_xy
  exact forLoopE_ok _ _ _ _ (fun i t => by simp)

theorem transform_xy_forward (root : ℕ → K) (ur : Bool) (e : FFT3D K)
    (gvec : Gvec_partition) (s : xy_state K) :
    e.transform_xy root (-1) ur gvec s =
      Except.ok (forLoop e.local_size_z_ (e.xy_plane_forward root gvec) s) := by
  unfold FFT3D.transform_xy
  exact forLoopE_ok _ _ _ _ (fun i t => by simp)

theorem transform_xy2_backward (root : ℕ → K) (I : K) (e : FFT3D K)
    (gvec : Gvec_partition) (s : xy2_state K) (hr : gvec.reduced = true) :
    e.transform_xy2 root I 1 gvec s =
      Except.ok (forLoop e.local_size_z_ (e.xy2_plane_backward root I gvec) s) := by
  unfold FFT3D.transform_xy2
  rw [if_neg (by simp [hr])]
  exact forLoopE_ok _ _ _ _ (fun i t => by simp)

theorem transform_xy2_forward (root : ℕ → K) (I : K) (e : FFT3D K)
    (gvec : Gvec_partition) (s : xy2_state K) (hr : gvec.reduced = true) :
    e.transform_xy2 root I (-1) gvec s =
      Except.ok (forLoop e.local_size_z_ (e.xy2_plane_forward root I gvec) s) := by
  unfold FFT3D.transform_xy2
  rw [if_neg (by simp [hr])]
  exact forLoopE_ok _ _ _ _ (fun i t => by simp)

/-! ### Column stage, backward -/

theorem z_load_congr_at (ur : Bool) (e : FFT3D K) (gvec : Gvec_partition) (i : ℕ)
    (data b c : ℕ → K) (k : ℕ) (h : b k = c k) :
    e.z_load ur gvec i data b k = e.z_load ur gvec i data c k := by
  unfold FFT3D.z_load
  split_ifs
  · exact forLoop_update_congr_at _ _ _ _ _ _ (forLoop_update_congr_at _ _ _ _ _ _ h)
  · exact forLoop_update_congr_at _ _ _ _ _ _ h

/-- After `m` iterations of the backward column loop: the coefficient array is untouched, the
auxiliary buffer holds the transformed column `i` at `[i * size(2), (i + 1) * size(2))` for
every `i < m`, and nothing at or beyond `m * size(2)` has been written. -/
theorem z_backward_loop (root : ℕ → K) (ur : Bool) (e : FFT3D K) (gvec : Gvec_partition)
    (s : z_state K) (m : ℕ) :
    (forLoop m (e.z_col_backward root ur gvec) s).data = s.data ∧
    (∀ i, i < m → ∀ k, k < e.grid_.size 2 →
      (forLoop m (e.z_col_backward root ur gvec) s).aux (i * e.grid_.size 2 + k) =
        e.plan_backward_z root (e.z_load ur gvec i s.data (fun _ => 0)) k) ∧
    (∀ idx, m * e.grid_.size 2 ≤ idx →
      (forLoop m (e.z_col_backward root ur gvec) s).aux idx = s.aux idx) := by
  induction m with
  | zero => exact ⟨rfl, fun i hi => absurd hi (Nat.not_lt_zero i), fun idx _ => rfl⟩
  | succ m ih =>
    obtain ⟨ihd, iha, ihr⟩ := ih
    rw [forLoop_succ]
    refine ⟨ihd, ?_, ?_⟩
    · intro i hi k hk
      show copy_range _ 0 (e.grid_.size 2) _ (m * e.grid_.size 2) _ = _
      rcases Nat.lt_succ_iff_lt_or_eq.mp hi with hlt | heq
      · rw [copy_range_outside _ _ _ _ _ _ (Or.inl (block_index_lt i m _ k hlt hk))]
        exact iha i hlt k hk
      · subst heq
        rw [copy_range_inside _ _ _ _ _ _ hk, Nat.zero_add]
        unfold FFT3D.plan_backward_z
        refine fftw_dft_1d_congr _ _ _ _ (fun j hj => ?_) k hk
        rw [ihd]
        exact z_load_congr_at ur e gvec i s.data _ _ j (fill_zero_inside _ _ j hj)
    · intro idx hidx
      show copy_range _ 0 (e.grid_.size 2) _ (m * e.grid_.size 2) _ = _
      rw [Nat.succ_mul] at hidx
      rw [copy_range_outside _ _ _ _ _ _ (Or.inr hidx)]
      exact ihr idx (le_trans (Nat.le_add_right _ _) hidx)

end Stage

section Stage
variable {K : Type} [Field K] [StarRing K]

/-! ### Plane stage, backward -/

/-- The scatter of one column in the backward plane stage, without the read-back. -/
theorem xy_load_eq (ur : Bool) (e : FFT3D K) (gvec : Gvec_partition) (iz : ℕ)
    (aux b : ℕ → K) :
    e.xy_load ur gvec iz aux b =
      forLoop gvec.num_zcol
        (fun i c =>
          if ur = true ∧ i ≠ 0 then
            Function.update
              (Function.update c (e.z_col_pos_.data i 0).toNat (aux (iz + i * e.local_size_z_)))
              (e.z_col_pos_.data i 1).toNat (star (aux (iz + i * e.local_size_z_)))
          else Function.update c (e.z_col_pos_.data i 0).toNat (aux (iz + i * e.local_size_z_)))
        b := by
  unfold FFT3D.xy_load
  refine forLoop_congr _ _ _ _ (fun i _ t => ?_)
  simp only [Function.update_same]

theorem xy_load_congr_at (ur : Bool) (e : FFT3D K) (gvec : Gvec_partition) (iz : ℕ)
    (aux b c : ℕ → K) (k : ℕ) (h : b k = c k) :
    e.xy_load ur gvec iz aux b k = e.xy_load ur gvec iz aux c k := by
  rw [xy_load_eq, xy_load_eq]
  refine forLoop_congr_at _ _ k (fun i b' c' hbc => ?_) b c h
  split_ifs
  · exact update_congr_at _ _ _ _ _ (update_congr_at _ _ _ _ _ hbc)
  · exact update_congr_at _ _ _ _ _ hbc

/-- The scatter reads the auxiliary buffer only at `iz + i * local_size_z` for the columns. -/
theorem xy_load_congr_aux (ur : Bool) (e : FFT3D K) (gvec : Gvec_partition) (iz : ℕ)
    (aux aux' b : ℕ → K)
    (h : ∀ i, i < gvec.num_zcol → aux (iz + i * e.local_size_z_) = aux' (iz + i * e.local_size_z_)) :
    e.xy_load ur gvec iz aux b = e.xy_load ur gvec iz aux' b := by
  rw [xy_load_eq, xy_load_eq]
  refine forLoop_congr _ _ _ _ (fun i hi t => ?_)
  rw [h i hi]

/-- After `m` iterations of the backward plane loop: the auxiliary buffer is untouched, the
main buffer holds the transformed plane `iz` for every `iz < m`, and nothing at or beyond
`m * size_xy` has been written. -/
theorem xy_backward_loop (root : ℕ → K) (ur : Bool) (e : FFT3D K) (gvec : Gvec_partition)
    (s : xy_state K) (m : ℕ) :
    (forLoop m (e.xy_plane_backward root ur gvec) s).aux = s.aux ∧
    (∀ iz, iz < m → ∀ p, p < e.grid_.size 0 * e.grid_.size 1 →
      (forLoop m (e.xy_plane_backward root ur gvec) s).fft_buffer
          (iz * (e.grid_.size 0 * e.grid_.size 1) + p) =
        e.plan_backward_xy root (e.xy_load ur gvec iz s.aux (fun _ => 0)) p) ∧
    (∀ idx, m * (e.grid_.size 0 * e.grid_.size 1) ≤ idx →
      (forLoop m (e.xy_plane_backward root ur gvec) s).fft_buffer idx = s.fft_buffer idx) := by
  induction m with
  | zero => exact ⟨rfl, fun i hi => absurd hi (Nat.not_lt_zero i), fun idx _ => rfl⟩
  | succ m ih =>
    obtain ⟨iha, ihb, ihr⟩ := ih
    rw [forLoop_succ]
    refine ⟨iha, ?_, ?_⟩
    · intro iz hiz p hp
      show copy_range _ 0 (e.grid_.size 0 * e.grid_.size 1) _
        (m * (e.grid_.size 0 * e.grid_.size 1)) _ = _
      rcases Nat.lt_succ_iff_lt_or_eq.mp hiz with hlt | heq
      · rw [copy_range_outside _ _ _ _ _ _ (Or.inl (block_index_lt iz m _ p hlt hp))]
        exact ihb iz hlt p hp
      · subst heq
        rw [copy_range_inside _ _ _ _ _ _ hp, Nat.zero_add]
        unfold FFT3D.plan_backward_xy
        have hp' : p < e.grid_.size 1 * e.grid_.size 0 := by rw [Nat.mul_comm]; exact hp
        refine fftw_dft_2d_congr _ _ _ _ _ _ (fun q hq => ?_) p hp'
        rw [iha]
        refine xy_load_congr_at ur e gvec iz s.aux _ _ q (fill_zero_inside _ _ q ?_)
        rw [Nat.mul_comm]; exact hq
    · intro idx hidx
      show copy_range _ 0 (e.grid_.size 0 * e.grid_.size 1) _
        (m * (e.grid_.size 0 * e.grid_.size 1)) _ = _
      rw [Nat.succ_mul] at hidx
      rw [copy_range_outside _ _ _ _ _ _ (Or.inr hidx)]
      exact ihr idx (le_trans (Nat.le_add_right _ _) hidx)

/-! ### Plane stage, forward -/

omit [Field K] [StarRing K] in
theorem plane_index_inj (n iz i iz' i' : ℕ) (hiz : iz < n) (hiz' : iz' < n)
    (h : iz + i * n = iz' + i' * n) : iz = iz' ∧ i = i' := by
  have hn : 0 < n := lt_of_le_of_lt (Nat.zero_le iz) hiz
  have h1 : (iz + i * n) % n = iz := by
    rw [Nat.add_mul_mod_self_right, Nat.mod_eq_of_lt hiz]
  have h2 : (iz' + i' * n) % n = iz' := by
    rw [Nat.add_mul_mod_self_right, Nat.mod_eq_of_lt hiz']
  have h3 : iz = iz' := by rw [← h1, ← h2, h]
  subst h3
  exact ⟨rfl, Nat.eq_of_mul_eq_mul_right hn (Nat.add_left_cancel h)⟩

omit [StarRing K] in
/-- After `m` iterations of the forward plane loop: the main buffer is untouched, for every
plane `iz < m` and column `i` the auxiliary buffer holds at `iz + i * local_size_z` the
transformed plane's value at the column's position, and no other entry has been written. -/
theorem xy_forward_loop (root : ℕ → K) (e : FFT3D K) (gvec : Gvec_partition)
    (hpos : ∀ i, i < gvec.num_zcol →
      (e.z_col_pos_.data i 0).toNat < e.grid_.size 0 * e.grid_.size 1)
    (s : xy_state K) (m : ℕ) (hm : m ≤ e.local_size_z_) :
    (forLoop m (e.xy_plane_forward root gvec) s).fft_buffer = s.fft_buffer ∧
    (∀ iz, iz < m → ∀ i, i < gvec.num_zcol →
      (forLoop m (e.xy_plane_forward root gvec) s).aux (iz + i * e.local_size_z_) =
        e.plan_forward_xy root
          (fun p => s.fft_buffer (iz * (e.grid_.size 0 * e.grid_.size 1) + p))
          (e.z_col_pos_.data i 0).toNat) ∧
    (∀ idx, (∀ iz, iz < m → ∀ i, i < gvec.num_zcol → idx ≠ iz + i * e.local_size_z_) →
      (forLoop m (e.xy_plane_forward root gvec) s).aux idx = s.aux idx) := by
  induction m with
  | zero => exact ⟨rfl, fun i hi => absurd hi (Nat.not_lt_zero i), fun idx _ => rfl⟩
  | succ m ih =>
    obtain ⟨ihb, iha, ihr⟩ := ih (Nat.le_of_succ_le hm)
    have hmlt : m < e.local_size_z_ := hm
    rw [forLoop_succ]
    refine ⟨ihb, ?_, ?_⟩
    · intro iz hiz i hi
      show e.xy_get gvec m _ _ _ = _
      unfold FFT3D.xy_get
      rcases Nat.lt_succ_iff_lt_or_eq.mp hiz with hlt | heq
      · rw [forLoop_update_of_ne]
        · exact iha iz hlt i hi
        · intro j _ hj
          have := (plane_index_inj _ _ _ _ _ hmlt (lt_trans hlt hmlt) hj).1
          exact absurd this (Nat.ne_of_gt hlt)
      · subst heq
        rw [forLoop_update_of_inj gvec.num_zcol (fun i => iz + i * e.local_size_z_)
          (fun i => e.plan_forward_xy root
            (copy_range (forLoop iz (e.xy_plane_forward root gvec) s).fft_buffer
              (iz * (e.grid_.size 0 * e.grid_.size 1)) (e.grid_.size 0 * e.grid_.size 1)
              (forLoop iz (e.xy_plane_forward root gvec) s).fftw_buffer_xy 0)
            (e.z_col_pos_.data i 0).toNat) _
          (fun a _ l _ hal => (plane_index_inj _ _ _ _ _ hmlt hmlt hal).2) i hi]
        unfold FFT3D.plan_forward_xy
        have hp' : (e.z_col_pos_.data i 0).toNat < e.grid_.size 1 * e.grid_.size 0 := by
          rw [Nat.mul_comm]; exact hpos i hi
        refine fftw_dft_2d_congr _ _ _ _ _ _ (fun q hq => ?_) _ hp'
        have hq' : q < e.grid_.size 0 * e.grid_.size 1 := by rw [Nat.mul_comm]; exact hq
        have := copy_range_inside (forLoop iz (e.xy_plane_forward root gvec) s).fft_buffer
          (iz * (e.grid_.size 0 * e.grid_.size 1)) (e.grid_.size 0 * e.grid_.size 1)
          (forLoop iz (e.xy_plane_forward root gvec) s).fftw_buffer_xy 0 q hq'
        rw [Nat.zero_add] at this
        rw [this, ihb]
    · intro idx hidx
      show e.xy_get gvec m _ _ _ = _
      unfold FFT3D.xy_get
      rw [forLoop_update_of_ne]
      · exact ihr idx (fun iz hiz i hi => hidx iz (Nat.lt_succ_of_lt hiz) i hi)
      · intro j hj hje
        exact hidx m (Nat.lt_succ_self m) j hj hje.symm

end Stage

section Nested
variable {K : Type}

/-- What an update loop leaves at the entry `k`: the initial value if no iteration addresses
`k`, and otherwise the value of an iteration that addresses it. -/
theorem forLoop_update_cases (n : ℕ) (p : ℕ → ℕ) (v : ℕ → K) (b : ℕ → K) (k : ℕ) :
    (forLoop n (fun j c => Function.update c (p j) (v j)) b k = b k ∧ ∀ j, j < n → p j ≠ k) ∨
    ∃ j, j < n ∧ p j = k ∧ forLoop n (fun j c => Function.update c (p j) (v j)) b k = v j := by
  induction n with
  | zero => exact Or.inl ⟨rfl, fun j hj => absurd hj (Nat.not_lt_zero j)⟩
  | succ m ih =>
    rw [forLoop_succ]
    by_cases hk : p m = k
    · exact Or.inr ⟨m, Nat.lt_succ_self m, hk, by rw [← hk, Function.update_same]⟩
    · rw [Function.update_noteq (Ne.symm hk)]
      rcases ih with ⟨h1, h2⟩ | ⟨j, hj, hpj, hv⟩
      · refine Or.inl ⟨h1, fun j hj => ?_⟩
        rcases Nat.lt_succ_iff_lt_or_eq.mp hj with hlt | heq
        · exact h2 j hlt
        · rw [heq]; exact hk
      · exact Or.inr ⟨j, Nat.lt_succ_of_lt hj, hpj, hv⟩

/-- The same for a loop over columns whose body is an update loop over the column. -/
theorem nested_update_cases (m : ℕ) (len : ℕ → ℕ) (slot : ℕ → ℕ → ℕ) (val : ℕ → ℕ → K)
    (d : ℕ → K) (k : ℕ) :
    (forLoop m (fun i c => forLoop (len i)
        (fun j c => Function.update c (slot i j) (val i j)) c) d k = d k ∧
      ∀ i, i < m → ∀ j, j < len i → slot i j ≠ k) ∨
    ∃ i, i < m ∧ ∃ j, j < len i ∧ slot i j = k ∧
      forLoop m (fun i c => forLoop (len i)
        (fun j c => Function.update c (slot i j) (val i j)) c) d k = val i j := by
  induction m with
  | zero => exact Or.inl ⟨rfl, fun i hi => absurd hi (Nat.not_lt_zero i)⟩
  | succ m ih =>
    rw [forLoop_succ]
    rcases forLoop_update_cases (len m) (slot m) (val m)
      (forLoop m (fun i c => forLoop (len i)
        (fun j c => Function.update c (slot i j) (val i j)) c) d) k with ⟨h1, h2⟩ | ⟨j, hj, hs, hv⟩
    · rcases ih with ⟨g1, g2⟩ | ⟨i, hi, j, hj, hs, hv⟩
      · refine Or.inl ⟨h1.trans g1, fun i hi j hj => ?_⟩
        rcases Nat.lt_succ_iff_lt_or_eq.mp hi with hlt | heq
        · exact g2 i hlt j hj
        · subst heq; exact h2 j hj
      · exact Or.inr ⟨i, Nat.lt_succ_of_lt hi, j, hj, hs, h1.trans hv⟩
    · exact Or.inr ⟨m, Nat.lt_succ_self m, j, hj, hs, hv⟩

/-- With pairwise distinct slots every value is found at its slot after the loops. -/
theorem nested_update_slot (m : ℕ) (len : ℕ → ℕ) (slot : ℕ → ℕ → ℕ) (val : ℕ → ℕ → K)
    (d : ℕ → K)
    (hinj : ∀ i, i < m → ∀ j, j < len i → ∀ i', i' < m → ∀ j', j' < len i' →
      slot i j = slot i' j' → i = i' ∧ j = j')
    (i : ℕ) (hi : i < m) (j : ℕ) (hj : j < len i) :
    forLoop m (fun i c => forLoop (len i)
      (fun j c => Function.update c (slot i j) (val i j)) c) d (slot i j) = val i j := by
  rcases nested_update_cases m len slot val d (slot i j) with ⟨_, h2⟩ | ⟨i', hi', j', hj', hs, hv⟩
  · exact absurd rfl (h2 i hi j hj)
  · obtain ⟨h1, h2⟩ := hinj i' hi' j' hj' i hi j hj hs
    subst h1; subst h2; exact hv

/-- If every iteration stores the value that `c` has at the slot, the result agrees with `c`
at every slot and with the initial array everywhere else. -/
theorem nested_update_same (m : ℕ) (len : ℕ → ℕ) (slot : ℕ → ℕ → ℕ) (val : ℕ → ℕ → K)
    (d c : ℕ → K) (hval : ∀ i, i < m → ∀ j, j < len i → val i j = c (slot i j)) (k : ℕ) :
    (forLoop m (fun i c => forLoop (len i)
        (fun j c => Function.update c (slot i j) (val i j)) c) d k = d k ∧
      ∀ i, i < m → ∀ j, j < len i → slot i j ≠ k) ∨
    forLoop m (fun i c => forLoop (len i)
        (fun j c => Function.update c (slot i j) (val i j)) c) d k = c k := by
  rcases nested_update_cases m len slot val d k with h | ⟨i, hi, j, hj, hs, hv⟩
  · exact Or.inl h
  · exact Or.inr (by rw [hv, hval i hi j hj, hs])

theorem nested_update_congr (m : ℕ) (len : ℕ → ℕ) (slot : ℕ → ℕ → ℕ) (val val' : ℕ → ℕ → K)
    (d : ℕ → K) (hval : ∀ i, i < m → ∀ j, j < len i → val i j = val' i j) :
    forLoop m (fun i c => forLoop (len i)
        (fun j c => Function.update c (slot i j) (val i j)) c) d =
      forLoop m (fun i c => forLoop (len i)
        (fun j c => Function.update c (slot i j) (val' i j)) c) d := by
  refine forLoop_congr _ _ _ _ (fun i hi t => forLoop_congr _ _ _ _ (fun j hj u => ?_))
  rw [hval i hi j hj]

end Nested

section Stage
variable {K : Type} [Field K]

/-! ### Column stage, forward -/

/-- After `m` iterations of the forward column loop: the auxiliary buffer is untouched and
the coefficient array has received, column after column, the gathered and normalised values
of the transformed columns. -/
theorem z_forward_loop (root : ℕ → K) (e : FFT3D K) (gvec : Gvec_partition)
    (s : z_state K) (m : ℕ)
    (hz : ∀ i, i < m → ∀ j, j < (gvec.zcol i).z.length →
      (e.grid.coord_by_gvec (gvec.zfreq i j) 2).toNat < e.grid_.size 2) :
    (forLoop m (e.z_col_forward root gvec) s).aux = s.aux ∧
    (forLoop m (e.z_col_forward root gvec) s).data =
      forLoop m (fun i d => forLoop (gvec.zcol i).z.length
        (fun j d => Function.update d (gvec.zcol_offs i + j)
          (e.plan_forward_z root (fun k => s.aux (i * e.grid_.size 2 + k))
            (e.grid.coord_by_gvec (gvec.zfreq i j) 2).toNat * (1 / (e.size : K)))) d) s.data := by
  induction m with
  | zero => exact ⟨rfl, rfl⟩
  | succ m ih =>
    obtain ⟨iha, ihd⟩ := ih (fun i hi => hz i (Nat.lt_succ_of_lt hi))
    rw [forLoop_succ, forLoop_succ]
    refine ⟨iha, ?_⟩
    show e.z_store gvec m _ _ = _
    unfold FFT3D.z_store
    rw [ihd]
    refine forLoop_congr _ _ _ _ (fun j hj t => ?_)
    have hc := hz m (Nat.lt_succ_self m) j hj
    have : e.plan_forward_z root
        (copy_range (forLoop m (e.z_col_forward root gvec) s).aux (m * e.grid_.size 2)
          (e.grid_.size 2) (forLoop m (e.z_col_forward root gvec) s).fftw_buffer_z 0)
        (e.grid.coord_by_gvec (gvec.zfreq m j) 2).toNat =
      e.plan_forward_z root (fun k => s.aux (m * e.grid_.size 2 + k))
        (e.grid.coord_by_gvec (gvec.zfreq m j) 2).toNat := by
      unfold FFT3D.plan_forward_z
      refine fftw_dft_1d_congr _ _ _ _ (fun q hq => ?_) _ hc
      have := copy_range_inside (forLoop m (e.z_col_forward root gvec) s).aux
        (m * e.grid_.size 2) (e.grid_.size 2)
        (forLoop m (e.z_col_forward root gvec) s).fftw_buffer_z 0 q hq
      rw [Nat.zero_add] at this
      rw [this, iha]
    rw [this]

/-! ### `prepare` -/

/-- After `m` iterations of the loop of `prepare` the rows below `m` hold the positions. -/
theorem prepare_loop (grid : FFT3D_grid) (gvec : Gvec_partition) (t : ℕ → ℕ → ℤ) (m : ℕ) :
    ∀ i, i < m →
      forLoop m (FFT3D.prepare_col grid gvec) t i 0 =
          grid.coord_by_gvec (gvec.zcol i).x 0 +
            grid.coord_by_gvec (gvec.zcol i).y 1 * (grid.size 0 : ℤ) ∧
      (gvec.reduced = true →
        forLoop m (FFT3D.prepare_col grid gvec) t i 1 =
          grid.coord_by_gvec (-(gvec.zcol i).x) 0 +
            grid.coord_by_gvec (-(gvec.zcol i).y) 1 * (grid.size 0 : ℤ)) := by
  induction m with
  | zero => exact fun i hi => absurd hi (Nat.not_lt_zero i)
  | succ m ih =>
    intro i hi
    rw [forLoop_succ]
    rcases Nat.lt_succ_iff_lt_or_eq.mp hi with hlt | heq
    · have hne : i ≠ m := Nat.ne_of_lt hlt
      have : FFT3D.prepare_col grid gvec m (forLoop m (FFT3D.prepare_col grid gvec) t) i =
          forLoop m (FFT3D.prepare_col grid gvec) t i := by
        unfold FFT3D.prepare_col
        by_cases hr : gvec.reduced = true
        · simp [hr, Function.update_noteq hne]
        · simp [hr, Function.update_noteq hne]
      rw [this]
      exact ih i hlt
    · subst heq
      unfold FFT3D.prepare_col
      by_cases hr : gvec.reduced = true
      · simp [hr]
      · simp [hr]

end Stage

section Top
variable {K : Type} [Field K] [StarRing K]

theorem run_z_backward (root : ℕ → K) (ur : Bool) (e : FFT3D K) (gvec : Gvec_partition)
    (data : ℕ → K) (aux : mdarray K) :
    e.run_z root 1 ur gvec data aux =
      Except.ok
        ({ e with fftw_buffer_z_ :=
            (forLoop gvec.num_zcol (e.z_col_backward root ur gvec)
              ⟨e.fftw_buffer_z_, data, aux.data⟩).fftw_buffer_z },
          (forLoop gvec.num_zcol (e.z_col_backward root ur gvec)
              ⟨e.fftw_buffer_z_, data, aux.data⟩).data,
          ⟨aux.size, (forLoop gvec.num_zcol (e.z_col_backward root ur gvec)
              ⟨e.fftw_buffer_z_, data, aux.data⟩).aux⟩) := by
  unfold FFT3D.run_z
  rw [transform_z_serial_backward]
  rfl

theorem run_z_forward (root : ℕ → K) (ur : Bool) (e : FFT3D K) (gvec : Gvec_partition)
    (data : ℕ → K) (aux : mdarray K) :
    e.run_z root (-1) ur gvec data aux =
      Except.ok
        ({ e with fftw_buffer_z_ :=
            (forLoop gvec.num_zcol (e.z_col_forward root gvec)
              ⟨e.fftw_buffer_z_, data, aux.data⟩).fftw_buffer_z },
          (forLoop gvec.num_zcol (e.z_col_forward root gvec)
              ⟨e.fftw_buffer_z_, data, aux.data⟩).data,
          ⟨aux.size, (forLoop gvec.num_zcol (e.z_col_forward root gvec)
              ⟨e.fftw_buffer_z_, data, aux.data⟩).aux⟩) := by
  unfold FFT3D.run_z
  rw [transform_z_serial_forward]
  rfl

theorem run_xy_backward (root : ℕ → K) (ur : Bool) (e : FFT3D K) (gvec : Gvec_partition)
    (aux : mdarray K) :
    e.run_xy root 1 ur gvec aux =
      Except.ok
        ({ e with
            fftw_buffer_xy_ := (forLoop e.local_size_z_ (e.xy_plane_backward root ur gvec)
              ⟨e.fftw_buffer_xy_, e.fft_buffer_, aux.data⟩).fftw_buffer_xy
            fft_buffer_ := (forLoop e.local_size_z_ (e.xy_plane_backward root ur gvec)
              ⟨e.fftw_buffer_xy_, e.fft_buffer_, aux.data⟩).fft_buffer },
          ⟨aux.size, (forLoop e.local_size_z_ (e.xy_plane_backward root ur gvec)
              ⟨e.fftw_buffer_xy_, e.fft_buffer_, aux.data⟩).aux⟩) := by
  unfold FFT3D.run_xy
  rw [transform_xy_backward]
  rfl

theorem run_xy_forward (root : ℕ → K) (ur : Bool) (e : FFT3D K) (gvec : Gvec_partition)
    (aux : mdarray K) :
    e.run_xy root (-1) ur gvec aux =
      Except.ok
        ({ e with
            fftw_buffer_xy_ := (forLoop e.local_size_z_ (e.xy_plane_forward root gvec)
              ⟨e.fftw_buffer_xy_, e.fft_buffer_, aux.data⟩).fftw_buffer_xy
            fft_buffer_ := (forLoop e.local_size_z_ (e.xy_plane_forward root gvec)
              ⟨e.fftw_buffer_xy_, e.fft_buffer_, aux.data⟩).fft_buffer },
          ⟨aux.size, (forLoop e.local_size_z_ (e.xy_plane_forward root gvec)
              ⟨e.fftw_buffer_xy_, e.fft_buffer_, aux.data⟩).aux⟩) := by
  unfold FFT3D.run_xy
  rw [transform_xy_forward]
  rfl

/-- The backward transform of a prepared single-process engine returns; the coefficient array
is returned unchanged, the set-up of the engine is kept, and every plane of the main buffer
is the 2-D transform of the plane scattered from the transformed columns. -/
theorem transform_backward_spec (root : ℕ → K) (e : FFT3D K) (gvec : Gvec_partition)
    (data : ℕ → K) (hp : e.prepared_ = true) (hl : e.local_size_z_ = e.grid_.size 2) :
    ∃ r, e.transform root 1 gvec data = Except.ok r ∧ r.2 = data ∧
      r.1.grid_ = e.grid_ ∧ r.1.local_size_z_ = e.local_size_z_ ∧
      r.1.z_col_pos_ = e.z_col_pos_ ∧ r.1.prepared_ = true ∧
      ∀ iz, iz < e.grid_.size 2 → ∀ p, p < e.grid_.size 0 * e.grid_.size 1 →
        r.1.fft_buffer_ (iz * (e.grid_.size 0 * e.grid_.size 1) + p) =
          e.plan_backward_xy root
            (e.xy_load gvec.reduced gvec iz
              (fun idx => e.plan_backward_z root
                (e.z_load gvec.reduced gvec (idx / e.grid_.size 2) data (fun _ => 0))
                (idx % e.grid_.size 2))
              (fun _ => 0)) p := by
  unfold FFT3D.transform
  rw [if_neg (by simp [hp])]
  simp only [if_true, run_z_backward, run_xy_backward, Except.bind]
  refine ⟨_, rfl, ?_, rfl, rfl, rfl, hp, ?_⟩
  · exact (z_backward_loop root gvec.reduced _ gvec _ gvec.num_zcol).1
  · intro iz hiz p hp'
    set e0 : FFT3D K :=
      { e with fft_buffer_aux1_ := e.realloc (e.grid_.size 2 * gvec.num_zcol) e.fft_buffer_aux1_ }
      with he0
    obtain ⟨_, hza, _⟩ := z_backward_loop root gvec.reduced e0 gvec
      ⟨e0.fftw_buffer_z_, data, e0.fft_buffer_aux1_.data⟩ gvec.num_zcol
    set S1 := forLoop gvec.num_zcol (e0.z_col_backward root gvec.reduced gvec)
      ⟨e0.fftw_buffer_z_, data, e0.fft_buffer_aux1_.data⟩ with hS1
    set e1 : FFT3D K := { e0 with fftw_buffer_z_ := S1.fftw_buffer_z } with he1
    obtain ⟨hxa, hxb, _⟩ := xy_backward_loop root gvec.reduced e1 gvec
      ⟨e1.fftw_buffer_xy_, e1.fft_buffer_, S1.aux⟩ e1.local_size_z_
    have hiz' : iz < e1.local_size_z_ := by rw [← hl] at hiz; exact hiz
    have := hxb iz hiz' p hp'
    refine this.trans ?_
    have hN : 0 < e.grid_.size 2 := lt_of_le_of_lt (Nat.zero_le iz) hiz
    have hload : e1.xy_load gvec.reduced gvec iz S1.aux (fun _ => 0) =
        e.xy_load gvec.reduced gvec iz
          (fun idx => e.plan_backward_z root
            (e.z_load gvec.reduced gvec (idx / e.grid_.size 2) data (fun _ => 0))
            (idx % e.grid_.size 2)) (fun _ => 0) := by
      refine (xy_load_congr_aux gvec.reduced e1 gvec iz S1.aux
        (fun idx => e.plan_backward_z root
            (e.z_load gvec.reduced gvec (idx / e.grid_.size 2) data (fun _ => 0))
            (idx % e.grid_.size 2)) _ (fun i hi => ?_)).trans rfl
      show S1.aux (iz + i * e.local_size_z_) = _
      rw [hl, Nat.add_comm iz, hza i hi iz hiz]
      show e.plan_backward_z root (e.z_load gvec.reduced gvec i data fun _ => 0) iz =
        e.plan_backward_z root
          (e.z_load gvec.reduced gvec ((i * e.grid_.size 2 + iz) / e.grid_.size 2) data
            (fun _ => 0)) ((i * e.grid_.size 2 + iz) % e.grid_.size 2)
      rw [Nat.add_comm, Nat.add_mul_div_right _ _ hN, Nat.div_eq_of_lt hiz, Nat.zero_add,
        Nat.add_mul_mod_self_right, Nat.mod_eq_of_lt hiz]
    show e.plan_backward_xy root _ p = _
    rw [hload]

end Top

section Top
variable {K : Type} [Field K] [StarRing K]

/-- The forward transform of a prepared single-process engine returns; the main buffer and the
set-up are kept, and the coefficient array receives, column after column, the normalised
z-transform of the xy-transformed planes at the column's position. -/
theorem transform_forward_spec (root : ℕ → K) (e : FFT3D K) (gvec : Gvec_partition)
    (data : ℕ → K) (hp : e.prepared_ = true) (hl : e.local_size_z_ = e.grid_.size 2)
    (hpos : ∀ i, i < gvec.num_zcol →
      (e.z_col_pos_.data i 0).toNat < e.grid_.size 0 * e.grid_.size 1)
    (hz : ∀ i, i < gvec.num_zcol → ∀ j, j < (gvec.zcol i).z.length →
      (e.grid.coord_by_gvec (gvec.zfreq i j) 2).toNat < e.grid_.size 2) :
    ∃ r, e.transform root (-1) gvec data = Except.ok r ∧
      r.1.fft_buffer_ = e.fft_buffer_ ∧
      r.1.grid_ = e.grid_ ∧ r.1.local_size_z_ = e.local_size_z_ ∧
      r.1.z_col_pos_ = e.z_col_pos_ ∧ r.1.prepared_ = true ∧
      r.2 = forLoop gvec.num_zcol (fun i d => forLoop (gvec.zcol i).z.length
        (fun j d => Function.update d (gvec.zcol_offs i + j)
          (e.plan_forward_z root
            (fun k => e.plan_forward_xy root
              (fun p => e.fft_buffer_ (k * (e.grid_.size 0 * e.grid_.size 1) + p))
              (e.z_col_pos_.data i 0).toNat)
            (e.grid.coord_by_gvec (gvec.zfreq i j) 2).toNat * (1 / (e.size : K)))) d) data := by
  unfold FFT3D.transform
  rw [if_neg (by simp [hp])]
  simp only [show ((-1 : ℤ) = 1) = False from by decide, if_false, if_true, run_z_forward,
    run_xy_forward, Except.bind]
  set e0 : FFT3D K :=
    { e with fft_buffer_aux1_ := e.realloc (e.grid_.size 2 * gvec.num_zcol) e.fft_buffer_aux1_ }
    with he0
  obtain ⟨hxb, hxa, _⟩ := xy_forward_loop root e0 gvec hpos
    ⟨e0.fftw_buffer_xy_, e0.fft_buffer_, e0.fft_buffer_aux1_.data⟩ e0.local_size_z_ (le_refl _)
  set S1 := forLoop e0.local_size_z_ (e0.xy_plane_forward root gvec)
    ⟨e0.fftw_buffer_xy_, e0.fft_buffer_, e0.fft_buffer_aux1_.data⟩ with hS1
  set e1 : FFT3D K :=
    { e0 with fftw_buffer_xy_ := S1.fftw_buffer_xy, fft_buffer_ := S1.fft_buffer } with he1
  obtain ⟨_, hzd⟩ := z_forward_loop root e1 gvec ⟨e1.fftw_buffer_z_, data, S1.aux⟩
    gvec.num_zcol hz
  refine ⟨_, rfl, hxb, rfl, rfl, rfl, hp, ?_⟩
  refine hzd.trans ?_
  refine nested_update_congr _ _ _ _ _ _ (fun i hi j hj => ?_)
  have hc : (e.grid.coord_by_gvec (gvec.zfreq i j) 2).toNat < e.grid_.size 2 := hz i hi j hj
  have : e1.plan_forward_z root (fun k => S1.aux (i * e1.grid_.size 2 + k))
      (e1.grid.coord_by_gvec (gvec.zfreq i j) 2).toNat =
    e.plan_forward_z root
      (fun k => e.plan_forward_xy root
        (fun p => e.fft_buffer_ (k * (e.grid_.size 0 * e.grid_.size 1) + p))
        (e.z_col_pos_.data i 0).toNat)
      (e.grid.coord_by_gvec (gvec.zfreq i j) 2).toNat := by
    show fftw_dft_1d _ (e.grid_.size 2) _ (e.grid.coord_by_gvec (gvec.zfreq i j) 2).toNat =
      fftw_dft_1d _ (e.grid_.size 2) _ (e.grid.coord_by_gvec (gvec.zfreq i j) 2).toNat
    refine fftw_dft_1d_congr _ _ _ _ (fun k hk => ?_) _ hc
    have hk' : k < e0.local_size_z_ := by rw [← hl] at hk; exact hk
    have := hxa k hk' i hi
    show S1.aux (i * e.grid_.size 2 + k) = _
    rw [Nat.add_comm, ← hl]
    exact this
  show e1.plan_forward_z root (fun k => S1.aux (i * e1.grid_.size 2 + k))
      (e1.grid.coord_by_gvec (gvec.zfreq i j) 2).toNat * (1 / (e1.size : K)) = _
  rw [this]
  rfl

end Top

section Coord

theorem coord_by_gvec_range (g : FFT3D_grid) (i : ℤ) (d : ℕ) (h : g.on_grid i d) :
    0 ≤ g.coord_by_gvec i d ∧ g.coord_by_gvec i d < (g.size d : ℤ) := by
  unfold FFT3D_grid.on_grid at h
  unfold FFT3D_grid.coord_by_gvec
  split_ifs <;> omega

theorem coord_by_gvec_toNat_lt (g : FFT3D_grid) (i : ℤ) (d : ℕ) (h : g.on_grid i d) :
    (g.coord_by_gvec i d).toNat < g.size d := by
  have := coord_by_gvec_range g i d h
  omega

/-- The linear position of the coordinate pair `(cx, cy)` inside an `nx × ny` plane. -/
theorem plane_pos_toNat (cx cy : ℤ) (nx : ℕ) (hx : 0 ≤ cx) (hy : 0 ≤ cy) :
    (cx + cy * (nx : ℤ)).toNat = cy.toNat * nx + cx.toNat := by
  lift cx to ℕ using hx
  lift cy to ℕ using hy
  have : ((cx : ℤ) + (cy : ℤ) * (nx : ℤ)) = ((cy * nx + cx : ℕ) : ℤ) := by push_cast; ring
  rw [this]
  exact Int.toNat_natCast _

theorem row_major_div (a b n : ℕ) (hb : b < n) : (a * n + b) / n = a := by
  have hn : 0 < n := lt_of_le_of_lt (Nat.zero_le b) hb
  rw [Nat.add_comm, Nat.add_mul_div_right _ _ hn, Nat.div_eq_of_lt hb, Nat.zero_add]

theorem row_major_mod (a b n : ℕ) (hb : b < n) : (a * n + b) % n = b := by
  rw [Nat.add_comm, Nat.add_mul_mod_self_right, Nat.mod_eq_of_lt hb]

theorem row_major_inj (a b a' b' n : ℕ) (hb : b < n) (hb' : b' < n)
    (h : a * n + b = a' * n + b') : a = a' ∧ b = b' := by
  have h1 := row_major_div a b n hb
  have h2 := row_major_mod a b n hb
  rw [h, row_major_div a' b' n hb'] at h1
  rw [h, row_major_mod a' b' n hb'] at h2
  exact ⟨h1.symm, h2.symm⟩

end Coord

section Table
variable {K : Type} [Field K] [StarRing K]

omit [Field K] [StarRing K] in
theorem prepare_pos0 (e : FFT3D K) (gvec : Gvec_partition) (i : ℕ) (hi : i < gvec.num_zcol) :
    (e.prepare gvec).z_col_pos_.data i 0 =
      e.grid_.coord_by_gvec (gvec.zcol i).x 0 +
        e.grid_.coord_by_gvec (gvec.zcol i).y 1 * (e.grid_.size 0 : ℤ) :=
  (prepare_loop e.grid_ gvec _ gvec.num_zcol i hi).1

omit [Field K] [StarRing K] in
theorem prepare_pos1 (e : FFT3D K) (gvec : Gvec_partition) (hr : gvec.reduced = true) (i : ℕ)
    (hi : i < gvec.num_zcol) :
    (e.prepare gvec).z_col_pos_.data i 1 =
      e.grid_.coord_by_gvec (-(gvec.zcol i).x) 0 +
        e.grid_.coord_by_gvec (-(gvec.zcol i).y) 1 * (e.grid_.size 0 : ℤ) :=
  (prepare_loop e.grid_ gvec _ gvec.num_zcol i hi).2 hr

omit [Field K] [StarRing K] in
/-- The natural-number position of column `i` in the plane after `prepare`. -/
theorem prepare_pos0_toNat (e : FFT3D K) (gvec : Gvec_partition) (hfit : gvec.fits e.grid_)
    (i : ℕ) (hi : i < gvec.num_zcol) :
    ((e.prepare gvec).z_col_pos_.data i 0).toNat =
      (e.grid_.coord_by_gvec (gvec.zcol i).y 1).toNat * e.grid_.size 0 +
        (e.grid_.coord_by_gvec (gvec.zcol i).x 0).toNat := by
  rw [prepare_pos0 e gvec i hi]
  exact plane_pos_toNat _ _ _ (coord_by_gvec_range _ _ _ (hfit i hi).1).1
    (coord_by_gvec_range _ _ _ (hfit i hi).2.1).1

omit [Field K] [StarRing K] in
theorem prepare_pos0_lt (e : FFT3D K) (gvec : Gvec_partition) (hfit : gvec.fits e.grid_)
    (i : ℕ) (hi : i < gvec.num_zcol) :
    ((e.prepare gvec).z_col_pos_.data i 0).toNat < e.grid_.size 1 * e.grid_.size 0 := by
  rw [prepare_pos0_toNat e gvec hfit i hi]
  exact block_index_lt _ _ _ _ (coord_by_gvec_toNat_lt _ _ _ (hfit i hi).2.1)
    (coord_by_gvec_toNat_lt _ _ _ (hfit i hi).1)

omit [Field K] [StarRing K] in
theorem prepare_pos0_inj (e : FFT3D K) (gvec : Gvec_partition) (hfit : gvec.fits e.grid_)
    (hcol : gvec.distinct_columns e.grid_) (i : ℕ) (hi : i < gvec.num_zcol) (l : ℕ)
    (hl : l < gvec.num_zcol)
    (h : ((e.prepare gvec).z_col_pos_.data i 0).toNat =
      ((e.prepare gvec).z_col_pos_.data l 0).toNat) : i = l := by
  rw [prepare_pos0_toNat e gvec hfit i hi, prepare_pos0_toNat e gvec hfit l hl] at h
  obtain ⟨h1, h2⟩ := row_major_inj _ _ _ _ _ (coord_by_gvec_toNat_lt _ _ _ (hfit i hi).1)
    (coord_by_gvec_toNat_lt _ _ _ (hfit l hl).1) h
  have rx := coord_by_gvec_range _ _ _ (hfit i hi).1
  have rx' := coord_by_gvec_range _ _ _ (hfit l hl).1
  have ry := coord_by_gvec_range _ _ _ (hfit i hi).2.1
  have ry' := coord_by_gvec_range _ _ _ (hfit l hl).2.1
  exact hcol i hi l hl (by omega) (by omega)

/-! ### The backward transform on a non-reduced partition, value by value -/

/-- The transformed column `i` of a non-reduced partition at height `z`. -/
theorem z_column_value (root : ℕ → K) (e : FFT3D K) (gvec : Gvec_partition) (data : ℕ → K)
    (hfit : gvec.fits e.grid_) (hdz : gvec.distinct_z e.grid_) (i : ℕ) (hi : i < gvec.num_zcol)
    (z : ℕ) (hz : z < e.grid_.size 2) :
    e.plan_backward_z root (e.z_load false gvec i data (fun _ => 0)) z =
      ∑ j ∈ range (gvec.zcol i).z.length,
        data (gvec.zcol_offs i + j) *
          root (e.grid_.size 2) ^ ((e.grid_.coord_by_gvec (gvec.zfreq i j) 2).toNat * z) := by
  unfold FFT3D.plan_backward_z fftw_dft_1d FFT3D.z_load
  rw [if_pos hz, if_neg (by simp)]
  have htw : fftw_twiddle root (e.grid_.size 2) 1 = root (e.grid_.size 2) := by
    unfold fftw_twiddle; rw [if_pos rfl]
  rw [htw]
  exact sum_forLoop_update (e.grid_.size 2) _
    (fun j => (e.grid_.coord_by_gvec (gvec.zfreq i j) 2).toNat)
    (fun j => data (gvec.zcol_offs i + j)) (fun _ => 0)
    (fun k => root (e.grid_.size 2) ^ (k * z)) (fun _ _ => rfl)
    (fun j hj l hl h => by
      have r1 := coord_by_gvec_range _ _ _ ((hfit i hi).2.2 j hj)
      have r2 := coord_by_gvec_range _ _ _ ((hfit i hi).2.2 l hl)
      have h' : (e.grid_.coord_by_gvec (gvec.zfreq i j) 2).toNat =
        (e.grid_.coord_by_gvec (gvec.zfreq i l) 2).toNat := h
      exact hdz i hi j hj l hl (by omega))
    (fun j hj => coord_by_gvec_toNat_lt _ _ _ ((hfit i hi).2.2 j hj))

/-- The backward transform on a non-reduced partition is the plane-wave sum over the stored
coefficients, written with the twiddle factors of the three plans. -/
theorem backward_value (root : ℕ → K) (e : FFT3D K) (gvec : Gvec_partition) (data : ℕ → K)
    (hl : e.local_size_z_ = e.grid_.size 2) (hred : gvec.reduced = false)
    (hfit : gvec.fits e.grid_) (hcol : gvec.distinct_columns e.grid_)
    (hdz : gvec.distinct_z e.grid_)
    (x y z : ℕ) (hx : x < e.grid_.size 0) (hy : y < e.grid_.size 1) (hz : z < e.grid_.size 2) :
    ∃ r, (e.prepare gvec).transform root 1 gvec data = Except.ok r ∧ r.2 = data ∧
      r.1.fft_buffer_ (z * (e.grid_.size 0 * e.grid_.size 1) + (y * e.grid_.size 0 + x)) =
        ∑ i ∈ range gvec.num_zcol, ∑ j ∈ range (gvec.zcol i).z.length,
          data (gvec.zcol_offs i + j) *
            (root (e.grid_.size 2) ^ ((e.grid_.coord_by_gvec (gvec.zfreq i j) 2).toNat * z) *
              (root (e.grid_.size 1) ^ ((e.grid_.coord_by_gvec (gvec.zcol i).y 1).toNat * y) *
                root (e.grid_.size 0) ^ ((e.grid_.coord_by_gvec (gvec.zcol i).x 0).toNat * x))) := by
  obtain ⟨r, hr, hdata, _, _, _, _, hbuf⟩ :=
    transform_backward_spec root (e.prepare gvec) gvec data rfl hl
  refine ⟨r, hr, hdata, ?_⟩
  have hp : y * e.grid_.size 0 + x < e.grid_.size 0 * e.grid_.size 1 := by
    rw [Nat.mul_comm (e.grid_.size 0)]; exact block_index_lt _ _ _ _ hy hx
  have hp' : y * e.grid_.size 0 + x < e.grid_.size 1 * e.grid_.size 0 :=
    block_index_lt _ _ _ _ hy hx
  have hb := hbuf z hz _ hp
  have hg : (e.prepare gvec).grid_ = e.grid_ := rfl
  rw [hg] at hb
  rw [hb]
  unfold FFT3D.plan_backward_xy
  rw [hg, fftw_dft_2d_eq_sum _ _ _ _ _ _ hp', xy_load_eq, hred]
  have htw : ∀ n, fftw_twiddle root n 1 = root n := fun n => by
    unfold fftw_twiddle; rw [if_pos rfl]
  simp only [htw, Bool.false_eq_true, false_and, if_false]
  rw [sum_forLoop_update (e.grid_.size 1 * e.grid_.size 0) gvec.num_zcol
    (fun i => ((e.prepare gvec).z_col_pos_.data i 0).toNat) _ (fun _ => 0) _ (fun _ _ => rfl)
    (fun i hi l hl h => prepare_pos0_inj e gvec hfit hcol i hi l hl h)
    (fun i hi => prepare_pos0_lt e gvec hfit i hi)]
  refine sum_congr rfl (fun i hi => ?_)
  have hi' : i < gvec.num_zcol := mem_range.mp hi
  have hlz : (e.prepare gvec).local_size_z_ = e.grid_.size 2 := hl
  rw [hlz, row_major_div _ _ _ hx, row_major_mod _ _ _ hx, prepare_pos0_toNat e gvec hfit i hi',
    row_major_div _ _ _ (coord_by_gvec_toNat_lt _ _ _ (hfit i hi').1),
    row_major_mod _ _ _ (coord_by_gvec_toNat_lt _ _ _ (hfit i hi').1),
    Nat.add_comm z, row_major_div _ _ _ hz, row_major_mod _ _ _ hz]
  have hzc := z_column_value root (e.prepare gvec) gvec data hfit hdz i hi' z hz
  rw [hg] at hzc
  rw [hred] at *
  rw [hzc, sum_mul]
  exact sum_congr rfl (fun j _ => by ring)

end Table

section Cx

theorem on_grid_size_pos (g : FFT3D_grid) (i : ℤ) (d : ℕ) (h : g.on_grid i d) : 0 < g.size d := by
  unfold FFT3D_grid.on_grid at h
  omega

/-- A power of the backward twiddle factor is the plane wave of the signed frequency. -/
theorem twiddle_pow_eq_exp (root : ℕ → ℂ) (hroot : exact_dft root) (g : FFT3D_grid) (i : ℤ)
    (d : ℕ) (h : g.on_grid i d) (k : ℕ) :
    root (g.size d) ^ ((g.coord_by_gvec i d).toNat * k) =
      Complex.exp (2 * (Real.pi : ℂ) * Complex.I * ((i : ℂ) * (k : ℂ) / (g.size d : ℂ))) := by
  have hN : (g.size d : ℂ) ≠ 0 := by
    exact_mod_cast Nat.pos_iff_ne_zero.mp (on_grid_size_pos g i d h)
  have hr := coord_by_gvec_range g i d h
  rw [hroot, ← Complex.exp_nat_mul]
  have hcast : (((g.coord_by_gvec i d).toNat * k : ℕ) : ℂ) =
      ((g.coord_by_gvec i d : ℤ) : ℂ) * (k : ℂ) := by
    rw [Nat.cast_mul]
    congr 1
    have : ((g.coord_by_gvec i d).toNat : ℤ) = g.coord_by_gvec i d := Int.toNat_of_nonneg hr.1
    exact_mod_cast congrArg (fun t : ℤ => (t : ℂ)) this
  rw [hcast]
  unfold FFT3D_grid.coord_by_gvec
  split_ifs with hneg
  · have hsplit : ((i + (g.size d : ℤ) : ℤ) : ℂ) * (k : ℂ) *
        (2 * (Real.pi : ℂ) * Complex.I / (g.size d : ℂ)) =
        2 * (Real.pi : ℂ) * Complex.I * ((i : ℂ) * (k : ℂ) / (g.size d : ℂ)) +
          (k : ℂ) * (2 * (Real.pi : ℂ) * Complex.I) := by
      push_cast
      field_simp
      ring
    rw [hsplit, Complex.exp_add, Complex.exp_nat_mul_two_pi_mul_I, mul_one]
  · congr 1
    field_simp
    ring

/-- A power of the forward twiddle factor is the conjugate plane wave. -/
theorem twiddle_inv_pow_eq_exp (root : ℕ → ℂ) (hroot : exact_dft root) (g : FFT3D_grid) (i : ℤ)
    (d : ℕ) (h : g.on_grid i d) (k : ℕ) :
    (root (g.size d))⁻¹ ^ (k * (g.coord_by_gvec i d).toNat) =
      Complex.exp (-(2 * (Real.pi : ℂ) * Complex.I * ((i : ℂ) * (k : ℂ) / (g.size d : ℂ)))) := by
  rw [inv_pow, Nat.mul_comm, twiddle_pow_eq_exp root hroot g i d h k, Complex.exp_neg]

theorem exact_dft_primitive (root : ℕ → ℂ) (hroot : exact_dft root) (n : ℕ) (hn : 0 < n) :
    IsPrimitiveRoot (root n) n := by
  rw [hroot]
  exact Complex.isPrimitiveRoot_exp n (Nat.pos_iff_ne_zero.mp hn)

end Cx

/-- C1. On a single-process CPU engine, for every grid and every non-reduced partition whose
stored frequencies lie on the grid, whose columns have pairwise distinct `(x, y)` grid
coordinates and whose z-frequencies inside a column have pairwise distinct grid coordinates,
after `prepare` the backward transform of `c` returns and leaves in the main buffer at index
`x + y * sizeX + z * sizeX * sizeY` the sum over all stored coefficients `G = (Gx, Gy, Gz)` of
`c(G) * exp (2 π i (Gx x / sizeX + Gy y / sizeY + Gz z / sizeZ))`, without any normalisation
factor (the FFTW plans taken as exact complex DFTs). -/
theorem C1_backward_is_plane_wave_sum (root : ℕ → ℂ) (hroot : exact_dft root) (e : FFT3D ℂ)
    (gvec : Gvec_partition) (c : ℕ → ℂ)
    (hl : e.local_size_z_ = e.grid_.size 2) (hred : gvec.reduced = false)
    (hfit : gvec.fits e.grid_) (hcol : gvec.distinct_columns e.grid_)
    (hdz : gvec.distinct_z e.grid_)
    (x y z : ℕ) (hx : x < e.grid_.size 0) (hy : y < e.grid_.size 1) (hz : z < e.grid_.size 2) :
    ∃ r, (e.prepare gvec).transform root 1 gvec c = Except.ok r ∧
      r.1.fft_buffer_ (x + y * e.grid_.size 0 + z * e.grid_.size 0 * e.grid_.size 1) =
        ∑ i ∈ range gvec.num_zcol, ∑ j ∈ range (gvec.zcol i).z.length,
          c (gvec.zcol_offs i + j) *
            Complex.exp (2 * (Real.pi : ℂ) * Complex.I *
              (((gvec.zcol i).x : ℂ) * (x : ℂ) / (e.grid_.size 0 : ℂ) +
                ((gvec.zcol i).y : ℂ) * (y : ℂ) / (e.grid_.size 1 : ℂ) +
                (gvec.zfreq i j : ℂ) * (z : ℂ) / (e.grid_.size 2 : ℂ))) := by
  obtain ⟨r, hr, _, hbuf⟩ := backward_value root e gvec c hl hred hfit hcol hdz x y z hx hy hz
  refine ⟨r, hr, ?_⟩
  have hidx : x + y * e.grid_.size 0 + z * e.grid_.size 0 * e.grid_.size 1 =
      z * (e.grid_.size 0 * e.grid_.size 1) + (y * e.grid_.size 0 + x) := by ring
  rw [hidx, hbuf]
  refine sum_congr rfl (fun i hi => sum_congr rfl (fun j hj => ?_))
  have hi' := mem_range.mp hi
  have hj' := mem_range.mp hj
  rw [twiddle_pow_eq_exp root hroot _ _ _ ((hfit i hi').2.2 j hj') z,
    twiddle_pow_eq_exp root hroot _ _ _ (hfit i hi').2.1 y,
    twiddle_pow_eq_exp root hroot _ _ _ (hfit i hi').1 x,
    ← Complex.exp_add, ← Complex.exp_add]
  congr 2
  ring

section DC
variable {K : Type} [Field K] [StarRing K]

/-- A coefficient array that is `v` at `G = 0` and zero at every other stored coefficient is
transformed backward to the constant field `v`. -/
theorem backward_dc_value (root : ℕ → K) (e : FFT3D K) (gvec : Gvec_partition) (data : ℕ → K)
    (v : K) (hl : e.local_size_z_ = e.grid_.size 2) (hred : gvec.reduced = false)
    (hfit : gvec.fits e.grid_) (hcol : gvec.distinct_columns e.grid_)
    (hdz : gvec.distinct_z e.grid_)
    (hdc : ∃ i, i < gvec.num_zcol ∧ ∃ j, j < (gvec.zcol i).z.length ∧
      (gvec.zcol i).x = 0 ∧ (gvec.zcol i).y = 0 ∧ gvec.zfreq i j = 0)
    (hdata : ∀ i, i < gvec.num_zcol → ∀ j, j < (gvec.zcol i).z.length →
      data (gvec.zcol_offs i + j) =
        if (gvec.zcol i).x = 0 ∧ (gvec.zcol i).y = 0 ∧ gvec.zfreq i j = 0 then v else 0)
    (x y z : ℕ) (hx : x < e.grid_.size 0) (hy : y < e.grid_.size 1) (hz : z < e.grid_.size 2) :
    ∃ r, (e.prepare gvec).transform root 1 gvec data = Except.ok r ∧
      r.1.fft_buffer_ (z * (e.grid_.size 0 * e.grid_.size 1) + (y * e.grid_.size 0 + x)) = v := by
  obtain ⟨r, hr, _, hbuf⟩ := backward_value root e gvec data hl hred hfit hcol hdz x y z hx hy hz
  refine ⟨r, hr, ?_⟩
  obtain ⟨i0, hi0, j0, hj0, hx0, hy0, hz0⟩ := hdc
  have hc0 : ∀ d, e.grid_.coord_by_gvec 0 d = 0 := fun d => by
    unfold FFT3D_grid.coord_by_gvec; simp
  rw [hbuf, sum_eq_single i0, sum_eq_single j0]
  · rw [hdata i0 hi0 j0 hj0, if_pos ⟨hx0, hy0, hz0⟩, hx0, hy0, hz0]
    simp [hc0]
  · intro j hj hne
    have hj' := mem_range.mp hj
    rw [hdata i0 hi0 j hj', if_neg, zero_mul]
    rintro ⟨_, _, hzj⟩
    exact hne (hdz i0 hi0 j hj' j0 hj0 (by rw [hzj, hz0]))
  · intro hj; exact absurd (mem_range.mpr hj0) hj
  · intro i hi hne
    have hi' := mem_range.mp hi
    refine sum_eq_zero (fun j hj => ?_)
    rw [hdata i hi' j (mem_range.mp hj), if_neg, zero_mul]
    rintro ⟨hxi, hyi, _⟩
    exact hne (hcol i hi' i0 hi0 (by rw [hxi, hx0]) (by rw [hyi, hy0]))
  · intro hi; exact absurd (mem_range.mpr hi0) hi

end DC

section Fwd
variable {K : Type} [Field K] [StarRing K]

omit [StarRing K] in
theorem fftw_twiddle_forward (root : ℕ → K) (n : ℕ) : fftw_twiddle root n (-1) = (root n)⁻¹ := by
  unfold fftw_twiddle
  rw [if_neg (by decide)]

omit [StarRing K] in
theorem fftw_twiddle_backward (root : ℕ → K) (n : ℕ) : fftw_twiddle root n 1 = root n := by
  unfold fftw_twiddle
  rw [if_pos rfl]

omit [StarRing K] in
/-- The value that the forward transform computes for the coefficient `j` of column `i`. -/
theorem forward_entry (root : ℕ → K) (e : FFT3D K) (gvec : Gvec_partition)
    (hfit : gvec.fits e.grid_) (i : ℕ) (hi : i < gvec.num_zcol) (j : ℕ)
    (hj : j < (gvec.zcol i).z.length) :
    (e.prepare gvec).plan_forward_z root
        (fun k => (e.prepare gvec).plan_forward_xy root
          (fun p => e.fft_buffer_ (k * (e.grid_.size 0 * e.grid_.size 1) + p))
          ((e.prepare gvec).z_col_pos_.data i 0).toNat)
        (e.grid_.coord_by_gvec (gvec.zfreq i j) 2).toNat * (1 / (e.size : K)) =
      (∑ z ∈ range (e.grid_.size 2),
        (∑ y ∈ range (e.grid_.size 1), ∑ x ∈ range (e.grid_.size 0),
          e.fft_buffer_ (z * (e.grid_.size 0 * e.grid_.size 1) + (y * e.grid_.size 0 + x)) *
            ((root (e.grid_.size 1))⁻¹ ^ (y * (e.grid_.coord_by_gvec (gvec.zcol i).y 1).toNat) *
              (root (e.grid_.size 0))⁻¹ ^ (x * (e.grid_.coord_by_gvec (gvec.zcol i).x 0).toNat))) *
          (root (e.grid_.size 2))⁻¹ ^ (z * (e.grid_.coord_by_gvec (gvec.zfreq i j) 2).toNat)) *
        (1 / (e.size : K)) := by
  have hg : (e.prepare gvec).grid_ = e.grid_ := rfl
  have hcz := coord_by_gvec_toNat_lt _ _ _ ((hfit i hi).2.2 j hj)
  unfold FFT3D.plan_forward_z FFT3D.plan_forward_xy fftw_dft_1d
  rw [hg, if_pos hcz]
  simp only [fftw_twiddle_forward]
  congr 1
  refine sum_congr rfl (fun z _ => ?_)
  rw [fftw_dft_2d_apply _ _ _ _ _ _ (prepare_pos0_lt e gvec hfit i hi),
    prepare_pos0_toNat e gvec hfit i hi,
    row_major_div _ _ _ (coord_by_gvec_toNat_lt _ _ _ (hfit i hi).1),
    row_major_mod _ _ _ (coord_by_gvec_toNat_lt _ _ _ (hfit i hi).1)]

/-- The forward transform, value by value: every stored coefficient receives the normalised
triple sum written with the twiddle factors of the three plans. -/
theorem forward_value (root : ℕ → K) (e : FFT3D K) (gvec : Gvec_partition) (out : ℕ → K)
    (hl : e.local_size_z_ = e.grid_.size 2)
    (hfit : gvec.fits e.grid_) (hslot : gvec.distinct_slots)
    (i : ℕ) (hi : i < gvec.num_zcol) (j : ℕ) (hj : j < (gvec.zcol i).z.length) :
    ∃ r, (e.prepare gvec).transform root (-1) gvec out = Except.ok r ∧
      r.1.fft_buffer_ = e.fft_buffer_ ∧
      r.2 (gvec.zcol_offs i + j) =
        (∑ z ∈ range (e.grid_.size 2),
          (∑ y ∈ range (e.grid_.size 1), ∑ x ∈ range (e.grid_.size 0),
            e.fft_buffer_ (z * (e.grid_.size 0 * e.grid_.size 1) + (y * e.grid_.size 0 + x)) *
              ((root (e.grid_.size 1))⁻¹ ^ (y * (e.grid_.coord_by_gvec (gvec.zcol i).y 1).toNat) *
                (root (e.grid_.size 0))⁻¹ ^
                  (x * (e.grid_.coord_by_gvec (gvec.zcol i).x 0).toNat))) *
            (root (e.grid_.size 2))⁻¹ ^ (z * (e.grid_.coord_by_gvec (gvec.zfreq i j) 2).toNat)) *
          (1 / (e.size : K)) := by
  obtain ⟨r, hr, hbuf, _, _, _, _, hdata⟩ :=
    transform_forward_spec root (e.prepare gvec) gvec out rfl hl
      (fun i hi => by
        have := prepare_pos0_lt e gvec hfit i hi
        rw [Nat.mul_comm] at this
        exact this)
      (fun i hi j hj => coord_by_gvec_toNat_lt _ _ _ ((hfit i hi).2.2 j hj))
  refine ⟨r, hr, hbuf, ?_⟩
  rw [hdata]
  have := nested_update_slot gvec.num_zcol (fun i => (gvec.zcol i).z.length)
    (fun i j => gvec.zcol_offs i + j)
    (fun i j => (e.prepare gvec).plan_forward_z root
        (fun k => (e.prepare gvec).plan_forward_xy root
          (fun p => (e.prepare gvec).fft_buffer_
            (k * ((e.prepare gvec).grid_.size 0 * (e.prepare gvec).grid_.size 1) + p))
          ((e.prepare gvec).z_col_pos_.data i 0).toNat)
        ((e.prepare gvec).grid.coord_by_gvec (gvec.zfreq i j) 2).toNat *
          (1 / ((e.prepare gvec).size : K)))
    out hslot i hi j hj
  refine this.trans ?_
  exact forward_entry root e gvec hfit i hi j hj

end Fwd

/-- C2. On a single-process CPU engine, for every partition (reduced or not) whose stored
frequencies lie on the grid and whose coefficients occupy pairwise distinct entries of the
coefficient array, for every main-buffer content `f` and every stored coefficient
`G = (Gx, Gy, Gz)`, after `prepare` the forward transform returns and the output coefficient
of `G` is `1 / (sizeX * sizeY * sizeZ)` times the sum over all grid points `(x, y, z)` of
`f(x, y, z) * exp (-2 π i (Gx x / sizeX + Gy y / sizeY + Gz z / sizeZ))`. -/
theorem C2_forward_is_normalised_sum (root : ℕ → ℂ) (hroot : exact_dft root) (e : FFT3D ℂ)
    (gvec : Gvec_partition) (out : ℕ → ℂ)
    (hl : e.local_size_z_ = e.grid_.size 2)
    (hfit : gvec.fits e.grid_) (hslot : gvec.distinct_slots)
    (i : ℕ) (hi : i < gvec.num_zcol) (j : ℕ) (hj : j < (gvec.zcol i).z.length) :
    ∃ r, (e.prepare gvec).transform root (-1) gvec out = Except.ok r ∧
      r.2 (gvec.zcol_offs i + j) =
        (1 / ((e.grid_.size 0 : ℂ) * (e.grid_.size 1 : ℂ) * (e.grid_.size 2 : ℂ))) *
          ∑ z ∈ range (e.grid_.size 2), ∑ y ∈ range (e.grid_.size 1),
            ∑ x ∈ range (e.grid_.size 0),
              e.fft_buffer_ (x + y * e.grid_.size 0 + z * e.grid_.size 0 * e.grid_.size 1) *
                Complex.exp (-(2 * (Real.pi : ℂ) * Complex.I *
                  (((gvec.zcol i).x : ℂ) * (x : ℂ) / (e.grid_.size 0 : ℂ) +
                    ((gvec.zcol i).y : ℂ) * (y : ℂ) / (e.grid_.size 1 : ℂ) +
                    (gvec.zfreq i j : ℂ) * (z : ℂ) / (e.grid_.size 2 : ℂ)))) := by
  obtain ⟨r, hr, _, hval⟩ := forward_value root e gvec out hl hfit hslot i hi j hj
  refine ⟨r, hr, ?_⟩
  rw [hval, mul_comm]
  congr 1
  · unfold FFT3D.size FFT3D_grid.size_total
    push_cast
    rfl
  · refine sum_congr rfl (fun z _ => ?_)
    rw [sum_mul]
    refine sum_congr rfl (fun y _ => ?_)
    rw [sum_mul]
    refine sum_congr rfl (fun x _ => ?_)
    rw [twiddle_inv_pow_eq_exp root hroot _ _ _ ((hfit i hi).2.2 j hj) z,
      twiddle_inv_pow_eq_exp root hroot _ _ _ (hfit i hi).2.1 y,
      twiddle_inv_pow_eq_exp root hroot _ _ _ (hfit i hi).1 x, mul_assoc,
      ← Complex.exp_add, ← Complex.exp_add]
    have hidx : x + y * e.grid_.size 0 + z * e.grid_.size 0 * e.grid_.size 1 =
        z * (e.grid_.size 0 * e.grid_.size 1) + (y * e.grid_.size 0 + x) := by ring
    rw [hidx]
    congr 2
    ring

section RoundTrip
variable {K : Type} [Field K] [StarRing K]

omit [StarRing K] in
/-- The forward DFT of a multiple of a backward DFT. -/
theorem fftw_dft_1d_inv_smul (w : K) (n : ℕ) (hw : IsPrimitiveRoot w n) (a : K) (b f : ℕ → K)
    (hf : ∀ k, k < n → f k = a * fftw_dft_1d w n b k) (l : ℕ) (hl : l < n) :
    fftw_dft_1d w⁻¹ n f l = a * ((n : K) * b l) := by
  rw [← fftw_dft_1d_inv w n hw b l hl]
  unfold fftw_dft_1d
  rw [if_pos hl, if_pos hl, mul_sum]
  refine sum_congr rfl (fun k hk => ?_)
  have hk' := mem_range.mp hk
  rw [hf k hk']
  unfold fftw_dft_1d
  rw [if_pos hk']
  ring

/-- The round trip, stage by stage. If the plane scatter keeps the value of every column
(`hplane`) and the column scatter leaves the value `V i j` at the coordinate of the stored
frequency `j` of column `i` (`hcol`), the forward transform of the backward transform of `data`
stores `V i j`, column after column, at the slots of the stored coefficients. -/
theorem roundtrip_core (root : ℕ → K) (e : FFT3D K) (gvec : Gvec_partition) (data out : ℕ → K)
    (V : ℕ → ℕ → K)
    (hp : e.prepared_ = true) (hl : e.local_size_z_ = e.grid_.size 2)
    (hr0 : IsPrimitiveRoot (root (e.grid_.size 0)) (e.grid_.size 0))
    (hr1 : IsPrimitiveRoot (root (e.grid_.size 1)) (e.grid_.size 1))
    (hr2 : IsPrimitiveRoot (root (e.grid_.size 2)) (e.grid_.size 2))
    (hN : (e.size : K) ≠ 0)
    (hpos : ∀ i, i < gvec.num_zcol →
      (e.z_col_pos_.data i 0).toNat < e.grid_.size 0 * e.grid_.size 1)
    (hz : ∀ i, i < gvec.num_zcol → ∀ j, j < (gvec.zcol i).z.length →
      (e.grid_.coord_by_gvec (gvec.zfreq i j) 2).toNat < e.grid_.size 2)
    (hplane : ∀ k, k < e.grid_.size 2 → ∀ i, i < gvec.num_zcol →
      e.xy_load gvec.reduced gvec k
          (fun idx => e.plan_backward_z root
            (e.z_load gvec.reduced gvec (idx / e.grid_.size 2) data (fun _ => 0))
            (idx % e.grid_.size 2))
          (fun _ => 0) (e.z_col_pos_.data i 0).toNat =
        e.plan_backward_z root (e.z_load gvec.reduced gvec i data (fun _ => 0)) k)
    (hcol : ∀ i, i < gvec.num_zcol → ∀ j, j < (gvec.zcol i).z.length →
      e.z_load gvec.reduced gvec i data (fun _ => 0)
          (e.grid_.coord_by_gvec (gvec.zfreq i j) 2).toNat = V i j) :
    ∃ r1 r2, e.transform root 1 gvec data = Except.ok r1 ∧
      r1.1.transform root (-1) gvec out = Except.ok r2 ∧
      r2.2 = forLoop gvec.num_zcol (fun i d => forLoop (gvec.zcol i).z.length
        (fun j d => Function.update d (gvec.zcol_offs i + j) (V i j)) d) out := by
  obtain ⟨r1, h1, _, hg, hlz, htab, hprep, hbuf⟩ :=
    transform_backward_spec root e gvec data hp hl
  obtain ⟨r2, h2, _, _, _, _, _, hdata⟩ :=
    transform_forward_spec root r1.1 gvec out hprep (by rw [hlz, hg]; exact hl)
      (by rw [htab, hg]; exact hpos)
      (by unfold FFT3D.grid; rw [hg]; exact hz)
  refine ⟨r1, r2, h1, h2, ?_⟩
  rw [hdata]
  refine nested_update_congr gvec.num_zcol (fun i => (gvec.zcol i).z.length)
    (fun i j => gvec.zcol_offs i + j) _ V out (fun i hi j hj => ?_)
  have hsz : (e.size : K) = ((e.grid_.size 1 * e.grid_.size 0 : ℕ) : K) * (e.grid_.size 2 : K) := by
    unfold FFT3D.size FFT3D_grid.size_total
    push_cast
    ring
  have hpos' : (e.z_col_pos_.data i 0).toNat < e.grid_.size 1 * e.grid_.size 0 := by
    rw [Nat.mul_comm]; exact hpos i hi
  unfold FFT3D.plan_forward_z FFT3D.plan_forward_xy FFT3D.grid FFT3D.size
  rw [hg, htab]
  simp only [fftw_twiddle_forward]
  rw [fftw_dft_1d_inv_smul (root (e.grid_.size 2)) (e.grid_.size 2) hr2
    ((e.grid_.size 1 * e.grid_.size 0 : ℕ) : K)
    (e.z_load gvec.reduced gvec i data (fun _ => 0)) _ ?_ _ (hz i hi j hj), hcol i hi j hj]
  · have hN' : ((e.grid_.size 1 * e.grid_.size 0 : ℕ) : K) * (e.grid_.size 2 : K) ≠ 0 := by
      rw [← hsz]; exact hN
    show _ * (1 / (e.size : K)) = _
    rw [hsz]
    generalize ((e.grid_.size 1 * e.grid_.size 0 : ℕ) : K) = A at hN' ⊢
    obtain ⟨hA, hB⟩ := mul_ne_zero_iff.mp hN'
    field_simp
    ring
  · intro k hk
    have hinv := fftw_dft_2d_inv (root (e.grid_.size 1)) (root (e.grid_.size 0))
      (e.grid_.size 1) (e.grid_.size 0) hr1 hr0
      (e.xy_load gvec.reduced gvec k
          (fun idx => e.plan_backward_z root
            (e.z_load gvec.reduced gvec (idx / e.grid_.size 2) data (fun _ => 0))
            (idx % e.grid_.size 2))
          (fun _ => 0)) _ hpos'
    rw [hplane k hk i hi] at hinv
    have hpl : e.plan_backward_z root (e.z_load gvec.reduced gvec i data (fun _ => 0)) k =
        fftw_dft_1d (root (e.grid_.size 2)) (e.grid_.size 2)
          (e.z_load gvec.reduced gvec i data (fun _ => 0)) k := by
      unfold FFT3D.plan_backward_z
      rw [fftw_twiddle_backward]
    rw [← hpl, ← hinv]
    refine fftw_dft_2d_congr _ _ _ _ _ _ (fun p hp' => ?_) _ hpos'
    have hp'' : p < e.grid_.size 0 * e.grid_.size 1 := by rw [Nat.mul_comm]; exact hp'
    rw [hbuf k hk p hp'']
    unfold FFT3D.plan_backward_xy
    simp only [fftw_twiddle_backward]

end RoundTrip

section RoundTrip
variable {K : Type} [Field K] [StarRing K]

/-- Non-reduced column scatter: with pairwise distinct z coordinates the scratch holds the
coefficient `j` of column `i` at its coordinate. -/
theorem z_load_nonreduced_at (e : FFT3D K) (gvec : Gvec_partition) (data : ℕ → K)
    (hfit : gvec.fits e.grid_) (hdz : gvec.distinct_z e.grid_) (i : ℕ) (hi : i < gvec.num_zcol)
    (j : ℕ) (hj : j < (gvec.zcol i).z.length) :
    e.z_load false gvec i data (fun _ => 0) (e.grid_.coord_by_gvec (gvec.zfreq i j) 2).toNat =
      data (gvec.zcol_offs i + j) := by
  unfold FFT3D.z_load
  rw [if_neg (by simp)]
  exact forLoop_update_of_inj _ (fun j => (e.grid_.coord_by_gvec (gvec.zfreq i j) 2).toNat)
    (fun j => data (gvec.zcol_offs i + j)) _
    (fun a ha l hl h => by
      have r1 := coord_by_gvec_range _ _ _ ((hfit i hi).2.2 a ha)
      have r2 := coord_by_gvec_range _ _ _ ((hfit i hi).2.2 l hl)
      have h' : (e.grid_.coord_by_gvec (gvec.zfreq i a) 2).toNat =
        (e.grid_.coord_by_gvec (gvec.zfreq i l) 2).toNat := h
      exact hdz i hi a ha l hl (by omega)) j hj

/-- Non-reduced plane scatter: with pairwise distinct column positions the plane scratch holds
the value of column `i` at the column's position. -/
theorem xy_load_nonreduced_at (e : FFT3D K) (gvec : Gvec_partition) (aux : ℕ → K) (k : ℕ)
    (hinj : ∀ i, i < gvec.num_zcol → ∀ l, l < gvec.num_zcol →
      (e.z_col_pos_.data i 0).toNat = (e.z_col_pos_.data l 0).toNat → i = l)
    (i : ℕ) (hi : i < gvec.num_zcol) :
    e.xy_load false gvec k aux (fun _ => 0) (e.z_col_pos_.data i 0).toNat =
      aux (k + i * e.local_size_z_) := by
  rw [xy_load_eq]
  simp only [Bool.false_eq_true, false_and, if_false]
  exact forLoop_update_of_inj _ (fun i => (e.z_col_pos_.data i 0).toNat)
    (fun i => aux (k + i * e.local_size_z_)) _ hinj i hi

omit [StarRing K] in
theorem size_ne_zero_of_char_zero [CharZero K] (e : FFT3D K)
    (hs : 0 < e.grid_.size 0 ∧ 0 < e.grid_.size 1 ∧ 0 < e.grid_.size 2) : (e.size : K) ≠ 0 := by
  unfold FFT3D.size FFT3D_grid.size_total
  have := Nat.mul_pos (Nat.mul_pos hs.1 hs.2.1) hs.2.2
  exact_mod_cast Nat.pos_iff_ne_zero.mp this

end RoundTrip

/-- C3. On a single-process CPU engine with positive grid extents, for every non-reduced
partition whose stored frequencies lie on the grid and map to pairwise distinct grid points
(distinct `(x, y)` coordinates between columns, distinct z coordinates inside a column), and
for every coefficient array `c`: the backward transform of `c` followed by the forward
transform of the resulting main buffer returns, and the forward transform stores `c(G)` at
every stored coefficient `G`; run in place (output array `c`) it returns exactly `c`. -/
theorem C3_roundtrip_nonreduced (root : ℕ → ℂ) (hroot : exact_dft root) (e : FFT3D ℂ)
    (gvec : Gvec_partition) (c out : ℕ → ℂ)
    (hl : e.local_size_z_ = e.grid_.size 2)
    (hs : 0 < e.grid_.size 0 ∧ 0 < e.grid_.size 1 ∧ 0 < e.grid_.size 2)
    (hred : gvec.reduced = false)
    (hfit : gvec.fits e.grid_) (hdc : gvec.distinct_columns e.grid_)
    (hdz : gvec.distinct_z e.grid_) :
    ∃ r1 r2, (e.prepare gvec).transform root 1 gvec c = Except.ok r1 ∧
      r1.1.transform root (-1) gvec out = Except.ok r2 ∧
      (∀ i, i < gvec.num_zcol → ∀ j, j < (gvec.zcol i).z.length →
        r2.2 (gvec.zcol_offs i + j) = c (gvec.zcol_offs i + j)) ∧
      (out = c → r2.2 = c) := by
  have hg : (e.prepare gvec).grid_ = e.grid_ := rfl
  obtain ⟨r1, r2, h1, h2, hout⟩ := roundtrip_core root (e.prepare gvec) gvec c out
    (fun i j => c (gvec.zcol_offs i + j)) rfl hl
    (exact_dft_primitive root hroot _ hs.1) (exact_dft_primitive root hroot _ hs.2.1)
    (exact_dft_primitive root hroot _ hs.2.2) (size_ne_zero_of_char_zero (e.prepare gvec) hs)
    (fun i hi => by
      have := prepare_pos0_lt e gvec hfit i hi
      rw [Nat.mul_comm] at this
      exact this)
    (fun i hi j hj => coord_by_gvec_toNat_lt _ _ _ ((hfit i hi).2.2 j hj))
    (fun k hk i hi => by
      have hk : k < e.grid_.size 2 := hk
      rw [hred, xy_load_nonreduced_at (e.prepare gvec) gvec _ k
        (fun a ha l hl h => prepare_pos0_inj e gvec hfit hdc a ha l hl h) i hi]
      show (e.prepare gvec).plan_backward_z root
        ((e.prepare gvec).z_load false gvec ((k + i * e.local_size_z_) / e.grid_.size 2) c
          (fun _ => 0)) ((k + i * e.local_size_z_) % e.grid_.size 2) = _
      rw [hl, Nat.add_comm k, row_major_div _ _ _ hk, row_major_mod _ _ _ hk])
    (fun i hi j hj => by
      rw [hred]
      exact z_load_nonreduced_at (e.prepare gvec) gvec c hfit hdz i hi j hj)
  have hres := fun s => nested_update_same gvec.num_zcol (fun i => (gvec.zcol i).z.length)
    (fun i j => gvec.zcol_offs i + j) (fun i j => c (gvec.zcol_offs i + j)) out c
    (fun _ _ _ _ => rfl) s
  rw [← hout] at hres
  refine ⟨r1, r2, h1, h2, fun i hi j hj => ?_, fun ho => funext (fun s => ?_)⟩
  · rcases hres (gvec.zcol_offs i + j) with ⟨_, hne⟩ | h
    · exact absurd rfl (hne i hi j hj)
    · exact h
  · rcases hres s with ⟨h, _⟩ | h
    · rw [h, ho]
    · exact h

section Const
variable {K : Type} [Field K] [StarRing K]

omit [StarRing K] in
/-- The sum of the powers of a forward twiddle factor. -/
theorem sum_twiddle_inv (w : K) (n : ℕ) (hw : IsPrimitiveRoot w n) (l : ℕ) (hl : l < n) :
    ∑ k ∈ range n, w⁻¹ ^ (k * l) = if l = 0 then (n : K) else 0 := by
  have h := sum_twiddle_orth w n hw 0 l (lt_of_le_of_lt (Nat.zero_le l) hl) hl
  simp only [Nat.zero_mul, pow_zero, one_mul] at h
  rw [h]
  by_cases h0 : l = 0
  · rw [if_pos h0, if_pos h0.symm]
  · rw [if_neg h0, if_neg (Ne.symm h0)]

/-- The forward transform of a constant field: `v` at the coefficients whose three grid
coordinates vanish and zero at every other stored coefficient. -/
theorem forward_const_value (root : ℕ → K) (e : FFT3D K) (gvec : Gvec_partition) (out : ℕ → K)
    (v : K) (hl : e.local_size_z_ = e.grid_.size 2)
    (hr0 : IsPrimitiveRoot (root (e.grid_.size 0)) (e.grid_.size 0))
    (hr1 : IsPrimitiveRoot (root (e.grid_.size 1)) (e.grid_.size 1))
    (hr2 : IsPrimitiveRoot (root (e.grid_.size 2)) (e.grid_.size 2))
    (hN : (e.size : K) ≠ 0)
    (hfit : gvec.fits e.grid_) (hslot : gvec.distinct_slots)
    (hconst : ∀ idx, idx < e.size → e.fft_buffer_ idx = v)
    (i : ℕ) (hi : i < gvec.num_zcol) (j : ℕ) (hj : j < (gvec.zcol i).z.length) :
    ∃ r, (e.prepare gvec).transform root (-1) gvec out = Except.ok r ∧
      r.2 (gvec.zcol_offs i + j) =
        if (e.grid_.coord_by_gvec (gvec.zcol i).x 0).toNat = 0 ∧
            (e.grid_.coord_by_gvec (gvec.zcol i).y 1).toNat = 0 ∧
            (e.grid_.coord_by_gvec (gvec.zfreq i j) 2).toNat = 0 then v else 0 := by
  obtain ⟨r, hr, _, hval⟩ := forward_value root e gvec out hl hfit hslot i hi j hj
  refine ⟨r, hr, ?_⟩
  rw [hval]
  have hcx := coord_by_gvec_toNat_lt _ _ _ (hfit i hi).1
  have hcy := coord_by_gvec_toNat_lt _ _ _ (hfit i hi).2.1
  have hcz := coord_by_gvec_toNat_lt _ _ _ ((hfit i hi).2.2 j hj)
  have hsx := sum_twiddle_inv _ _ hr0 _ hcx
  have hsy := sum_twiddle_inv _ _ hr1 _ hcy
  have hsz := sum_twiddle_inv _ _ hr2 _ hcz
  have hinner : ∀ z ∈ range (e.grid_.size 2),
      (∑ y ∈ range (e.grid_.size 1), ∑ x ∈ range (e.grid_.size 0),
          e.fft_buffer_ (z * (e.grid_.size 0 * e.grid_.size 1) + (y * e.grid_.size 0 + x)) *
            ((root (e.grid_.size 1))⁻¹ ^ (y * (e.grid_.coord_by_gvec (gvec.zcol i).y 1).toNat) *
              (root (e.grid_.size 0))⁻¹ ^
                (x * (e.grid_.coord_by_gvec (gvec.zcol i).x 0).toNat))) *
          (root (e.grid_.size 2))⁻¹ ^ (z * (e.grid_.coord_by_gvec (gvec.zfreq i j) 2).toNat) =
        v * (∑ y ∈ range (e.grid_.size 1),
            (root (e.grid_.size 1))⁻¹ ^ (y * (e.grid_.coord_by_gvec (gvec.zcol i).y 1).toNat)) *
          (∑ x ∈ range (e.grid_.size 0),
            (root (e.grid_.size 0))⁻¹ ^ (x * (e.grid_.coord_by_gvec (gvec.zcol i).x 0).toNat)) *
          (root (e.grid_.size 2))⁻¹ ^ (z * (e.grid_.coord_by_gvec (gvec.zfreq i j) 2).toNat) := by
    intro z hz
    congr 1
    have hin : ∀ y ∈ range (e.grid_.size 1),
        ∑ x ∈ range (e.grid_.size 0),
          e.fft_buffer_ (z * (e.grid_.size 0 * e.grid_.size 1) + (y * e.grid_.size 0 + x)) *
            ((root (e.grid_.size 1))⁻¹ ^ (y * (e.grid_.coord_by_gvec (gvec.zcol i).y 1).toNat) *
              (root (e.grid_.size 0))⁻¹ ^
                (x * (e.grid_.coord_by_gvec (gvec.zcol i).x 0).toNat)) =
          (v * (root (e.grid_.size 1))⁻¹ ^
              (y * (e.grid_.coord_by_gvec (gvec.zcol i).y 1).toNat)) *
            ∑ x ∈ range (e.grid_.size 0),
              (root (e.grid_.size 0))⁻¹ ^
                (x * (e.grid_.coord_by_gvec (gvec.zcol i).x 0).toNat) := by
      intro y hy
      rw [mul_sum]
      refine sum_congr rfl (fun x hx => ?_)
      have hp : y * e.grid_.size 0 + x < e.grid_.size 0 * e.grid_.size 1 := by
        rw [Nat.mul_comm (e.grid_.size 0)]
        exact block_index_lt _ _ _ _ (mem_range.mp hy) (mem_range.mp hx)
      have hidx : z * (e.grid_.size 0 * e.grid_.size 1) + (y * e.grid_.size 0 + x) < e.size := by
        unfold FFT3D.size FFT3D_grid.size_total
        rw [Nat.mul_comm (e.grid_.size 0 * e.grid_.size 1)]
        exact block_index_lt _ _ _ _ (mem_range.mp hz) hp
      rw [hconst _ hidx]
      ring
    rw [sum_congr rfl hin, ← sum_mul, ← mul_sum]
  rw [sum_congr rfl hinner, ← mul_sum, hsx, hsy, hsz]
  have hsize : (e.size : K) =
      (e.grid_.size 0 : K) * (e.grid_.size 1 : K) * (e.grid_.size 2 : K) := by
    unfold FFT3D.size FFT3D_grid.size_total
    push_cast
    rfl
  rw [hsize] at hN ⊢
  by_cases h0 : (e.grid_.coord_by_gvec (gvec.zcol i).x 0).toNat = 0
  · by_cases h1 : (e.grid_.coord_by_gvec (gvec.zcol i).y 1).toNat = 0
    · by_cases h2 : (e.grid_.coord_by_gvec (gvec.zfreq i j) 2).toNat = 0
      · rw [if_pos h0, if_pos h1, if_pos h2, if_pos ⟨h0, h1, h2⟩]
        field_simp
        ring
      · rw [if_neg h2, if_neg (fun h : _ ∧ _ ∧ _ => h2 h.2.2), mul_zero, zero_mul]
    · rw [if_neg h1, if_neg (fun h : _ ∧ _ ∧ _ => h1 h.2.1), mul_zero, zero_mul, zero_mul,
        zero_mul]
  · rw [if_neg h0, if_neg (fun h : _ ∧ _ ∧ _ => h0 h.1), mul_zero, zero_mul, zero_mul]

end Const

section CoordZero

/-- Inside the grid range a frequency has coordinate `0` exactly when it is a multiple of the
extent. -/
theorem coord_toNat_eq_zero_iff (g : FFT3D_grid) (i : ℤ) (d : ℕ) (h : g.on_grid i d) :
    (g.coord_by_gvec i d).toNat = 0 ↔ (g.size d : ℤ) ∣ i := by
  have hr := coord_by_gvec_range g i d h
  unfold FFT3D_grid.on_grid at h
  unfold FFT3D_grid.coord_by_gvec at hr ⊢
  constructor
  · intro h0
    split_ifs at hr h0 with hneg
    · have : i = -(g.size d : ℤ) := by omega
      rw [this]
      exact dvd_neg.mpr (dvd_refl _)
    · have : i = 0 := by omega
      rw [this]
      exact dvd_zero _
  · rintro ⟨q, hq⟩
    have hpos : (0 : ℤ) < g.size d := by omega
    split_ifs with hneg
    · have hq1 : q = -1 := by
        have h1 : (g.size d : ℤ) * q < 0 := by rw [← hq]; exact hneg
        have h2 : -(g.size d : ℤ) ≤ (g.size d : ℤ) * q := by rw [← hq]; exact h.1
        have h3 : q < 0 := by
          by_contra hc
          push_neg at hc
          have := mul_nonneg (le_of_lt hpos) hc
          omega
        have h4 : -1 ≤ q := by
          by_contra hc
          push_neg at hc
          have h5 : q ≤ -2 := by omega
          have := mul_le_mul_of_nonneg_left h5 (le_of_lt hpos)
          omega
        omega
      rw [hq, hq1]
      simp
    · have hq0 : q = 0 := by
        have h1 : 0 ≤ (g.size d : ℤ) * q := by rw [← hq]; omega
        have h2 : (g.size d : ℤ) * q < (g.size d : ℤ) := by rw [← hq]; exact h.2
        have h3 : 0 ≤ q := by
          by_contra hc
          push_neg at hc
          have h5 : q ≤ -1 := by omega
          have := mul_le_mul_of_nonneg_left h5 (le_of_lt hpos)
          omega
        have h4 : q < 1 := by
          by_contra hc
          push_neg at hc
          have := mul_le_mul_of_nonneg_left hc (le_of_lt hpos)
          omega
        omega
      rw [hq, hq0]
      simp

end CoordZero

theorem scenario_fits : scenario_partition.fits scenario_grid := by decide

theorem scenario_distinct_columns : scenario_partition.distinct_columns scenario_grid := by
  decide

theorem scenario_distinct_z : scenario_partition.distinct_z scenario_grid := by decide

theorem scenario_distinct_slots : scenario_partition.distinct_slots := by decide

/-- The array `[1, 0, 0, 0]` is `1` at `G = 0` and zero at the other stored coefficients. -/
theorem scenario_coeffs_dc (i : ℕ) (hi : i < scenario_partition.num_zcol) (j : ℕ)
    (hj : j < (scenario_partition.zcol i).z.length) :
    (scenario_coeffs (scenario_partition.zcol_offs i + j) : ℂ) =
      if (scenario_partition.zcol i).x = 0 ∧ (scenario_partition.zcol i).y = 0 ∧
        scenario_partition.zfreq i j = 0 then 1 else 0 := by
  have hi0 : i = 0 := by
    have : i < 1 := hi
    omega
  subst hi0
  have hj4 : j < 4 := hj
  interval_cases j <;> simp [scenario_coeffs, scenario_partition, Gvec_partition.zcol_offs,
    Gvec_partition.zcol, Gvec_partition.zfreq]

/-- C5 (as the specification states it, refuted). In the concrete scenario (grid 4 × 4 × 4, one
column at `(0, 0)` with z-frequencies `{0, 1, 2, 3}`, not reduced) the backward transform of
`[1, 0, 0, 0]` leaves `1` at grid point `0`, which is not `1 / 64`. -/
theorem C5_backward_scenario_not_one_over_64 :
    ∃ r, ((FFT3D.create scenario_grid (fun _ => (0 : ℂ))).prepare scenario_partition).transform
        (fun n => Complex.exp (2 * (Real.pi : ℂ) * Complex.I / (n : ℂ))) 1 scenario_partition
        scenario_coeffs = Except.ok r ∧
      r.1.fft_buffer_ 0 = 1 ∧ r.1.fft_buffer_ 0 ≠ 1 / 64 := by
  obtain ⟨r, hr, hv⟩ := backward_dc_value
    (fun n => Complex.exp (2 * (Real.pi : ℂ) * Complex.I / (n : ℂ)))
    (FFT3D.create scenario_grid (fun _ => (0 : ℂ))) scenario_partition scenario_coeffs 1 rfl rfl
    scenario_fits scenario_distinct_columns scenario_distinct_z
    ⟨0, by decide, 0, by decide, rfl, rfl, rfl⟩ scenario_coeffs_dc
    0 0 0 (by decide) (by decide) (by decide)
  refine ⟨r, hr, hv, ?_⟩
  have h0 : r.1.fft_buffer_ 0 = 1 := hv
  rw [h0]
  norm_num

/-- C5 (amended). In the concrete scenario the backward transform of `[1, 0, 0, 0]` returns and
leaves the main buffer equal to `1` at every one of the 64 grid points, whatever the engine's
buffers held before and whatever twiddle factors the plans use. -/
theorem C5_backward_scenario_is_one (root : ℕ → ℂ) (mem : ℕ → ℂ) (idx : ℕ) (hidx : idx < 64) :
    ∃ r, ((FFT3D.create scenario_grid mem).prepare scenario_partition).transform root 1
        scenario_partition scenario_coeffs = Except.ok r ∧
      r.1.fft_buffer_ idx = 1 := by
  obtain ⟨r, hr, hv⟩ := backward_dc_value root
    (FFT3D.create scenario_grid mem) scenario_partition scenario_coeffs 1 rfl rfl
    scenario_fits scenario_distinct_columns scenario_distinct_z
    ⟨0, by decide, 0, by decide, rfl, rfl, rfl⟩ scenario_coeffs_dc
    (idx % 4) (idx / 4 % 4) (idx / 16) (Nat.mod_lt _ (by decide)) (Nat.mod_lt _ (by decide))
    (by
      show idx / 16 < 4
      omega)
  refine ⟨r, hr, ?_⟩
  have hg : (FFT3D.create scenario_grid mem).grid_.size 0 = 4 ∧
      (FFT3D.create scenario_grid mem).grid_.size 1 = 4 := ⟨rfl, rfl⟩
  rw [hg.1, hg.2] at hv
  have : idx = idx / 16 * (4 * 4) + (idx / 4 % 4 * 4 + idx % 4) := by omega
  rw [this]
  exact hv

/-- Witness of C5 (amended): grid point 21 with all-zero initial memory and trivial twiddles. -/
theorem C5_backward_scenario_is_one_witness :
    (21 < 64) ∧
    ∃ r, ((FFT3D.create scenario_grid (fun _ => (0 : ℂ))).prepare scenario_partition).transform
        (fun _ => (1 : ℂ)) 1 scenario_partition scenario_coeffs = Except.ok r ∧
      r.1.fft_buffer_ 21 = 1 :=
  ⟨by decide, C5_backward_scenario_is_one (fun _ => 1) (fun _ => 0) 21 (by decide)⟩

/-- C6. On a single-process CPU engine, for every grid and every non-reduced partition
satisfying the data-model invariants (frequencies on the grid, columns unique by `(x, y)`,
distinct z coordinates inside a column) that stores the coefficient `G = (0, 0, 0)`, and for
every complex `v`: the backward transform of the coefficient array that is `v` at `G = 0` and
zero at every other stored coefficient returns and leaves the main buffer equal to `v` at every
grid point. No normalisation is applied. -/
theorem C6_dc_only_backward_is_broadcast (root : ℕ → ℂ) (e : FFT3D ℂ) (gvec : Gvec_partition)
    (c : ℕ → ℂ) (v : ℂ)
    (hl : e.local_size_z_ = e.grid_.size 2) (hred : gvec.reduced = false)
    (hfit : gvec.fits e.grid_) (hdc : gvec.distinct_columns e.grid_)
    (hdz : gvec.distinct_z e.grid_)
    (hstored : ∃ i, i < gvec.num_zcol ∧ ∃ j, j < (gvec.zcol i).z.length ∧
      (gvec.zcol i).x = 0 ∧ (gvec.zcol i).y = 0 ∧ gvec.zfreq i j = 0)
    (hc : ∀ i, i < gvec.num_zcol → ∀ j, j < (gvec.zcol i).z.length →
      c (gvec.zcol_offs i + j) =
        if (gvec.zcol i).x = 0 ∧ (gvec.zcol i).y = 0 ∧ gvec.zfreq i j = 0 then v else 0)
    (x y z : ℕ) (hx : x < e.grid_.size 0) (hy : y < e.grid_.size 1) (hz : z < e.grid_.size 2) :
    ∃ r, (e.prepare gvec).transform root 1 gvec c = Except.ok r ∧
      r.1.fft_buffer_ (x + y * e.grid_.size 0 + z * e.grid_.size 0 * e.grid_.size 1) = v := by
  obtain ⟨r, hr, hv⟩ := backward_dc_value root e gvec c v hl hred hfit hdc hdz hstored hc
    x y z hx hy hz
  refine ⟨r, hr, ?_⟩
  have hidx : x + y * e.grid_.size 0 + z * e.grid_.size 0 * e.grid_.size 1 =
      z * (e.grid_.size 0 * e.grid_.size 1) + (y * e.grid_.size 0 + x) := by ring
  rw [hidx]
  exact hv

/-- C7. Forward transform of a constant field on a single-process CPU engine (FFTW plans taken
as exact complex DFTs). In general: for every grid with positive extents, every partition whose
frequencies lie on the grid and whose coefficients occupy distinct array entries, and every
main buffer equal to `v` at all grid points, the forward transform returns and stores at each
stored coefficient `G` the value `v` if every component of `G` is a multiple of the grid extent
(in particular at `G = 0`) and `0` otherwise. In the concrete scenario (grid 4 × 4 × 4, one
column `(0, 0)` with z-frequencies `{0, 1, 2, 3}`), the constant field `1` yields exactly the
coefficients `[1, 0, 0, 0]`. -/
theorem C7_forward_constant_field :
    (∀ (root : ℕ → ℂ) (e : FFT3D ℂ) (gvec : Gvec_partition) (out : ℕ → ℂ) (v : ℂ),
      exact_dft root → e.local_size_z_ = e.grid_.size 2 →
      (0 < e.grid_.size 0 ∧ 0 < e.grid_.size 1 ∧ 0 < e.grid_.size 2) →
      gvec.fits e.grid_ → gvec.distinct_slots →
      (∀ idx, idx < e.size → e.fft_buffer_ idx = v) →
      ∀ i, i < gvec.num_zcol → ∀ j, j < (gvec.zcol i).z.length →
        ∃ r, (e.prepare gvec).transform root (-1) gvec out = Except.ok r ∧
          r.2 (gvec.zcol_offs i + j) =
            if (e.grid_.size 0 : ℤ) ∣ (gvec.zcol i).x ∧ (e.grid_.size 1 : ℤ) ∣ (gvec.zcol i).y ∧
                (e.grid_.size 2 : ℤ) ∣ gvec.zfreq i j then v else 0) ∧
    (∀ (root : ℕ → ℂ) (mem out : ℕ → ℂ), exact_dft root → (∀ idx, idx < 64 → mem idx = 1) →
      ∃ r, ((FFT3D.create scenario_grid mem).prepare scenario_partition).transform root (-1)
          scenario_partition out = Except.ok r ∧
        r.2 0 = 1 ∧ r.2 1 = 0 ∧ r.2 2 = 0 ∧ r.2 3 = 0) := by
  have general : ∀ (root : ℕ → ℂ) (e : FFT3D ℂ) (gvec : Gvec_partition) (out : ℕ → ℂ) (v : ℂ),
      exact_dft root → e.local_size_z_ = e.grid_.size 2 →
      (0 < e.grid_.size 0 ∧ 0 < e.grid_.size 1 ∧ 0 < e.grid_.size 2) →
      gvec.fits e.grid_ → gvec.distinct_slots →
      (∀ idx, idx < e.size → e.fft_buffer_ idx = v) →
      ∀ i, i < gvec.num_zcol → ∀ j, j < (gvec.zcol i).z.length →
        ∃ r, (e.prepare gvec).transform root (-1) gvec out = Except.ok r ∧
          r.2 (gvec.zcol_offs i + j) =
            if (e.grid_.size 0 : ℤ) ∣ (gvec.zcol i).x ∧ (e.grid_.size 1 : ℤ) ∣ (gvec.zcol i).y ∧
                (e.grid_.size 2 : ℤ) ∣ gvec.zfreq i j then v else 0 := by
    intro root e gvec out v hroot hl hs hfit hslot hconst i hi j hj
    obtain ⟨r, hr, hv⟩ := forward_const_value root e gvec out v hl
      (exact_dft_primitive root hroot _ hs.1) (exact_dft_primitive root hroot _ hs.2.1)
      (exact_dft_primitive root hroot _ hs.2.2) (size_ne_zero_of_char_zero e hs) hfit hslot
      hconst i hi j hj
    refine ⟨r, hr, ?_⟩
    rw [hv]
    exact if_congr (and_congr (coord_toNat_eq_zero_iff _ _ _ (hfit i hi).1)
      (and_congr (coord_toNat_eq_zero_iff _ _ _ (hfit i hi).2.1)
        (coord_toNat_eq_zero_iff _ _ _ ((hfit i hi).2.2 j hj)))) rfl rfl
  refine ⟨general, ?_⟩
  intro root mem out hroot hmem
  have hs : 0 < (FFT3D.create scenario_grid mem).grid_.size 0 ∧
      0 < (FFT3D.create scenario_grid mem).grid_.size 1 ∧
      0 < (FFT3D.create scenario_grid mem).grid_.size 2 :=
    show 0 < scenario_grid.size 0 ∧ 0 < scenario_grid.size 1 ∧ 0 < scenario_grid.size 2 from by
      decide
  have key := general root (FFT3D.create scenario_grid mem) scenario_partition out 1 hroot rfl
    hs scenario_fits scenario_distinct_slots hmem 0 (by decide)
  obtain ⟨r, hr, h0⟩ := key 0 (by decide)
  obtain ⟨r1, hr1, h1⟩ := key 1 (by decide)
  obtain ⟨r2, hr2, h2⟩ := key 2 (by decide)
  obtain ⟨r3, hr3, h3⟩ := key 3 (by decide)
  have e1 : r1 = r := Except.ok.inj (hr1.symm.trans hr)
  have e2 : r2 = r := Except.ok.inj (hr2.symm.trans hr)
  have e3 : r3 = r := Except.ok.inj (hr3.symm.trans hr)
  subst e1 e2 e3
  refine ⟨_, hr, ?_, ?_, ?_, ?_⟩
  · rw [show (0 : ℕ) = scenario_partition.zcol_offs 0 + 0 from rfl, h0]
    exact if_pos (show ((scenario_grid.size 0 : ℕ) : ℤ) ∣ (scenario_partition.zcol 0).x ∧
      ((scenario_grid.size 1 : ℕ) : ℤ) ∣ (scenario_partition.zcol 0).y ∧
      ((scenario_grid.size 2 : ℕ) : ℤ) ∣ scenario_partition.zfreq 0 0 from by decide)
  · rw [show (1 : ℕ) = scenario_partition.zcol_offs 0 + 1 from rfl, h1]
    exact if_neg (show ¬(((scenario_grid.size 0 : ℕ) : ℤ) ∣ (scenario_partition.zcol 0).x ∧
      ((scenario_grid.size 1 : ℕ) : ℤ) ∣ (scenario_partition.zcol 0).y ∧
      ((scenario_grid.size 2 : ℕ) : ℤ) ∣ scenario_partition.zfreq 0 1) from by decide)
  · rw [show (2 : ℕ) = scenario_partition.zcol_offs 0 + 2 from rfl, h2]
    exact if_neg (show ¬(((scenario_grid.size 0 : ℕ) : ℤ) ∣ (scenario_partition.zcol 0).x ∧
      ((scenario_grid.size 1 : ℕ) : ℤ) ∣ (scenario_partition.zcol 0).y ∧
      ((scenario_grid.size 2 : ℕ) : ℤ) ∣ scenario_partition.zfreq 0 2) from by decide)
  · rw [show (3 : ℕ) = scenario_partition.zcol_offs 0 + 3 from rfl, h3]
    exact if_neg (show ¬(((scenario_grid.size 0 : ℕ) : ℤ) ∣ (scenario_partition.zcol 0).x ∧
      ((scenario_grid.size 1 : ℕ) : ℤ) ∣ (scenario_partition.zcol 0).y ∧
      ((scenario_grid.size 2 : ℕ) : ℤ) ∣ scenario_partition.zfreq 0 3) from by decide)

/-- Witness of C7: the general part applied to a 2 × 2 × 2 grid holding the constant `3`, one
column `(0, 0)` with z-frequencies `{0, -1}`, at the coefficient `G = (0, 0, -1)`. -/
theorem C7_forward_constant_field_witness :
    ∃ r, ((FFT3D.create ⟨2, 2, 2⟩ (fun _ => (3 : ℂ))).prepare
          ⟨[⟨0, 0, [0, -1]⟩], fun _ => 0, false⟩).transform
        (fun n => Complex.exp (2 * (Real.pi : ℂ) * Complex.I / (n : ℂ))) (-1)
        ⟨[⟨0, 0, [0, -1]⟩], fun _ => 0, false⟩ (fun _ => 0) = Except.ok r ∧
      r.2 1 = 0 :=
  C7_forward_constant_field.1 (fun n => Complex.exp (2 * (Real.pi : ℂ) * Complex.I / (n : ℂ)))
    (FFT3D.create ⟨2, 2, 2⟩ (fun _ => (3 : ℂ))) ⟨[⟨0, 0, [0, -1]⟩], fun _ => 0, false⟩
    (fun _ => 0) 3 (fun _ => rfl) rfl (by decide) (by decide) (by decide) (fun _ _ => rfl)
    0 (by decide) 1 (by decide)

theorem sample_fits : sample_partition.fits sample_grid := by decide

theorem sample_distinct_columns : sample_partition.distinct_columns sample_grid := by decide

theorem sample_distinct_z : sample_partition.distinct_z sample_grid := by decide

theorem sample_distinct_slots : sample_partition.distinct_slots := by decide

/-- Witness of C1: the 2 × 2 × 2 sample at the grid point `(1, 0, 1)`. -/
theorem C1_backward_is_plane_wave_sum_witness :
    (sample_partition.fits sample_grid ∧ sample_partition.distinct_columns sample_grid ∧
      sample_partition.distinct_z sample_grid) ∧
    ∃ r, ((sample_engine : FFT3D ℂ).prepare sample_partition).transform
        (fun n => Complex.exp (2 * (Real.pi : ℂ) * Complex.I / (n : ℂ))) 1 sample_partition
        sample_coeffs = Except.ok r ∧
      r.1.fft_buffer_ (1 + 0 * (sample_engine : FFT3D ℂ).grid_.size 0 +
          1 * (sample_engine : FFT3D ℂ).grid_.size 0 * (sample_engine : FFT3D ℂ).grid_.size 1) =
        ∑ i ∈ range sample_partition.num_zcol, ∑ j ∈ range (sample_partition.zcol i).z.length,
          sample_coeffs (sample_partition.zcol_offs i + j) *
            Complex.exp (2 * (Real.pi : ℂ) * Complex.I *
              (((sample_partition.zcol i).x : ℂ) * ((1 : ℕ) : ℂ) /
                  ((sample_engine : FFT3D ℂ).grid_.size 0 : ℂ) +
                ((sample_partition.zcol i).y : ℂ) * ((0 : ℕ) : ℂ) /
                  ((sample_engine : FFT3D ℂ).grid_.size 1 : ℂ) +
                (sample_partition.zfreq i j : ℂ) * ((1 : ℕ) : ℂ) /
                  ((sample_engine : FFT3D ℂ).grid_.size 2 : ℂ))) :=
  ⟨⟨sample_fits, sample_distinct_columns, sample_distinct_z⟩,
    C1_backward_is_plane_wave_sum _ (fun _ => rfl) sample_engine sample_partition sample_coeffs
      rfl rfl sample_fits sample_distinct_columns sample_distinct_z 1 0 1
      (show 1 < sample_grid.size 0 from by decide) (show 0 < sample_grid.size 1 from by decide)
      (show 1 < sample_grid.size 2 from by decide)⟩

/-- Witness of C2: the 2 × 2 × 2 sample at the coefficient `j = 1` of column `0`. -/
theorem C2_forward_is_normalised_sum_witness :
    (sample_partition.fits sample_grid ∧ sample_partition.distinct_slots) ∧
    ∃ r, ((sample_engine : FFT3D ℂ).prepare sample_partition).transform
        (fun n => Complex.exp (2 * (Real.pi : ℂ) * Complex.I / (n : ℂ))) (-1) sample_partition
        sample_coeffs = Except.ok r ∧
      r.2 (sample_partition.zcol_offs 0 + 1) =
        (1 / (((sample_engine : FFT3D ℂ).grid_.size 0 : ℂ) *
            ((sample_engine : FFT3D ℂ).grid_.size 1 : ℂ) *
            ((sample_engine : FFT3D ℂ).grid_.size 2 : ℂ))) *
          ∑ z ∈ range ((sample_engine : FFT3D ℂ).grid_.size 2),
            ∑ y ∈ range ((sample_engine : FFT3D ℂ).grid_.size 1),
              ∑ x ∈ range ((sample_engine : FFT3D ℂ).grid_.size 0),
                (sample_engine : FFT3D ℂ).fft_buffer_
                    (x + y * (sample_engine : FFT3D ℂ).grid_.size 0 +
                      z * (sample_engine : FFT3D ℂ).grid_.size 0 *
                        (sample_engine : FFT3D ℂ).grid_.size 1) *
                  Complex.exp (-(2 * (Real.pi : ℂ) * Complex.I *
                    (((sample_partition.zcol 0).x : ℂ) * (x : ℂ) /
                        ((sample_engine : FFT3D ℂ).grid_.size 0 : ℂ) +
                      ((sample_partition.zcol 0).y : ℂ) * (y : ℂ) /
                        ((sample_engine : FFT3D ℂ).grid_.size 1 : ℂ) +
                      (sample_partition.zfreq 0 1 : ℂ) * (z : ℂ) /
                        ((sample_engine : FFT3D ℂ).grid_.size 2 : ℂ)))) :=
  ⟨⟨sample_fits, sample_distinct_slots⟩,
    C2_forward_is_normalised_sum _ (fun _ => rfl) sample_engine sample_partition sample_coeffs
      rfl sample_fits sample_distinct_slots 0 (by decide) 1 (by decide)⟩

/-- Witness of C3: the round trip of the sample coefficients on the 2 × 2 × 2 sample, run in
place. -/
theorem C3_roundtrip_nonreduced_witness :
    (sample_partition.fits sample_grid ∧ sample_partition.distinct_columns sample_grid ∧
      sample_partition.distinct_z sample_grid) ∧
    ∃ r1 r2, ((sample_engine : FFT3D ℂ).prepare sample_partition).transform
        (fun n => Complex.exp (2 * (Real.pi : ℂ) * Complex.I / (n : ℂ))) 1 sample_partition
        sample_coeffs = Except.ok r1 ∧
      r1.1.transform (fun n => Complex.exp (2 * (Real.pi : ℂ) * Complex.I / (n : ℂ))) (-1)
        sample_partition sample_coeffs = Except.ok r2 ∧
      (∀ i, i < sample_partition.num_zcol → ∀ j, j < (sample_partition.zcol i).z.length →
        r2.2 (sample_partition.zcol_offs i + j) =
          sample_coeffs (sample_partition.zcol_offs i + j)) ∧
      ((sample_coeffs : ℕ → ℂ) = sample_coeffs → r2.2 = sample_coeffs) :=
  ⟨⟨sample_fits, sample_distinct_columns, sample_distinct_z⟩,
    C3_roundtrip_nonreduced _ (fun _ => rfl) sample_engine sample_partition sample_coeffs
      sample_coeffs rfl
      (show 0 < sample_grid.size 0 ∧ 0 < sample_grid.size 1 ∧ 0 < sample_grid.size 2 from by
        decide)
      rfl sample_fits sample_distinct_columns sample_distinct_z⟩

/-- Witness of C6: the concrete scenario of the specification with `v = 1` at the grid point
`(1, 2, 3)`. -/
theorem C6_dc_only_backward_is_broadcast_witness :
    ∃ r, ((FFT3D.create scenario_grid (fun _ => (0 : ℂ))).prepare scenario_partition).transform
        (fun n => Complex.exp (2 * (Real.pi : ℂ) * Complex.I / (n : ℂ))) 1 scenario_partition
        scenario_coeffs = Except.ok r ∧
      r.1.fft_buffer_ (1 + 2 * (FFT3D.create scenario_grid (fun _ => (0 : ℂ))).grid_.size 0 +
        3 * (FFT3D.create scenario_grid (fun _ => (0 : ℂ))).grid_.size 0 *
          (FFT3D.create scenario_grid (fun _ => (0 : ℂ))).grid_.size 1) = 1 :=
  C6_dc_only_backward_is_broadcast _ (FFT3D.create scenario_grid (fun _ => (0 : ℂ)))
    scenario_partition scenario_coeffs 1 rfl rfl scenario_fits scenario_distinct_columns
    scenario_distinct_z ⟨0, by decide, 0, by decide, rfl, rfl, rfl⟩ scenario_coeffs_dc 1 2 3
    (show 1 < scenario_grid.size 0 from by decide) (show 2 < scenario_grid.size 1 from by decide)
    (show 3 < scenario_grid.size 2 from by decide)

section Paired
variable {K : Type} [Field K] [StarRing K]

omit [Field K] [StarRing K] in
/-- Peeling the first iteration off a loop. -/
theorem forLoop_succ_first {σ : Type} (n : ℕ) (f : ℕ → σ → σ) (s : σ) :
    forLoop (n + 1) f s = forLoop n (fun k => f (1 + k)) (f 0 s) := by
  induction n with
  | zero => rfl
  | succ m ih =>
    rw [forLoop_succ, ih, forLoop_succ, Nat.add_comm 1 m]

omit [StarRing K] in
/-- Three loops that keep the pointwise relation `b = b1 + c * b2` in every iteration keep it
to the end. -/
theorem forLoop_linear_at (n : ℕ) (c : K) (F F1 F2 : ℕ → (ℕ → K) → (ℕ → K))
    (hF : ∀ i b b1 b2, (∀ p, b p = b1 p + c * b2 p) → ∀ p, F i b p = F1 i b1 p + c * F2 i b2 p)
    (b b1 b2 : ℕ → K) (h : ∀ p, b p = b1 p + c * b2 p) :
    ∀ p, forLoop n F b p = forLoop n F1 b1 p + c * forLoop n F2 b2 p := by
  induction n with
  | zero => exact h
  | succ m ih => exact hF m _ _ _ ih

omit [StarRing K] in
theorem update_linear_at (c : K) (q : ℕ) (v1 v2 : K) (b b1 b2 : ℕ → K)
    (h : ∀ p, b p = b1 p + c * b2 p) :
    ∀ p, Function.update b q (v1 + c * v2) p =
      Function.update b1 q v1 p + c * Function.update b2 q v2 p := by
  intro p
  by_cases hp : p = q
  · subst hp; simp
  · rw [Function.update_noteq hp, Function.update_noteq hp, Function.update_noteq hp]
    exact h p

omit [StarRing K] in
theorem double_complex_I (I : K) : double_complex I 0 1 = I := by
  unfold double_complex
  ring

/-- The two-field plane scatter is the scatter of the first field plus `i` times the scatter
of the second field, provided the partition has a column. -/
theorem xy2_load_eq_add (I : K) (e : FFT3D K) (gvec : Gvec_partition) (iz : ℕ)
    (aux1 aux2 : ℕ → K) (hne : 0 < gvec.num_zcol) (p : ℕ) :
    e.xy2_load I gvec iz aux1 aux2 (fun _ => 0) p =
      e.xy_load true gvec iz aux1 (fun _ => 0) p + I * e.xy_load true gvec iz aux2 (fun _ => 0) p := by
  obtain ⟨m, hm⟩ : ∃ m, gvec.num_zcol = m + 1 := ⟨gvec.num_zcol - 1, by omega⟩
  rw [xy_load_eq, xy_load_eq]
  unfold FFT3D.xy2_load forLoopFrom
  rw [hm, forLoop_succ_first, forLoop_succ_first, Nat.add_sub_cancel, double_complex_I]
  refine forLoop_linear_at m I _ _ _ (fun i b b1 b2 hb => ?_) _ _ _ ?_ p
  · have hi : (true = true ∧ 1 + i ≠ 0) := ⟨rfl, by omega⟩
    intro p
    rw [if_pos hi, if_pos hi]
    exact update_linear_at I _ _ _ _ _ _ (update_linear_at I _ _ _ _ _ _ hb) p
  · simp only [ne_eq, not_true_eq_false, and_false, if_false, Nat.zero_mul, Nat.add_zero]
    exact update_linear_at I _ _ _ _ _ _ (fun _ => by simp)

omit [StarRing K] in
/-- The 2-D transform is linear. -/
theorem fftw_dft_2d_linear (w0 w1 : K) (n0 n1 : ℕ) (c : K) (b b1 b2 : ℕ → K)
    (h : ∀ p, b p = b1 p + c * b2 p) (k : ℕ) :
    fftw_dft_2d w0 w1 n0 n1 b k =
      fftw_dft_2d w0 w1 n0 n1 b1 k + c * fftw_dft_2d w0 w1 n0 n1 b2 k := by
  unfold fftw_dft_2d
  split_ifs
  · rw [mul_sum, ← sum_add_distrib]
    refine sum_congr rfl (fun j0 _ => ?_)
    rw [mul_sum, ← sum_add_distrib]
    refine sum_congr rfl (fun j1 _ => ?_)
    rw [h]
    ring
  · exact h k

theorem xy2_load_congr_at (I : K) (e : FFT3D K) (gvec : Gvec_partition) (iz : ℕ)
    (aux1 aux2 b c : ℕ → K) (k : ℕ) (h : b k = c k) :
    e.xy2_load I gvec iz aux1 aux2 b k = e.xy2_load I gvec iz aux1 aux2 c k := by
  unfold FFT3D.xy2_load forLoopFrom
  refine forLoop_congr_at _ _ k (fun i b' c' hbc => ?_) _ _ (update_congr_at _ _ _ _ _ h)
  exact update_congr_at _ _ _ _ _ (update_congr_at _ _ _ _ _ hbc)

/-- The two-field scatter reads each auxiliary buffer only at `iz + i * local_size_z`. -/
theorem xy2_load_congr_aux (I : K) (e : FFT3D K) (gvec : Gvec_partition) (iz : ℕ)
    (aux1 aux2 aux1' aux2' b : ℕ → K) (hne : 0 < gvec.num_zcol)
    (h1 : ∀ i, i < gvec.num_zcol →
      aux1 (iz + i * e.local_size_z_) = aux1' (iz + i * e.local_size_z_))
    (h2 : ∀ i, i < gvec.num_zcol →
      aux2 (iz + i * e.local_size_z_) = aux2' (iz + i * e.local_size_z_)) :
    e.xy2_load I gvec iz aux1 aux2 b = e.xy2_load I gvec iz aux1' aux2' b := by
  unfold FFT3D.xy2_load forLoopFrom
  have h10 := h1 0 hne
  have h20 := h2 0 hne
  rw [Nat.zero_mul, Nat.add_zero] at h10 h20
  rw [h10, h20]
  refine forLoop_congr _ _ _ _ (fun i hi t => ?_)
  have hi' : 1 + i < gvec.num_zcol := by omega
  simp only [h1 (1 + i) hi', h2 (1 + i) hi']

/-- After `m` iterations of the backward two-field plane loop: both auxiliary buffers are
untouched and the main buffer holds the transformed plane `iz` for every `iz < m`. -/
theorem xy2_backward_loop (root : ℕ → K) (I : K) (e : FFT3D K) (gvec : Gvec_partition)
    (s : xy2_state K) (m : ℕ) :
    (forLoop m (e.xy2_plane_backward root I gvec) s).aux1 = s.aux1 ∧
    (forLoop m (e.xy2_plane_backward root I gvec) s).aux2 = s.aux2 ∧
    (∀ iz, iz < m → ∀ p, p < e.grid_.size 0 * e.grid_.size 1 →
      (forLoop m (e.xy2_plane_backward root I gvec) s).fft_buffer
          (iz * (e.grid_.size 0 * e.grid_.size 1) + p) =
        e.plan_backward_xy root (e.xy2_load I gvec iz s.aux1 s.aux2 (fun _ => 0)) p) := by
  induction m with
  | zero => exact ⟨rfl, rfl, fun i hi => absurd hi (Nat.not_lt_zero i)⟩
  | succ m ih =>
    obtain ⟨ih1, ih2, ihb⟩ := ih
    rw [forLoop_succ]
    refine ⟨ih1, ih2, ?_⟩
    intro iz hiz p hp
    show copy_range _ 0 (e.grid_.size 0 * e.grid_.size 1) _
      (m * (e.grid_.size 0 * e.grid_.size 1)) _ = _
    rcases Nat.lt_succ_iff_lt_or_eq.mp hiz with hlt | heq
    · rw [copy_range_outside _ _ _ _ _ _ (Or.inl (block_index_lt iz m _ p hlt hp))]
      exact ihb iz hlt p hp
    · subst heq
      rw [copy_range_inside _ _ _ _ _ _ hp, Nat.zero_add]
      unfold FFT3D.plan_backward_xy
      have hp' : p < e.grid_.size 1 * e.grid_.size 0 := by rw [Nat.mul_comm]; exact hp
      refine fftw_dft_2d_congr _ _ _ _ _ _ (fun q hq => ?_) p hp'
      rw [ih1, ih2]
      refine xy2_load_congr_at I e gvec iz s.aux1 s.aux2 _ _ q (fill_zero_inside _ _ q ?_)
      rw [Nat.mul_comm]; exact hq

end Paired

section Paired
variable {K : Type} [Field K] [StarRing K]

/-- The backward two-field transform of a prepared single-process engine returns, and every
plane of the main buffer is the 2-D transform of the plane scattered from the transformed
columns of the two fields. -/
theorem transform2_backward_spec (root : ℕ → K) (I : K) (e : FFT3D K) (gvec : Gvec_partition)
    (d1 d2 : ℕ → K) (hp : e.prepared_ = true) (hl : e.local_size_z_ = e.grid_.size 2)
    (hr : gvec.reduced = true) (hne : 0 < gvec.num_zcol) :
    ∃ r, e.transform2 root I 1 gvec d1 d2 = Except.ok r ∧
      ∀ iz, iz < e.grid_.size 2 → ∀ p, p < e.grid_.size 0 * e.grid_.size 1 →
        r.1.fft_buffer_ (iz * (e.grid_.size 0 * e.grid_.size 1) + p) =
          e.plan_backward_xy root
            (e.xy2_load I gvec iz
              (fun idx => e.plan_backward_z root
                (e.z_load true gvec (idx / e.grid_.size 2) d1 (fun _ => 0))
                (idx % e.grid_.size 2))
              (fun idx => e.plan_backward_z root
                (e.z_load true gvec (idx / e.grid_.size 2) d2 (fun _ => 0))
                (idx % e.grid_.size 2))
              (fun _ => 0)) p := by
  unfold FFT3D.transform2
  rw [if_neg (by simp [hp]), if_neg (by simp [hr])]
  simp only [if_true, run_z_backward, Except.bind]
  rw [transform_xy2_backward _ _ _ _ _ hr]
  simp only [Except.bind]
  refine ⟨_, rfl, ?_⟩
  intro iz hiz p hp'
  set e0 : FFT3D K :=
    { e with
      fft_buffer_aux1_ := e.realloc (e.grid_.size 2 * gvec.num_zcol) e.fft_buffer_aux1_
      fft_buffer_aux2_ := e.realloc (e.grid_.size 2 * gvec.num_zcol) e.fft_buffer_aux2_ }
    with he0
  obtain ⟨_, hza1, _⟩ := z_backward_loop root true e0 gvec
    ⟨e0.fftw_buffer_z_, d1, e0.fft_buffer_aux1_.data⟩ gvec.num_zcol
  set S1 := forLoop gvec.num_zcol (e0.z_col_backward root true gvec)
    ⟨e0.fftw_buffer_z_, d1, e0.fft_buffer_aux1_.data⟩ with hS1
  set e1 : FFT3D K := { e0 with fftw_buffer_z_ := S1.fftw_buffer_z } with he1
  obtain ⟨_, hza2, _⟩ := z_backward_loop root true e1 gvec
    ⟨e1.fftw_buffer_z_, d2, e0.fft_buffer_aux2_.data⟩ gvec.num_zcol
  set S2 := forLoop gvec.num_zcol (e1.z_col_backward root true gvec)
    ⟨e1.fftw_buffer_z_, d2, e0.fft_buffer_aux2_.data⟩ with hS2
  set e2 : FFT3D K := { e1 with fftw_buffer_z_ := S2.fftw_buffer_z } with he2
  obtain ⟨_, _, hxb⟩ := xy2_backward_loop root I e2 gvec
    ⟨e2.fftw_buffer_xy_, e2.fft_buffer_, S1.aux, S2.aux⟩ e2.local_size_z_
  have hiz' : iz < e2.local_size_z_ := by rw [← hl] at hiz; exact hiz
  refine (hxb iz hiz' p hp').trans ?_
  have hidx : ∀ i, (i * e.grid_.size 2 + iz) / e.grid_.size 2 = i ∧
      (i * e.grid_.size 2 + iz) % e.grid_.size 2 = iz :=
    fun i => ⟨row_major_div _ _ _ hiz, row_major_mod _ _ _ hiz⟩
  have hload : e2.xy2_load I gvec iz S1.aux S2.aux (fun _ => 0) =
      e.xy2_load I gvec iz
        (fun idx => e.plan_backward_z root
          (e.z_load true gvec (idx / e.grid_.size 2) d1 (fun _ => 0)) (idx % e.grid_.size 2))
        (fun idx => e.plan_backward_z root
          (e.z_load true gvec (idx / e.grid_.size 2) d2 (fun _ => 0)) (idx % e.grid_.size 2))
        (fun _ => 0) := by
    refine (xy2_load_congr_aux I e2 gvec iz S1.aux S2.aux
      (fun idx => e.plan_backward_z root
        (e.z_load true gvec (idx / e.grid_.size 2) d1 (fun _ => 0)) (idx % e.grid_.size 2))
      (fun idx => e.plan_backward_z root
        (e.z_load true gvec (idx / e.grid_.size 2) d2 (fun _ => 0)) (idx % e.grid_.size 2))
      _ hne (fun i hi => ?_) (fun i hi => ?_)).trans rfl
    · show S1.aux (iz + i * e.local_size_z_) = e.plan_backward_z root
        (e.z_load true gvec ((iz + i * e.local_size_z_) / e.grid_.size 2) d1 (fun _ => 0))
        ((iz + i * e.local_size_z_) % e.grid_.size 2)
      rw [hl, Nat.add_comm iz, hza1 i hi iz hiz, (hidx i).1, (hidx i).2]
      rfl
    · show S2.aux (iz + i * e.local_size_z_) = e.plan_backward_z root
        (e.z_load true gvec ((iz + i * e.local_size_z_) / e.grid_.size 2) d2 (fun _ => 0))
        ((iz + i * e.local_size_z_) % e.grid_.size 2)
      rw [hl, Nat.add_comm iz, hza2 i hi iz hiz, (hidx i).1, (hidx i).2]
      rfl
  show e.plan_backward_xy root _ p = _
  rw [hload]

/-- The two-field backward transform is the first single-field backward transform plus `i`
times the second one, at every point of the grid. -/
theorem backward_paired_value (root : ℕ → K) (I : K) (e : FFT3D K) (gvec : Gvec_partition)
    (c1 c2 : ℕ → K) (hp : e.prepared_ = true) (hl : e.local_size_z_ = e.grid_.size 2)
    (hr : gvec.reduced = true) (hne : 0 < gvec.num_zcol) (idx : ℕ) (hidx : idx < e.size) :
    ∃ r r1 r2, e.transform2 root I 1 gvec c1 c2 = Except.ok r ∧
      e.transform root 1 gvec c1 = Except.ok r1 ∧ e.transform root 1 gvec c2 = Except.ok r2 ∧
      r.1.fft_buffer_ idx = r1.1.fft_buffer_ idx + I * r2.1.fft_buffer_ idx := by
  obtain ⟨r, h, hb⟩ := transform2_backward_spec root I e gvec c1 c2 hp hl hr hne
  obtain ⟨r1, h1, _, _, _, _, _, hb1⟩ := transform_backward_spec root e gvec c1 hp hl
  obtain ⟨r2, h2, _, _, _, _, _, hb2⟩ := transform_backward_spec root e gvec c2 hp hl
  refine ⟨r, r1, r2, h, h1, h2, ?_⟩
  have hxy : 0 < e.grid_.size 0 * e.grid_.size 1 := by
    unfold FFT3D.size FFT3D_grid.size_total at hidx
    rcases Nat.eq_zero_or_pos (e.grid_.size 0 * e.grid_.size 1) with h0 | h0
    · rw [h0, Nat.zero_mul] at hidx
      exact absurd hidx (Nat.not_lt_zero _)
    · exact h0
  have hiz : idx / (e.grid_.size 0 * e.grid_.size 1) < e.grid_.size 2 := by
    unfold FFT3D.size FFT3D_grid.size_total at hidx
    exact (Nat.div_lt_iff_lt_mul hxy).mpr (by rw [Nat.mul_comm]; exact hidx)
  have hpp : idx % (e.grid_.size 0 * e.grid_.size 1) < e.grid_.size 0 * e.grid_.size 1 :=
    Nat.mod_lt _ hxy
  have hsplit : idx = idx / (e.grid_.size 0 * e.grid_.size 1) * (e.grid_.size 0 * e.grid_.size 1) +
      idx % (e.grid_.size 0 * e.grid_.size 1) := (Nat.div_add_mod' idx _).symm
  rw [hsplit, hb _ hiz _ hpp, hb1 _ hiz _ hpp, hb2 _ hiz _ hpp, hr]
  unfold FFT3D.plan_backward_xy
  exact fftw_dft_2d_linear _ _ _ _ I _ _ _
    (fun q => xy2_load_eq_add I e gvec _ _ _ hne q) _

end Paired

/-- C9. On a single-process CPU engine prepared with a reduced partition that has at least one
column, for all coefficient arrays `c1` and `c2` the paired backward transform and the two
single-field backward transforms return, and at every grid point the main buffer after the
paired transform equals `B1 + i * B2`, where `B1` and `B2` are the main buffers after the
single-field backward transforms of `c1` and of `c2` on the same partition. -/
theorem C9_paired_backward_equals_singles (root : ℕ → ℂ) (e : FFT3D ℂ) (gvec : Gvec_partition)
    (c1 c2 : ℕ → ℂ) (hl : e.local_size_z_ = e.grid_.size 2) (hred : gvec.reduced = true)
    (hne : 0 < gvec.num_zcol) (idx : ℕ) (hidx : idx < e.size) :
    ∃ r r1 r2, (e.prepare gvec).transform2 root Complex.I 1 gvec c1 c2 = Except.ok r ∧
      (e.prepare gvec).transform root 1 gvec c1 = Except.ok r1 ∧
      (e.prepare gvec).transform root 1 gvec c2 = Except.ok r2 ∧
      r.1.fft_buffer_ idx = r1.1.fft_buffer_ idx + Complex.I * r2.1.fft_buffer_ idx :=
  backward_paired_value root Complex.I (e.prepare gvec) gvec c1 c2 rfl hl hred hne idx hidx

section PairedFwd
variable {K : Type} [Field K] [StarRing K]

omit [StarRing K] in
/-- The transformed plane `iz` does not depend on what the scratch held before. -/
theorem plan_forward_xy_plane (root : ℕ → K) (e : FFT3D K) (fb scratch : ℕ → K) (iz q : ℕ)
    (hq : q < e.grid_.size 0 * e.grid_.size 1) :
    e.plan_forward_xy root
        (copy_range fb (iz * (e.grid_.size 0 * e.grid_.size 1))
          (e.grid_.size 0 * e.grid_.size 1) scratch 0) q =
      e.plan_forward_xy root (fun p => fb (iz * (e.grid_.size 0 * e.grid_.size 1) + p)) q := by
  unfold FFT3D.plan_forward_xy
  have hq' : q < e.grid_.size 1 * e.grid_.size 0 := by rw [Nat.mul_comm]; exact hq
  refine fftw_dft_2d_congr _ _ _ _ _ _ (fun p hp => ?_) _ hq'
  have hp' : p < e.grid_.size 0 * e.grid_.size 1 := by rw [Nat.mul_comm]; exact hp
  have := copy_range_inside fb (iz * (e.grid_.size 0 * e.grid_.size 1))
    (e.grid_.size 0 * e.grid_.size 1) scratch 0 p hp'
  rw [Nat.zero_add] at this
  exact this

/-- After `m` iterations of the forward two-field plane loop: the main buffer is untouched and
for every plane `iz < m` and column `i` the two auxiliary buffers hold at
`iz + i * local_size_z` the two combinations of the transformed plane's values at the column's
position and at its negated position. -/
theorem xy2_forward_loop (root : ℕ → K) (I : K) (e : FFT3D K) (gvec : Gvec_partition)
    (hpos0 : ∀ i, i < gvec.num_zcol →
      (e.z_col_pos_.data i 0).toNat < e.grid_.size 0 * e.grid_.size 1)
    (hpos1 : ∀ i, i < gvec.num_zcol →
      (e.z_col_pos_.data i 1).toNat < e.grid_.size 0 * e.grid_.size 1)
    (s : xy2_state K) (m : ℕ) (hm : m ≤ e.local_size_z_) :
    (forLoop m (e.xy2_plane_forward root I gvec) s).fft_buffer = s.fft_buffer ∧
    (∀ iz, iz < m → ∀ i, i < gvec.num_zcol →
      (forLoop m (e.xy2_plane_forward root I gvec) s).aux1 (iz + i * e.local_size_z_) =
        (1 / 2 : K) *
          (e.plan_forward_xy root
              (fun p => s.fft_buffer (iz * (e.grid_.size 0 * e.grid_.size 1) + p))
              (e.z_col_pos_.data i 0).toNat +
            star (e.plan_forward_xy root
              (fun p => s.fft_buffer (iz * (e.grid_.size 0 * e.grid_.size 1) + p))
              (e.z_col_pos_.data i 1).toNat))) ∧
    (∀ iz, iz < m → ∀ i, i < gvec.num_zcol →
      (forLoop m (e.xy2_plane_forward root I gvec) s).aux2 (iz + i * e.local_size_z_) =
        double_complex I 0 (-(1 / 2)) *
          (e.plan_forward_xy root
              (fun p => s.fft_buffer (iz * (e.grid_.size 0 * e.grid_.size 1) + p))
              (e.z_col_pos_.data i 0).toNat -
            star (e.plan_forward_xy root
              (fun p => s.fft_buffer (iz * (e.grid_.size 0 * e.grid_.size 1) + p))
              (e.z_col_pos_.data i 1).toNat))) := by
  induction m with
  | zero =>
    exact ⟨rfl, fun i hi => absurd hi (Nat.not_lt_zero i), fun i hi => absurd hi (Nat.not_lt_zero i)⟩
  | succ m ih =>
    obtain ⟨ihb, ih1, ih2⟩ := ih (Nat.le_of_succ_le hm)
    have hmlt : m < e.local_size_z_ := hm
    rw [forLoop_succ]
    refine ⟨ihb, ?_, ?_⟩
    · intro iz hiz i hi
      show e.xy2_get1 gvec m _ _ _ = _
      unfold FFT3D.xy2_get1
      rcases Nat.lt_succ_iff_lt_or_eq.mp hiz with hlt | heq
      · rw [forLoop_update_of_ne]
        · exact ih1 iz hlt i hi
        · intro j _ hj
          have := (plane_index_inj _ _ _ _ _ hmlt (lt_trans hlt hmlt) hj).1
          exact absurd this (Nat.ne_of_gt hlt)
      · subst heq
        rw [forLoop_update_of_inj gvec.num_zcol (fun i => iz + i * e.local_size_z_) _ _
          (fun a _ l _ hal => (plane_index_inj _ _ _ _ _ hmlt hmlt hal).2) i hi,
          plan_forward_xy_plane root e _ _ iz _ (hpos0 i hi),
          plan_forward_xy_plane root e _ _ iz _ (hpos1 i hi), ihb]
    · intro iz hiz i hi
      show e.xy2_get2 I gvec m _ _ _ = _
      unfold FFT3D.xy2_get2
      rcases Nat.lt_succ_iff_lt_or_eq.mp hiz with hlt | heq
      · rw [forLoop_update_of_ne]
        · exact ih2 iz hlt i hi
        · intro j _ hj
          have := (plane_index_inj _ _ _ _ _ hmlt (lt_trans hlt hmlt) hj).1
          exact absurd this (Nat.ne_of_gt hlt)
      · subst heq
        rw [forLoop_update_of_inj gvec.num_zcol (fun i => iz + i * e.local_size_z_) _ _
          (fun a _ l _ hal => (plane_index_inj _ _ _ _ _ hmlt hmlt hal).2) i hi,
          plan_forward_xy_plane root e _ _ iz _ (hpos0 i hi),
          plan_forward_xy_plane root e _ _ iz _ (hpos1 i hi), ihb]

/-- The forward two-field transform of a prepared single-process engine returns; each of the
two coefficient arrays receives, column after column, the normalised z-transform of its
combination of the xy-transformed planes. -/
theorem transform2_forward_spec (root : ℕ → K) (I : K) (e : FFT3D K) (gvec : Gvec_partition)
    (d1 d2 : ℕ → K) (hp : e.prepared_ = true) (hl : e.local_size_z_ = e.grid_.size 2)
    (hr : gvec.reduced = true)
    (hpos0 : ∀ i, i < gvec.num_zcol →
      (e.z_col_pos_.data i 0).toNat < e.grid_.size 0 * e.grid_.size 1)
    (hpos1 : ∀ i, i < gvec.num_zcol →
      (e.z_col_pos_.data i 1).toNat < e.grid_.size 0 * e.grid_.size 1)
    (hz : ∀ i, i < gvec.num_zcol → ∀ j, j < (gvec.zcol i).z.length →
      (e.grid.coord_by_gvec (gvec.zfreq i j) 2).toNat < e.grid_.size 2) :
    ∃ r, e.transform2 root I (-1) gvec d1 d2 = Except.ok r ∧
      r.2.1 = forLoop gvec.num_zcol (fun i d => forLoop (gvec.zcol i).z.length
        (fun j d => Function.update d (gvec.zcol_offs i + j)
          (e.plan_forward_z root
            (fun k => (1 / 2 : K) *
              (e.plan_forward_xy root
                  (fun p => e.fft_buffer_ (k * (e.grid_.size 0 * e.grid_.size 1) + p))
                  (e.z_col_pos_.data i 0).toNat +
                star (e.plan_forward_xy root
                  (fun p => e.fft_buffer_ (k * (e.grid_.size 0 * e.grid_.size 1) + p))
                  (e.z_col_pos_.data i 1).toNat)))
            (e.grid.coord_by_gvec (gvec.zfreq i j) 2).toNat * (1 / (e.size : K)))) d) d1 ∧
      r.2.2 = forLoop gvec.num_zcol (fun i d => forLoop (gvec.zcol i).z.length
        (fun j d => Function.update d (gvec.zcol_offs i + j)
          (e.plan_forward_z root
            (fun k => double_complex I 0 (-(1 / 2)) *
              (e.plan_forward_xy root
                  (fun p => e.fft_buffer_ (k * (e.grid_.size 0 * e.grid_.size 1) + p))
                  (e.z_col_pos_.data i 0).toNat -
                star (e.plan_forward_xy root
                  (fun p => e.fft_buffer_ (k * (e.grid_.size 0 * e.grid_.size 1) + p))
                  (e.z_col_pos_.data i 1).toNat)))
            (e.grid.coord_by_gvec (gvec.zfreq i j) 2).toNat * (1 / (e.size : K)))) d) d2 := by
  unfold FFT3D.transform2
  rw [if_neg (by simp [hp]), if_neg (by simp [hr])]
  simp only [show ((-1 : ℤ) = 1) = False from by decide, if_false, if_true]
  rw [transform_xy2_forward _ _ _ _ _ hr]
  simp only [Except.bind, run_z_forward]
  set e0 : FFT3D K :=
    { e with
      fft_buffer_aux1_ := e.realloc (e.grid_.size 2 * gvec.num_zcol) e.fft_buffer_aux1_
      fft_buffer_aux2_ := e.realloc (e.grid_.size 2 * gvec.num_zcol) e.fft_buffer_aux2_ }
    with he0
  obtain ⟨_, hx1, hx2⟩ := xy2_forward_loop root I e0 gvec hpos0 hpos1
    ⟨e0.fftw_buffer_xy_, e0.fft_buffer_, e0.fft_buffer_aux1_.data, e0.fft_buffer_aux2_.data⟩
    e0.local_size_z_ (le_refl _)
  set S := forLoop e0.local_size_z_ (e0.xy2_plane_forward root I gvec)
    ⟨e0.fftw_buffer_xy_, e0.fft_buffer_, e0.fft_buffer_aux1_.data, e0.fft_buffer_aux2_.data⟩
    with hS
  set e1 : FFT3D K :=
    { e0 with fftw_buffer_xy_ := S.fftw_buffer_xy, fft_buffer_ := S.fft_buffer } with he1
  obtain ⟨_, hzd1⟩ := z_forward_loop root e1 gvec ⟨e1.fftw_buffer_z_, d1, S.aux1⟩
    gvec.num_zcol hz
  set T1 := forLoop gvec.num_zcol (e1.z_col_forward root gvec) ⟨e1.fftw_buffer_z_, d1, S.aux1⟩
    with hT1
  set e2 : FFT3D K := { e1 with fftw_buffer_z_ := T1.fftw_buffer_z } with he2
  obtain ⟨_, hzd2⟩ := z_forward_loop root e2 gvec ⟨e2.fftw_buffer_z_, d2, S.aux2⟩
    gvec.num_zcol hz
  refine ⟨_, rfl, ?_, ?_⟩
  · refine hzd1.trans (nested_update_congr _ _ _ _ _ _ (fun i hi j hj => ?_))
    have hc : (e.grid.coord_by_gvec (gvec.zfreq i j) 2).toNat < e.grid_.size 2 := hz i hi j hj
    congr 1
    show fftw_dft_1d _ (e.grid_.size 2) _ (e.grid.coord_by_gvec (gvec.zfreq i j) 2).toNat =
      fftw_dft_1d _ (e.grid_.size 2) _ (e.grid.coord_by_gvec (gvec.zfreq i j) 2).toNat
    refine fftw_dft_1d_congr _ _ _ _ (fun k hk => ?_) _ hc
    have hk' : k < e0.local_size_z_ := by rw [← hl] at hk; exact hk
    show S.aux1 (i * e.grid_.size 2 + k) = _
    rw [Nat.add_comm, ← hl]
    exact hx1 k hk' i hi
  · refine hzd2.trans (nested_update_congr _ _ _ _ _ _ (fun i hi j hj => ?_))
    have hc : (e.grid.coord_by_gvec (gvec.zfreq i j) 2).toNat < e.grid_.size 2 := hz i hi j hj
    congr 1
    show fftw_dft_1d _ (e.grid_.size 2) _ (e.grid.coord_by_gvec (gvec.zfreq i j) 2).toNat =
      fftw_dft_1d _ (e.grid_.size 2) _ (e.grid.coord_by_gvec (gvec.zfreq i j) 2).toNat
    refine fftw_dft_1d_congr _ _ _ _ (fun k hk => ?_) _ hc
    have hk' : k < e0.local_size_z_ := by rw [← hl] at hk; exact hk
    show S.aux2 (i * e.grid_.size 2 + k) = _
    rw [Nat.add_comm, ← hl]
    exact hx2 k hk' i hi

end PairedFwd

section Mirror

/-- A coordinate and the coordinate of the negated frequency add up to a multiple of the
extent. -/
theorem coord_add_coord_neg (g : FFT3D_grid) (i : ℤ) (d : ℕ) (h : g.on_grid i d)
    (hn : g.on_grid (-i) d) :
    (g.coord_by_gvec i d).toNat + (g.coord_by_gvec (-i) d).toNat = 0 ∨
      (g.coord_by_gvec i d).toNat + (g.coord_by_gvec (-i) d).toNat = g.size d := by
  unfold FFT3D_grid.on_grid at h hn
  unfold FFT3D_grid.coord_by_gvec
  split_ifs <;> omega

variable {K : Type} [Field K] [StarRing K]

/-- Conjugating a forward twiddle power at the mirrored coordinate gives the forward twiddle
power at the coordinate. -/
theorem star_twiddle_mirror (w : K) (n : ℕ) (hw : IsPrimitiveRoot w n) (hn : 0 < n)
    (hstar : star w = w⁻¹) (c c' : ℕ) (hc : c + c' = 0 ∨ c + c' = n) (j : ℕ) :
    star (w⁻¹ ^ (j * c')) = w⁻¹ ^ (j * c) := by
  have hw0 : w ≠ 0 := hw.ne_zero (Nat.pos_iff_ne_zero.mp hn)
  have h1 : w ^ (c + c') = 1 := by
    rcases hc with h | h
    · rw [h, pow_zero]
    · rw [h, hw.pow_eq_one]
  rw [star_pow, star_inv₀, hstar, inv_inv, inv_pow]
  refine eq_inv_of_mul_eq_one_left ?_
  rw [← pow_add, ← Nat.mul_add, Nat.add_comm c' c, Nat.mul_comm, pow_mul, h1, one_pow]

/-- The two combinations that the two-field forward plane stage forms from the transform of
`f = f1 + i * f2` (`f1`, `f2` real) at a position and at the mirrored position are the
transforms of `f1` and of `f2` at the position. -/
theorem paired_plane_identity (I : K) (hI : I * I = -1) (hIs : star I = -I) (h2 : (2 : K) ≠ 0)
    (w0 w1 : K) (n0 n1 : ℕ) (f f1 f2 : ℕ → K)
    (hf : ∀ p, p < n0 * n1 → f p = f1 p + I * f2 p)
    (hf1 : ∀ p, p < n0 * n1 → star (f1 p) = f1 p)
    (hf2 : ∀ p, p < n0 * n1 → star (f2 p) = f2 p)
    (q0 q1 q0' q1' : ℕ) (hq0 : q0 < n0) (hq1 : q1 < n1) (hq0' : q0' < n0) (hq1' : q1' < n1)
    (hm0 : ∀ j, star (w0⁻¹ ^ (j * q0')) = w0⁻¹ ^ (j * q0))
    (hm1 : ∀ j, star (w1⁻¹ ^ (j * q1')) = w1⁻¹ ^ (j * q1)) :
    (1 / 2 : K) * (fftw_dft_2d w0⁻¹ w1⁻¹ n0 n1 f (q0 * n1 + q1) +
        star (fftw_dft_2d w0⁻¹ w1⁻¹ n0 n1 f (q0' * n1 + q1'))) =
      fftw_dft_2d w0⁻¹ w1⁻¹ n0 n1 f1 (q0 * n1 + q1) ∧
    double_complex I 0 (-(1 / 2)) * (fftw_dft_2d w0⁻¹ w1⁻¹ n0 n1 f (q0 * n1 + q1) -
        star (fftw_dft_2d w0⁻¹ w1⁻¹ n0 n1 f (q0' * n1 + q1'))) =
      fftw_dft_2d w0⁻¹ w1⁻¹ n0 n1 f2 (q0 * n1 + q1) := by
  have hq : q0 * n1 + q1 < n0 * n1 := block_index_lt _ _ _ _ hq0 hq1
  have hq' : q0' * n1 + q1' < n0 * n1 := block_index_lt _ _ _ _ hq0' hq1'
  rw [fftw_dft_2d_apply _ _ _ _ f _ hq, fftw_dft_2d_apply _ _ _ _ f _ hq',
    fftw_dft_2d_apply _ _ _ _ f1 _ hq, fftw_dft_2d_apply _ _ _ _ f2 _ hq,
    row_major_div _ _ _ hq1, row_major_mod _ _ _ hq1, row_major_div _ _ _ hq1',
    row_major_mod _ _ _ hq1']
  have hstar : star (∑ j0 ∈ range n0, ∑ j1 ∈ range n1,
        f (j0 * n1 + j1) * (w0⁻¹ ^ (j0 * q0') * w1⁻¹ ^ (j1 * q1'))) =
      ∑ j0 ∈ range n0, ∑ j1 ∈ range n1,
        (f1 (j0 * n1 + j1) - I * f2 (j0 * n1 + j1)) *
          (w0⁻¹ ^ (j0 * q0) * w1⁻¹ ^ (j1 * q1)) := by
    rw [star_sum]
    refine sum_congr rfl (fun j0 hj0 => ?_)
    rw [star_sum]
    refine sum_congr rfl (fun j1 hj1 => ?_)
    have hp := block_index_lt _ _ _ _ (mem_range.mp hj0) (mem_range.mp hj1)
    rw [star_mul', star_mul', hm0, hm1, hf _ hp, star_add, star_mul', hf1 _ hp, hf2 _ hp, hIs]
    ring
  have hsum : ∑ j0 ∈ range n0, ∑ j1 ∈ range n1,
        f (j0 * n1 + j1) * (w0⁻¹ ^ (j0 * q0) * w1⁻¹ ^ (j1 * q1)) =
      ∑ j0 ∈ range n0, ∑ j1 ∈ range n1,
        (f1 (j0 * n1 + j1) + I * f2 (j0 * n1 + j1)) *
          (w0⁻¹ ^ (j0 * q0) * w1⁻¹ ^ (j1 * q1)) := by
    refine sum_congr rfl (fun j0 hj0 => sum_congr rfl (fun j1 hj1 => ?_))
    rw [hf _ (block_index_lt _ _ _ _ (mem_range.mp hj0) (mem_range.mp hj1))]
  rw [hstar, hsum]
  have h12 : (1 / 2 : K) * 2 = 1 := by field_simp
  constructor
  · rw [← sum_add_distrib, mul_sum]
    refine sum_congr rfl (fun j0 _ => ?_)
    rw [← sum_add_distrib, mul_sum]
    refine sum_congr rfl (fun j1 _ => ?_)
    linear_combination (f1 (j0 * n1 + j1) * (w0⁻¹ ^ (j0 * q0) * w1⁻¹ ^ (j1 * q1))) * h12
  · rw [← sum_sub_distrib, mul_sum]
    refine sum_congr rfl (fun j0 _ => ?_)
    rw [← sum_sub_distrib, mul_sum]
    refine sum_congr rfl (fun j1 _ => ?_)
    unfold double_complex
    linear_combination
      (-(I * I) * f2 (j0 * n1 + j1) * (w0⁻¹ ^ (j0 * q0) * w1⁻¹ ^ (j1 * q1))) * h12 +
        (-(f2 (j0 * n1 + j1) * (w0⁻¹ ^ (j0 * q0) * w1⁻¹ ^ (j1 * q1)))) * hI

end Mirror

section PairedFwd
variable {K : Type} [Field K] [StarRing K]

omit [Field K] [StarRing K] in
/-- The natural-number position of the negated column `i` in the plane after `prepare`. -/
theorem prepare_pos1_toNat (e : FFT3D K) (gvec : Gvec_partition) (hr : gvec.reduced = true)
    (hfn : gvec.fits_neg e.grid_) (i : ℕ) (hi : i < gvec.num_zcol) :
    ((e.prepare gvec).z_col_pos_.data i 1).toNat =
      (e.grid_.coord_by_gvec (-(gvec.zcol i).y) 1).toNat * e.grid_.size 0 +
        (e.grid_.coord_by_gvec (-(gvec.zcol i).x) 0).toNat := by
  rw [prepare_pos1 e gvec hr i hi]
  exact plane_pos_toNat _ _ _ (coord_by_gvec_range _ _ _ (hfn i hi).1).1
    (coord_by_gvec_range _ _ _ (hfn i hi).2).1

omit [Field K] [StarRing K] in
theorem prepare_pos1_lt (e : FFT3D K) (gvec : Gvec_partition) (hr : gvec.reduced = true)
    (hfn : gvec.fits_neg e.grid_) (i : ℕ) (hi : i < gvec.num_zcol) :
    ((e.prepare gvec).z_col_pos_.data i 1).toNat < e.grid_.size 1 * e.grid_.size 0 := by
  rw [prepare_pos1_toNat e gvec hr hfn i hi]
  exact block_index_lt _ _ _ _ (coord_by_gvec_toNat_lt _ _ _ (hfn i hi).2)
    (coord_by_gvec_toNat_lt _ _ _ (hfn i hi).1)

/-- The two-field forward transform of the main buffer `h1 + i * h2` (`h1`, `h2` real) writes
the arrays that the single-field forward transform writes for the main buffers `h1` and
`h2`. -/
theorem forward_paired_arrays (root : ℕ → K) (I : K) (e : FFT3D K) (gvec : Gvec_partition)
    (d1 d2 h1 h2 : ℕ → K) (hl : e.local_size_z_ = e.grid_.size 2) (hr : gvec.reduced = true)
    (hfit : gvec.fits e.grid_) (hfn : gvec.fits_neg e.grid_)
    (hs : 0 < e.grid_.size 0 ∧ 0 < e.grid_.size 1 ∧ 0 < e.grid_.size 2)
    (hr0 : IsPrimitiveRoot (root (e.grid_.size 0)) (e.grid_.size 0))
    (hr1 : IsPrimitiveRoot (root (e.grid_.size 1)) (e.grid_.size 1))
    (hc0 : star (root (e.grid_.size 0)) = (root (e.grid_.size 0))⁻¹)
    (hc1 : star (root (e.grid_.size 1)) = (root (e.grid_.size 1))⁻¹)
    (hI : I * I = -1) (hIs : star I = -I) (h2ne : (2 : K) ≠ 0)
    (hh : ∀ idx, idx < e.size → e.fft_buffer_ idx = h1 idx + I * h2 idx)
    (hh1 : ∀ idx, idx < e.size → star (h1 idx) = h1 idx)
    (hh2 : ∀ idx, idx < e.size → star (h2 idx) = h2 idx) :
    ∃ r r1 r2, (e.prepare gvec).transform2 root I (-1) gvec d1 d2 = Except.ok r ∧
      ((e.prepare gvec).input h1).transform root (-1) gvec d1 = Except.ok r1 ∧
      ((e.prepare gvec).input h2).transform root (-1) gvec d2 = Except.ok r2 ∧
      r.2.1 = r1.2 ∧ r.2.2 = r2.2 := by
  have hpos0 : ∀ i, i < gvec.num_zcol →
      ((e.prepare gvec).z_col_pos_.data i 0).toNat < e.grid_.size 0 * e.grid_.size 1 :=
    fun i hi => by
      have := prepare_pos0_lt e gvec hfit i hi
      rw [Nat.mul_comm] at this
      exact this
  have hpos1 : ∀ i, i < gvec.num_zcol →
      ((e.prepare gvec).z_col_pos_.data i 1).toNat < e.grid_.size 0 * e.grid_.size 1 :=
    fun i hi => by
      have := prepare_pos1_lt e gvec hr hfn i hi
      rw [Nat.mul_comm] at this
      exact this
  have hz : ∀ i, i < gvec.num_zcol → ∀ j, j < (gvec.zcol i).z.length →
      (e.grid_.coord_by_gvec (gvec.zfreq i j) 2).toNat < e.grid_.size 2 :=
    fun i hi j hj => coord_by_gvec_toNat_lt _ _ _ ((hfit i hi).2.2 j hj)
  obtain ⟨r, hres, hd1, hd2⟩ := transform2_forward_spec root I (e.prepare gvec) gvec d1 d2 rfl
    hl hr hpos0 hpos1 hz
  obtain ⟨r1, hres1, _, _, _, _, _, hs1⟩ :=
    transform_forward_spec root ((e.prepare gvec).input h1) gvec d1 rfl hl hpos0 hz
  obtain ⟨r2, hres2, _, _, _, _, _, hs2⟩ :=
    transform_forward_spec root ((e.prepare gvec).input h2) gvec d2 rfl hl hpos0 hz
  refine ⟨r, r1, r2, hres, hres1, hres2, ?_, ?_⟩
  all_goals
    first
    | rw [hd1, hs1]
    | rw [hd2, hs2]
  all_goals
    refine nested_update_congr _ _ _ _ _ _ (fun i hi j hj => ?_)
    congr 1
    show fftw_dft_1d _ (e.grid_.size 2) _ (e.grid_.coord_by_gvec (gvec.zfreq i j) 2).toNat =
      fftw_dft_1d _ (e.grid_.size 2) _ (e.grid_.coord_by_gvec (gvec.zfreq i j) 2).toNat
    refine fftw_dft_1d_congr _ _ _ _ (fun k hk => ?_) _ (hz i hi j hj)
    have hx := (hfit i hi).1
    have hy := (hfit i hi).2.1
    have hxn := (hfn i hi).1
    have hyn := (hfn i hi).2
    have hbuf : ∀ (g : ℕ → K) (p : ℕ), p < e.grid_.size 1 * e.grid_.size 0 →
        ((e.prepare gvec).input g).fft_buffer_ (k * (e.grid_.size 0 * e.grid_.size 1) + p) =
          g (k * (e.grid_.size 0 * e.grid_.size 1) + p) := by
      intro g p hp
      have hlt : k * (e.grid_.size 0 * e.grid_.size 1) + p < (e.prepare gvec).local_size := by
        show _ < e.grid_.size 0 * e.grid_.size 1 * e.local_size_z_
        rw [hl, Nat.mul_comm (e.grid_.size 0 * e.grid_.size 1)]
        exact block_index_lt _ _ _ _ hk (by rw [Nat.mul_comm]; exact hp)
      show (if _ < (e.prepare gvec).local_size then _ else _) = _
      rw [if_pos hlt]
    have hidx : ∀ p, p < e.grid_.size 1 * e.grid_.size 0 →
        k * (e.grid_.size 0 * e.grid_.size 1) + p < e.size := by
      intro p hp
      unfold FFT3D.size FFT3D_grid.size_total
      rw [Nat.mul_comm (e.grid_.size 0 * e.grid_.size 1)]
      exact block_index_lt _ _ _ _ hk (by rw [Nat.mul_comm]; exact hp)
    have key := paired_plane_identity I hI hIs h2ne (root (e.grid_.size 1)) (root (e.grid_.size 0))
      (e.grid_.size 1) (e.grid_.size 0)
      (fun p => e.fft_buffer_ (k * (e.grid_.size 0 * e.grid_.size 1) + p))
      (fun p => h1 (k * (e.grid_.size 0 * e.grid_.size 1) + p))
      (fun p => h2 (k * (e.grid_.size 0 * e.grid_.size 1) + p))
      (fun p hp => hh _ (hidx p hp)) (fun p hp => hh1 _ (hidx p hp))
      (fun p hp => hh2 _ (hidx p hp))
      (e.grid_.coord_by_gvec (gvec.zcol i).y 1).toNat
      (e.grid_.coord_by_gvec (gvec.zcol i).x 0).toNat
      (e.grid_.coord_by_gvec (-(gvec.zcol i).y) 1).toNat
      (e.grid_.coord_by_gvec (-(gvec.zcol i).x) 0).toNat
      (coord_by_gvec_toNat_lt _ _ _ hy) (coord_by_gvec_toNat_lt _ _ _ hx)
      (coord_by_gvec_toNat_lt _ _ _ hyn) (coord_by_gvec_toNat_lt _ _ _ hxn)
      (star_twiddle_mirror _ _ hr1 hs.2.1 hc1 _ _ (coord_add_coord_neg _ _ _ hy hyn))
      (star_twiddle_mirror _ _ hr0 hs.1 hc0 _ _ (coord_add_coord_neg _ _ _ hx hxn))
    rw [← prepare_pos0_toNat e gvec hfit i hi, ← prepare_pos1_toNat e gvec hr hfn i hi] at key
    have hsingle : ∀ g : ℕ → K,
        ((e.prepare gvec).input g).plan_forward_xy root
            (fun p => ((e.prepare gvec).input g).fft_buffer_
              (k * (((e.prepare gvec).input g).grid_.size 0 *
                ((e.prepare gvec).input g).grid_.size 1) + p))
            (((e.prepare gvec).input g).z_col_pos_.data i 0).toNat =
          fftw_dft_2d (root (e.grid_.size 1))⁻¹ (root (e.grid_.size 0))⁻¹ (e.grid_.size 1)
            (e.grid_.size 0) (fun p => g (k * (e.grid_.size 0 * e.grid_.size 1) + p))
            ((e.prepare gvec).z_col_pos_.data i 0).toNat := by
      intro g
      unfold FFT3D.plan_forward_xy
      simp only [fftw_twiddle_forward]
      exact fftw_dft_2d_congr _ _ _ _ _ _ (fun p hp => hbuf g p hp) _
        (prepare_pos0_lt e gvec hfit i hi)
    first
    | rw [hsingle h1]
      refine Eq.trans ?_ key.1
      unfold FFT3D.plan_forward_xy
      simp only [fftw_twiddle_forward]
      rfl
    | rw [hsingle h2]
      refine Eq.trans ?_ key.2
      unfold FFT3D.plan_forward_xy
      simp only [fftw_twiddle_forward]
      rfl

end PairedFwd

section Cx

/-- The conjugate of the backward twiddle factor is the forward twiddle factor. -/
theorem exact_dft_star (root : ℕ → ℂ) (hroot : exact_dft root) (n : ℕ) :
    star (root n) = (root n)⁻¹ := by
  rw [hroot, ← Complex.exp_neg, Complex.star_def, ← Complex.exp_conj]
  congr 1
  simp only [map_div₀, map_mul, Complex.conj_I, Complex.conj_ofReal, map_ofNat, map_natCast]
  ring

end Cx

/-- C10. On a single-process CPU engine with positive grid extents, prepared with a reduced
partition whose column frequencies and negated column frequencies lie on the grid, for every
main-buffer content `h` the paired forward transform and the two single-field forward
transforms return, the first coefficient array written by the paired transform is exactly what
the single-field forward transform writes for the main buffer `Re h`, and the second array is
exactly what it writes for the main buffer `Im h` (FFTW plans taken as exact complex DFTs). -/
theorem C10_paired_forward_equals_singles (root : ℕ → ℂ) (hroot : exact_dft root)
    (e : FFT3D ℂ) (gvec : Gvec_partition) (d1 d2 : ℕ → ℂ)
    (hl : e.local_size_z_ = e.grid_.size 2)
    (hs : 0 < e.grid_.size 0 ∧ 0 < e.grid_.size 1 ∧ 0 < e.grid_.size 2)
    (hred : gvec.reduced = true) (hfit : gvec.fits e.grid_) (hfn : gvec.fits_neg e.grid_) :
    ∃ r r1 r2, (e.prepare gvec).transform2 root Complex.I (-1) gvec d1 d2 = Except.ok r ∧
      ((e.prepare gvec).input (fun k => ((e.fft_buffer_ k).re : ℂ))).transform root (-1) gvec d1 =
        Except.ok r1 ∧
      ((e.prepare gvec).input (fun k => ((e.fft_buffer_ k).im : ℂ))).transform root (-1) gvec d2 =
        Except.ok r2 ∧
      r.2.1 = r1.2 ∧ r.2.2 = r2.2 :=
  forward_paired_arrays root Complex.I e gvec d1 d2 _ _ hl hred hfit hfn hs
    (exact_dft_primitive root hroot _ hs.1) (exact_dft_primitive root hroot _ hs.2.1)
    (exact_dft_star root hroot _) (exact_dft_star root hroot _) Complex.I_mul_I
    (by rw [Complex.star_def, Complex.conj_I]) two_ne_zero
    (fun idx _ => by rw [mul_comm]; exact (Complex.re_add_im _).symm)
    (fun idx _ => by rw [Complex.star_def, Complex.conj_ofReal])
    (fun idx _ => by rw [Complex.star_def, Complex.conj_ofReal])

theorem sample_reduced_fits : sample_reduced_partition.fits scenario_grid := by decide

theorem sample_reduced_fits_neg : sample_reduced_partition.fits_neg scenario_grid := by decide

/-- Witness of C9: the reduced sample partition on the 4 × 4 × 4 grid at the index 37. -/
theorem C9_paired_backward_equals_singles_witness :
    (sample_reduced_partition.reduced = true ∧ 0 < sample_reduced_partition.num_zcol ∧
      37 < (sample_engine4 : FFT3D ℂ).size) ∧
    ∃ r r1 r2, ((sample_engine4 : FFT3D ℂ).prepare sample_reduced_partition).transform2
        (fun n => Complex.exp (2 * (Real.pi : ℂ) * Complex.I / (n : ℂ))) Complex.I 1
        sample_reduced_partition sample_coeffs (fun _ => 1) = Except.ok r ∧
      ((sample_engine4 : FFT3D ℂ).prepare sample_reduced_partition).transform
        (fun n => Complex.exp (2 * (Real.pi : ℂ) * Complex.I / (n : ℂ))) 1
        sample_reduced_partition sample_coeffs = Except.ok r1 ∧
      ((sample_engine4 : FFT3D ℂ).prepare sample_reduced_partition).transform
        (fun n => Complex.exp (2 * (Real.pi : ℂ) * Complex.I / (n : ℂ))) 1
        sample_reduced_partition (fun _ => 1) = Except.ok r2 ∧
      r.1.fft_buffer_ 37 = r1.1.fft_buffer_ 37 + Complex.I * r2.1.fft_buffer_ 37 :=
  ⟨⟨rfl, by decide, show 37 < scenario_grid.size_total from by decide⟩,
    C9_paired_backward_equals_singles _ sample_engine4 sample_reduced_partition sample_coeffs
      (fun _ => 1) rfl rfl (by decide) 37 (show 37 < scenario_grid.size_total from by decide)⟩

/-- Witness of C10: the reduced sample partition on the 4 × 4 × 4 grid with the main buffer
`h[k] = k + 1`. -/
theorem C10_paired_forward_equals_singles_witness :
    (sample_reduced_partition.reduced = true ∧ sample_reduced_partition.fits scenario_grid ∧
      sample_reduced_partition.fits_neg scenario_grid) ∧
    ∃ r r1 r2,
      ((FFT3D.create scenario_grid (sample_coeffs : ℕ → ℂ)).prepare
          sample_reduced_partition).transform2
        (fun n => Complex.exp (2 * (Real.pi : ℂ) * Complex.I / (n : ℂ))) Complex.I (-1)
        sample_reduced_partition (fun _ => 0) (fun _ => 0) = Except.ok r ∧
      (((FFT3D.create scenario_grid (sample_coeffs : ℕ → ℂ)).prepare
          sample_reduced_partition).input
          (fun k => (((FFT3D.create scenario_grid (sample_coeffs : ℕ → ℂ)).fft_buffer_ k).re : ℂ))
        ).transform (fun n => Complex.exp (2 * (Real.pi : ℂ) * Complex.I / (n : ℂ))) (-1)
        sample_reduced_partition (fun _ => 0) = Except.ok r1 ∧
      (((FFT3D.create scenario_grid (sample_coeffs : ℕ → ℂ)).prepare
          sample_reduced_partition).input
          (fun k => (((FFT3D.create scenario_grid (sample_coeffs : ℕ → ℂ)).fft_buffer_ k).im : ℂ))
        ).transform (fun n => Complex.exp (2 * (Real.pi : ℂ) * Complex.I / (n : ℂ))) (-1)
        sample_reduced_partition (fun _ => 0) = Except.ok r2 ∧
      r.2.1 = r1.2 ∧ r.2.2 = r2.2 :=
  ⟨⟨rfl, sample_reduced_fits, sample_reduced_fits_neg⟩,
    C10_paired_forward_equals_singles _ (fun _ => rfl)
      (FFT3D.create scenario_grid (sample_coeffs : ℕ → ℂ)) sample_reduced_partition
      (fun _ => 0) (fun _ => 0) rfl
      (show 0 < scenario_grid.size 0 ∧ 0 < scenario_grid.size 1 ∧ 0 < scenario_grid.size 2 from by
        decide)
      rfl sample_reduced_fits sample_reduced_fits_neg⟩

section Reduced
variable {K : Type} [Field K] [StarRing K]

omit [Field K] [StarRing K] in
/-- The scatter of the backward plane stage under reduction: if the positions are pairwise
distinct and the negated position of no column other than column 0 is a position, the value of
every column is found at its position. -/
theorem forLoop_pair_update_at (n : ℕ) (ur : Bool) (p0 p1 : ℕ → ℕ) (v u : ℕ → K) (b : ℕ → K)
    (hinj : ∀ i, i < n → ∀ l, l < n → p0 i = p0 l → i = l)
    (hneg : ∀ i, i < n → ∀ l, l < n → l ≠ 0 → p1 l ≠ p0 i) (i : ℕ) (hi : i < n) :
    forLoop n
      (fun i c =>
        if ur = true ∧ i ≠ 0 then
          Function.update (Function.update c (p0 i) (v i)) (p1 i) (u i)
        else Function.update c (p0 i) (v i)) b (p0 i) = v i := by
  induction n with
  | zero => exact absurd hi (Nat.not_lt_zero i)
  | succ m ih =>
    rw [forLoop_succ]
    have hm : m < m + 1 := Nat.lt_succ_self m
    rcases Nat.lt_succ_iff_lt_or_eq.mp hi with hlt | heq
    · have hne : p0 i ≠ p0 m := fun he => absurd (hinj i hi m hm he) (Nat.ne_of_lt hlt)
      have hrec := ih (fun a ha l hl => hinj a (Nat.lt_succ_of_lt ha) l (Nat.lt_succ_of_lt hl))
        (fun a ha l hl => hneg a (Nat.lt_succ_of_lt ha) l (Nat.lt_succ_of_lt hl)) hlt
      split_ifs with hc
      · rw [Function.update_noteq (Ne.symm (hneg i hi m hm hc.2)), Function.update_noteq hne]
        exact hrec
      · rw [Function.update_noteq hne]
        exact hrec
    · subst heq
      split_ifs with hc
      · rw [Function.update_noteq (Ne.symm (hneg i hi i hi hc.2)), Function.update_same]
      · rw [Function.update_same]

/-- A column that is not completed is loaded like a column of a non-reduced partition. -/
theorem z_load_plain_at (ur : Bool) (e : FFT3D K) (gvec : Gvec_partition) (data : ℕ → K)
    (hfit : gvec.fits e.grid_) (hdz : gvec.distinct_z e.grid_) (i : ℕ) (hi : i < gvec.num_zcol)
    (hplain : ¬(ur = true ∧ i = 0)) (j : ℕ) (hj : j < (gvec.zcol i).z.length) :
    e.z_load ur gvec i data (fun _ => 0) (e.grid_.coord_by_gvec (gvec.zfreq i j) 2).toNat =
      data (gvec.zcol_offs i + j) := by
  unfold FFT3D.z_load
  rw [if_neg hplain]
  exact forLoop_update_of_inj _ (fun j => (e.grid_.coord_by_gvec (gvec.zfreq i j) 2).toNat)
    (fun j => data (gvec.zcol_offs i + j)) _
    (fun a ha l hl h => by
      have r1 := coord_by_gvec_range _ _ _ ((hfit i hi).2.2 a ha)
      have r2 := coord_by_gvec_range _ _ _ ((hfit i hi).2.2 l hl)
      have h' : (e.grid_.coord_by_gvec (gvec.zfreq i a) 2).toNat =
        (e.grid_.coord_by_gvec (gvec.zfreq i l) 2).toNat := h
      exact hdz i hi a ha l hl (by omega)) j hj

/-- The completed column 0 of a reduced partition: the scratch holds the coefficient of every
stored frequency other than `0` at its coordinate, and the conjugate of the coefficient of
the frequency `0` at coordinate `0`. -/
theorem z_load_dc_at (e : FFT3D K) (gvec : Gvec_partition) (data : ℕ → K)
    (hinv : gvec.reduced_invariants e.grid_) (j : ℕ) (hj : j < (gvec.zcol 0).z.length) :
    e.z_load true gvec 0 data (fun _ => 0) (e.grid_.coord_by_gvec (gvec.zfreq 0 j) 2).toNat =
      if gvec.zfreq 0 j = 0 then star (data (gvec.zcol_offs 0 + j))
      else data (gvec.zcol_offs 0 + j) := by
  obtain ⟨hdc, hfit, _, _, hdz, _, hnz⟩ := hinv
  have h0 : 0 < gvec.num_zcol := hdc.1
  have hnn : ∀ l, l < (gvec.zcol 0).z.length → 0 ≤ gvec.zfreq 0 l := hdc.2.2.2
  have hrange : ∀ l, l < (gvec.zcol 0).z.length → e.grid_.on_grid (gvec.zfreq 0 l) 2 :=
    fun l hl => (hfit 0 h0).2.2 l hl
  have hcoord : ∀ l, l < (gvec.zcol 0).z.length →
      e.grid_.coord_by_gvec (gvec.zfreq 0 l) 2 = gvec.zfreq 0 l := by
    intro l hl
    unfold FFT3D_grid.coord_by_gvec
    rw [if_neg (not_lt.mpr (hnn l hl))]
  have hncoord : ∀ l, l < (gvec.zcol 0).z.length →
      0 ≤ e.grid_.coord_by_gvec (-(gvec.zfreq 0 l)) 2 := by
    intro l hl
    have := hnn l hl
    have hr := hrange l hl
    unfold FFT3D_grid.on_grid at hr
    unfold FFT3D_grid.coord_by_gvec
    split_ifs <;> omega
  have hplain := z_load_plain_at false e gvec data hfit hdz 0 h0 (by simp) j hj
  unfold FFT3D.z_load at hplain ⊢
  rw [if_neg (by simp)] at hplain
  rw [if_pos ⟨rfl, rfl⟩]
  by_cases hzero : gvec.zfreq 0 j = 0
  · rw [if_pos hzero]
    rcases forLoop_update_cases (gvec.zcol 0).z.length
      (fun l => (e.grid.coord_by_gvec (-(gvec.zfreq 0 l)) 2).toNat)
      (fun l => star (data (gvec.zcol_offs 0 + l)))
      (forLoop (gvec.zcol 0).z.length
        (fun l c => Function.update c (e.grid.coord_by_gvec (gvec.zfreq 0 l) 2).toNat
          (data (gvec.zcol_offs 0 + l))) (fun _ => 0))
      (e.grid_.coord_by_gvec (gvec.zfreq 0 j) 2).toNat with ⟨_, hno⟩ | ⟨l, hl, hpl, hval⟩
    · exfalso
      refine hno j hj ?_
      show (e.grid_.coord_by_gvec (-(gvec.zfreq 0 j)) 2).toNat =
        (e.grid_.coord_by_gvec (gvec.zfreq 0 j) 2).toNat
      rw [hzero, neg_zero]
    · have hpl' : (e.grid_.coord_by_gvec (-(gvec.zfreq 0 l)) 2).toNat =
          (e.grid_.coord_by_gvec (gvec.zfreq 0 j) 2).toNat := hpl
      have hc1 := hncoord l hl
      have hc2 := hcoord j hj
      have hc3 := hnn j hj
      have hl0 : gvec.zfreq 0 l = 0 := hnz l hl j hj (by omega)
      have hlj : l = j := hdz 0 h0 l hl j hj (by rw [hl0, hzero])
      rw [hval, hlj]
  · rw [if_neg hzero]
    rw [forLoop_update_of_ne]
    · exact hplain
    · intro l hl hpl
      have hpl' : (e.grid_.coord_by_gvec (-(gvec.zfreq 0 l)) 2).toNat =
          (e.grid_.coord_by_gvec (gvec.zfreq 0 j) 2).toNat := hpl
      have hc1 := hncoord l hl
      have hc2 := hcoord j hj
      have hc3 := hnn j hj
      have hl0 : gvec.zfreq 0 l = 0 := hnz l hl j hj (by omega)
      rw [hl0, neg_zero] at hpl'
      have hc0 : e.grid_.coord_by_gvec 0 2 = 0 := by
        unfold FFT3D_grid.coord_by_gvec; simp
      rw [hc0] at hpl'
      apply hzero
      omega

end Reduced

section Reduced
variable {K : Type} [Field K] [StarRing K]

omit [Field K] [StarRing K] in
/-- After `prepare` with a reduced partition satisfying the invariants, the negated position
of a column other than column 0 is not the position of any column. -/
theorem prepare_pos1_ne_pos0 (e : FFT3D K) (gvec : Gvec_partition) (hr : gvec.reduced = true)
    (hinv : gvec.reduced_invariants e.grid_) (i : ℕ) (hi : i < gvec.num_zcol) (l : ℕ)
    (hl : l < gvec.num_zcol) (hl0 : l ≠ 0) :
    ((e.prepare gvec).z_col_pos_.data l 1).toNat ≠ ((e.prepare gvec).z_col_pos_.data i 0).toNat := by
  obtain ⟨_, hfit, hfn, _, _, hna, _⟩ := hinv
  rw [prepare_pos1_toNat e gvec hr hfn l hl, prepare_pos0_toNat e gvec hfit i hi]
  intro h
  obtain ⟨h1, h2⟩ := row_major_inj _ _ _ _ _ (coord_by_gvec_toNat_lt _ _ _ (hfn l hl).1)
    (coord_by_gvec_toNat_lt _ _ _ (hfit i hi).1) h
  have rx := coord_by_gvec_range _ _ _ (hfn l hl).1
  have rx' := coord_by_gvec_range _ _ _ (hfit i hi).1
  have ry := coord_by_gvec_range _ _ _ (hfn l hl).2
  have ry' := coord_by_gvec_range _ _ _ (hfit i hi).2.1
  exact hna i hi l hl hl0 ⟨by omega, by omega⟩

/-- The round trip on a reduced partition that satisfies the invariants: the forward transform
of the backward transform of `c` stores at the slot of every stored coefficient the
coefficient itself, except that the coefficient of `G = 0` comes back conjugated. -/
theorem roundtrip_reduced (root : ℕ → K) (e : FFT3D K) (gvec : Gvec_partition) (c out : ℕ → K)
    (hl : e.local_size_z_ = e.grid_.size 2) (hred : gvec.reduced = true)
    (hinv : gvec.reduced_invariants e.grid_)
    (hr0 : IsPrimitiveRoot (root (e.grid_.size 0)) (e.grid_.size 0))
    (hr1 : IsPrimitiveRoot (root (e.grid_.size 1)) (e.grid_.size 1))
    (hr2 : IsPrimitiveRoot (root (e.grid_.size 2)) (e.grid_.size 2))
    (hN : (e.size : K) ≠ 0) :
    ∃ r1 r2, (e.prepare gvec).transform root 1 gvec c = Except.ok r1 ∧
      r1.1.transform root (-1) gvec out = Except.ok r2 ∧
      r2.2 = forLoop gvec.num_zcol (fun i d => forLoop (gvec.zcol i).z.length
        (fun j d => Function.update d (gvec.zcol_offs i + j)
          (if i = 0 ∧ gvec.zfreq i j = 0 then star (c (gvec.zcol_offs i + j))
            else c (gvec.zcol_offs i + j))) d) out := by
  have hfit : gvec.fits e.grid_ := hinv.2.1
  have hdcol : gvec.distinct_columns e.grid_ := hinv.2.2.2.1
  have hdz : gvec.distinct_z e.grid_ := hinv.2.2.2.2.1
  refine roundtrip_core root (e.prepare gvec) gvec c out _ rfl hl hr0 hr1 hr2 hN
    (fun i hi => by
      have := prepare_pos0_lt e gvec hfit i hi
      rw [Nat.mul_comm] at this
      exact this)
    (fun i hi j hj => coord_by_gvec_toNat_lt _ _ _ ((hfit i hi).2.2 j hj))
    (fun k hk i hi => ?_) (fun i hi j hj => ?_)
  · have hk : k < e.grid_.size 2 := hk
    rw [xy_load_eq, hred]
    rw [forLoop_pair_update_at gvec.num_zcol true
      (fun i => ((e.prepare gvec).z_col_pos_.data i 0).toNat)
      (fun i => ((e.prepare gvec).z_col_pos_.data i 1).toNat) _ _ _
      (fun a ha l hl h => prepare_pos0_inj e gvec hfit hdcol a ha l hl h)
      (fun a ha l hl hl0 => prepare_pos1_ne_pos0 e gvec hred hinv a ha l hl hl0) i hi]
    show (e.prepare gvec).plan_backward_z root
      ((e.prepare gvec).z_load true gvec ((k + i * e.local_size_z_) / e.grid_.size 2) c
        (fun _ => 0)) ((k + i * e.local_size_z_) % e.grid_.size 2) = _
    rw [hl, Nat.add_comm k, row_major_div _ _ _ hk, row_major_mod _ _ _ hk]
  · rw [hred]
    by_cases hi0 : i = 0
    · subst hi0
      rw [z_load_dc_at (e.prepare gvec) gvec c hinv j hj]
      by_cases hz : gvec.zfreq 0 j = 0
      · rw [if_pos hz, if_pos ⟨rfl, hz⟩]
      · rw [if_neg hz, if_neg (fun h => hz h.2)]
    · rw [if_neg (fun h => hi0 h.1)]
      exact z_load_plain_at true (e.prepare gvec) gvec c hfit hdz i hi (fun h => hi0 h.2) j hj

end Reduced

theorem sample_reduced_invariants : sample_reduced_partition.reduced_invariants scenario_grid := by
  decide

theorem sample_reduced_distinct_slots : sample_reduced_partition.distinct_slots := by decide

/-- C4 (as stated, refuted). The reduced sample partition on the 4 × 4 × 4 grid satisfies the
data-model invariants and stores `G = 0` at array entry `0`; for the coefficient array that is
`i` everywhere, the backward transform followed by the forward transform, run in place,
returns `-i` at the entry of `G = 0`, not `i`. -/
theorem C4_roundtrip_reduced_conjugates_dc :
    sample_reduced_partition.reduced = true ∧
    sample_reduced_partition.reduced_invariants scenario_grid ∧
    sample_reduced_partition.zfreq 0 0 = 0 ∧ sample_reduced_partition.zcol_offs 0 + 0 = 0 ∧
    ∃ r1 r2, ((sample_engine4 : FFT3D ℂ).prepare sample_reduced_partition).transform
        (fun n => Complex.exp (2 * (Real.pi : ℂ) * Complex.I / (n : ℂ))) 1
        sample_reduced_partition (fun _ => Complex.I) = Except.ok r1 ∧
      r1.1.transform (fun n => Complex.exp (2 * (Real.pi : ℂ) * Complex.I / (n : ℂ))) (-1)
        sample_reduced_partition (fun _ => Complex.I) = Except.ok r2 ∧
      r2.2 0 = -Complex.I ∧ r2.2 0 ≠ (fun _ => Complex.I) 0 := by
  refine ⟨rfl, sample_reduced_invariants, rfl, rfl, ?_⟩
  have hs : 0 < scenario_grid.size 0 ∧ 0 < scenario_grid.size 1 ∧ 0 < scenario_grid.size 2 := by
    decide
  obtain ⟨r1, r2, h1, h2, hout⟩ := roundtrip_reduced
    (fun n => Complex.exp (2 * (Real.pi : ℂ) * Complex.I / (n : ℂ))) (sample_engine4 : FFT3D ℂ)
    sample_reduced_partition (fun _ => Complex.I) (fun _ => Complex.I) rfl rfl
    sample_reduced_invariants
    (exact_dft_primitive _ (fun _ => rfl) _ hs.1) (exact_dft_primitive _ (fun _ => rfl) _ hs.2.1)
    (exact_dft_primitive _ (fun _ => rfl) _ hs.2.2)
    (size_ne_zero_of_char_zero (sample_engine4 : FFT3D ℂ) hs)
  have hval : r2.2 0 = -Complex.I := by
    rw [hout]
    have := nested_update_slot sample_reduced_partition.num_zcol
      (fun i => (sample_reduced_partition.zcol i).z.length)
      (fun i j => sample_reduced_partition.zcol_offs i + j)
      (fun i j => if i = 0 ∧ sample_reduced_partition.zfreq i j = 0 then
          star ((fun _ => Complex.I) (sample_reduced_partition.zcol_offs i + j))
        else (fun _ => Complex.I) (sample_reduced_partition.zcol_offs i + j))
      (fun _ => Complex.I) sample_reduced_distinct_slots 0 (by decide) 0 (by decide)
    refine this.trans ?_
    beta_reduce
    rw [if_pos ⟨rfl, rfl⟩, Complex.star_def, Complex.conj_I]
  refine ⟨r1, r2, h1, h2, hval, ?_⟩
  rw [hval]
  intro h
  have := congrArg Complex.im h
  simp at this
  norm_num at this

/-- C4 (amended). On a single-process CPU engine with positive grid extents, for every reduced
partition that satisfies the data-model invariants and every complex coefficient array `c`
whose coefficient of `G = 0` is real, the backward transform of `c` followed by the forward
transform of the resulting main buffer returns, and the forward transform stores `c(G)` at
every stored coefficient `G`, including `G = 0`; run in place it returns exactly `c`. -/
theorem C4_roundtrip_reduced_real_dc (root : ℕ → ℂ) (hroot : exact_dft root) (e : FFT3D ℂ)
    (gvec : Gvec_partition) (c out : ℕ → ℂ)
    (hl : e.local_size_z_ = e.grid_.size 2)
    (hs : 0 < e.grid_.size 0 ∧ 0 < e.grid_.size 1 ∧ 0 < e.grid_.size 2)
    (hred : gvec.reduced = true) (hinv : gvec.reduced_invariants e.grid_)
    (hreal : ∀ j, j < (gvec.zcol 0).z.length → gvec.zfreq 0 j = 0 →
      (c (gvec.zcol_offs 0 + j)).im = 0) :
    ∃ r1 r2, (e.prepare gvec).transform root 1 gvec c = Except.ok r1 ∧
      r1.1.transform root (-1) gvec out = Except.ok r2 ∧
      (∀ i, i < gvec.num_zcol → ∀ j, j < (gvec.zcol i).z.length →
        r2.2 (gvec.zcol_offs i + j) = c (gvec.zcol_offs i + j)) ∧
      (out = c → r2.2 = c) := by
  obtain ⟨r1, r2, h1, h2, hout⟩ := roundtrip_reduced root e gvec c out hl hred hinv
    (exact_dft_primitive root hroot _ hs.1) (exact_dft_primitive root hroot _ hs.2.1)
    (exact_dft_primitive root hroot _ hs.2.2) (size_ne_zero_of_char_zero e hs)
  have hres := fun s => nested_update_same gvec.num_zcol (fun i => (gvec.zcol i).z.length)
    (fun i j => gvec.zcol_offs i + j)
    (fun i j => if i = 0 ∧ gvec.zfreq i j = 0 then star (c (gvec.zcol_offs i + j))
      else c (gvec.zcol_offs i + j)) out c
    (fun i _ j hj => by
      beta_reduce
      by_cases h : i = 0 ∧ gvec.zfreq i j = 0
      · obtain ⟨hi0, hz⟩ := h
        subst hi0
        rw [if_pos ⟨rfl, hz⟩, Complex.star_def]
        exact Complex.conj_eq_iff_im.mpr (hreal j hj hz)
      · rw [if_neg h]) s
  rw [← hout] at hres
  refine ⟨r1, r2, h1, h2, fun i hi j hj => ?_, fun ho => funext (fun s => ?_)⟩
  · rcases hres (gvec.zcol_offs i + j) with ⟨_, hne⟩ | h
    · exact absurd rfl (hne i hi j hj)
    · exact h
  · rcases hres s with ⟨h, _⟩ | h
    · rw [h, ho]
    · exact h

/-- Witness of C4 (amended): the reduced sample partition on the 4 × 4 × 4 grid with the real
coefficient array `c[k] = k + 1`, run in place. -/
theorem C4_roundtrip_reduced_real_dc_witness :
    (sample_reduced_partition.reduced = true ∧
      sample_reduced_partition.reduced_invariants scenario_grid) ∧
    ∃ r1 r2, ((sample_engine4 : FFT3D ℂ).prepare sample_reduced_partition).transform
        (fun n => Complex.exp (2 * (Real.pi : ℂ) * Complex.I / (n : ℂ))) 1
        sample_reduced_partition sample_coeffs = Except.ok r1 ∧
      r1.1.transform (fun n => Complex.exp (2 * (Real.pi : ℂ) * Complex.I / (n : ℂ))) (-1)
        sample_reduced_partition sample_coeffs = Except.ok r2 ∧
      (∀ i, i < sample_reduced_partition.num_zcol →
        ∀ j, j < (sample_reduced_partition.zcol i).z.length →
          r2.2 (sample_reduced_partition.zcol_offs i + j) =
            sample_coeffs (sample_reduced_partition.zcol_offs i + j)) ∧
      ((sample_coeffs : ℕ → ℂ) = sample_coeffs → r2.2 = sample_coeffs) :=
  ⟨⟨rfl, sample_reduced_invariants⟩,
    C4_roundtrip_reduced_real_dc _ (fun _ => rfl) sample_engine4 sample_reduced_partition
      sample_coeffs sample_coeffs rfl
      (show 0 < scenario_grid.size 0 ∧ 0 < scenario_grid.size 1 ∧ 0 < scenario_grid.size 2 from by
        decide)
      rfl sample_reduced_invariants
      (fun j _ _ => by
        show ((((sample_reduced_partition.zcol_offs 0 + j) + 1 : ℕ) : ℂ)).im = 0
        exact Complex.natCast_im _)⟩

section Mirror1

/-- The coordinate of the negated frequency: `mirror n k = (n - k) % n`. -/
theorem mirror_lt (n k : ℕ) (hn : 0 < n) : (n - k) % n < n := Nat.mod_lt _ hn

theorem mirror_mirror (n k : ℕ) (hk : k < n) : (n - (n - k) % n) % n = k := by
  rcases Nat.eq_zero_or_pos k with h0 | hpos
  · subst h0
    simp
  · have h1 : (n - k) % n = n - k := Nat.mod_eq_of_lt (by omega)
    rw [h1]
    have h2 : n - (n - k) = k := by omega
    rw [h2]
    exact Nat.mod_eq_of_lt hk

theorem mirror_inj (n k l : ℕ) (hk : k < n) (hl : l < n) (h : (n - k) % n = (n - l) % n) :
    k = l := by
  rw [← mirror_mirror n k hk, ← mirror_mirror n l hl, h]

/-- The coordinate of the negated frequency is the mirror of the coordinate. -/
theorem coord_neg_eq_mirror (g : FFT3D_grid) (i : ℤ) (d : ℕ) (h : g.on_grid i d)
    (hn : g.on_grid (-i) d) :
    (g.coord_by_gvec (-i) d).toNat = (g.size d - (g.coord_by_gvec i d).toNat) % g.size d := by
  have hlt := coord_by_gvec_toNat_lt g i d h
  have hlt' := coord_by_gvec_toNat_lt g (-i) d hn
  rcases coord_add_coord_neg g i d h hn with h0 | h0
  · have h1 : (g.coord_by_gvec i d).toNat = 0 := by omega
    have h2 : (g.coord_by_gvec (-i) d).toNat = 0 := by omega
    rw [h1, h2]
    simp
  · have h1 : g.size d - (g.coord_by_gvec i d).toNat = (g.coord_by_gvec (-i) d).toNat := by
      omega
    rw [h1, Nat.mod_eq_of_lt hlt']

variable {K : Type} [Field K] [StarRing K]

/-- Two update loops, the second writing the conjugate values at the mirrored addresses,
produce mirrored conjugate results. -/
theorem forLoop_update_mirror (n : ℕ) (p : ℕ → ℕ) (v : ℕ → K) (σ : ℕ → ℕ) (b b' : ℕ → K)
    (k : ℕ) (hσ : ∀ j, j < n → (σ k = σ (p j) ↔ k = p j)) (hb : b' (σ k) = star (b k)) :
    forLoop n (fun j c => Function.update c (σ (p j)) (star (v j))) b' (σ k) =
      star (forLoop n (fun j c => Function.update c (p j) (v j)) b k) := by
  induction n with
  | zero => exact hb
  | succ m ih =>
    rw [forLoop_succ, forLoop_succ]
    by_cases hk : k = p m
    · rw [hk, Function.update_same, Function.update_same]
    · have hk' : σ k ≠ σ (p m) := fun h => hk ((hσ m (Nat.lt_succ_self m)).mp h)
      rw [Function.update_noteq hk', Function.update_noteq hk]
      exact ih (fun j hj => hσ j (Nat.lt_succ_of_lt hj))

omit [Field K] [StarRing K] in
/-- An entry that some iteration addresses does not depend on the initial buffer. -/
theorem forLoop_update_written (n : ℕ) (p : ℕ → ℕ) (v : ℕ → K) (b c : ℕ → K) (k : ℕ)
    (h : ∃ j, j < n ∧ p j = k) :
    forLoop n (fun j d => Function.update d (p j) (v j)) b k =
      forLoop n (fun j d => Function.update d (p j) (v j)) c k := by
  induction n with
  | zero =>
    obtain ⟨j, hj, _⟩ := h
    exact absurd hj (Nat.not_lt_zero j)
  | succ m ih =>
    rw [forLoop_succ, forLoop_succ]
    by_cases hk : k = p m
    · rw [hk, Function.update_same, Function.update_same]
    · rw [Function.update_noteq hk, Function.update_noteq hk]
      obtain ⟨j, hj, hpj⟩ := h
      rcases Nat.lt_succ_iff_lt_or_eq.mp hj with hlt | heq
      · exact ih ⟨j, hlt, hpj⟩
      · subst heq
        exact absurd hpj.symm hk

/-- A scratch loaded with values at addresses below `n / 2` and then completed with the
conjugate values at the mirrored addresses is Hermitian, provided the values at address `0`
are real. -/
theorem completed_scratch_hermitian (n len : ℕ) (hn : 0 < n) (p : ℕ → ℕ) (v : ℕ → K)
    (hp : ∀ j, j < len → 2 * p j < n)
    (hreal : ∀ j, j < len → p j = 0 → star (v j) = v j) (k : ℕ) (hk : k < n) :
    forLoop len (fun j c => Function.update c ((n - p j) % n) (star (v j)))
        (forLoop len (fun j c => Function.update c (p j) (v j)) (fun _ => (0 : K)))
        ((n - k) % n) =
      star (forLoop len (fun j c => Function.update c ((n - p j) % n) (star (v j)))
        (forLoop len (fun j c => Function.update c (p j) (v j)) (fun _ => (0 : K))) k) := by
  have hplt : ∀ j, j < len → p j < n := fun j hj => by have := hp j hj; omega
  have hmk : (n - k) % n < n := mirror_lt n k hn
  -- the mirrored loop started from the zero buffer mirrors the first loop
  have hM : ∀ l, l < n →
      forLoop len (fun j c => Function.update c ((n - p j) % n) (star (v j))) (fun _ => (0 : K))
          ((n - l) % n) =
        star (forLoop len (fun j c => Function.update c (p j) (v j)) (fun _ => (0 : K)) l) :=
    fun l hl => forLoop_update_mirror len p v (fun t => (n - t) % n) _ _ l
      (fun j hj => ⟨fun h => mirror_inj n l (p j) hl (hplt j hj) h, fun h => by rw [h]⟩)
      (star_zero K).symm
  -- mirrored addresses are `0` or above `n / 2`
  have hq : ∀ j, j < len → (n - p j) % n = 0 ∨ n < 2 * ((n - p j) % n) := by
    intro j hj
    have := hp j hj
    rcases Nat.eq_zero_or_pos (p j) with h0 | hpos
    · left; rw [h0]; simp
    · right
      rw [Nat.mod_eq_of_lt (by omega)]
      omega
  by_cases hkQ : ∃ j, j < len ∧ (n - p j) % n = k
  · by_cases hmQ : ∃ j, j < len ∧ (n - p j) % n = (n - k) % n
    · -- both written by the completion: `k = 0`
      have hk0 : k = 0 := by
        obtain ⟨j, hj, hjk⟩ := hkQ
        obtain ⟨l, hl, hlk⟩ := hmQ
        rcases hq j hj with h0 | hbig
        · omega
        · rcases hq l hl with h0' | hbig'
          · rw [hlk] at h0'
            have := mirror_mirror n k hk
            rw [h0'] at this
            simp at this
            omega
          · exfalso
            rw [hlk] at hbig'
            rw [hjk] at hbig
            have hkpos : 0 < k := by omega
            rw [Nat.mod_eq_of_lt (by omega)] at hbig'
            omega
      subst hk0
      have hm0 : (n - 0) % n = 0 := by simp
      rw [hm0]
      rw [forLoop_update_written len _ _ _ (fun _ => (0 : K)) 0 hkQ]
      have h1 := hM 0 hn
      rw [hm0] at h1
      rw [h1, star_star]
      rcases forLoop_update_cases len p v (fun _ => (0 : K)) 0 with ⟨hv, _⟩ | ⟨j, hj, hpj, hv⟩
      · rw [hv, star_zero]
      · rw [hv, hreal j hj hpj]
    · -- `k` written by the completion, its mirror not
      have hnot : ∀ j, j < len → (n - p j) % n ≠ (n - k) % n :=
        fun j hj h => hmQ ⟨j, hj, h⟩
      rw [forLoop_update_of_ne len _ _ _ _ hnot,
        forLoop_update_written len _ _ _ (fun _ => (0 : K)) k hkQ]
      have h1 := hM ((n - k) % n) hmk
      rw [mirror_mirror n k hk] at h1
      rw [h1, star_star]
  · have hnotk : ∀ j, j < len → (n - p j) % n ≠ k := fun j hj h => hkQ ⟨j, hj, h⟩
    by_cases hmQ : ∃ j, j < len ∧ (n - p j) % n = (n - k) % n
    · -- the mirror written by the completion, `k` not
      rw [forLoop_update_written len _ _ _ (fun _ => (0 : K)) _ hmQ,
        forLoop_update_of_ne len _ _ _ _ hnotk]
      exact hM k hk
    · -- neither written by the completion: neither written by the first loop
      have hnot : ∀ j, j < len → (n - p j) % n ≠ (n - k) % n :=
        fun j hj h => hmQ ⟨j, hj, h⟩
      rw [forLoop_update_of_ne len _ _ _ _ hnot, forLoop_update_of_ne len _ _ _ _ hnotk,
        forLoop_update_of_ne len p v _ _
          (fun j hj h => hnotk j hj (by rw [h, mirror_mirror n k hk])),
        forLoop_update_of_ne len p v _ _
          (fun j hj h => hnot j hj (by rw [h])),
        star_zero]

end Mirror1

section Mirror2
variable {K : Type} [Field K] [StarRing K]

/-- A sum whose terms are conjugated by an involution of the index range is its own
conjugate. -/
theorem star_sum_of_mirror (M : ℕ) (τ : ℕ → ℕ) (hτ : ∀ p, p < M → τ p < M)
    (hinv : ∀ p, p < M → τ (τ p) = p) (f : ℕ → K)
    (hf : ∀ p, p < M → f (τ p) = star (f p)) :
    star (∑ p ∈ range M, f p) = ∑ p ∈ range M, f p := by
  rw [star_sum]
  refine sum_nbij' τ τ (fun a ha => mem_range.mpr (hτ a (mem_range.mp ha)))
    (fun a ha => mem_range.mpr (hτ a (mem_range.mp ha)))
    (fun a ha => hinv a (mem_range.mp ha)) (fun a ha => hinv a (mem_range.mp ha))
    (fun a ha => (hf a (mem_range.mp ha)).symm)

/-- Conjugating a twiddle power moves it to the mirrored coordinate. -/
theorem twiddle_pow_mirror (w : K) (n : ℕ) (hw : IsPrimitiveRoot w n) (hn : 0 < n)
    (hstar : star w = w⁻¹) (j : ℕ) (hj : j < n) (k : ℕ) :
    w ^ ((n - j) % n * k) = star (w ^ (j * k)) := by
  have hw0 : w ≠ 0 := hw.ne_zero (Nat.pos_iff_ne_zero.mp hn)
  have h1 : w ^ ((n - j) % n + j) = 1 := by
    rcases Nat.eq_zero_or_pos j with h0 | hpos
    · rw [h0]; simp
    · rw [Nat.mod_eq_of_lt (by omega), Nat.sub_add_cancel (le_of_lt hj), hw.pow_eq_one]
  rw [star_pow, hstar, inv_pow]
  refine eq_inv_of_mul_eq_one_left ?_
  rw [← pow_add, ← Nat.add_mul, pow_mul, h1, one_pow]

/-- The 1-D transform of a Hermitian scratch is real. -/
theorem fftw_dft_1d_hermitian (w : K) (n : ℕ) (hw : IsPrimitiveRoot w n) (hn : 0 < n)
    (hstar : star w = w⁻¹) (b : ℕ → K)
    (hb : ∀ k, k < n → b ((n - k) % n) = star (b k)) (z : ℕ) (hz : z < n) :
    star (fftw_dft_1d w n b z) = fftw_dft_1d w n b z := by
  unfold fftw_dft_1d
  rw [if_pos hz]
  refine star_sum_of_mirror n (fun k => (n - k) % n) (fun p _ => mirror_lt n p hn)
    (fun p hp => mirror_mirror n p hp) _ (fun p hp => ?_)
  beta_reduce
  rw [hb p hp, twiddle_pow_mirror w n hw hn hstar p hp z, star_mul']

/-- The 2-D transform of a Hermitian plane is real. -/
theorem fftw_dft_2d_hermitian (w0 w1 : K) (n0 n1 : ℕ) (hw0 : IsPrimitiveRoot w0 n0)
    (hw1 : IsPrimitiveRoot w1 n1) (hn0 : 0 < n0) (hn1 : 0 < n1)
    (hs0 : star w0 = w0⁻¹) (hs1 : star w1 = w1⁻¹) (b : ℕ → K)
    (hb : ∀ p, p < n0 * n1 →
      b ((n0 - p / n1) % n0 * n1 + (n1 - p % n1) % n1) = star (b p))
    (q : ℕ) (hq : q < n0 * n1) :
    star (fftw_dft_2d w0 w1 n0 n1 b q) = fftw_dft_2d w0 w1 n0 n1 b q := by
  rw [fftw_dft_2d_eq_sum _ _ _ _ _ _ hq]
  have hdiv : ∀ p, p < n0 * n1 → p / n1 < n0 := fun p hp =>
    (Nat.div_lt_iff_lt_mul hn1).mpr hp
  have hmod : ∀ p, p % n1 < n1 := fun p => Nat.mod_lt _ hn1
  refine star_sum_of_mirror (n0 * n1)
    (fun p => (n0 - p / n1) % n0 * n1 + (n1 - p % n1) % n1)
    (fun p _ => block_index_lt _ _ _ _ (mirror_lt n0 _ hn0) (mirror_lt n1 _ hn1))
    (fun p hp => ?_) _ (fun p hp => ?_)
  · beta_reduce
    rw [row_major_div _ _ _ (mirror_lt n1 _ hn1), row_major_mod _ _ _ (mirror_lt n1 _ hn1),
      mirror_mirror n0 _ (hdiv p hp), mirror_mirror n1 _ (hmod p)]
    exact Nat.div_add_mod' p n1
  · beta_reduce
    rw [row_major_div _ _ _ (mirror_lt n1 _ hn1), row_major_mod _ _ _ (mirror_lt n1 _ hn1),
      hb p hp, twiddle_pow_mirror w0 n0 hw0 hn0 hs0 _ (hdiv p hp),
      twiddle_pow_mirror w1 n1 hw1 hn1 hs1 _ (hmod p), star_mul', star_mul']

/-- Writing a value and its conjugate at a pair of mirrored addresses keeps a buffer
Hermitian. -/
theorem hermitian_update_pair (M : ℕ) (τ : ℕ → ℕ) (hinv : ∀ p, p < M → τ (τ p) = p)
    (b : ℕ → K) (hb : ∀ p, p < M → b (τ p) = star (b p)) (q : ℕ) (hq : q < M)
    (hne : τ q ≠ q) (v : K) (p : ℕ) (hp : p < M) :
    Function.update (Function.update b q v) (τ q) (star v) (τ p) =
      star (Function.update (Function.update b q v) (τ q) (star v) p) := by
  by_cases h1 : p = τ q
  · rw [h1, hinv q hq, Function.update_same, Function.update_noteq (Ne.symm hne),
      Function.update_same, star_star]
  · by_cases h2 : p = q
    · rw [h2, Function.update_same, Function.update_noteq (Ne.symm hne), Function.update_same]
    · have h3 : τ p ≠ τ q := fun h => h2 (by rw [← hinv p hp, h, hinv q hq])
      have h4 : τ p ≠ q := fun h => h1 (by rw [← hinv p hp, h])
      rw [Function.update_noteq h3, Function.update_noteq h4, Function.update_noteq h1,
        Function.update_noteq h2]
      exact hb p hp

/-- Writing a real value at a self-mirrored address keeps a buffer Hermitian. -/
theorem hermitian_update_self (M : ℕ) (τ : ℕ → ℕ) (hinv : ∀ p, p < M → τ (τ p) = p)
    (b : ℕ → K) (hb : ∀ p, p < M → b (τ p) = star (b p)) (q : ℕ)
    (hfix : τ q = q) (v : K) (hv : star v = v) (p : ℕ) (hp : p < M) :
    Function.update b q v (τ p) = star (Function.update b q v p) := by
  by_cases h2 : p = q
  · rw [h2, hfix, Function.update_same, hv]
  · have h4 : τ p ≠ q := fun h => h2 (by rw [← hinv p hp, h, hfix])
    rw [Function.update_noteq h4, Function.update_noteq h2]
    exact hb p hp

/-- The scatter of the backward plane stage under reduction produces a Hermitian plane when
column 0 sits at a self-mirrored position with a real value and every other column has its
second position at the mirror of the first, different from it. -/
theorem xy_load_hermitian (e : FFT3D K) (gvec : Gvec_partition) (iz : ℕ) (aux : ℕ → K)
    (M : ℕ) (τ : ℕ → ℕ) (hinv : ∀ p, p < M → τ (τ p) = p)
    (hpos : ∀ i, i < gvec.num_zcol → (e.z_col_pos_.data i 0).toNat < M)
    (h0 : τ (e.z_col_pos_.data 0 0).toNat = (e.z_col_pos_.data 0 0).toNat)
    (hv0 : star (aux (iz + 0 * e.local_size_z_)) = aux (iz + 0 * e.local_size_z_))
    (hpair : ∀ i, i < gvec.num_zcol → i ≠ 0 →
      (e.z_col_pos_.data i 1).toNat = τ (e.z_col_pos_.data i 0).toNat ∧
        τ (e.z_col_pos_.data i 0).toNat ≠ (e.z_col_pos_.data i 0).toNat)
    (p : ℕ) (hp : p < M) :
    e.xy_load true gvec iz aux (fun _ => 0) (τ p) =
      star (e.xy_load true gvec iz aux (fun _ => 0) p) := by
  rw [xy_load_eq]
  have key : ∀ m, m ≤ gvec.num_zcol → ∀ p, p < M →
      forLoop m
        (fun i c =>
          if true = true ∧ i ≠ 0 then
            Function.update
              (Function.update c (e.z_col_pos_.data i 0).toNat (aux (iz + i * e.local_size_z_)))
              (e.z_col_pos_.data i 1).toNat (star (aux (iz + i * e.local_size_z_)))
          else Function.update c (e.z_col_pos_.data i 0).toNat (aux (iz + i * e.local_size_z_)))
        (fun _ => (0 : K)) (τ p) =
      star (forLoop m
        (fun i c =>
          if true = true ∧ i ≠ 0 then
            Function.update
              (Function.update c (e.z_col_pos_.data i 0).toNat (aux (iz + i * e.local_size_z_)))
              (e.z_col_pos_.data i 1).toNat (star (aux (iz + i * e.local_size_z_)))
          else Function.update c (e.z_col_pos_.data i 0).toNat (aux (iz + i * e.local_size_z_)))
        (fun _ => (0 : K)) p) := by
    intro m
    induction m with
    | zero => intro _ p _; exact (star_zero K).symm
    | succ m ih =>
      intro hm p hp
      have hm' : m < gvec.num_zcol := hm
      have ih' := ih (le_of_lt hm')
      rw [forLoop_succ]
      by_cases hc : m = 0
      · rw [if_neg (fun h : true = true ∧ m ≠ 0 => h.2 hc)]
        subst hc
        exact hermitian_update_self M τ hinv _ ih' _ h0 _ hv0 p hp
      · rw [if_pos ⟨rfl, hc⟩, (hpair m hm' hc).1]
        exact hermitian_update_pair M τ hinv _ ih' _ (hpos m hm') (hpair m hm' hc).2 _ p hp
  exact key gvec.num_zcol (le_refl _) p hp

end Mirror2

section Real

/-- A frequency in the half range lies on the grid, and so does its negative. -/
theorem half_range_on_grid (g : FFT3D_grid) (i : ℤ) (d : ℕ) (h : 2 * |i| < (g.size d : ℤ)) :
    g.on_grid i d ∧ g.on_grid (-i) d := by
  have h1 := le_abs_self i
  have h2 := neg_abs_le i
  have h3 := abs_nonneg i
  unfold FFT3D_grid.on_grid
  omega

/-- A partition in the half range fits the grid. -/
theorem half_range_fits (gv : Gvec_partition) (g : FFT3D_grid) (h : gv.half_range g) :
    gv.fits g :=
  fun i hi => ⟨(half_range_on_grid g _ 0 (h i hi).1).1, (half_range_on_grid g _ 1 (h i hi).2.1).1,
    fun j hj => (half_range_on_grid g _ 2 ((h i hi).2.2 j hj)).1⟩

theorem half_range_fits_neg (gv : Gvec_partition) (g : FFT3D_grid) (h : gv.half_range g) :
    gv.fits_neg g :=
  fun i hi => ⟨(half_range_on_grid g _ 0 (h i hi).1).2, (half_range_on_grid g _ 1 (h i hi).2.1).2⟩

/-- In the half range only the frequency `0` has a self-mirrored coordinate. -/
theorem half_range_mirror_fixed (g : FFT3D_grid) (i : ℤ) (d : ℕ) (h : 2 * |i| < (g.size d : ℤ))
    (hfix : (g.coord_by_gvec (-i) d).toNat = (g.coord_by_gvec i d).toNat) : i = 0 := by
  have h1 := le_abs_self i
  have h2 := neg_abs_le i
  unfold FFT3D_grid.coord_by_gvec at hfix
  split_ifs at hfix <;> omega

variable {K : Type} [Field K] [StarRing K]

/-- The completed scratch of column 0 of a reduced partition is Hermitian. -/
theorem z_load_dc_hermitian (e : FFT3D K) (gvec : Gvec_partition) (data : ℕ → K)
    (hdc : gvec.dc_column_first) (hhalf : gvec.half_range e.grid_)
    (hreal : ∀ j, j < (gvec.zcol 0).z.length → gvec.zfreq 0 j = 0 →
      star (data (gvec.zcol_offs 0 + j)) = data (gvec.zcol_offs 0 + j))
    (k : ℕ) (hk : k < e.grid_.size 2) :
    e.z_load true gvec 0 data (fun _ => 0) ((e.grid_.size 2 - k) % e.grid_.size 2) =
      star (e.z_load true gvec 0 data (fun _ => 0) k) := by
  have hN : 0 < e.grid_.size 2 := lt_of_le_of_lt (Nat.zero_le k) hk
  have h0 : 0 < gvec.num_zcol := hdc.1
  have hnn : ∀ l, l < (gvec.zcol 0).z.length → 0 ≤ gvec.zfreq 0 l := hdc.2.2.2
  have hz : ∀ l, l < (gvec.zcol 0).z.length → 2 * |gvec.zfreq 0 l| < (e.grid_.size 2 : ℤ) :=
    fun l hl => (hhalf 0 h0).2.2 l hl
  have hcoord : ∀ l, l < (gvec.zcol 0).z.length →
      e.grid_.coord_by_gvec (gvec.zfreq 0 l) 2 = gvec.zfreq 0 l := by
    intro l hl
    unfold FFT3D_grid.coord_by_gvec
    rw [if_neg (not_lt.mpr (hnn l hl))]
  have hload : e.z_load true gvec 0 data (fun _ => 0) =
      forLoop (gvec.zcol 0).z.length
        (fun j c => Function.update c
          ((e.grid_.size 2 - (e.grid_.coord_by_gvec (gvec.zfreq 0 j) 2).toNat) % e.grid_.size 2)
          (star (data (gvec.zcol_offs 0 + j))))
        (forLoop (gvec.zcol 0).z.length
          (fun j c => Function.update c (e.grid_.coord_by_gvec (gvec.zfreq 0 j) 2).toNat
            (data (gvec.zcol_offs 0 + j))) (fun _ => (0 : K))) := by
    unfold FFT3D.z_load
    rw [if_pos ⟨rfl, rfl⟩]
    refine forLoop_congr _ _ _ _ (fun j hj t => ?_)
    show Function.update t (e.grid_.coord_by_gvec (-(gvec.zfreq 0 j)) 2).toNat _ = _
    rw [coord_neg_eq_mirror e.grid_ _ 2 (half_range_on_grid _ _ 2 (hz j hj)).1
      (half_range_on_grid _ _ 2 (hz j hj)).2]
  rw [hload]
  refine completed_scratch_hermitian (e.grid_.size 2) _ hN
    (fun j => (e.grid_.coord_by_gvec (gvec.zfreq 0 j) 2).toNat)
    (fun j => data (gvec.zcol_offs 0 + j)) (fun j hj => ?_) (fun j hj hp => ?_) k hk
  · have h1 := hz j hj
    have h2 := hnn j hj
    have h3 := le_abs_self (gvec.zfreq 0 j)
    show 2 * (e.grid_.coord_by_gvec (gvec.zfreq 0 j) 2).toNat < e.grid_.size 2
    rw [hcoord j hj]
    omega
  · refine hreal j hj ?_
    have h2 := hnn j hj
    have hp' : (e.grid_.coord_by_gvec (gvec.zfreq 0 j) 2).toNat = 0 := hp
    rw [hcoord j hj] at hp'
    omega

/-- The mirror of a plane position is an involution of the plane. -/
theorem plane_mirror_mirror (n0 n1 : ℕ) (hn1 : 0 < n1) (p : ℕ) (hp : p < n0 * n1) :
    (n0 - ((n0 - p / n1) % n0 * n1 + (n1 - p % n1) % n1) / n1) % n0 * n1 +
      (n1 - ((n0 - p / n1) % n0 * n1 + (n1 - p % n1) % n1) % n1) % n1 = p := by
  have hdiv : p / n1 < n0 := (Nat.div_lt_iff_lt_mul hn1).mpr hp
  rw [row_major_div _ _ _ (mirror_lt n1 _ hn1), row_major_mod _ _ _ (mirror_lt n1 _ hn1),
    mirror_mirror n0 _ hdiv, mirror_mirror n1 _ (Nat.mod_lt _ hn1)]
  exact Nat.div_add_mod' p n1

/-- The backward transform on a reduced partition in the half range whose column 0 is the
`(0, 0)` column with non-negative z-frequencies and whose other columns are not self-paired
leaves a self-conjugate value at every grid point when the `G = 0` coefficient is
self-conjugate. -/
theorem backward_reduced_real (root : ℕ → K)
    (hprim : ∀ n, 0 < n → IsPrimitiveRoot (root n) n)
    (hstar : ∀ n, star (root n) = (root n)⁻¹)
    (e : FFT3D K) (gvec : Gvec_partition) (data : ℕ → K)
    (hl : e.local_size_z_ = e.grid_.size 2) (hred : gvec.reduced = true)
    (hdc : gvec.dc_column_first) (hpairs : gvec.one_of_each_pair)
    (hhalf : gvec.half_range e.grid_)
    (hreal : ∀ j, j < (gvec.zcol 0).z.length → gvec.zfreq 0 j = 0 →
      star (data (gvec.zcol_offs 0 + j)) = data (gvec.zcol_offs 0 + j))
    (x y z : ℕ) (hx : x < e.grid_.size 0) (hy : y < e.grid_.size 1) (hz : z < e.grid_.size 2) :
    ∃ r, (e.prepare gvec).transform root 1 gvec data = Except.ok r ∧
      star (r.1.fft_buffer_ (z * (e.grid_.size 0 * e.grid_.size 1) + (y * e.grid_.size 0 + x))) =
        r.1.fft_buffer_ (z * (e.grid_.size 0 * e.grid_.size 1) + (y * e.grid_.size 0 + x)) := by
  obtain ⟨r, hr, _, _, _, _, _, hbuf⟩ :=
    transform_backward_spec root (e.prepare gvec) gvec data rfl hl
  refine ⟨r, hr, ?_⟩
  have hfit := half_range_fits gvec e.grid_ hhalf
  have hfn := half_range_fits_neg gvec e.grid_ hhalf
  have hN0 : 0 < e.grid_.size 0 := lt_of_le_of_lt (Nat.zero_le x) hx
  have hN1 : 0 < e.grid_.size 1 := lt_of_le_of_lt (Nat.zero_le y) hy
  have hN2 : 0 < e.grid_.size 2 := lt_of_le_of_lt (Nat.zero_le z) hz
  have h0 : 0 < gvec.num_zcol := hdc.1
  have hp : y * e.grid_.size 0 + x < e.grid_.size 0 * e.grid_.size 1 := by
    rw [Nat.mul_comm (e.grid_.size 0)]; exact block_index_lt _ _ _ _ hy hx
  have hp' : y * e.grid_.size 0 + x < e.grid_.size 1 * e.grid_.size 0 :=
    block_index_lt _ _ _ _ hy hx
  have hb := hbuf z hz _ hp
  have hg : (e.prepare gvec).grid_ = e.grid_ := rfl
  rw [hg] at hb
  rw [hb, hred]
  unfold FFT3D.plan_backward_xy
  have htw : ∀ n, fftw_twiddle root n 1 = root n := fun n => by
    unfold fftw_twiddle; rw [if_pos rfl]
  rw [hg, htw, htw]
  refine fftw_dft_2d_hermitian _ _ _ _ (hprim _ hN1) (hprim _ hN0) hN1 hN0 (hstar _) (hstar _) _
    (fun p hpl => ?_) _ hp'
  refine xy_load_hermitian (e.prepare gvec) gvec z _ (e.grid_.size 1 * e.grid_.size 0)
    (fun p => (e.grid_.size 1 - p / e.grid_.size 0) % e.grid_.size 1 * e.grid_.size 0 +
      (e.grid_.size 0 - p % e.grid_.size 0) % e.grid_.size 0)
    (fun p hp => plane_mirror_mirror _ _ hN0 p hp)
    (fun i hi => prepare_pos0_lt e gvec hfit i hi) ?_ ?_ (fun i hi hi0 => ?_) p hpl
  · -- column 0 sits at the self-mirrored position 0
    have hpos : ((e.prepare gvec).z_col_pos_.data 0 0).toNat = 0 := by
      rw [prepare_pos0_toNat e gvec hfit 0 h0, hdc.2.1, hdc.2.2.1]
      unfold FFT3D_grid.coord_by_gvec
      simp
    rw [hpos]
    simp
  · -- the transformed column 0 is real
    have hlz : (e.prepare gvec).local_size_z_ = e.grid_.size 2 := hl
    rw [hlz, Nat.zero_mul, Nat.add_zero, Nat.div_eq_of_lt hz, Nat.mod_eq_of_lt hz]
    unfold FFT3D.plan_backward_z
    rw [hg, htw]
    exact fftw_dft_1d_hermitian _ _ (hprim _ hN2) hN2 (hstar _) _
      (fun k hk => z_load_dc_hermitian (e.prepare gvec) gvec data hdc hhalf hreal k hk) z hz
  · -- every other column: conjugate at the mirrored position, different from the position
    have hx1 := (hfit i hi).1
    have hy1 := (hfit i hi).2.1
    have hx2 := (hfn i hi).1
    have hy2 := (hfn i hi).2
    have hpos0 := prepare_pos0_toNat e gvec hfit i hi
    have hpos1 := prepare_pos1_toNat e gvec hred hfn i hi
    have hmir : ((e.prepare gvec).z_col_pos_.data i 1).toNat =
        (e.grid_.size 1 - ((e.prepare gvec).z_col_pos_.data i 0).toNat / e.grid_.size 0) %
            e.grid_.size 1 * e.grid_.size 0 +
          (e.grid_.size 0 - ((e.prepare gvec).z_col_pos_.data i 0).toNat % e.grid_.size 0) %
            e.grid_.size 0 := by
      rw [hpos1, hpos0, row_major_div _ _ _ (coord_by_gvec_toNat_lt _ _ _ hx1),
        row_major_mod _ _ _ (coord_by_gvec_toNat_lt _ _ _ hx1),
        coord_neg_eq_mirror _ _ _ hx1 hx2, coord_neg_eq_mirror _ _ _ hy1 hy2]
    refine ⟨hmir, ?_⟩
    show (e.grid_.size 1 - ((e.prepare gvec).z_col_pos_.data i 0).toNat / e.grid_.size 0) %
            e.grid_.size 1 * e.grid_.size 0 +
          (e.grid_.size 0 - ((e.prepare gvec).z_col_pos_.data i 0).toNat % e.grid_.size 0) %
            e.grid_.size 0 ≠ ((e.prepare gvec).z_col_pos_.data i 0).toNat
    rw [← hmir, hpos1, hpos0]
    intro h
    obtain ⟨h1, h2⟩ := row_major_inj _ _ _ _ _ (coord_by_gvec_toNat_lt _ _ _ hx2)
      (coord_by_gvec_toNat_lt _ _ _ hx1) h
    have ex := half_range_mirror_fixed e.grid_ _ 0 (hhalf i hi).1 h2
    have ey := half_range_mirror_fixed e.grid_ _ 1 (hhalf i hi).2.1 h1
    exact hpairs i hi i hi hi0 ⟨by rw [ex]; rfl, by rw [ey]; rfl⟩

end Real

/-- C8. On a single-process CPU engine, for every reduced partition whose column 0 is the
`(0, 0)` column with only non-negative z-frequencies, whose other columns are each exactly one
member of a `±(x, y)` pair and whose frequencies `g` satisfy `2 * |g| < N` in every dimension
of extent `N`, and for every coefficient array whose `G = 0` coefficient is real, after
`prepare` the backward transform returns and leaves a main buffer whose imaginary part is
exactly zero at every grid point (the FFTW plans taken as exact complex DFTs). -/
theorem C8_reduced_backward_is_real (root : ℕ → ℂ) (hroot : exact_dft root) (e : FFT3D ℂ)
    (gvec : Gvec_partition) (c : ℕ → ℂ)
    (hl : e.local_size_z_ = e.grid_.size 2) (hred : gvec.reduced = true)
    (hdc : gvec.dc_column_first) (hpairs : gvec.one_of_each_pair)
    (hhalf : gvec.half_range e.grid_)
    (hreal : ∀ j, j < (gvec.zcol 0).z.length → gvec.zfreq 0 j = 0 →
      (c (gvec.zcol_offs 0 + j)).im = 0)
    (x y z : ℕ) (hx : x < e.grid_.size 0) (hy : y < e.grid_.size 1) (hz : z < e.grid_.size 2) :
    ∃ r, (e.prepare gvec).transform root 1 gvec c = Except.ok r ∧
      (r.1.fft_buffer_ (x + y * e.grid_.size 0 + z * e.grid_.size 0 * e.grid_.size 1)).im = 0 := by
  obtain ⟨r, hr, hbuf⟩ := backward_reduced_real root
    (fun n hn => exact_dft_primitive root hroot n hn) (fun n => exact_dft_star root hroot n)
    e gvec c hl hred hdc hpairs hhalf
    (fun j hj h0 => Complex.conj_eq_iff_im.mpr (hreal j hj h0)) x y z hx hy hz
  refine ⟨r, hr, ?_⟩
  have hidx : x + y * e.grid_.size 0 + z * e.grid_.size 0 * e.grid_.size 1 =
      z * (e.grid_.size 0 * e.grid_.size 1) + (y * e.grid_.size 0 + x) := by ring
  rw [hidx]
  exact Complex.conj_eq_iff_im.mp hbuf

theorem sample_reduced_dc_first : sample_reduced_partition.dc_column_first := by decide

theorem sample_reduced_pairs : sample_reduced_partition.one_of_each_pair := by decide

theorem sample_reduced_half_range : sample_reduced_partition.half_range scenario_grid := by
  decide

theorem sample_reduced_dc_slot (j : ℕ) (hj : j < (sample_reduced_partition.zcol 0).z.length)
    (h : sample_reduced_partition.zfreq 0 j = 0) : sample_reduced_partition.zcol_offs 0 + j = 0 := by
  have hj' : j < 2 := hj
  interval_cases j
  · rfl
  · exact absurd h (by decide)

/-- Witness of C8: the reduced sample partition on the 4 × 4 × 4 grid with the coefficients
`c[k] = k * i`, purely imaginary away from `G = 0`, at the grid point `(1, 2, 3)`. -/
theorem C8_reduced_backward_is_real_witness :
    (sample_reduced_partition.reduced = true ∧ sample_reduced_partition.dc_column_first ∧
      sample_reduced_partition.one_of_each_pair ∧
      sample_reduced_partition.half_range scenario_grid ∧
      ((fun k : ℕ => (k : ℂ) * Complex.I) (sample_reduced_partition.zcol_offs 0 + 0)).im = 0) ∧
    ∃ r, ((sample_engine4 : FFT3D ℂ).prepare sample_reduced_partition).transform
        (fun n => Complex.exp (2 * (Real.pi : ℂ) * Complex.I / (n : ℂ))) 1
        sample_reduced_partition (fun k : ℕ => (k : ℂ) * Complex.I) = Except.ok r ∧
      (r.1.fft_buffer_ 57).im = 0 :=
  ⟨⟨rfl, sample_reduced_dc_first, sample_reduced_pairs, sample_reduced_half_range, by
      show (((0 + 0 : ℕ) : ℂ) * Complex.I).im = 0
      simp⟩,
    C8_reduced_backward_is_real _ (fun _ => rfl) sample_engine4 sample_reduced_partition
      (fun k : ℕ => (k : ℂ) * Complex.I) rfl rfl sample_reduced_dc_first sample_reduced_pairs
      sample_reduced_half_range
      (fun j hj h => by
        show (((sample_reduced_partition.zcol_offs 0 + j : ℕ) : ℂ) * Complex.I).im = 0
        rw [sample_reduced_dc_slot j hj h]
        simp)
      1 2 3 (show 1 < scenario_grid.size 0 from by decide)
      (show 2 < scenario_grid.size 1 from by decide)
      (show 3 < scenario_grid.size 2 from by decide)⟩

/-- C17. `dismiss` is idempotent: for every engine state `s`, `dismiss (dismiss s) = dismiss s`;
`dismiss` sets the prepared flag to false and, on the host side, leaves the main buffer, both
auxiliary buffers (sizes and contents) and the Column Position Table unchanged. -/
theorem C17_dismiss_idempotent (s : FFT3D ℂ) :
    s.dismiss.dismiss = s.dismiss ∧ s.dismiss.prepared_ = false ∧
      s.dismiss.fft_buffer_ = s.fft_buffer_ ∧
      s.dismiss.fft_buffer_aux1_ = s.fft_buffer_aux1_ ∧
      s.dismiss.fft_buffer_aux2_ = s.fft_buffer_aux2_ ∧
      s.dismiss.z_col_pos_ = s.z_col_pos_ :=
  ⟨rfl, rfl, rfl, rfl, rfl, rfl⟩

section Table

/-- A centred frequency lies on the grid, and so does its negative. -/
theorem centred_on_grid (g : FFT3D_grid) (i : ℤ) (d : ℕ) (h : g.centred i d) :
    g.on_grid i d ∧ g.on_grid (-i) d := by
  unfold FFT3D_grid.centred at h
  unfold FFT3D_grid.on_grid
  omega

/-- The coordinate map is injective on the centred range. -/
theorem coord_by_gvec_centred_inj (g : FFT3D_grid) (i l : ℤ) (d : ℕ) (hi : g.centred i d)
    (hl : g.centred l d) (h : g.coord_by_gvec i d = g.coord_by_gvec l d) : i = l := by
  unfold FFT3D_grid.centred at hi hl
  unfold FFT3D_grid.coord_by_gvec at h
  split_ifs at h <;> omega

/-- A row-major plane position with in-range coordinates lies in the plane. -/
theorem plane_pos_range (cx cy : ℤ) (nx ny : ℕ) (hx : 0 ≤ cx ∧ cx < (nx : ℤ))
    (hy : 0 ≤ cy ∧ cy < (ny : ℤ)) :
    0 ≤ cx + cy * (nx : ℤ) ∧ cx + cy * (nx : ℤ) < (nx : ℤ) * (ny : ℤ) := by
  constructor
  · have := mul_nonneg hy.1 (Int.natCast_nonneg nx)
    omega
  · have h1 : cy + 1 ≤ (ny : ℤ) := hy.2
    have h2 : (cy + 1) * (nx : ℤ) ≤ (ny : ℤ) * (nx : ℤ) :=
      mul_le_mul_of_nonneg_right h1 (Int.natCast_nonneg nx)
    nlinarith

/-- Row-major plane positions with in-range x-coordinates determine the coordinates. -/
theorem plane_pos_inj (cx cy cx' cy' : ℤ) (nx : ℕ) (hx : 0 ≤ cx ∧ cx < (nx : ℤ))
    (hx' : 0 ≤ cx' ∧ cx' < (nx : ℤ))
    (h : cx + cy * (nx : ℤ) = cx' + cy' * (nx : ℤ)) : cx = cx' ∧ cy = cy' := by
  have hy : cy = cy' := by
    by_contra hne
    rcases lt_or_gt_of_ne hne with hlt | hgt
    · have h1 : cy + 1 ≤ cy' := hlt
      have h2 : (cy + 1) * (nx : ℤ) ≤ cy' * (nx : ℤ) :=
        mul_le_mul_of_nonneg_right h1 (Int.natCast_nonneg nx)
      nlinarith
    · have h1 : cy' + 1 ≤ cy := hgt
      have h2 : (cy' + 1) * (nx : ℤ) ≤ cy * (nx : ℤ) :=
        mul_le_mul_of_nonneg_right h1 (Int.natCast_nonneg nx)
      nlinarith
  subst hy
  exact ⟨by omega, rfl⟩

end Table

/-- C20. After `prepare(partition)`, with `coord(g, N) = g` for `g ≥ 0` and `g + N` for `g < 0`:
the table has one row per column and a second entry per column exactly when the partition is
reduced; for every column `i` whose frequencies satisfy `-sizeX < 2x ≤ sizeX` and
`-sizeY < 2y ≤ sizeY`, `table(i,0) = coord(x) + coord(y) * sizeX` lies in `[0, sizeX * sizeY)`
and, when the partition is reduced, `table(i,1) = coord(-x) + coord(-y) * sizeX` lies in the
same range; two such columns with different `(x, y)` have different `table(i,0)`. -/
theorem C20_column_position_table (e : FFT3D ℂ) (gvec : Gvec_partition) :
    ((e.prepare gvec).z_col_pos_.dim0 = gvec.num_zcol ∧
      ((e.prepare gvec).z_col_pos_.dim1 = 2 ↔ gvec.reduced = true) ∧
      ((e.prepare gvec).z_col_pos_.dim1 = 1 ↔ gvec.reduced = false)) ∧
    (∀ i, i < gvec.num_zcol → e.grid_.centred (gvec.zcol i).x 0 →
      e.grid_.centred (gvec.zcol i).y 1 →
      ((e.prepare gvec).z_col_pos_.data i 0 =
          e.grid_.coord_by_gvec (gvec.zcol i).x 0 +
            e.grid_.coord_by_gvec (gvec.zcol i).y 1 * (e.grid_.size 0 : ℤ) ∧
        0 ≤ (e.prepare gvec).z_col_pos_.data i 0 ∧
        (e.prepare gvec).z_col_pos_.data i 0 < (e.grid_.size 0 : ℤ) * (e.grid_.size 1 : ℤ)) ∧
      (gvec.reduced = true →
        (e.prepare gvec).z_col_pos_.data i 1 =
          e.grid_.coord_by_gvec (-(gvec.zcol i).x) 0 +
            e.grid_.coord_by_gvec (-(gvec.zcol i).y) 1 * (e.grid_.size 0 : ℤ) ∧
        0 ≤ (e.prepare gvec).z_col_pos_.data i 1 ∧
        (e.prepare gvec).z_col_pos_.data i 1 < (e.grid_.size 0 : ℤ) * (e.grid_.size 1 : ℤ))) ∧
    (∀ i, i < gvec.num_zcol → ∀ l, l < gvec.num_zcol →
      e.grid_.centred (gvec.zcol i).x 0 → e.grid_.centred (gvec.zcol i).y 1 →
      e.grid_.centred (gvec.zcol l).x 0 → e.grid_.centred (gvec.zcol l).y 1 →
      ¬((gvec.zcol i).x = (gvec.zcol l).x ∧ (gvec.zcol i).y = (gvec.zcol l).y) →
      (e.prepare gvec).z_col_pos_.data i 0 ≠ (e.prepare gvec).z_col_pos_.data l 0) := by
  refine ⟨⟨rfl, ?_, ?_⟩, ?_, ?_⟩
  · show (if gvec.reduced = true then 2 else 1) = 2 ↔ gvec.reduced = true
    split_ifs with h <;> simp [h]
  · show (if gvec.reduced = true then 2 else 1) = 1 ↔ gvec.reduced = false
    split_ifs with h <;> simp [h]
  · intro i hi hx hy
    have gx := centred_on_grid _ _ _ hx
    have gy := centred_on_grid _ _ _ hy
    refine ⟨?_, fun hr => ?_⟩
    · rw [prepare_pos0 e gvec i hi]
      exact ⟨rfl, plane_pos_range _ _ _ _ (coord_by_gvec_range _ _ _ gx.1)
        (coord_by_gvec_range _ _ _ gy.1)⟩
    · rw [prepare_pos1 e gvec hr i hi]
      exact ⟨rfl, plane_pos_range _ _ _ _ (coord_by_gvec_range _ _ _ gx.2)
        (coord_by_gvec_range _ _ _ gy.2)⟩
  · intro i hi l hl hxi hyi hxl hyl hne h
    rw [prepare_pos0 e gvec i hi, prepare_pos0 e gvec l hl] at h
    obtain ⟨h1, h2⟩ := plane_pos_inj _ _ _ _ _
      (coord_by_gvec_range _ _ _ (centred_on_grid _ _ _ hxi).1)
      (coord_by_gvec_range _ _ _ (centred_on_grid _ _ _ hxl).1) h
    exact hne ⟨coord_by_gvec_centred_inj _ _ _ _ hxi hxl h1,
      coord_by_gvec_centred_inj _ _ _ _ hyi hyl h2⟩

/-- Witness of C20: the reduced sample partition on the 4 × 4 × 4 grid, columns 1 and 4. -/
theorem C20_column_position_table_witness :
    (1 < sample_reduced_partition.num_zcol ∧ 4 < sample_reduced_partition.num_zcol ∧
      scenario_grid.centred (sample_reduced_partition.zcol 1).x 0 ∧
      scenario_grid.centred (sample_reduced_partition.zcol 1).y 1 ∧
      scenario_grid.centred (sample_reduced_partition.zcol 4).x 0 ∧
      scenario_grid.centred (sample_reduced_partition.zcol 4).y 1 ∧
      sample_reduced_partition.reduced = true ∧
      ¬((sample_reduced_partition.zcol 1).x = (sample_reduced_partition.zcol 4).x ∧
        (sample_reduced_partition.zcol 1).y = (sample_reduced_partition.zcol 4).y)) ∧
    (((sample_engine4 : FFT3D ℂ).prepare sample_reduced_partition).z_col_pos_.data 1 1 =
        scenario_grid.coord_by_gvec (-(sample_reduced_partition.zcol 1).x) 0 +
          scenario_grid.coord_by_gvec (-(sample_reduced_partition.zcol 1).y) 1 *
            (scenario_grid.size 0 : ℤ) ∧
      0 ≤ ((sample_engine4 : FFT3D ℂ).prepare sample_reduced_partition).z_col_pos_.data 1 1 ∧
      ((sample_engine4 : FFT3D ℂ).prepare sample_reduced_partition).z_col_pos_.data 1 1 <
        (scenario_grid.size 0 : ℤ) * (scenario_grid.size 1 : ℤ)) ∧
    ((sample_engine4 : FFT3D ℂ).prepare sample_reduced_partition).z_col_pos_.data 1 0 ≠
      ((sample_engine4 : FFT3D ℂ).prepare sample_reduced_partition).z_col_pos_.data 4 0 :=
  ⟨⟨by decide, by decide, by decide, by decide, by decide, by decide, rfl, by decide⟩,
    ((C20_column_position_table sample_engine4 sample_reduced_partition).2.1 1 (by decide)
      (by decide) (by decide)).2 rfl,
    (C20_column_position_table sample_engine4 sample_reduced_partition).2.2 1 (by decide) 4
      (by decide) (by decide) (by decide) (by decide) (by decide) (by decide)⟩

section Linear
variable {K : Type} [Field K] [StarRing K]

omit [Field K] [StarRing K] in
/-- Three loops whose bodies keep a relation between their states keep it to the end. -/
theorem forLoop_rel3 {σ : Type} (n : ℕ) (R : σ → σ → σ → Prop) (F F1 F2 : ℕ → σ → σ)
    (hF : ∀ i b b1 b2, i < n → R b b1 b2 → R (F i b) (F1 i b1) (F2 i b2))
    (b b1 b2 : σ) (h : R b b1 b2) :
    R (forLoop n F b) (forLoop n F1 b1) (forLoop n F2 b2) := by
  induction n with
  | zero => exact h
  | succ m ih =>
    exact hF m _ _ _ (Nat.lt_succ_self m)
      (ih (fun i b b1 b2 hi hb => hF i b b1 b2 (Nat.lt_succ_of_lt hi) hb))

omit [StarRing K] in
theorem update_linear2 (α β : K) (q : ℕ) (v v1 v2 : K) (hv : v = α * v1 + β * v2)
    (b b1 b2 : ℕ → K) (h : ∀ p, b p = α * b1 p + β * b2 p) :
    ∀ p, Function.update b q v p =
      α * Function.update b1 q v1 p + β * Function.update b2 q v2 p := by
  intro p
  by_cases hp : p = q
  · subst hp; simp [hv]
  · rw [Function.update_noteq hp, Function.update_noteq hp, Function.update_noteq hp]
    exact h p

omit [StarRing K] in
/-- The 1-D plan is linear in its scratch. -/
theorem fftw_dft_1d_linear2 (w : K) (n : ℕ) (α β : K) (b b1 b2 : ℕ → K)
    (h : ∀ p, b p = α * b1 p + β * b2 p) (k : ℕ) :
    fftw_dft_1d w n b k = α * fftw_dft_1d w n b1 k + β * fftw_dft_1d w n b2 k := by
  unfold fftw_dft_1d
  split_ifs
  · rw [mul_sum, mul_sum, ← sum_add_distrib]
    refine sum_congr rfl (fun j _ => ?_)
    rw [h]
    ring
  · exact h k

omit [StarRing K] in
/-- The 2-D plan is linear in its scratch. -/
theorem fftw_dft_2d_linear2 (w0 w1 : K) (n0 n1 : ℕ) (α β : K) (b b1 b2 : ℕ → K)
    (h : ∀ p, b p = α * b1 p + β * b2 p) (k : ℕ) :
    fftw_dft_2d w0 w1 n0 n1 b k =
      α * fftw_dft_2d w0 w1 n0 n1 b1 k + β * fftw_dft_2d w0 w1 n0 n1 b2 k := by
  unfold fftw_dft_2d
  split_ifs
  · rw [mul_sum, mul_sum, ← sum_add_distrib]
    refine sum_congr rfl (fun j0 _ => ?_)
    rw [mul_sum, mul_sum, ← sum_add_distrib]
    refine sum_congr rfl (fun j1 _ => ?_)
    rw [h]
    ring
  · exact h k

/-- Conjugation commutes with a linear combination whose scalars are self-conjugate. -/
theorem star_linear2 (α β : K) (hs : star α = α ∧ star β = β) (v1 v2 : K) :
    star (α * v1 + β * v2) = α * star v1 + β * star v2 := by
  rw [star_add, star_mul', star_mul', hs.1, hs.2]

/-- The column load is linear in the coefficient array; under reduction the completion of
column 0 conjugates, so the scalars have to be self-conjugate. -/
theorem z_load_linear2 (ur : Bool) (α β : K) (hs : ur = true → star α = α ∧ star β = β)
    (e : FFT3D K) (gvec : Gvec_partition) (i : ℕ) (d d1 d2 b b1 b2 : ℕ → K)
    (hd : ∀ k, d k = α * d1 k + β * d2 k) (hb : ∀ p, b p = α * b1 p + β * b2 p) :
    ∀ p, e.z_load ur gvec i d b p =
      α * e.z_load ur gvec i d1 b1 p + β * e.z_load ur gvec i d2 b2 p := by
  unfold FFT3D.z_load
  have h1 := forLoop_rel3 (gvec.zcol i).z.length
    (fun (c c1 c2 : ℕ → K) => ∀ p, c p = α * c1 p + β * c2 p) _ _ _
    (fun j c c1 c2 _ hc => update_linear2 α β
      (e.grid.coord_by_gvec (gvec.zfreq i j) 2).toNat _ _ _ (hd (gvec.zcol_offs i + j))
      c c1 c2 hc) b b1 b2 hb
  by_cases hc : ur = true ∧ i = 0
  · simp only [if_pos hc]
    exact forLoop_rel3 (gvec.zcol 0).z.length
      (fun (c c1 c2 : ℕ → K) => ∀ p, c p = α * c1 p + β * c2 p) _ _ _
      (fun j c c1 c2 _ hc' => update_linear2 α β
        (e.grid.coord_by_gvec (-(gvec.zfreq i j)) 2).toNat _ _ _
        (by rw [hd (gvec.zcol_offs i + j), star_linear2 α β (hs hc.1)])
        c c1 c2 hc') _ _ _ h1
  · simp only [if_neg hc]
    exact h1

/-- The plane scatter is linear in the auxiliary buffer; under reduction it conjugates, so the
scalars have to be self-conjugate. -/
theorem xy_load_linear2 (ur : Bool) (α β : K) (hs : ur = true → star α = α ∧ star β = β)
    (e : FFT3D K) (gvec : Gvec_partition) (iz : ℕ) (a a1 a2 b b1 b2 : ℕ → K)
    (ha : ∀ k, a k = α * a1 k + β * a2 k) (hb : ∀ p, b p = α * b1 p + β * b2 p) :
    ∀ p, e.xy_load ur gvec iz a b p =
      α * e.xy_load ur gvec iz a1 b1 p + β * e.xy_load ur gvec iz a2 b2 p := by
  rw [xy_load_eq, xy_load_eq, xy_load_eq]
  refine forLoop_rel3 gvec.num_zcol
    (fun (c c1 c2 : ℕ → K) => ∀ p, c p = α * c1 p + β * c2 p) _ _ _
    (fun i c c1 c2 _ hc => ?_) b b1 b2 hb
  by_cases hcond : ur = true ∧ i ≠ 0
  · simp only [if_pos hcond]
    exact update_linear2 α β _ _ _ _
      (by rw [ha (iz + i * e.local_size_z_), star_linear2 α β (hs hcond.1)]) _ _ _
      (update_linear2 α β _ _ _ _ (ha (iz + i * e.local_size_z_)) c c1 c2 hc)
  · simp only [if_neg hcond]
    exact update_linear2 α β _ _ _ _ (ha (iz + i * e.local_size_z_)) c c1 c2 hc

/-- The backward transform is linear in the coefficient array, plane by plane; on a reduced
partition for self-conjugate scalars. -/
theorem backward_linear2 (root : ℕ → K) (α β : K) (e : FFT3D K) (gvec : Gvec_partition)
    (c1 c2 : ℕ → K) (hl : e.local_size_z_ = e.grid_.size 2)
    (hs : gvec.reduced = true → star α = α ∧ star β = β) :
    ∃ r r1 r2,
      (e.prepare gvec).transform root 1 gvec (fun k => α * c1 k + β * c2 k) = Except.ok r ∧
      (e.prepare gvec).transform root 1 gvec c1 = Except.ok r1 ∧
      (e.prepare gvec).transform root 1 gvec c2 = Except.ok r2 ∧
      ∀ idx, idx < e.size →
        r.1.fft_buffer_ idx = α * r1.1.fft_buffer_ idx + β * r2.1.fft_buffer_ idx := by
  obtain ⟨r, hr, _, _, _, _, _, hbuf⟩ :=
    transform_backward_spec root (e.prepare gvec) gvec (fun k => α * c1 k + β * c2 k) rfl hl
  obtain ⟨r1, hr1, _, _, _, _, _, hbuf1⟩ :=
    transform_backward_spec root (e.prepare gvec) gvec c1 rfl hl
  obtain ⟨r2, hr2, _, _, _, _, _, hbuf2⟩ :=
    transform_backward_spec root (e.prepare gvec) gvec c2 rfl hl
  refine ⟨r, r1, r2, hr, hr1, hr2, fun idx hidx => ?_⟩
  have hg : (e.prepare gvec).grid_ = e.grid_ := rfl
  rw [hg] at hbuf hbuf1 hbuf2
  have hsz : idx < e.grid_.size 0 * e.grid_.size 1 * e.grid_.size 2 := hidx
  have hxy : 0 < e.grid_.size 0 * e.grid_.size 1 := by
    rcases Nat.eq_zero_or_pos (e.grid_.size 0 * e.grid_.size 1) with h0 | hpos
    · rw [h0, Nat.zero_mul] at hsz
      exact absurd hsz (Nat.not_lt_zero _)
    · exact hpos
  have hiz : idx / (e.grid_.size 0 * e.grid_.size 1) < e.grid_.size 2 :=
    (Nat.div_lt_iff_lt_mul hxy).mpr (by rw [Nat.mul_comm]; exact hsz)
  have hp : idx % (e.grid_.size 0 * e.grid_.size 1) < e.grid_.size 0 * e.grid_.size 1 :=
    Nat.mod_lt _ hxy
  have hidx' : idx = idx / (e.grid_.size 0 * e.grid_.size 1) *
      (e.grid_.size 0 * e.grid_.size 1) + idx % (e.grid_.size 0 * e.grid_.size 1) :=
    (Nat.div_add_mod' idx _).symm
  rw [hidx', hbuf _ hiz _ hp, hbuf1 _ hiz _ hp, hbuf2 _ hiz _ hp]
  unfold FFT3D.plan_backward_xy
  refine fftw_dft_2d_linear2 _ _ _ _ α β _ _ _ (fun q => ?_) _
  refine xy_load_linear2 gvec.reduced α β hs _ gvec _ _ _ _ _ _ _ (fun k => ?_)
    (fun _ => by simp) q
  unfold FFT3D.plan_backward_z
  refine fftw_dft_1d_linear2 _ _ α β _ _ _ (fun t => ?_) _
  exact z_load_linear2 gvec.reduced α β hs _ gvec _ _ _ _ _ _ _ (fun _ => rfl)
    (fun _ => by simp) t

omit [StarRing K] in
/-- Three update loops with the same addresses and linearly related values produce linearly
related results at every address that is written or where the initial arrays are related. -/
theorem forLoop_update_linear_at (α β : K) (n : ℕ) (p : ℕ → ℕ) (v v1 v2 : ℕ → K)
    (hv : ∀ j, j < n → v j = α * v1 j + β * v2 j) (b b1 b2 : ℕ → K) (k : ℕ)
    (hk : b k = α * b1 k + β * b2 k ∨ ∃ j, j < n ∧ p j = k) :
    forLoop n (fun j c => Function.update c (p j) (v j)) b k =
      α * forLoop n (fun j c => Function.update c (p j) (v1 j)) b1 k +
        β * forLoop n (fun j c => Function.update c (p j) (v2 j)) b2 k := by
  induction n with
  | zero =>
    rcases hk with h | ⟨j, hj, _⟩
    · exact h
    · exact absurd hj (Nat.not_lt_zero j)
  | succ m ih =>
    rw [forLoop_succ, forLoop_succ, forLoop_succ]
    by_cases hkm : k = p m
    · rw [hkm, Function.update_same, Function.update_same, Function.update_same]
      exact hv m (Nat.lt_succ_self m)
    · rw [Function.update_noteq hkm, Function.update_noteq hkm, Function.update_noteq hkm]
      refine ih (fun j hj => hv j (Nat.lt_succ_of_lt hj)) ?_
      rcases hk with h | ⟨j, hj, hpj⟩
      · exact Or.inl h
      · rcases Nat.lt_succ_iff_lt_or_eq.mp hj with hlt | heq
        · exact Or.inr ⟨j, hlt, hpj⟩
        · subst heq
          exact absurd hpj.symm hkm

omit [StarRing K] in
theorem nested_update_linear_at (α β : K) (m : ℕ) (len : ℕ → ℕ) (slot : ℕ → ℕ → ℕ)
    (val val1 val2 : ℕ → ℕ → K)
    (hval : ∀ i, i < m → ∀ j, j < len i → val i j = α * val1 i j + β * val2 i j)
    (d d1 d2 : ℕ → K) (k : ℕ)
    (hk : d k = α * d1 k + β * d2 k ∨ ∃ i, i < m ∧ ∃ j, j < len i ∧ slot i j = k) :
    forLoop m (fun i c => forLoop (len i)
        (fun j c => Function.update c (slot i j) (val i j)) c) d k =
      α * forLoop m (fun i c => forLoop (len i)
        (fun j c => Function.update c (slot i j) (val1 i j)) c) d1 k +
      β * forLoop m (fun i c => forLoop (len i)
        (fun j c => Function.update c (slot i j) (val2 i j)) c) d2 k := by
  induction m with
  | zero =>
    rcases hk with h | ⟨i, hi, _⟩
    · exact h
    · exact absurd hi (Nat.not_lt_zero i)
  | succ m ih =>
    rw [forLoop_succ, forLoop_succ, forLoop_succ]
    refine forLoop_update_linear_at α β (len m) (slot m) (val m) (val1 m) (val2 m)
      (fun j hj => hval m (Nat.lt_succ_self m) j hj) _ _ _ k ?_
    rcases hk with h | ⟨i, hi, j, hj, hs⟩
    · exact Or.inl (ih (fun i hi => hval i (Nat.lt_succ_of_lt hi)) (Or.inl h))
    · rcases Nat.lt_succ_iff_lt_or_eq.mp hi with hlt | heq
      · exact Or.inl (ih (fun i hi => hval i (Nat.lt_succ_of_lt hi))
          (Or.inr ⟨i, hlt, j, hj, hs⟩))
      · subst heq
        exact Or.inr ⟨j, hj, hs⟩

omit [StarRing K] in
/-- One entry of the forward transform, a column transform of plane transforms, is linear in
the main buffer. -/
theorem forward_entry_linear2 (w wy wx : K) (N n0 n1 s : ℕ) (hs : s = n1 * n0) (α β : K)
    (B B1 B2 : ℕ → K) (hB : ∀ idx, idx < s * N → B idx = α * B1 idx + β * B2 idx)
    (pos : ℕ) (hpos : pos < n0 * n1) (c : ℕ) (hc : c < N) :
    fftw_dft_1d w N (fun k => fftw_dft_2d wy wx n0 n1 (fun p => B (k * s + p)) pos) c =
      α * fftw_dft_1d w N (fun k => fftw_dft_2d wy wx n0 n1 (fun p => B1 (k * s + p)) pos) c +
        β * fftw_dft_1d w N (fun k => fftw_dft_2d wy wx n0 n1 (fun p => B2 (k * s + p)) pos) c := by
  rw [← fftw_dft_1d_linear2 w N α β
    (fun k => α * fftw_dft_2d wy wx n0 n1 (fun p => B1 (k * s + p)) pos +
      β * fftw_dft_2d wy wx n0 n1 (fun p => B2 (k * s + p)) pos) _ _ (fun _ => rfl)]
  refine fftw_dft_1d_congr _ _ _ _ (fun k hk => ?_) _ hc
  show fftw_dft_2d wy wx n0 n1 (fun p => B (k * s + p)) pos = _
  rw [← fftw_dft_2d_linear2 wy wx n0 n1 α β
    (fun p => α * B1 (k * s + p) + β * B2 (k * s + p)) _ _ (fun _ => rfl)]
  refine fftw_dft_2d_congr _ _ _ _ _ _ (fun p hp => ?_) _ hpos
  refine hB _ ?_
  rw [Nat.mul_comm s N]
  exact block_index_lt _ _ _ _ hk (by rw [hs, Nat.mul_comm]; exact hp)

/-- The forward transform is linear in the main buffer at every stored coefficient. -/
theorem forward_linear2 (root : ℕ → K) (α β : K) (e : FFT3D K) (gvec : Gvec_partition)
    (f1 f2 d d1 d2 : ℕ → K) (hl : e.local_size_z_ = e.grid_.size 2)
    (hfit : gvec.fits e.grid_) :
    ∃ r r1 r2,
      ((e.prepare gvec).input (fun k => α * f1 k + β * f2 k)).transform root (-1) gvec d =
        Except.ok r ∧
      ((e.prepare gvec).input f1).transform root (-1) gvec d1 = Except.ok r1 ∧
      ((e.prepare gvec).input f2).transform root (-1) gvec d2 = Except.ok r2 ∧
      ∀ i, i < gvec.num_zcol → ∀ j, j < (gvec.zcol i).z.length →
        r.2 (gvec.zcol_offs i + j) =
          α * r1.2 (gvec.zcol_offs i + j) + β * r2.2 (gvec.zcol_offs i + j) := by
  have hpos : ∀ i, i < gvec.num_zcol →
      ((e.prepare gvec).z_col_pos_.data i 0).toNat < e.grid_.size 0 * e.grid_.size 1 := by
    intro i hi
    have := prepare_pos0_lt e gvec hfit i hi
    rw [Nat.mul_comm] at this
    exact this
  have hz : ∀ i, i < gvec.num_zcol → ∀ j, j < (gvec.zcol i).z.length →
      (e.grid_.coord_by_gvec (gvec.zfreq i j) 2).toNat < e.grid_.size 2 :=
    fun i hi j hj => coord_by_gvec_toNat_lt _ _ _ ((hfit i hi).2.2 j hj)
  obtain ⟨r, hr, _, _, _, _, _, hd⟩ := transform_forward_spec root
    ((e.prepare gvec).input (fun k => α * f1 k + β * f2 k)) gvec d rfl hl hpos hz
  obtain ⟨r1, hr1, _, _, _, _, _, hd1⟩ := transform_forward_spec root
    ((e.prepare gvec).input f1) gvec d1 rfl hl hpos hz
  obtain ⟨r2, hr2, _, _, _, _, _, hd2⟩ := transform_forward_spec root
    ((e.prepare gvec).input f2) gvec d2 rfl hl hpos hz
  refine ⟨r, r1, r2, hr, hr1, hr2, fun i hi j hj => ?_⟩
  rw [hd, hd1, hd2]
  refine nested_update_linear_at α β gvec.num_zcol _ _ _ _ _ (fun i' hi' j' hj' => ?_) _ _ _ _
    (Or.inr ⟨i, hi, j, hj, rfl⟩)
  have hc := hz i' hi' j' hj'
  have hq := prepare_pos0_lt e gvec hfit i' hi'
  have key := forward_entry_linear2 (fftw_twiddle root (e.grid_.size 2) (-1))
    (fftw_twiddle root (e.grid_.size 1) (-1)) (fftw_twiddle root (e.grid_.size 0) (-1))
    (e.grid_.size 2) (e.grid_.size 1) (e.grid_.size 0) (e.grid_.size 0 * e.grid_.size 1) rfl
    α β ((e.prepare gvec).input (fun k => α * f1 k + β * f2 k)).fft_buffer_
    ((e.prepare gvec).input f1).fft_buffer_ ((e.prepare gvec).input f2).fft_buffer_
    (fun idx hidx => by
      have hlt : idx < (e.prepare gvec).local_size := by
        show idx < e.grid_.size 0 * e.grid_.size 1 * e.local_size_z_
        rw [hl]; exact hidx
      show (if _ < (e.prepare gvec).local_size then _ else _) =
        α * (if _ < (e.prepare gvec).local_size then _ else _) +
          β * (if _ < (e.prepare gvec).local_size then _ else _)
      rw [if_pos hlt, if_pos hlt, if_pos hlt])
    _ hq _ hc
  show fftw_dft_1d _ _ _ _ * (1 / (e.size : K)) =
    α * (fftw_dft_1d _ _ _ _ * (1 / (e.size : K))) +
      β * (fftw_dft_1d _ _ _ _ * (1 / (e.size : K)))
  rw [← mul_assoc, ← mul_assoc, ← add_mul]
  exact congrArg (fun t => t * (1 / (e.size : K))) key

end Linear

/-- C11. Linearity on a non-reduced partition: on a single-process CPU engine, for every
non-reduced partition whose frequencies lie on the grid, all complex scalars `α`, `β` and all
inputs, the three backward transforms return and the main buffer for `α * u1 + β * u2` is
`α` times the buffer for `u1` plus `β` times the buffer for `u2` at every grid point; the
three forward transforms return and the coefficients written for the main buffer
`α * f1 + β * f2` are `α` times those for `f1` plus `β` times those for `f2` at every stored
coefficient. -/
theorem C11_linearity_nonreduced (root : ℕ → ℂ) (α β : ℂ) (e : FFT3D ℂ)
    (gvec : Gvec_partition) (u1 u2 f1 f2 d d1 d2 : ℕ → ℂ)
    (hl : e.local_size_z_ = e.grid_.size 2) (hred : gvec.reduced = false)
    (hfit : gvec.fits e.grid_) :
    (∃ r r1 r2,
      (e.prepare gvec).transform root 1 gvec (fun k => α * u1 k + β * u2 k) = Except.ok r ∧
      (e.prepare gvec).transform root 1 gvec u1 = Except.ok r1 ∧
      (e.prepare gvec).transform root 1 gvec u2 = Except.ok r2 ∧
      ∀ idx, idx < e.size →
        r.1.fft_buffer_ idx = α * r1.1.fft_buffer_ idx + β * r2.1.fft_buffer_ idx) ∧
    (∃ r r1 r2,
      ((e.prepare gvec).input (fun k => α * f1 k + β * f2 k)).transform root (-1) gvec d =
        Except.ok r ∧
      ((e.prepare gvec).input f1).transform root (-1) gvec d1 = Except.ok r1 ∧
      ((e.prepare gvec).input f2).transform root (-1) gvec d2 = Except.ok r2 ∧
      ∀ i, i < gvec.num_zcol → ∀ j, j < (gvec.zcol i).z.length →
        r.2 (gvec.zcol_offs i + j) =
          α * r1.2 (gvec.zcol_offs i + j) + β * r2.2 (gvec.zcol_offs i + j)) :=
  ⟨backward_linear2 root α β e gvec u1 u2 hl
      (fun h => absurd (hred.symm.trans h) (by decide)),
    forward_linear2 root α β e gvec f1 f2 d d1 d2 hl hfit⟩

/-- Witness of C11: the non-reduced sample partition on the 2 × 2 × 2 grid with the scalars
`2` and `i`. -/
theorem C11_linearity_nonreduced_witness :
    (sample_partition.reduced = false ∧ sample_partition.fits sample_grid) ∧
    (∃ r r1 r2,
      ((sample_engine : FFT3D ℂ).prepare sample_partition).transform
          (fun n => Complex.exp (2 * (Real.pi : ℂ) * Complex.I / (n : ℂ))) 1 sample_partition
          (fun k => 2 * sample_coeffs k + Complex.I * (fun _ => (1 : ℂ)) k) = Except.ok r ∧
      ((sample_engine : FFT3D ℂ).prepare sample_partition).transform
          (fun n => Complex.exp (2 * (Real.pi : ℂ) * Complex.I / (n : ℂ))) 1 sample_partition
          sample_coeffs = Except.ok r1 ∧
      ((sample_engine : FFT3D ℂ).prepare sample_partition).transform
          (fun n => Complex.exp (2 * (Real.pi : ℂ) * Complex.I / (n : ℂ))) 1 sample_partition
          (fun _ => 1) = Except.ok r2 ∧
      ∀ idx, idx < (sample_engine : FFT3D ℂ).size →
        r.1.fft_buffer_ idx = 2 * r1.1.fft_buffer_ idx + Complex.I * r2.1.fft_buffer_ idx) :=
  ⟨⟨rfl, sample_fits⟩,
    (C11_linearity_nonreduced _ 2 Complex.I sample_engine sample_partition sample_coeffs
      (fun _ => 1) sample_coeffs (fun _ => 1) (fun _ => 0) (fun _ => 0) (fun _ => 0)
      rfl rfl sample_fits).1⟩

section Pair

/-- The backward transform on the reduced partition of the 3 × 1 × 1 grid, at the origin: the
conjugated `G = 0` coefficient plus the coefficient of `(1, 0, 0)` and its conjugate. -/
theorem pair_backward_origin (root : ℕ → ℂ) (c : ℕ → ℂ) :
    ∃ r, ((pair_engine : FFT3D ℂ).prepare pair_partition).transform root 1 pair_partition c =
      Except.ok r ∧ r.1.fft_buffer_ 0 = star (c 0) + c 1 + star (c 1) := by
  obtain ⟨r, hr, _, _, _, _, _, hbuf⟩ :=
    transform_backward_spec root ((pair_engine : FFT3D ℂ).prepare pair_partition)
      pair_partition c rfl rfl
  refine ⟨r, hr, ?_⟩
  have h := hbuf 0 (by decide) 0 (by decide)
  simp only [Nat.zero_mul, Nat.zero_add] at h
  rw [h]
  simp [FFT3D.plan_backward_xy, fftw_dft_2d, FFT3D.xy_load, forLoop, FFT3D.prepare,
    FFT3D.prepare_col, pair_engine, FFT3D.create, pair_partition, pair_grid,
    Finset.sum_range_succ, Function.update, FFT3D.plan_backward_z, fftw_dft_1d,
    FFT3D.z_load, FFT3D_grid.size, FFT3D_grid.coord_by_gvec, Gvec_partition.num_zcol,
    Gvec_partition.zcol, Gvec_partition.zfreq, Gvec_partition.reduced, Gvec_partition.zcol_offs,
    FFT3D.grid]

end Pair

/-- C12 fails as stated: on the reduced partition of the 3 × 1 × 1 grid with the columns
`(0, 0)` and `(1, 0)`, the backward transform of `i * c1 + 0 * c2` for `c1 = 1`, `c2 = 0` leaves
`-i` at the origin of the main buffer, while `i` times the buffer for `c1` is `3 i` there. -/
theorem C12_reduced_backward_not_linear :
    ∃ r r1 r2,
      ((pair_engine : FFT3D ℂ).prepare pair_partition).transform
          (fun n => Complex.exp (2 * (Real.pi : ℂ) * Complex.I / (n : ℂ))) 1 pair_partition
          (fun k => Complex.I * (fun _ => (1 : ℂ)) k + 0 * (fun _ => (0 : ℂ)) k) =
        Except.ok r ∧
      ((pair_engine : FFT3D ℂ).prepare pair_partition).transform
          (fun n => Complex.exp (2 * (Real.pi : ℂ) * Complex.I / (n : ℂ))) 1 pair_partition
          (fun _ => 1) = Except.ok r1 ∧
      ((pair_engine : FFT3D ℂ).prepare pair_partition).transform
          (fun n => Complex.exp (2 * (Real.pi : ℂ) * Complex.I / (n : ℂ))) 1 pair_partition
          (fun _ => 0) = Except.ok r2 ∧
      r.1.fft_buffer_ 0 = -Complex.I ∧ Complex.I * r1.1.fft_buffer_ 0 = 3 * Complex.I ∧
      r.1.fft_buffer_ 0 ≠ Complex.I * r1.1.fft_buffer_ 0 + 0 * r2.1.fft_buffer_ 0 := by
  obtain ⟨r, hr, hv⟩ := pair_backward_origin
    (fun n => Complex.exp (2 * (Real.pi : ℂ) * Complex.I / (n : ℂ)))
    (fun k => Complex.I * (fun _ => (1 : ℂ)) k + 0 * (fun _ => (0 : ℂ)) k)
  obtain ⟨r1, hr1, hv1⟩ := pair_backward_origin
    (fun n => Complex.exp (2 * (Real.pi : ℂ) * Complex.I / (n : ℂ))) (fun _ => 1)
  obtain ⟨r2, hr2, hv2⟩ := pair_backward_origin
    (fun n => Complex.exp (2 * (Real.pi : ℂ) * Complex.I / (n : ℂ))) (fun _ => 0)
  have e1 : r.1.fft_buffer_ 0 = -Complex.I := by
    rw [hv]
    simp
  have e2 : Complex.I * r1.1.fft_buffer_ 0 = 3 * Complex.I := by
    rw [hv1]
    simp
    ring
  refine ⟨r, r1, r2, hr, hr1, hr2, e1, e2, ?_⟩
  rw [e1, e2, zero_mul, add_zero]
  intro h
  have h4 : (4 : ℂ) * Complex.I = 0 := by linear_combination -h
  simp at h4

/-- C12, amended. Real-linearity of the backward transform on a reduced partition: on a
single-process CPU engine prepared with a partition, reduced or not, for all real scalars `a`,
`b` and all coefficient arrays `c1`, `c2`, the three backward transforms return and the main
buffer for `a * c1 + b * c2` equals, at every grid point, `a` times the buffer for `c1` plus
`b` times the buffer for `c2`. -/
theorem C12_reduced_backward_real_linear (root : ℕ → ℂ) (a b : ℝ) (e : FFT3D ℂ)
    (gvec : Gvec_partition) (c1 c2 : ℕ → ℂ)
    (hl : e.local_size_z_ = e.grid_.size 2) :
    ∃ r r1 r2,
      (e.prepare gvec).transform root 1 gvec (fun k => (a : ℂ) * c1 k + (b : ℂ) * c2 k) =
        Except.ok r ∧
      (e.prepare gvec).transform root 1 gvec c1 = Except.ok r1 ∧
      (e.prepare gvec).transform root 1 gvec c2 = Except.ok r2 ∧
      ∀ idx, idx < e.size →
        r.1.fft_buffer_ idx = (a : ℂ) * r1.1.fft_buffer_ idx + (b : ℂ) * r2.1.fft_buffer_ idx :=
  backward_linear2 root (a : ℂ) (b : ℂ) e gvec c1 c2 hl
    (fun _ => ⟨Complex.conj_ofReal a, Complex.conj_ofReal b⟩)

/-- Witness of C12, amended: the reduced sample partition on the 4 × 4 × 4 grid with the
scalars `2` and `-3` and the coefficient arrays `k + 1` and `k * i`. -/
theorem C12_reduced_backward_real_linear_witness :
    (sample_reduced_partition.reduced = true) ∧
    ∃ r r1 r2,
      ((sample_engine4 : FFT3D ℂ).prepare sample_reduced_partition).transform
          (fun n => Complex.exp (2 * (Real.pi : ℂ) * Complex.I / (n : ℂ))) 1
          sample_reduced_partition
          (fun k => ((2 : ℝ) : ℂ) * sample_coeffs k +
            ((-3 : ℝ) : ℂ) * (fun k : ℕ => (k : ℂ) * Complex.I) k) = Except.ok r ∧
      ((sample_engine4 : FFT3D ℂ).prepare sample_reduced_partition).transform
          (fun n => Complex.exp (2 * (Real.pi : ℂ) * Complex.I / (n : ℂ))) 1
          sample_reduced_partition sample_coeffs = Except.ok r1 ∧
      ((sample_engine4 : FFT3D ℂ).prepare sample_reduced_partition).transform
          (fun n => Complex.exp (2 * (Real.pi : ℂ) * Complex.I / (n : ℂ))) 1
          sample_reduced_partition (fun k : ℕ => (k : ℂ) * Complex.I) = Except.ok r2 ∧
      ∀ idx, idx < (sample_engine4 : FFT3D ℂ).size →
        r.1.fft_buffer_ idx =
          ((2 : ℝ) : ℂ) * r1.1.fft_buffer_ idx + ((-3 : ℝ) : ℂ) * r2.1.fft_buffer_ idx :=
  ⟨rfl, C12_reduced_backward_real_linear _ 2 (-3) sample_engine4 sample_reduced_partition
    sample_coeffs (fun k : ℕ => (k : ℂ) * Complex.I) rfl⟩

section Errors
variable {K : Type} [Field K] [StarRing K]

/-- A prepared engine executes the single-field transform to the end for the directions `±1`. -/
theorem transform_returns (root : ℕ → K) (direction : ℤ) (e : FFT3D K) (gvec : Gvec_partition)
    (data : ℕ → K) (hp : e.prepared_ = true) (hd : direction = 1 ∨ direction = -1) :
    ∃ r, e.transform root direction gvec data = Except.ok r := by
  unfold FFT3D.transform
  rw [if_neg (by simp [hp])]
  rcases hd with h | h
  · subst h
    simp only [if_true, run_z_backward, run_xy_backward, Except.bind]
    exact ⟨_, rfl⟩
  · subst h
    simp only [show ((-1 : ℤ) = 1) = False from by decide, if_false, if_true, run_z_forward,
      run_xy_forward, Except.bind]
    exact ⟨_, rfl⟩

theorem transform_not_ready (root : ℕ → K) (direction : ℤ) (e : FFT3D K)
    (gvec : Gvec_partition) (data : ℕ → K) (hp : e.prepared_ = false) :
    e.transform root direction gvec data = Except.error "FFT3D is not ready" := by
  unfold FFT3D.transform
  rw [if_pos hp]

theorem transform_wrong_direction (root : ℕ → K) (direction : ℤ) (e : FFT3D K)
    (gvec : Gvec_partition) (data : ℕ → K) (hp : e.prepared_ = true)
    (h1 : direction ≠ 1) (h2 : direction ≠ -1) :
    e.transform root direction gvec data = Except.error "wrong direction" := by
  unfold FFT3D.transform
  rw [if_neg (by simp [hp])]
  simp only [if_neg h1, if_neg h2]

/-- A prepared engine executes the paired-field transform on a reduced partition to the end
for the directions `±1`. -/
theorem transform2_returns (root : ℕ → K) (I : K) (direction : ℤ) (e : FFT3D K)
    (gvec : Gvec_partition) (d1 d2 : ℕ → K) (hp : e.prepared_ = true)
    (hr : gvec.reduced = true) (hd : direction = 1 ∨ direction = -1) :
    ∃ r, e.transform2 root I direction gvec d1 d2 = Except.ok r := by
  unfold FFT3D.transform2
  rw [if_neg (by simp [hp]), if_neg (by simp [hr])]
  rcases hd with h | h
  · subst h
    simp only [if_true, run_z_backward, Except.bind]
    rw [transform_xy2_backward _ _ _ _ _ hr]
    exact ⟨_, rfl⟩
  · subst h
    simp only [show ((-1 : ℤ) = 1) = False from by decide, if_false, if_true]
    rw [transform_xy2_forward _ _ _ _ _ hr]
    simp only [run_z_forward, Except.bind]
    exact ⟨_, rfl⟩

theorem transform2_not_ready (root : ℕ → K) (I : K) (direction : ℤ) (e : FFT3D K)
    (gvec : Gvec_partition) (d1 d2 : ℕ → K) (hp : e.prepared_ = false) :
    e.transform2 root I direction gvec d1 d2 = Except.error "FFT3D is not ready" := by
  unfold FFT3D.transform2
  rw [if_pos hp]

theorem transform2_not_reduced (root : ℕ → K) (I : K) (direction : ℤ) (e : FFT3D K)
    (gvec : Gvec_partition) (d1 d2 : ℕ → K) (hp : e.prepared_ = true)
    (hr : gvec.reduced = false) :
    e.transform2 root I direction gvec d1 d2 =
      Except.error "reduced set of G-vectors is required" := by
  unfold FFT3D.transform2
  rw [if_neg (by simp [hp]), if_pos hr]

theorem transform2_wrong_direction (root : ℕ → K) (I : K) (direction : ℤ) (e : FFT3D K)
    (gvec : Gvec_partition) (d1 d2 : ℕ → K) (hp : e.prepared_ = true)
    (hr : gvec.reduced = true) (h1 : direction ≠ 1) (h2 : direction ≠ -1) :
    e.transform2 root I direction gvec d1 d2 = Except.error "wrong direction" := by
  unfold FFT3D.transform2
  rw [if_neg (by simp [hp]), if_neg (by simp [hr])]
  simp only [if_neg h1, if_neg h2]

/-- The single-field transform of a prepared engine does not end with "FFT3D is not ready". -/
theorem transform_prepared_ne (root : ℕ → K) (direction : ℤ) (e : FFT3D K)
    (gvec : Gvec_partition) (data : ℕ → K) (hp : e.prepared_ = true) :
    e.transform root direction gvec data ≠ Except.error "FFT3D is not ready" := by
  by_cases hd : direction = 1 ∨ direction = -1
  · obtain ⟨r, hr⟩ := transform_returns root direction e gvec data hp hd
    rw [hr]
    exact fun h => Except.noConfusion h
  · rw [transform_wrong_direction root direction e gvec data hp (fun h => hd (Or.inl h))
      (fun h => hd (Or.inr h))]
    intro h
    have : "wrong direction" = "FFT3D is not ready" := Except.error.inj h
    exact absurd this (by decide)

/-- The paired-field transform of a prepared engine does not end with "FFT3D is not ready". -/
theorem transform2_prepared_ne (root : ℕ → K) (I : K) (direction : ℤ) (e : FFT3D K)
    (gvec : Gvec_partition) (d1 d2 : ℕ → K) (hp : e.prepared_ = true) :
    e.transform2 root I direction gvec d1 d2 ≠ Except.error "FFT3D is not ready" := by
  by_cases hr : gvec.reduced = true
  · by_cases hd : direction = 1 ∨ direction = -1
    · obtain ⟨r, hr'⟩ := transform2_returns root I direction e gvec d1 d2 hp hr hd
      rw [hr']
      exact fun h => Except.noConfusion h
    · rw [transform2_wrong_direction root I direction e gvec d1 d2 hp hr
        (fun h => hd (Or.inl h)) (fun h => hd (Or.inr h))]
      intro h
      have : "wrong direction" = "FFT3D is not ready" := Except.error.inj h
      exact absurd this (by decide)
  · rw [transform2_not_reduced root I direction e gvec d1 d2 hp (by simpa using hr)]
    intro h
    have : "reduced set of G-vectors is required" = "FFT3D is not ready" := Except.error.inj h
    exact absurd this (by decide)

/-! ### The life cycle -/

omit [Field K] [StarRing K] in
theorem lifecycle_append (e : FFT3D K) (l1 l2 : List lifecycle_call) :
    e.lifecycle (l1 ++ l2) = (e.lifecycle l1).lifecycle l2 := by
  induction l1 generalizing e with
  | nil => rfl
  | cons c rest ih =>
    cases c with
    | prepare gvec => exact ih (e.prepare gvec)
    | dismiss => exact ih e.dismiss

omit [Field K] [StarRing K] in
/-- After a sequence of `prepare` and `dismiss` calls on a freshly constructed engine the
engine is not prepared exactly if the sequence is empty or ends with `dismiss`. -/
theorem lifecycle_prepared (grid : FFT3D_grid) (mem : ℕ → K) (calls : List lifecycle_call) :
    ((FFT3D.create grid mem).lifecycle calls).prepared_ = false ↔
      (calls = [] ∨ ∃ init, calls = init ++ [lifecycle_call.dismiss]) := by
  rcases List.eq_nil_or_concat calls with h | ⟨init, c, h⟩
  · subst h
    exact ⟨fun _ => Or.inl rfl, fun _ => rfl⟩
  · subst h
    rw [List.concat_eq_append, lifecycle_append]
    cases c with
    | prepare gvec =>
      constructor
      · intro h
        exact absurd h (by simp [FFT3D.lifecycle, FFT3D.prepare])
      · rintro (h | ⟨init', h⟩)
        · exact absurd h (by simp)
        · have := List.append_inj_right' h rfl
          simp at this
    | dismiss => exact ⟨fun _ => Or.inr ⟨init, rfl⟩, fun _ => rfl⟩

end Errors

/-- C14. Transform requires prepare: for every finite sequence of `prepare` and `dismiss` calls
applied to a freshly constructed engine, a following single-field transform, and likewise a
following paired-field transform, of any direction ends with the fatal "FFT3D is not ready"
error if and only if the sequence is empty or its last call is `dismiss`; and when it does, the
memory at that moment (the engine with its main and auxiliary buffers, and the coefficient
arrays) is the memory before the call: the check precedes every reallocation, read and
write. -/
theorem C14_transform_requires_prepare (root : ℕ → ℂ) (grid : FFT3D_grid) (mem : ℕ → ℂ)
    (calls : List lifecycle_call) (direction : ℤ) (gvec : Gvec_partition)
    (data data1 data2 : ℕ → ℂ) :
    (((FFT3D.create grid mem).lifecycle calls).transform root direction gvec data =
        Except.error "FFT3D is not ready" ↔
      (calls = [] ∨ ∃ init, calls = init ++ [lifecycle_call.dismiss])) ∧
    (((FFT3D.create grid mem).lifecycle calls).transform2 root Complex.I direction gvec
        data1 data2 = Except.error "FFT3D is not ready" ↔
      (calls = [] ∨ ∃ init, calls = init ++ [lifecycle_call.dismiss])) ∧
    ((calls = [] ∨ ∃ init, calls = init ++ [lifecycle_call.dismiss]) →
      ((FFT3D.create grid mem).lifecycle calls).transform_memory root direction gvec data =
        ((FFT3D.create grid mem).lifecycle calls, data) ∧
      ((FFT3D.create grid mem).lifecycle calls).transform2_memory root Complex.I direction gvec
        data1 data2 = ((FFT3D.create grid mem).lifecycle calls, data1, data2)) := by
  have key := lifecycle_prepared grid mem calls
  refine ⟨⟨fun h => ?_, fun h => transform_not_ready _ _ _ _ _ (key.mpr h)⟩,
    ⟨fun h => ?_, fun h => transform2_not_ready _ _ _ _ _ _ _ (key.mpr h)⟩, fun h => ?_⟩
  · by_contra hc
    have hp : ((FFT3D.create grid mem).lifecycle calls).prepared_ = true := by
      cases hb : ((FFT3D.create grid mem).lifecycle calls).prepared_
      · exact absurd (key.mp hb) hc
      · rfl
    exact transform_prepared_ne root direction _ gvec data hp h
  · by_contra hc
    have hp : ((FFT3D.create grid mem).lifecycle calls).prepared_ = true := by
      cases hb : ((FFT3D.create grid mem).lifecycle calls).prepared_
      · exact absurd (key.mp hb) hc
      · rfl
    exact transform2_prepared_ne root Complex.I direction _ gvec data1 data2 hp h
  · have hp := key.mpr h
    constructor
    · unfold FFT3D.transform_memory
      rw [if_pos hp]
    · unfold FFT3D.transform2_memory
      rw [if_pos hp]

/-- Witness of C14: `prepare`, then `dismiss`, on the 4 × 4 × 4 grid; the backward transform
that follows is not ready and leaves the memory as it was. -/
theorem C14_transform_requires_prepare_witness :
    ([lifecycle_call.prepare scenario_partition, lifecycle_call.dismiss] = [] ∨
      ∃ init, [lifecycle_call.prepare scenario_partition, lifecycle_call.dismiss] =
        init ++ [lifecycle_call.dismiss]) ∧
    ((FFT3D.create scenario_grid (fun _ => (0 : ℂ))).lifecycle
        [lifecycle_call.prepare scenario_partition, lifecycle_call.dismiss]).transform_memory
        (fun _ => 1) 1 scenario_partition scenario_coeffs =
      ((FFT3D.create scenario_grid (fun _ => (0 : ℂ))).lifecycle
        [lifecycle_call.prepare scenario_partition, lifecycle_call.dismiss], scenario_coeffs) :=
  ⟨Or.inr ⟨[lifecycle_call.prepare scenario_partition], rfl⟩,
    ((C14_transform_requires_prepare (fun _ => 1) scenario_grid (fun _ => 0)
      [lifecycle_call.prepare scenario_partition, lifecycle_call.dismiss] 1 scenario_partition
      scenario_coeffs scenario_coeffs scenario_coeffs).2.2
        (Or.inr ⟨[lifecycle_call.prepare scenario_partition], rfl⟩)).1⟩

/-- C15. The paired-field transform rejects non-reduced partitions: on a prepared engine, for
every direction and every partition with `reduced = false`, the paired-field transform ends
with the fatal error "reduced set of G-vectors is required", and the memory at that moment is
the memory before the call: the main buffer, both auxiliary buffers with their sizes and both
coefficient arrays are unchanged.  For every partition with `reduced = true` the call does not
end with this error. -/
theorem C15_paired_rejects_nonreduced (root : ℕ → ℂ) (direction : ℤ) (e : FFT3D ℂ)
    (gvec : Gvec_partition) (data1 data2 : ℕ → ℂ) (hp : e.prepared_ = true) :
    (gvec.reduced = false →
      e.transform2 root Complex.I direction gvec data1 data2 =
        Except.error "reduced set of G-vectors is required" ∧
      e.transform2_memory root Complex.I direction gvec data1 data2 = (e, data1, data2) ∧
      (e.transform2_memory root Complex.I direction gvec data1 data2).1.fft_buffer_ =
        e.fft_buffer_ ∧
      (e.transform2_memory root Complex.I direction gvec data1 data2).1.fft_buffer_aux1_ =
        e.fft_buffer_aux1_ ∧
      (e.transform2_memory root Complex.I direction gvec data1 data2).1.fft_buffer_aux2_ =
        e.fft_buffer_aux2_) ∧
    (gvec.reduced = true →
      e.transform2 root Complex.I direction gvec data1 data2 ≠
        Except.error "reduced set of G-vectors is required") := by
  constructor
  · intro hr
    have hm : e.transform2_memory root Complex.I direction gvec data1 data2 =
        (e, data1, data2) := by
      unfold FFT3D.transform2_memory
      rw [if_neg (by simp [hp]), if_pos hr]
    refine ⟨transform2_not_reduced _ _ _ _ _ _ _ hp hr, hm, ?_, ?_, ?_⟩ <;> rw [hm]
  · intro hr
    by_cases hd : direction = 1 ∨ direction = -1
    · obtain ⟨r, hr'⟩ := transform2_returns root Complex.I direction e gvec data1 data2 hp hr hd
      rw [hr']
      exact fun h => Except.noConfusion h
    · rw [transform2_wrong_direction root Complex.I direction e gvec data1 data2 hp hr
        (fun h => hd (Or.inl h)) (fun h => hd (Or.inr h))]
      intro h
      have : "wrong direction" = "reduced set of G-vectors is required" := Except.error.inj h
      exact absurd this (by decide)

/-- Witness of C15: the prepared engine of the 2 × 2 × 2 grid with the non-reduced sample
partition, backward direction. -/
theorem C15_paired_rejects_nonreduced_witness :
    (((sample_engine : FFT3D ℂ).prepare sample_partition).prepared_ = true ∧
      sample_partition.reduced = false) ∧
    ((sample_engine : FFT3D ℂ).prepare sample_partition).transform2 (fun _ => 1) Complex.I 1
        sample_partition sample_coeffs sample_coeffs =
      Except.error "reduced set of G-vectors is required" :=
  ⟨⟨rfl, rfl⟩,
    ((C15_paired_rejects_nonreduced (fun _ => 1) 1
      ((sample_engine : FFT3D ℂ).prepare sample_partition) sample_partition sample_coeffs
      sample_coeffs rfl).1 rfl).1⟩

section World
variable {K : Type} [Field K] [StarRing K]

/-- With all ranks prepared, the single-field transform of a direction other than `±1` ends on
every number of ranks with "wrong direction". -/
theorem comm_transform_wrong_direction (root : ℕ → K) (direction : ℤ) (w : FFT3D_comm K)
    (gvec : Gvec_partition) (distr : block_data_descriptor) (data : ℕ → ℕ → K)
    (hp : ∀ r, r < w.size → (w.at_rank r).prepared_ = true)
    (h1 : direction ≠ 1) (h2 : direction ≠ -1) :
    w.transform root direction gvec distr data = Except.error "wrong direction" := by
  unfold FFT3D_comm.transform
  by_cases hs : w.size = 1
  · rw [if_pos hs, transform_wrong_direction root direction _ gvec _
      (hp 0 (by rw [hs]; exact Nat.one_pos)) h1 h2]
    rfl
  · rw [if_neg hs, if_neg]
    · simp only [if_neg h1, if_neg h2]
    · rintro ⟨r, hr, hf⟩
      rw [hp r hr] at hf
      exact absurd hf (by decide)

/-- With all ranks prepared, the paired-field transform of a direction other than `±1` ends on
every number of ranks with "wrong direction" if the partition is reduced, and with the error of
the check for a reduced partition, which comes first, if it is not. -/
theorem comm_transform2_wrong_direction (root : ℕ → K) (I : K) (direction : ℤ)
    (w : FFT3D_comm K) (gvec : Gvec_partition) (distr : block_data_descriptor)
    (data1 data2 : ℕ → ℕ → K)
    (hp : ∀ r, r < w.size → (w.at_rank r).prepared_ = true)
    (h1 : direction ≠ 1) (h2 : direction ≠ -1) :
    w.transform2 root I direction gvec distr data1 data2 =
      Except.error (if gvec.reduced = true then "wrong direction"
        else "reduced set of G-vectors is required") := by
  unfold FFT3D_comm.transform2
  by_cases hs : w.size = 1
  · rw [if_pos hs]
    have hp0 := hp 0 (by rw [hs]; exact Nat.one_pos)
    by_cases hr : gvec.reduced = true
    · rw [transform2_wrong_direction root I direction _ gvec _ _ hp0 hr h1 h2, if_pos hr]
      rfl
    · rw [transform2_not_reduced root I direction _ gvec _ _ hp0 (by simpa using hr), if_neg hr]
      rfl
  · rw [if_neg hs, if_neg]
    · by_cases hr : gvec.reduced = true
      · rw [if_neg (by simp [hr]), if_pos hr]
        simp only [if_neg h1, if_neg h2]
      · rw [if_pos (by simpa using hr), if_neg hr]
    · rintro ⟨r, hr, hf⟩
      rw [hp r hr] at hf
      exact absurd hf (by decide)

end World

/-- C16 fails as stated for the paired-field transform on a non-reduced partition: on the
prepared engine of the 2 × 2 × 2 grid with the non-reduced sample partition, the paired-field
transform of direction `0` ends with "reduced set of G-vectors is required", not with "wrong
direction". -/
theorem C16_paired_nonreduced_not_wrong_direction :
    (((sample_engine : FFT3D ℂ).prepare sample_partition).prepared_ = true ∧
      sample_partition.reduced = false ∧ (0 : ℤ) ≠ 1 ∧ (0 : ℤ) ≠ -1) ∧
    ((sample_engine : FFT3D ℂ).prepare sample_partition).transform2
        (fun n => Complex.exp (2 * (Real.pi : ℂ) * Complex.I / (n : ℂ))) Complex.I 0
        sample_partition sample_coeffs sample_coeffs =
      Except.error "reduced set of G-vectors is required" ∧
    ((sample_engine : FFT3D ℂ).prepare sample_partition).transform2
        (fun n => Complex.exp (2 * (Real.pi : ℂ) * Complex.I / (n : ℂ))) Complex.I 0
        sample_partition sample_coeffs sample_coeffs ≠
      Except.error "wrong direction" := by
  have h := transform2_not_reduced
    (fun n => Complex.exp (2 * (Real.pi : ℂ) * Complex.I / (n : ℂ))) Complex.I 0
    ((sample_engine : FFT3D ℂ).prepare sample_partition) sample_partition sample_coeffs
    sample_coeffs rfl rfl
  refine ⟨⟨rfl, rfl, by decide, by decide⟩, h, ?_⟩
  rw [h]
  intro hc
  have : "reduced set of G-vectors is required" = "wrong direction" := Except.error.inj hc
  exact absurd this (by decide)

/-- C16, amended. An unsupported direction is fatal: for every direction value other than `+1`
and `-1`, for every partition (also one with zero columns) and any number of processes, on
prepared engines the single-field transform ends with the fatal "wrong direction" error; the
paired-field transform ends with "wrong direction" if the partition is reduced and, if it is
not, with the fatal error "reduced set of G-vectors is required" of the check that comes
first.  Neither returns.  The statement is given for one single-process engine `e` and for the
engines `w` of all ranks of a communicator. -/
theorem C16_wrong_direction_is_fatal (root : ℕ → ℂ) (direction : ℤ)
    (h1 : direction ≠ 1) (h2 : direction ≠ -1)
    (e : FFT3D ℂ) (he : e.prepared_ = true)
    (w : FFT3D_comm ℂ) (hw : ∀ r, r < w.size → (w.at_rank r).prepared_ = true)
    (gvec : Gvec_partition) (distr : block_data_descriptor)
    (d d1 d2 : ℕ → ℂ) (data data1 data2 : ℕ → ℕ → ℂ) :
    e.transform root direction gvec d = Except.error "wrong direction" ∧
    e.transform2 root Complex.I direction gvec d1 d2 =
      Except.error (if gvec.reduced = true then "wrong direction"
        else "reduced set of G-vectors is required") ∧
    w.transform root direction gvec distr data = Except.error "wrong direction" ∧
    w.transform2 root Complex.I direction gvec distr data1 data2 =
      Except.error (if gvec.reduced = true then "wrong direction"
        else "reduced set of G-vectors is required") := by
  refine ⟨transform_wrong_direction root direction e gvec d he h1 h2, ?_,
    comm_transform_wrong_direction root direction w gvec distr data hw h1 h2,
    comm_transform2_wrong_direction root Complex.I direction w gvec distr data1 data2 hw h1 h2⟩
  by_cases hr : gvec.reduced = true
  · rw [transform2_wrong_direction root Complex.I direction e gvec d1 d2 he hr h1 h2, if_pos hr]
  · rw [transform2_not_reduced root Complex.I direction e gvec d1 d2 he (by simpa using hr),
      if_neg hr]

/-- Witness of C16, amended: direction `2`, the prepared engine of the 4 × 4 × 4 grid and two
prepared ranks that split the z-extent 3 + 1, with a partition without columns. -/
theorem C16_wrong_direction_is_fatal_witness :
    ((2 : ℤ) ≠ 1 ∧ (2 : ℤ) ≠ -1 ∧
      ((sample_engine4 : FFT3D ℂ).prepare ⟨[], fun _ => 0, true⟩).prepared_ = true ∧
      ∀ r, r < ((FFT3D_comm.create scenario_grid 2 ⟨fun r => if r = 0 then 3 else 1⟩
          (fun _ _ => (0 : ℂ))).prepare ⟨[], fun _ => 0, true⟩).size →
        (((FFT3D_comm.create scenario_grid 2 ⟨fun r => if r = 0 then 3 else 1⟩
          (fun _ _ => (0 : ℂ))).prepare ⟨[], fun _ => 0, true⟩).at_rank r).prepared_ = true) ∧
    ((FFT3D_comm.create scenario_grid 2 ⟨fun r => if r = 0 then 3 else 1⟩
        (fun _ _ => (0 : ℂ))).prepare ⟨[], fun _ => 0, true⟩).transform2
        (fun _ => 1) Complex.I 2 ⟨[], fun _ => 0, true⟩ ⟨fun _ => 0, fun _ => 0⟩
        (fun _ _ => 0) (fun _ _ => 0) =
      Except.error "wrong direction" :=
  ⟨⟨by decide, by decide, rfl, fun _ _ => rfl⟩,
    (C16_wrong_direction_is_fatal (fun _ => 1) 2 (by decide) (by decide)
      ((sample_engine4 : FFT3D ℂ).prepare ⟨[], fun _ => 0, true⟩) rfl
      ((FFT3D_comm.create scenario_grid 2 ⟨fun r => if r = 0 then 3 else 1⟩
        (fun _ _ => (0 : ℂ))).prepare ⟨[], fun _ => 0, true⟩) (fun _ _ => rfl)
      ⟨[], fun _ => 0, true⟩ ⟨fun _ => 0, fun _ => 0⟩ (fun _ => 0) (fun _ => 0) (fun _ => 0)
      (fun _ _ => 0) (fun _ _ => 0) (fun _ _ => 0)).2.2.2⟩

/-- C18. Re-prepare without dismiss is an error in accelerator-hybrid mode (with the device
allocator modelled from the specification): for every engine whose accelerator-side buffers
are still allocated, `prepare` with any partition fails, in particular after every successful
`prepare`; after `dismiss`, `prepare` succeeds, sets the prepared flag and builds the table of
the new partition. -/
theorem C18_reprepare_needs_dismiss (e : FFT3D ℂ) (dev : device_mirrors)
    (gvec1 gvec2 : Gvec_partition) :
    (dev.fft_buffer_aux1_ = true →
      ∃ msg, e.prepare_hybrid dev gvec2 = Except.error msg) ∧
    (∀ r, e.prepare_hybrid dev gvec1 = Except.ok r →
      r.2.fft_buffer_aux1_ = true ∧ r.2.fft_buffer_aux2_ = true ∧ r.2.fft_buffer_ = true ∧
      (∃ msg, r.1.prepare_hybrid r.2 gvec2 = Except.error msg) ∧
      ∃ r2, (r.1.dismiss_hybrid r.2).1.prepare_hybrid (r.1.dismiss_hybrid r.2).2 gvec2 =
          Except.ok r2 ∧ r2.1.prepared_ = true ∧
        r2.1.z_col_pos_ = (e.prepare gvec2).z_col_pos_) ∧
    ∃ r2, (e.dismiss_hybrid dev).1.prepare_hybrid (e.dismiss_hybrid dev).2 gvec2 =
      Except.ok r2 ∧ r2.1.prepared_ = true := by
  refine ⟨fun h => ?_, fun r hr => ?_, ⟨_, rfl, rfl⟩⟩
  · refine ⟨"accelerator resources are still allocated", ?_⟩
    unfold FFT3D.prepare_hybrid mdarray_allocate_device
    rw [if_pos h]
    rfl
  · unfold FFT3D.prepare_hybrid mdarray_allocate_device at hr
    by_cases ha1 : dev.fft_buffer_aux1_ = true
    · rw [if_pos ha1] at hr
      exact Except.noConfusion hr
    · by_cases ha2 : dev.fft_buffer_aux2_ = true
      · rw [if_neg ha1, if_pos ha2] at hr
        exact Except.noConfusion hr
      · by_cases hfb : dev.fft_buffer_ = true
        · rw [if_neg ha1, if_neg ha2, if_pos hfb] at hr
          exact Except.noConfusion hr
        · rw [if_neg ha1, if_neg ha2, if_neg hfb] at hr
          have hr' : (e.prepare gvec1, (⟨true, true, true, true, true⟩ : device_mirrors)) = r :=
            Except.ok.inj hr
          subst hr'
          exact ⟨rfl, rfl, rfl, ⟨_, rfl⟩, ⟨_, rfl, rfl, rfl⟩⟩

/-- Witness of C18: the engine of the 4 × 4 × 4 grid prepared once in hybrid mode with the
mirrors of its buffers allocated. -/
theorem C18_reprepare_needs_dismiss_witness :
    ((⟨true, true, true, true, true⟩ : device_mirrors).fft_buffer_aux1_ = true) ∧
    ∃ msg, ((sample_engine4 : FFT3D ℂ).prepare scenario_partition).prepare_hybrid
      ⟨true, true, true, true, true⟩ sample_reduced_partition = Except.error msg :=
  ⟨rfl, (C18_reprepare_needs_dismiss ((sample_engine4 : FFT3D ℂ).prepare scenario_partition)
    ⟨true, true, true, true, true⟩ scenario_partition sample_reduced_partition).1 rfl⟩

section Ranks
variable {K : Type} [Field K] [StarRing K]

omit [Field K] [StarRing K] in
theorem forLoopE_succ {σ : Type} (n : ℕ) (body : ℕ → σ → Except String σ) (s : σ) :
    forLoopE (n + 1) body s = (forLoopE n body s).bind (body n) := rfl

omit [Field K] [StarRing K] in
/-- If every rank executes its part to the end, so does the run over the ranks, and the state
of every rank `r < P` is the state its part returned. -/
theorem for_ranks_ok {σ : Type} (P : ℕ) (f : ℕ → σ → Except String σ) (g : ℕ → σ → σ)
    (st : ℕ → σ) (hf : ∀ r, r < P → f r (st r) = Except.ok (g r (st r))) :
    for_ranks P f st = Except.ok (fun r => if r < P then g r (st r) else st r) := by
  unfold for_ranks
  induction P with
  | zero =>
    show Except.ok st = _
    congr 1
  | succ m ih =>
    rw [forLoopE_succ, ih (fun r hr => hf r (Nat.lt_succ_of_lt hr))]
    show Except.map _ (f m ((fun r => if r < m then g r (st r) else st r) m)) = _
    simp only [Nat.lt_irrefl, if_false]
    rw [hf m (Nat.lt_succ_self m)]
    show Except.ok _ = _
    congr 1
    funext r
    beta_reduce
    by_cases hrm : r = m
    · subst hrm
      rw [Function.update_same, if_pos (Nat.lt_succ_self r)]
    · rw [Function.update_noteq hrm]
      by_cases hlt : r < m
      · rw [if_pos hlt, if_pos (Nat.lt_succ_of_lt hlt)]
      · rw [if_neg hlt, if_neg (by omega)]

omit [Field K] [StarRing K] in
/-- A run over the ranks that returns: every rank returned its state, and the states of the
ranks at or beyond `P` are untouched. -/
theorem for_ranks_inv {σ : Type} (P : ℕ) (f : ℕ → σ → Except String σ) (st st' : ℕ → σ)
    (h : for_ranks P f st = Except.ok st') :
    (∀ r, r < P → f r (st r) = Except.ok (st' r)) ∧ ∀ r, P ≤ r → st' r = st r := by
  unfold for_ranks at h
  induction P generalizing st' with
  | zero =>
    have : st = st' := Except.ok.inj h
    subst this
    exact ⟨fun r hr => absurd hr (Nat.not_lt_zero r), fun _ _ => rfl⟩
  | succ m ih =>
    rw [forLoopE_succ] at h
    cases hm : forLoopE m (fun r st => (f r (st r)).map (fun s => Function.update st r s)) st with
    | error msg =>
      rw [hm] at h
      exact Except.noConfusion h
    | ok stm =>
      rw [hm] at h
      obtain ⟨ih1, ih2⟩ := ih stm hm
      have h' : (f m (stm m)).map (fun s => Function.update stm m s) = Except.ok st' := h
      cases hfm : f m (stm m) with
      | error msg =>
        rw [hfm] at h'
        exact Except.noConfusion h'
      | ok s =>
        rw [hfm] at h'
        have hst : Function.update stm m s = st' := Except.ok.inj h'
        subst hst
        refine ⟨fun r hr => ?_, fun r hr => ?_⟩
        · rcases Nat.lt_succ_iff_lt_or_eq.mp hr with hlt | heq
          · rw [Function.update_noteq (Nat.ne_of_lt hlt)]
            exact ih1 r hlt
          · subst heq
            rw [Function.update_same, ← ih2 r (le_refl r)]
            exact hfm
        · rw [Function.update_noteq (by omega)]
          exact ih2 r (by omega)

omit [Field K] [StarRing K] in
theorem except_map_ok {α β : Type} (f : α → β) (x : Except String α) (y : β)
    (h : x.map f = Except.ok y) : ∃ a, x = Except.ok a ∧ f a = y := by
  cases x with
  | error msg => exact Except.noConfusion h
  | ok a => exact ⟨a, rfl, Except.ok.inj h⟩

omit [Field K] [StarRing K] in
theorem except_bind_ok {α β : Type} (x : Except String α) (f : α → Except String β) (y : β)
    (h : x.bind f = Except.ok y) : ∃ a, x = Except.ok a ∧ f a = Except.ok y := by
  cases x with
  | error msg => exact Except.noConfusion h
  | ok a => exact ⟨a, rfl, h⟩

/-! ### What the stages keep -/

omit [Field K] [StarRing K] in
theorem realloc_size (e : FFT3D K) (sz_max : ℕ) (a : mdarray K) :
    (e.realloc sz_max a).size = max a.size sz_max := by
  unfold FFT3D.realloc
  split_ifs with h
  · exact (max_eq_right (le_of_lt h)).symm
  · exact (max_eq_left (not_lt.mp h)).symm

/-- The plane stage keeps the size of the auxiliary buffer and the fields of the engine other
than the plane scratch and the main buffer. -/
theorem run_xy_keeps (root : ℕ → K) (direction : ℤ) (ur : Bool) (e : FFT3D K)
    (gvec : Gvec_partition) (aux : mdarray K) (r : FFT3D K × mdarray K)
    (h : e.run_xy root direction ur gvec aux = Except.ok r) :
    r.2.size = aux.size ∧ r.1.fft_buffer_aux1_ = e.fft_buffer_aux1_ ∧
      r.1.fft_buffer_aux2_ = e.fft_buffer_aux2_ ∧ r.1.grid_ = e.grid_ ∧
      r.1.local_size_z_ = e.local_size_z_ ∧ r.1.z_col_pos_ = e.z_col_pos_ ∧
      r.1.prepared_ = e.prepared_ := by
  unfold FFT3D.run_xy at h
  obtain ⟨s, _, hs⟩ := except_map_ok _ _ _ h
  subst hs
  exact ⟨rfl, rfl, rfl, rfl, rfl, rfl, rfl⟩

theorem run_xy2_keeps (root : ℕ → K) (I : K) (direction : ℤ) (e : FFT3D K)
    (gvec : Gvec_partition) (aux1 aux2 : mdarray K) (r : FFT3D K × mdarray K × mdarray K)
    (h : e.run_xy2 root I direction gvec aux1 aux2 = Except.ok r) :
    r.2.1.size = aux1.size ∧ r.2.2.size = aux2.size ∧
      r.1.fft_buffer_aux1_ = e.fft_buffer_aux1_ ∧
      r.1.fft_buffer_aux2_ = e.fft_buffer_aux2_ ∧ r.1.grid_ = e.grid_ ∧
      r.1.local_size_z_ = e.local_size_z_ := by
  unfold FFT3D.run_xy2 at h
  obtain ⟨s, _, hs⟩ := except_map_ok _ _ _ h
  subst hs
  exact ⟨rfl, rfl, rfl, rfl, rfl, rfl⟩

theorem comm_transform_xy_keeps (root : ℕ → K) (direction : ℤ) (ur : Bool)
    (w : FFT3D_comm K) (gvec : Gvec_partition) (aux : ℕ → mdarray K)
    (r : FFT3D_comm K × (ℕ → mdarray K))
    (h : w.transform_xy root direction ur gvec aux = Except.ok r) :
    r.1.size = w.size ∧ r.1.spl_z_ = w.spl_z_ ∧ ∀ rank,
      (r.2 rank).size = (aux rank).size ∧
      (r.1.at_rank rank).fft_buffer_aux1_ = (w.at_rank rank).fft_buffer_aux1_ ∧
      (r.1.at_rank rank).fft_buffer_aux2_ = (w.at_rank rank).fft_buffer_aux2_ ∧
      (r.1.at_rank rank).grid_ = (w.at_rank rank).grid_ ∧
      (r.1.at_rank rank).local_size_z_ = (w.at_rank rank).local_size_z_ := by
  unfold FFT3D_comm.transform_xy at h
  obtain ⟨st, hst, hs⟩ := except_map_ok _ _ _ h
  subst hs
  obtain ⟨h1, h2⟩ := for_ranks_inv _ _ _ _ hst
  refine ⟨rfl, rfl, fun rank => ?_⟩
  by_cases hr : rank < w.size
  · obtain ⟨k1, k2, k3, k4, k5, _, _⟩ := run_xy_keeps _ _ _ _ _ _ _ (h1 rank hr)
    exact ⟨k1, k2, k3, k4, k5⟩
  · have := h2 rank (not_lt.mp hr)
    show ((st rank).2).size = _ ∧ (st rank).1.fft_buffer_aux1_ = _ ∧
      (st rank).1.fft_buffer_aux2_ = _ ∧ (st rank).1.grid_ = _ ∧ (st rank).1.local_size_z_ = _
    rw [this]
    exact ⟨rfl, rfl, rfl, rfl, rfl⟩

theorem comm_transform_xy2_keeps (root : ℕ → K) (I : K) (direction : ℤ)
    (w : FFT3D_comm K) (gvec : Gvec_partition) (aux1 aux2 : ℕ → mdarray K)
    (r : FFT3D_comm K × (ℕ → mdarray K) × (ℕ → mdarray K))
    (h : w.transform_xy2 root I direction gvec aux1 aux2 = Except.ok r) :
    r.1.size = w.size ∧ r.1.spl_z_ = w.spl_z_ ∧ ∀ rank,
      (r.2.1 rank).size = (aux1 rank).size ∧ (r.2.2 rank).size = (aux2 rank).size ∧
      (r.1.at_rank rank).fft_buffer_aux1_ = (w.at_rank rank).fft_buffer_aux1_ ∧
      (r.1.at_rank rank).fft_buffer_aux2_ = (w.at_rank rank).fft_buffer_aux2_ ∧
      (r.1.at_rank rank).grid_ = (w.at_rank rank).grid_ ∧
      (r.1.at_rank rank).local_size_z_ = (w.at_rank rank).local_size_z_ := by
  unfold FFT3D_comm.transform_xy2 at h
  obtain ⟨st, hst, hs⟩ := except_map_ok _ _ _ h
  subst hs
  obtain ⟨h1, h2⟩ := for_ranks_inv _ _ _ _ hst
  refine ⟨rfl, rfl, fun rank => ?_⟩
  by_cases hr : rank < w.size
  · exact run_xy2_keeps _ _ _ _ _ _ _ _ (h1 rank hr)
  · have := h2 rank (not_lt.mp hr)
    show ((st rank).2.1).size = _ ∧ ((st rank).2.2).size = _ ∧
      (st rank).1.fft_buffer_aux1_ = _ ∧
      (st rank).1.fft_buffer_aux2_ = _ ∧ (st rank).1.grid_ = _ ∧ (st rank).1.local_size_z_ = _
    rw [this]
    exact ⟨rfl, rfl, rfl, rfl, rfl, rfl⟩

theorem comm_transform_z_parallel_keeps (root : ℕ → K) (direction : ℤ) (ur : Bool)
    (w : FFT3D_comm K) (gvec : Gvec_partition) (distr : block_data_descriptor)
    (data : ℕ → ℕ → K) (aux : ℕ → mdarray K)
    (r : FFT3D_comm K × (ℕ → ℕ → K) × (ℕ → mdarray K))
    (h : w.transform_z_parallel root direction ur gvec distr data aux = Except.ok r) :
    r.1.size = w.size ∧ r.1.spl_z_ = w.spl_z_ ∧ ∀ rank,
      (r.2.2 rank).size = (aux rank).size ∧
      (r.1.at_rank rank).fft_buffer_aux1_ = (w.at_rank rank).fft_buffer_aux1_ ∧
      (r.1.at_rank rank).fft_buffer_aux2_ = (w.at_rank rank).fft_buffer_aux2_ ∧
      (r.1.at_rank rank).grid_ = (w.at_rank rank).grid_ ∧
      (r.1.at_rank rank).local_size_z_ = (w.at_rank rank).local_size_z_ := by
  unfold FFT3D_comm.transform_z_parallel at h
  obtain ⟨st, _, hs⟩ := except_map_ok _ _ _ h
  subst hs
  exact ⟨rfl, rfl, fun rank => ⟨rfl, rfl, rfl, rfl, rfl⟩⟩

end Ranks

section Sizes
variable {K : Type} [Field K] [StarRing K]

theorem run_z_keeps (root : ℕ → K) (direction : ℤ) (ur : Bool) (e : FFT3D K)
    (gvec : Gvec_partition) (data : ℕ → K) (aux : mdarray K)
    (r : FFT3D K × (ℕ → K) × mdarray K)
    (h : e.run_z root direction ur gvec data aux = Except.ok r) :
    r.2.2.size = aux.size ∧ r.1.fft_buffer_aux1_ = e.fft_buffer_aux1_ ∧
      r.1.fft_buffer_aux2_ = e.fft_buffer_aux2_ ∧ r.1.grid_ = e.grid_ ∧
      r.1.local_size_z_ = e.local_size_z_ := by
  unfold FFT3D.run_z at h
  obtain ⟨s, _, hs⟩ := except_map_ok _ _ _ h
  subst hs
  exact ⟨rfl, rfl, rfl, rfl, rfl⟩

/-- A single-field transform that returns leaves the first auxiliary buffer with the larger of
its previous size and `size(2) * num_zcol`, and does not touch the second. -/
theorem transform_aux (root : ℕ → K) (direction : ℤ) (e : FFT3D K) (gvec : Gvec_partition)
    (data : ℕ → K) (r : FFT3D K × (ℕ → K))
    (h : e.transform root direction gvec data = Except.ok r) :
    r.1.fft_buffer_aux1_.size = max e.fft_buffer_aux1_.size (e.grid_.size 2 * gvec.num_zcol) ∧
      r.1.fft_buffer_aux2_ = e.fft_buffer_aux2_ := by
  unfold FFT3D.transform at h
  by_cases hp : e.prepared_ = false
  · rw [if_pos hp] at h
    exact Except.noConfusion h
  rw [if_neg hp] at h
  by_cases h1 : direction = 1
  · simp only [if_pos h1] at h
    obtain ⟨r1, hr1, h⟩ := except_bind_ok _ _ _ h
    obtain ⟨r2, hr2, h⟩ := except_bind_ok _ _ _ h
    have hr : _ = r := Except.ok.inj h
    subst hr
    obtain ⟨a1, _, a3, _, _⟩ := run_z_keeps _ _ _ _ _ _ _ _ hr1
    obtain ⟨b1, _, b3, _⟩ := run_xy_keeps _ _ _ _ _ _ _ hr2
    refine ⟨?_, b3.trans a3⟩
    show r2.2.size = _
    rw [b1, a1]
    exact realloc_size _ _ _
  · by_cases h2 : direction = -1
    · simp only [if_neg h1, if_pos h2] at h
      obtain ⟨r1, hr1, h⟩ := except_bind_ok _ _ _ h
      obtain ⟨r2, hr2, h⟩ := except_bind_ok _ _ _ h
      have hr : _ = r := Except.ok.inj h
      subst hr
      obtain ⟨a1, _, a3, _⟩ := run_xy_keeps _ _ _ _ _ _ _ hr1
      obtain ⟨b1, _, b3, _, _⟩ := run_z_keeps _ _ _ _ _ _ _ _ hr2
      refine ⟨?_, b3.trans a3⟩
      show r2.2.2.size = _
      rw [b1, a1]
      exact realloc_size _ _ _
    · simp only [if_neg h1, if_neg h2] at h
      exact Except.noConfusion h

/-- A paired-field transform that returns leaves both auxiliary buffers with the larger of the
previous size and `size(2) * num_zcol`. -/
theorem transform2_aux (root : ℕ → K) (I : K) (direction : ℤ) (e : FFT3D K)
    (gvec : Gvec_partition) (d1 d2 : ℕ → K) (r : FFT3D K × (ℕ → K) × (ℕ → K))
    (h : e.transform2 root I direction gvec d1 d2 = Except.ok r) :
    r.1.fft_buffer_aux1_.size = max e.fft_buffer_aux1_.size (e.grid_.size 2 * gvec.num_zcol) ∧
      r.1.fft_buffer_aux2_.size =
        max e.fft_buffer_aux2_.size (e.grid_.size 2 * gvec.num_zcol) := by
  unfold FFT3D.transform2 at h
  by_cases hp : e.prepared_ = false
  · rw [if_pos hp] at h
    exact Except.noConfusion h
  rw [if_neg hp] at h
  by_cases hr : gvec.reduced = false
  · rw [if_pos hr] at h
    exact Except.noConfusion h
  rw [if_neg hr] at h
  by_cases h1 : direction = 1
  · simp only [if_pos h1] at h
    obtain ⟨r1, hr1, h⟩ := except_bind_ok _ _ _ h
    obtain ⟨r2, hr2, h⟩ := except_bind_ok _ _ _ h
    obtain ⟨s, hs, h⟩ := except_bind_ok _ _ _ h
    have hr : _ = r := Except.ok.inj h
    subst hr
    obtain ⟨a1, _⟩ := run_z_keeps _ _ _ _ _ _ _ _ hr1
    obtain ⟨b1, _⟩ := run_z_keeps _ _ _ _ _ _ _ _ hr2
    constructor
    · show r1.2.2.size = _
      rw [a1]
      exact realloc_size _ _ _
    · show r2.2.2.size = _
      rw [b1]
      exact realloc_size _ _ _
  · by_cases h2 : direction = -1
    · simp only [if_neg h1, if_pos h2] at h
      obtain ⟨s, hs, h⟩ := except_bind_ok _ _ _ h
      obtain ⟨r1, hr1, h⟩ := except_bind_ok _ _ _ h
      obtain ⟨r2, hr2, h⟩ := except_bind_ok _ _ _ h
      have hr : _ = r := Except.ok.inj h
      subst hr
      obtain ⟨a1, _⟩ := run_z_keeps _ _ _ _ _ _ _ _ hr1
      obtain ⟨b1, _⟩ := run_z_keeps _ _ _ _ _ _ _ _ hr2
      constructor
      · show r1.2.2.size = _
        rw [a1]
        exact realloc_size _ _ _
      · show r2.2.2.size = _
        rw [b1]
        exact realloc_size _ _ _
    · simp only [if_neg h1, if_neg h2] at h
      exact Except.noConfusion h

/-- A single-field transform on all ranks that returns: on every rank the first auxiliary
buffer has the larger of its previous size and `sz_max`, the second is untouched. -/
theorem comm_transform_aux (root : ℕ → K) (direction : ℤ) (w : FFT3D_comm K)
    (gvec : Gvec_partition) (distr : block_data_descriptor) (data : ℕ → ℕ → K)
    (r : FFT3D_comm K × (ℕ → ℕ → K))
    (h : w.transform root direction gvec distr data = Except.ok r) :
    r.1.size = w.size ∧
    (∀ rank, rank < w.size →
      (r.1.at_rank rank).fft_buffer_aux1_.size =
        max (w.at_rank rank).fft_buffer_aux1_.size (w.sz_max gvec distr rank)) ∧
    (∀ rank, (w.at_rank rank).fft_buffer_aux1_.size ≤
      (r.1.at_rank rank).fft_buffer_aux1_.size) ∧
    (∀ rank, (r.1.at_rank rank).fft_buffer_aux2_ = (w.at_rank rank).fft_buffer_aux2_) := by
  unfold FFT3D_comm.transform at h
  by_cases hs : w.size = 1
  · rw [if_pos hs] at h
    obtain ⟨r0, hr0, hr⟩ := except_map_ok _ _ _ h
    subst hr
    obtain ⟨k1, k2⟩ := transform_aux _ _ _ _ _ _ hr0
    have hsz : w.sz_max gvec distr 0 = (w.at_rank 0).grid_.size 2 * gvec.num_zcol := by
      unfold FFT3D_comm.sz_max
      rw [if_neg (by omega)]
    refine ⟨rfl, fun rank hrank => ?_, fun rank => ?_, fun rank => ?_⟩
    · have h0 : rank = 0 := by omega
      subst h0
      show (Function.update w.at_rank 0 r0.1 0).fft_buffer_aux1_.size = _
      rw [Function.update_same, k1, hsz]
    · show _ ≤ (Function.update w.at_rank 0 r0.1 rank).fft_buffer_aux1_.size
      by_cases h0 : rank = 0
      · subst h0
        rw [Function.update_same, k1]
        exact le_max_left _ _
      · rw [Function.update_noteq h0]
    · show (Function.update w.at_rank 0 r0.1 rank).fft_buffer_aux2_ = _
      by_cases h0 : rank = 0
      · subst h0
        rw [Function.update_same, k2]
      · rw [Function.update_noteq h0]
  rw [if_neg hs] at h
  by_cases hp : ∃ r, r < w.size ∧ (w.at_rank r).prepared_ = false
  · rw [if_pos hp] at h
    exact Except.noConfusion h
  rw [if_neg hp] at h
  have key : ∀ rank, (r.1.at_rank rank).fft_buffer_aux1_.size =
      max (w.at_rank rank).fft_buffer_aux1_.size (w.sz_max gvec distr rank) ∧
      (r.1.at_rank rank).fft_buffer_aux2_ = (w.at_rank rank).fft_buffer_aux2_ ∧
      r.1.size = w.size := by
    intro rank
    by_cases h1 : direction = 1
    · simp only [if_pos h1] at h
      obtain ⟨r1, hr1, h⟩ := except_bind_ok _ _ _ h
      obtain ⟨r2, hr2, h⟩ := except_bind_ok _ _ _ h
      have hr : _ = r := Except.ok.inj h
      subst hr
      obtain ⟨a0, _, a⟩ := comm_transform_z_parallel_keeps _ _ _ _ _ _ _ _ _ hr1
      obtain ⟨b0, _, b⟩ := comm_transform_xy_keeps _ _ _ _ _ _ _ hr2
      obtain ⟨a1, _, a3, _⟩ := a rank
      obtain ⟨b1, _, b3, _⟩ := b rank
      refine ⟨?_, b3.trans a3, b0.trans a0⟩
      show (r2.2 rank).size = _
      rw [b1, a1]
      exact realloc_size _ _ _
    · by_cases h2 : direction = -1
      · simp only [if_neg h1, if_pos h2] at h
        obtain ⟨r1, hr1, h⟩ := except_bind_ok _ _ _ h
        obtain ⟨r2, hr2, h⟩ := except_bind_ok _ _ _ h
        have hr : _ = r := Except.ok.inj h
        subst hr
        obtain ⟨a0, _, a⟩ := comm_transform_xy_keeps _ _ _ _ _ _ _ hr1
        obtain ⟨b0, _, b⟩ := comm_transform_z_parallel_keeps _ _ _ _ _ _ _ _ _ hr2
        obtain ⟨a1, _, a3, _⟩ := a rank
        obtain ⟨b1, _, b3, _⟩ := b rank
        refine ⟨?_, b3.trans a3, b0.trans a0⟩
        show (r2.2.2 rank).size = _
        rw [b1, a1]
        exact realloc_size _ _ _
      · simp only [if_neg h1, if_neg h2] at h
        exact Except.noConfusion h
  refine ⟨(key 0).2.2, fun rank _ => (key rank).1, fun rank => ?_, fun rank => (key rank).2.1⟩
  rw [(key rank).1]
  exact le_max_left _ _

/-- A paired-field transform on all ranks that returns: on every rank both auxiliary buffers
have the larger of the previous size and `sz_max`. -/
theorem comm_transform2_aux (root : ℕ → K) (I : K) (direction : ℤ) (w : FFT3D_comm K)
    (gvec : Gvec_partition) (distr : block_data_descriptor) (data1 data2 : ℕ → ℕ → K)
    (r : FFT3D_comm K × (ℕ → ℕ → K) × (ℕ → ℕ → K))
    (h : w.transform2 root I direction gvec distr data1 data2 = Except.ok r) :
    r.1.size = w.size ∧
    (∀ rank, rank < w.size →
      (r.1.at_rank rank).fft_buffer_aux1_.size =
        max (w.at_rank rank).fft_buffer_aux1_.size (w.sz_max gvec distr rank) ∧
      (r.1.at_rank rank).fft_buffer_aux2_.size =
        max (w.at_rank rank).fft_buffer_aux2_.size (w.sz_max gvec distr rank)) ∧
    (∀ rank, (w.at_rank rank).fft_buffer_aux1_.size ≤
        (r.1.at_rank rank).fft_buffer_aux1_.size ∧
      (w.at_rank rank).fft_buffer_aux2_.size ≤ (r.1.at_rank rank).fft_buffer_aux2_.size) := by
  unfold FFT3D_comm.transform2 at h
  by_cases hs : w.size = 1
  · rw [if_pos hs] at h
    obtain ⟨r0, hr0, hr⟩ := except_map_ok _ _ _ h
    subst hr
    obtain ⟨k1, k2⟩ := transform2_aux _ _ _ _ _ _ _ _ hr0
    have hsz : w.sz_max gvec distr 0 = (w.at_rank 0).grid_.size 2 * gvec.num_zcol := by
      unfold FFT3D_comm.sz_max
      rw [if_neg (by omega)]
    refine ⟨rfl, fun rank hrank => ?_, fun rank => ?_⟩
    · have h0 : rank = 0 := by omega
      subst h0
      show (Function.update w.at_rank 0 r0.1 0).fft_buffer_aux1_.size = _ ∧
        (Function.update w.at_rank 0 r0.1 0).fft_buffer_aux2_.size = _
      rw [Function.update_same, k1, k2, hsz]
      exact ⟨rfl, rfl⟩
    · show _ ≤ (Function.update w.at_rank 0 r0.1 rank).fft_buffer_aux1_.size ∧
        _ ≤ (Function.update w.at_rank 0 r0.1 rank).fft_buffer_aux2_.size
      by_cases h0 : rank = 0
      · subst h0
        rw [Function.update_same, k1, k2]
        exact ⟨le_max_left _ _, le_max_left _ _⟩
      · rw [Function.update_noteq h0]
        exact ⟨le_refl _, le_refl _⟩
  rw [if_neg hs] at h
  by_cases hp : ∃ r, r < w.size ∧ (w.at_rank r).prepared_ = false
  · rw [if_pos hp] at h
    exact Except.noConfusion h
  rw [if_neg hp] at h
  by_cases hred : gvec.reduced = false
  · rw [if_pos hred] at h
    exact Except.noConfusion h
  rw [if_neg hred] at h
  have key : ∀ rank, (r.1.at_rank rank).fft_buffer_aux1_.size =
      max (w.at_rank rank).fft_buffer_aux1_.size (w.sz_max gvec distr rank) ∧
      (r.1.at_rank rank).fft_buffer_aux2_.size =
        max (w.at_rank rank).fft_buffer_aux2_.size (w.sz_max gvec distr rank) ∧
      r.1.size = w.size := by
    intro rank
    by_cases h1 : direction = 1
    · simp only [if_pos h1] at h
      obtain ⟨r1, hr1, h⟩ := except_bind_ok _ _ _ h
      obtain ⟨r2, hr2, h⟩ := except_bind_ok _ _ _ h
      obtain ⟨r3, hr3, h⟩ := except_bind_ok _ _ _ h
      have hr : _ = r := Except.ok.inj h
      subst hr
      obtain ⟨a0, _, a⟩ := comm_transform_z_parallel_keeps _ _ _ _ _ _ _ _ _ hr1
      obtain ⟨b0, _, b⟩ := comm_transform_z_parallel_keeps _ _ _ _ _ _ _ _ _ hr2
      obtain ⟨c0, _, c⟩ := comm_transform_xy2_keeps _ _ _ _ _ _ _ _ hr3
      obtain ⟨a1, _⟩ := a rank
      obtain ⟨b1, _⟩ := b rank
      obtain ⟨c1, c2, _⟩ := c rank
      refine ⟨?_, ?_, c0.trans (b0.trans a0)⟩
      · show (r3.2.1 rank).size = _
        rw [c1, a1]
        exact realloc_size _ _ _
      · show (r3.2.2 rank).size = _
        rw [c2, b1]
        exact realloc_size _ _ _
    · by_cases h2 : direction = -1
      · simp only [if_neg h1, if_pos h2] at h
        obtain ⟨r1, hr1, h⟩ := except_bind_ok _ _ _ h
        obtain ⟨r2, hr2, h⟩ := except_bind_ok _ _ _ h
        obtain ⟨r3, hr3, h⟩ := except_bind_ok _ _ _ h
        have hr : _ = r := Except.ok.inj h
        subst hr
        obtain ⟨a0, _, a⟩ := comm_transform_xy2_keeps _ _ _ _ _ _ _ _ hr1
        obtain ⟨b0, _, b⟩ := comm_transform_z_parallel_keeps _ _ _ _ _ _ _ _ _ hr2
        obtain ⟨c0, _, c⟩ := comm_transform_z_parallel_keeps _ _ _ _ _ _ _ _ _ hr3
        obtain ⟨a1, a2, _⟩ := a rank
        obtain ⟨b1, _⟩ := b rank
        obtain ⟨c1, _⟩ := c rank
        refine ⟨?_, ?_, c0.trans (b0.trans a0)⟩
        · show (r2.2.2 rank).size = _
          rw [b1, a1]
          exact realloc_size _ _ _
        · show (r3.2.2 rank).size = _
          rw [c1, a2]
          exact realloc_size _ _ _
      · simp only [if_neg h1, if_neg h2] at h
        exact Except.noConfusion h
  refine ⟨(key 0).2.2, fun rank _ => ⟨(key rank).1, (key rank).2.1⟩, fun rank => ?_⟩
  rw [(key rank).1, (key rank).2.1]
  exact ⟨le_max_left _ _, le_max_left _ _⟩

/-- Along a sequence of transform calls that all return, the sizes of the auxiliary buffers of
every rank do not decrease. -/
theorem comm_calls_aux (root : ℕ → K) (I : K) (calls : List (transform_call K))
    (w w1 : FFT3D_comm K) (h : w.calls root I calls = Except.ok w1) :
    w1.size = w.size ∧ ∀ rank,
      (w.at_rank rank).fft_buffer_aux1_.size ≤ (w1.at_rank rank).fft_buffer_aux1_.size ∧
      (w.at_rank rank).fft_buffer_aux2_.size ≤ (w1.at_rank rank).fft_buffer_aux2_.size := by
  induction calls generalizing w with
  | nil =>
    have : w = w1 := Except.ok.inj h
    subst this
    exact ⟨rfl, fun _ => ⟨le_refl _, le_refl _⟩⟩
  | cons c rest ih =>
    have h' : (w.call root I c).bind (fun w2 => w2.calls root I rest) = Except.ok w1 := h
    obtain ⟨w2, hw2, h2⟩ := except_bind_ok _ _ _ h'
    obtain ⟨i1, i2⟩ := ih w2 h2
    have step : w2.size = w.size ∧ ∀ rank,
        (w.at_rank rank).fft_buffer_aux1_.size ≤ (w2.at_rank rank).fft_buffer_aux1_.size ∧
        (w.at_rank rank).fft_buffer_aux2_.size ≤ (w2.at_rank rank).fft_buffer_aux2_.size := by
      cases c with
      | single direction gvec distr data =>
        obtain ⟨r, hr, hrw⟩ := except_map_ok _ _ _ hw2
        subst hrw
        obtain ⟨k0, _, k2, k3⟩ := comm_transform_aux _ _ _ _ _ _ _ hr
        exact ⟨k0, fun rank => ⟨k2 rank, by rw [k3 rank]⟩⟩
      | paired direction gvec distr data1 data2 =>
        obtain ⟨r, hr, hrw⟩ := except_map_ok _ _ _ hw2
        subst hrw
        obtain ⟨k0, _, k2⟩ := comm_transform2_aux _ _ _ _ _ _ _ _ _ hr
        exact ⟨k0, k2⟩
    exact ⟨i1.trans step.1, fun rank =>
      ⟨le_trans (step.2 rank).1 (i2 rank).1, le_trans (step.2 rank).2 (i2 rank).2⟩⟩

end Sizes

section Blocks

/-- Prefix sums grow with the index. -/
theorem prefix_sum_mono (c : ℕ → ℕ) (r r' : ℕ) (h : r ≤ r') :
    ∑ q ∈ range r, c q ≤ ∑ q ∈ range r', c q :=
  sum_le_sum_of_subset (range_mono h)

theorem prefix_sum_succ_le (c : ℕ → ℕ) (r r' : ℕ) (h : r < r') :
    ∑ q ∈ range r, c q + c r ≤ ∑ q ∈ range r', c q := by
  rw [← sum_range_succ]
  exact prefix_sum_mono c (r + 1) r' h

/-- Every index below a total of counts lies in the block of exactly one rank. -/
theorem prefix_sum_block (c : ℕ → ℕ) (P : ℕ) (x : ℕ) (hx : x < ∑ q ∈ range P, c q) :
    ∃ r, r < P ∧ ∃ i, i < c r ∧ x = ∑ q ∈ range r, c q + i := by
  induction P with
  | zero => simp at hx
  | succ m ih =>
    rw [sum_range_succ] at hx
    by_cases hlt : x < ∑ q ∈ range m, c q
    · obtain ⟨r, hr, i, hi, hxi⟩ := ih hlt
      exact ⟨r, Nat.lt_succ_of_lt hr, i, hi, hxi⟩
    · exact ⟨m, Nat.lt_succ_self m, x - ∑ q ∈ range m, c q, by omega, by omega⟩

variable {K : Type}

/-- A loop of block copies into pairwise disjoint, ordered target blocks: every block holds its
source, and what lies in no block is untouched. -/
theorem forLoop_copy_blocks (R : ℕ) (src : ℕ → ℕ → K) (s len d : ℕ → ℕ) (a : ℕ → K)
    (hord : ∀ r r', r < r' → r' < R → d r + len r ≤ d r') :
    (∀ r, r < R → ∀ k, k < len r →
      forLoop R (fun r c => copy_range (src r) (s r) (len r) c (d r)) a (d r + k) =
        src r (s r + k)) ∧
    (∀ x, (∀ r, r < R → ¬(d r ≤ x ∧ x < d r + len r)) →
      forLoop R (fun r c => copy_range (src r) (s r) (len r) c (d r)) a x = a x) := by
  induction R with
  | zero => exact ⟨fun r hr => absurd hr (Nat.not_lt_zero r), fun _ _ => rfl⟩
  | succ m ih =>
    obtain ⟨ih1, ih2⟩ := ih (fun r r' h h' => hord r r' h (Nat.lt_succ_of_lt h'))
    rw [forLoop_succ]
    refine ⟨fun r hr k hk => ?_, fun x hx => ?_⟩
    · rcases Nat.lt_succ_iff_lt_or_eq.mp hr with hlt | heq
      · have := hord r m hlt (Nat.lt_succ_self m)
        rw [copy_range_outside _ _ _ _ _ _ (Or.inl (by omega))]
        exact ih1 r hlt k hk
      · subst heq
        exact copy_range_inside _ _ _ _ _ _ hk
    · have hm := hx m (Nat.lt_succ_self m)
      rw [copy_range_outside _ _ _ _ _ _ (by omega)]
      exact ih2 x (fun r hr => hx r (Nat.lt_succ_of_lt hr))

end Blocks

section Columns
variable {K : Type} [Field K] [StarRing K]

/-- The address that `z_redistribute` gives the entry `k` of the piece for rank `r` of the
local column `i` lies below the pieces of the next rank. -/
theorem redistribute_addr_lt (c : ℕ → ℕ) (n r i k : ℕ) (hi : i < n) (hk : k < c r) :
    (∑ q ∈ range r, c q) * n + i * c r + k < (∑ q ∈ range (r + 1), c q) * n := by
  rw [sum_range_succ, Nat.add_mul, Nat.add_assoc]
  have := block_index_lt i n (c r) k hi hk
  rw [Nat.mul_comm (c r) n]
  omega

omit [Field K] [StarRing K] in
/-- `z_redistribute` stores the piece of every rank at its address and touches nothing that is
not the address of a piece of this column. -/
theorem z_redistribute_spec (P : ℕ) (spl : splindex) (n i : ℕ) (hi : i < n) (b aux : ℕ → K) :
    (∀ r, r < P → ∀ k, k < spl.local_size r →
      FFT3D.z_redistribute P spl n i b aux
          (spl.global_offset r * n + i * spl.local_size r + k) =
        b (spl.global_offset r + k)) ∧
    (∀ x, (∀ r, r < P →
        ¬(spl.global_offset r * n + i * spl.local_size r ≤ x ∧
          x < spl.global_offset r * n + i * spl.local_size r + spl.local_size r)) →
      FFT3D.z_redistribute P spl n i b aux x = aux x) := by
  unfold FFT3D.z_redistribute
  refine forLoop_copy_blocks P (fun _ => b) spl.global_offset spl.local_size
    (fun r => spl.global_offset r * n + i * spl.local_size r) aux (fun r r' hlt _ => ?_)
  have h1 := redistribute_addr_lt spl.counts n r i 0
  have h2 : (∑ q ∈ range (r + 1), spl.counts q) * n ≤ (∑ q ∈ range r', spl.counts q) * n :=
    Nat.mul_le_mul_right n (prefix_sum_mono spl.counts (r + 1) r' hlt)
  have h3 : (i + 1) * spl.counts r ≤ n * spl.counts r := Nat.mul_le_mul_right _ hi
  show (∑ q ∈ range r, spl.counts q) * n + i * spl.counts r + spl.counts r ≤
    (∑ q ∈ range r', spl.counts q) * n + i * spl.counts r'
  rw [sum_range_succ, Nat.add_mul] at h2
  rw [Nat.add_mul, Nat.one_mul] at h3
  rw [Nat.mul_comm (spl.counts r) n] at h2
  omega

/-- The column load of the distributed Column Stage is the column load of the serial one. -/
theorem z_load_parallel_eq (ur : Bool) (e : FFT3D K) (gvec : Gvec_partition) (icol : ℕ)
    (data b : ℕ → K) :
    e.z_load_parallel ur gvec icol data b = e.z_load ur gvec icol data b := by
  unfold FFT3D.z_load_parallel FFT3D.z_load
  by_cases h : ur = true ∧ icol = 0
  · obtain ⟨_, h0⟩ := h
    subst h0
    rfl
  · simp only [if_neg h]

/-- The column load reads the coefficient array only at the slots of the column. -/
theorem z_load_congr_data (ur : Bool) (e : FFT3D K) (gvec : Gvec_partition) (i : ℕ)
    (d d' b : ℕ → K)
    (h : ∀ j, j < (gvec.zcol i).z.length → d (gvec.zcol_offs i + j) = d' (gvec.zcol_offs i + j)) :
    e.z_load ur gvec i d b = e.z_load ur gvec i d' b := by
  unfold FFT3D.z_load
  have h1 : forLoop (gvec.zcol i).z.length
      (fun j c => Function.update c (e.grid.coord_by_gvec (gvec.zfreq i j) 2).toNat
        (d (gvec.zcol_offs i + j))) b =
      forLoop (gvec.zcol i).z.length
      (fun j c => Function.update c (e.grid.coord_by_gvec (gvec.zfreq i j) 2).toNat
        (d' (gvec.zcol_offs i + j))) b :=
    forLoop_congr _ _ _ _ (fun j hj t => by rw [h j hj])
  by_cases hc : ur = true ∧ i = 0
  · simp only [if_pos hc]
    rw [h1]
    obtain ⟨_, h0⟩ := hc
    subst h0
    exact forLoop_congr _ _ _ _ (fun j hj t => by rw [h j hj])
  · simp only [if_neg hc]
    exact h1

/-- After `m` iterations of the backward column loop of `transform_z_parallel` on rank `rank`:
the coefficient array is untouched and, for every local column `i < m`, the piece for rank `r`
of the transformed column lies at `offs(r) * num_zcol_local + i * lsz(r)`. -/
theorem z_parallel_backward_loop (root : ℕ → K) (ur : Bool) (e : FFT3D K) (P : ℕ)
    (spl : splindex) (distr : block_data_descriptor) (rank : ℕ) (gvec : Gvec_partition)
    (hN : spl.global_offset P = e.grid_.size 2)
    (s : z_state K) (m : ℕ) (hm : m ≤ distr.counts rank) :
    (forLoop m (e.z_col_parallel_backward root ur P spl distr rank gvec) s).data = s.data ∧
    (∀ i, i < m → ∀ r, r < P → ∀ k, k < spl.local_size r →
      (forLoop m (e.z_col_parallel_backward root ur P spl distr rank gvec) s).aux
          (spl.global_offset r * distr.counts rank + i * spl.local_size r + k) =
        e.plan_backward_z root
          (e.z_load ur gvec (distr.offsets rank + i) s.data (fun _ => 0))
          (spl.global_offset r + k)) := by
  induction m with
  | zero => exact ⟨rfl, fun i hi => absurd hi (Nat.not_lt_zero i)⟩
  | succ m ih =>
    obtain ⟨ihd, iha⟩ := ih (Nat.le_of_succ_le hm)
    rw [forLoop_succ]
    refine ⟨ihd, ?_⟩
    intro i hi r hr k hk
    have hmn : m < distr.counts rank := hm
    obtain ⟨sp1, sp2⟩ := z_redistribute_spec P spl (distr.counts rank) m hmn
      (e.plan_backward_z root (e.z_load_parallel ur gvec (distr.offsets rank + m)
        (forLoop m (e.z_col_parallel_backward root ur P spl distr rank gvec) s).data
        (fill_zero (e.grid_.size 2)
          (forLoop m (e.z_col_parallel_backward root ur P spl distr rank gvec) s).fftw_buffer_z)))
      (forLoop m (e.z_col_parallel_backward root ur P spl distr rank gvec) s).aux
    show FFT3D.z_redistribute P spl (distr.counts rank) m _ _ _ = _
    rcases Nat.lt_succ_iff_lt_or_eq.mp hi with hlt | heq
    · rw [sp2]
      · exact iha i hlt r hr k hk
      · intro r' hr'
        have a1 := redistribute_addr_lt spl.counts (distr.counts rank) r i k
          (lt_trans hlt hmn) hk
        have a2 := redistribute_addr_lt spl.counts (distr.counts rank) r' m 0 hmn
        show ¬((∑ q ∈ range r', spl.counts q) * distr.counts rank + m * spl.counts r' ≤
            (∑ q ∈ range r, spl.counts q) * distr.counts rank + i * spl.counts r + k ∧
          (∑ q ∈ range r, spl.counts q) * distr.counts rank + i * spl.counts r + k <
            (∑ q ∈ range r', spl.counts q) * distr.counts rank + m * spl.counts r' +
              spl.counts r')
        rcases Nat.lt_trichotomy r r' with h | h | h
        · have := Nat.mul_le_mul_right (distr.counts rank)
            (prefix_sum_mono spl.counts (r + 1) r' h)
          omega
        · subst h
          have := block_index_lt i m (spl.counts r) k hlt hk
          omega
        · have h3 := Nat.mul_le_mul_right (distr.counts rank)
            (prefix_sum_mono spl.counts (r' + 1) r h)
          have h4 : (m + 1) * spl.counts r' ≤ distr.counts rank * spl.counts r' :=
            Nat.mul_le_mul_right _ hmn
          rw [sum_range_succ, Nat.add_mul, Nat.mul_comm (spl.counts r')] at h3
          rw [Nat.add_mul, Nat.one_mul] at h4
          omega
    · subst heq
      rw [sp1 r hr k hk, z_load_parallel_eq, ihd]
      have hlt : spl.global_offset r + k < e.grid_.size 2 := by
        rw [← hN]
        have := prefix_sum_succ_le spl.counts r P hr
        show ∑ q ∈ range r, spl.counts q + k < ∑ q ∈ range P, spl.counts q
        have hk' : k < spl.counts r := hk
        omega
      unfold FFT3D.plan_backward_z
      refine fftw_dft_1d_congr _ _ _ _ (fun j hj => ?_) _ hlt
      exact z_load_congr_at ur e gvec _ s.data _ _ j (fill_zero_inside _ _ j hj)

end Columns

section Exchange
variable {K : Type} [Field K] [StarRing K]

omit [Field K] [StarRing K] in
/-- If the part of every rank returns on every state, the run over the ranks returns. -/
theorem for_ranks_returns {σ : Type} (P : ℕ) (f : ℕ → σ → Except String σ) (st : ℕ → σ)
    (hf : ∀ r, r < P → ∀ s, ∃ y, f r s = Except.ok y) :
    ∃ st', for_ranks P f st = Except.ok st' := by
  unfold for_ranks
  induction P with
  | zero => exact ⟨st, rfl⟩
  | succ m ih =>
    obtain ⟨stm, hm⟩ := ih (fun r hr => hf r (Nat.lt_succ_of_lt hr))
    obtain ⟨y, hy⟩ := hf m (Nat.lt_succ_self m) (stm m)
    refine ⟨Function.update stm m y, ?_⟩
    rw [forLoopE_succ, hm]
    show Except.map _ (f m (stm m)) = _
    rw [hy]
    rfl

omit [Field K] [StarRing K] in
/-- The pure exchange delivers to rank `me` the block that rank `r` addresses to it. -/
theorem alltoall_block (P : ℕ) (sendbuf : ℕ → ℕ → K) (send : ℕ → block_data_descriptor)
    (recvbuf : ℕ → ℕ → K) (recv : ℕ → block_data_descriptor) (me : ℕ)
    (hord : ∀ r r', r < r' → r' < P →
      (recv me).offsets r + (send r).counts me ≤ (recv me).offsets r')
    (r : ℕ) (hr : r < P) (t : ℕ) (ht : t < (send r).counts me) :
    alltoall P sendbuf send recvbuf recv me ((recv me).offsets r + t) =
      sendbuf r ((send r).offsets me + t) := by
  unfold alltoall
  exact (forLoop_copy_blocks P sendbuf (fun r => (send r).offsets me)
    (fun r => (send r).counts me) (fun r => (recv me).offsets r) (recvbuf me) hord).1 r hr t ht

omit [Field K] [StarRing K] in
theorem z_parallel_send_backward (spl : splindex) (distr : block_data_descriptor) (rank : ℕ) :
    FFT3D.z_parallel_send 1 spl distr rank =
      ⟨fun r => spl.local_size r * distr.counts rank,
        fun r => ∑ q ∈ range r, spl.local_size q * distr.counts rank⟩ := by
  unfold FFT3D.z_parallel_send block_data_descriptor.calc_offsets
  rw [if_neg (by decide)]

omit [Field K] [StarRing K] in
theorem z_parallel_recv_backward (spl : splindex) (distr : block_data_descriptor) (rank : ℕ) :
    FFT3D.z_parallel_recv 1 spl distr rank =
      ⟨fun r => spl.local_size rank * distr.counts r,
        fun r => ∑ q ∈ range r, spl.local_size rank * distr.counts q⟩ := by
  unfold FFT3D.z_parallel_recv block_data_descriptor.calc_offsets
  rw [if_neg (by decide)]

omit [StarRing K] in
/-- The plans and the column load see the engine only through its grid. -/
theorem plan_backward_z_grid (root : ℕ → K) (e e' : FFT3D K) (h : e.grid_ = e'.grid_)
    (b : ℕ → K) : e.plan_backward_z root b = e'.plan_backward_z root b := by
  unfold FFT3D.plan_backward_z
  rw [h]

theorem z_load_grid (ur : Bool) (e e' : FFT3D K) (h : e.grid_ = e'.grid_)
    (gvec : Gvec_partition) (i : ℕ) (d b : ℕ → K) :
    e.z_load ur gvec i d b = e'.z_load ur gvec i d b := by
  unfold FFT3D.z_load FFT3D.grid
  rw [h]

omit [StarRing K] in
theorem plan_backward_xy_grid (root : ℕ → K) (e e' : FFT3D K) (h : e.grid_ = e'.grid_)
    (b : ℕ → K) : e.plan_backward_xy root b = e'.plan_backward_xy root b := by
  unfold FFT3D.plan_backward_xy
  rw [h]

/-- The backward column loop of `transform_z_parallel` runs to the end. -/
theorem z_parallel_columns_backward (root : ℕ → K) (ur : Bool) (e : FFT3D K) (P : ℕ)
    (spl : splindex) (distr : block_data_descriptor) (rank : ℕ) (gvec : Gvec_partition)
    (s : z_state K) :
    e.z_parallel_columns root 1 ur P spl distr rank gvec s =
      Except.ok (forLoop (distr.counts rank)
        (e.z_col_parallel_backward root ur P spl distr rank gvec) s) := by
  unfold FFT3D.z_parallel_columns
  exact forLoopE_ok _ _ _ _ (fun i t => by simp)

/-- The backward Column Stage with its exchange on all ranks returns; the engines keep their
set-up, and the auxiliary buffer of every rank `me` holds, for every column `icol` of the
partition and every local height `k`, the transformed column of the rank that owns it at the
global height `offs(me) + k`, at `k + icol * lsz(me)`. -/
theorem comm_z_parallel_backward_spec (root : ℕ → K) (ur : Bool) (w : FFT3D_comm K)
    (gvec : Gvec_partition) (distr : block_data_descriptor) (data : ℕ → ℕ → K)
    (aux : ℕ → mdarray K) (e : FFT3D K)
    (hgrid : ∀ r, r < w.size → (w.at_rank r).grid_ = e.grid_)
    (hlsz : ∀ r, r < w.size → (w.at_rank r).local_size_z_ = w.spl_z_.local_size r)
    (hN : w.spl_z_.global_offset w.size = e.grid_.size 2)
    (hd : gvec.distributed distr w.size) :
    ∃ r1, w.transform_z_parallel root 1 ur gvec distr data aux = Except.ok r1 ∧
      r1.1.size = w.size ∧
      (∀ rank, (r1.1.at_rank rank).grid_ = (w.at_rank rank).grid_ ∧
        (r1.1.at_rank rank).local_size_z_ = (w.at_rank rank).local_size_z_ ∧
        (r1.1.at_rank rank).z_col_pos_ = (w.at_rank rank).z_col_pos_) ∧
      ∀ me, me < w.size → ∀ r, r < w.size → ∀ i, i < distr.counts r →
        ∀ k, k < w.spl_z_.local_size me →
          (r1.2.2 me).data (k + (distr.offsets r + i) * w.spl_z_.local_size me) =
            e.plan_backward_z root
              (e.z_load ur gvec (distr.offsets r + i) (data r) (fun _ => 0))
              (w.spl_z_.global_offset me + k) := by
  unfold FFT3D_comm.transform_z_parallel
  simp only [show ((1 : ℤ) = -1) = False from by decide, if_false, if_true]
  rw [for_ranks_ok w.size _
    (fun r s => forLoop (distr.counts r)
      ((w.at_rank r).z_col_parallel_backward root ur w.size w.spl_z_ distr r gvec) s) _
    (fun r _ => z_parallel_columns_backward root ur _ w.size w.spl_z_ distr r gvec _)]
  refine ⟨_, rfl, rfl, fun rank => ⟨rfl, rfl, rfl⟩, ?_⟩
  intro me hme r hr i hi k hk
  show copy_range _ 0 (gvec.num_zcol * (w.at_rank me).local_size_z_) _ 0 _ = _
  have hcol : distr.offsets r + i < gvec.num_zcol := by
    rw [← hd.2, hd.1 r (le_of_lt hr)]
    have := prefix_sum_succ_le distr.counts r w.size hr
    omega
  have hx : k + (distr.offsets r + i) * w.spl_z_.local_size me <
      gvec.num_zcol * (w.at_rank me).local_size_z_ := by
    rw [hlsz me hme, Nat.add_comm]
    exact block_index_lt _ _ _ _ hcol hk
  have h0 : k + (distr.offsets r + i) * w.spl_z_.local_size me =
      0 + (k + (distr.offsets r + i) * w.spl_z_.local_size me) := (Nat.zero_add _).symm
  rw [h0, copy_range_inside _ _ _ _ _ _ hx, Nat.zero_add]
  dsimp only
  have haddr : k + (distr.offsets r + i) * w.spl_z_.local_size me =
      (FFT3D.z_parallel_recv 1 w.spl_z_ distr me).offsets r + (i * w.spl_z_.local_size me + k) := by
    rw [z_parallel_recv_backward, hd.1 r (le_of_lt hr)]
    show _ = ∑ q ∈ range r, w.spl_z_.local_size me * distr.counts q + _
    rw [← mul_sum]
    ring
  have ht : i * w.spl_z_.local_size me + k <
      (FFT3D.z_parallel_send 1 w.spl_z_ distr r).counts me := by
    rw [z_parallel_send_backward]
    show _ < w.spl_z_.local_size me * distr.counts r
    rw [Nat.mul_comm (w.spl_z_.local_size me)]
    exact block_index_lt _ _ _ _ hi hk
  rw [haddr, alltoall_block w.size _ _ _ _ me ?_ r hr _ ht]
  · rw [if_pos hr]
    have hsend : (FFT3D.z_parallel_send 1 w.spl_z_ distr r).offsets me +
        (i * w.spl_z_.local_size me + k) =
        w.spl_z_.global_offset me * distr.counts r + i * w.spl_z_.local_size me + k := by
      rw [z_parallel_send_backward]
      show ∑ q ∈ range me, w.spl_z_.local_size q * distr.counts r + _ = _
      rw [← sum_mul]
      show (∑ q ∈ range me, w.spl_z_.counts q) * distr.counts r + _ =
        (∑ q ∈ range me, w.spl_z_.counts q) * distr.counts r + _ + _
      ring
    rw [hsend]
    have hN' : w.spl_z_.global_offset w.size = (w.at_rank r).grid_.size 2 := by
      rw [hgrid r hr]; exact hN
    obtain ⟨_, hloop⟩ := z_parallel_backward_loop root ur
      ({ w.at_rank r with fft_buffer_ := (w.at_rank r).fft_buffer_ }) w.size w.spl_z_ distr r
      gvec hN' ⟨(w.at_rank r).fftw_buffer_z_, data r, (aux r).data⟩ (distr.counts r) (le_refl _)
    refine (hloop i hi me hme k hk).trans ?_
    rw [plan_backward_z_grid root _ e (hgrid r hr), z_load_grid ur _ e (hgrid r hr)]
  · intro a b hab hb
    rw [z_parallel_recv_backward, z_parallel_send_backward]
    exact prefix_sum_succ_le (fun q => w.spl_z_.local_size me * distr.counts q) a b hab

/-- The backward Plane Stage on all ranks returns; the engines keep their set-up, and every
local plane of the main buffer of every rank is the 2-D transform of the plane scattered from
the auxiliary buffer of the rank. -/
theorem comm_xy_backward_spec (root : ℕ → K) (ur : Bool) (w : FFT3D_comm K)
    (gvec : Gvec_partition) (aux : ℕ → mdarray K) :
    ∃ r2, w.transform_xy root 1 ur gvec aux = Except.ok r2 ∧ r2.1.size = w.size ∧
      ∀ me, me < w.size → ∀ iz, iz < (w.at_rank me).local_size_z_ →
        ∀ p, p < (w.at_rank me).grid_.size 0 * (w.at_rank me).grid_.size 1 →
          (r2.1.at_rank me).fft_buffer_
              (iz * ((w.at_rank me).grid_.size 0 * (w.at_rank me).grid_.size 1) + p) =
            (w.at_rank me).plan_backward_xy root
              ((w.at_rank me).xy_load ur gvec iz (aux me).data (fun _ => 0)) p := by
  obtain ⟨st, hst⟩ := for_ranks_returns w.size
    (fun _ (s : FFT3D K × mdarray K) => s.1.run_xy root 1 ur gvec s.2)
    (fun r => (w.at_rank r, aux r)) (fun r _ s => ⟨_, run_xy_backward root ur s.1 gvec s.2⟩)
  obtain ⟨h1, _⟩ := for_ranks_inv _ _ _ _ hst
  unfold FFT3D_comm.transform_xy
  rw [hst]
  refine ⟨_, rfl, rfl, ?_⟩
  intro me hme iz hiz p hp
  have hme' := h1 me hme
  rw [run_xy_backward] at hme'
  have hst' := Except.ok.inj hme'
  show (st me).1.fft_buffer_ _ = _
  rw [← hst']
  exact (xy_backward_loop root ur (w.at_rank me) gvec
    ⟨(w.at_rank me).fftw_buffer_xy_, (w.at_rank me).fft_buffer_, (aux me).data⟩
    (w.at_rank me).local_size_z_).2.1 iz hiz p hp

end Exchange

section Distributed
variable {K : Type} [Field K] [StarRing K]

/-- The plane scatter sees the engine only through the position table and the local depth. -/
theorem xy_load_congr_engine (ur : Bool) (e e' : FFT3D K) (gvec : Gvec_partition)
    (iz iz' : ℕ) (aux aux' b : ℕ → K) (hpos : e.z_col_pos_ = e'.z_col_pos_)
    (h : ∀ i, i < gvec.num_zcol →
      aux (iz + i * e.local_size_z_) = aux' (iz' + i * e'.local_size_z_)) :
    e.xy_load ur gvec iz aux b = e'.xy_load ur gvec iz' aux' b := by
  rw [xy_load_eq, xy_load_eq, hpos]
  refine forLoop_congr _ _ _ _ (fun i hi t => ?_)
  rw [h i hi]

omit [Field K] [StarRing K] in
/-- `prepare` builds the table from the grid and the partition only. -/
theorem prepare_table_grid (e e' : FFT3D K) (gvec : Gvec_partition) (h : e.grid_ = e'.grid_) :
    (e.prepare gvec).z_col_pos_ = (e'.prepare gvec).z_col_pos_ := by
  unfold FFT3D.prepare FFT3D.grid
  rw [h]

/-- Row-major decomposition of an auxiliary-buffer index of the serial Column Stage. -/
theorem aux_index_div_mod (z i n : ℕ) (hz : z < n) :
    (z + i * n) / n = i ∧ (z + i * n) % n = z := by
  have hn : 0 < n := lt_of_le_of_lt (Nat.zero_le z) hz
  exact ⟨by rw [Nat.add_mul_div_right _ _ hn, Nat.div_eq_of_lt hz, Nat.zero_add],
    by rw [Nat.add_mul_mod_self_right, Nat.mod_eq_of_lt hz]⟩

/-- The backward transform on the prepared engines of all ranks returns, and every local plane
of the main buffer of every rank is the 2-D transform of a plane that is scattered from the
transformed columns at the global height of the plane. -/
theorem comm_transform_backward_spec (root : ℕ → K) (w : FFT3D_comm K)
    (gvec : Gvec_partition) (distr : block_data_descriptor) (data : ℕ → ℕ → K) (e : FFT3D K)
    (hP : 1 ≤ w.size)
    (hp : ∀ r, r < w.size → (w.at_rank r).prepared_ = true)
    (hgrid : ∀ r, r < w.size → (w.at_rank r).grid_ = e.grid_)
    (hlsz : ∀ r, r < w.size → (w.at_rank r).local_size_z_ = w.spl_z_.local_size r)
    (hN : w.spl_z_.global_offset w.size = e.grid_.size 2)
    (hd : gvec.distributed distr w.size) :
    ∃ r, w.transform root 1 gvec distr data = Except.ok r ∧
      ∀ me, me < w.size → ∀ iz, iz < w.spl_z_.local_size me →
        ∀ p, p < e.grid_.size 0 * e.grid_.size 1 →
          ∃ (E : FFT3D K) (A : ℕ → K),
            E.z_col_pos_ = (w.at_rank me).z_col_pos_ ∧
            E.local_size_z_ = w.spl_z_.local_size me ∧
            (∀ q, q < w.size → ∀ i, i < distr.counts q →
              A (iz + (distr.offsets q + i) * w.spl_z_.local_size me) =
                e.plan_backward_z root
                  (e.z_load gvec.reduced gvec (distr.offsets q + i) (data q) (fun _ => 0))
                  (w.spl_z_.global_offset me + iz)) ∧
            (r.1.at_rank me).fft_buffer_ (iz * (e.grid_.size 0 * e.grid_.size 1) + p) =
              e.plan_backward_xy root (E.xy_load gvec.reduced gvec iz A (fun _ => 0)) p := by
  by_cases hs : w.size = 1
  · -- one rank: the serial path on rank 0
    have h0 : 0 < w.size := hP
    have hl0 : (w.at_rank 0).local_size_z_ = (w.at_rank 0).grid_.size 2 := by
      rw [hlsz 0 h0, hgrid 0 h0, ← hN, hs]
      show w.spl_z_.counts 0 = ∑ q ∈ range 1, w.spl_z_.counts q
      simp
    obtain ⟨r0, hr0, _, _, _, _, _, hbuf⟩ :=
      transform_backward_spec root (w.at_rank 0) gvec (data 0) (hp 0 h0) hl0
    unfold FFT3D_comm.transform
    rw [if_pos hs, hr0]
    refine ⟨_, rfl, ?_⟩
    intro me hme iz hiz p hpp
    have hme0 : me = 0 := by omega
    subst hme0
    have hiz' : iz < (w.at_rank 0).grid_.size 2 := by
      rw [← hl0, hlsz 0 h0]; exact hiz
    refine ⟨w.at_rank 0,
      (fun idx => (w.at_rank 0).plan_backward_z root
        ((w.at_rank 0).z_load gvec.reduced gvec (idx / e.grid_.size 2) (data 0)
          (fun _ => 0)) (idx % e.grid_.size 2)),
      rfl, hlsz 0 h0, ?_, ?_⟩
    · intro q hq i hi
      have hq0 : q = 0 := by omega
      subst hq0
      have hiz2 : iz < e.grid_.size 2 := by rw [← hgrid 0 h0]; exact hiz'
      obtain ⟨d1, d2⟩ := aux_index_div_mod iz (distr.offsets 0 + i) _ hiz2
      have hls : w.spl_z_.local_size 0 = e.grid_.size 2 := by
        rw [← hlsz 0 h0, ← hgrid 0 h0]; exact hl0
      have hoff : w.spl_z_.global_offset 0 = 0 := by
        show ∑ q ∈ range 0, w.spl_z_.counts q = 0
        simp
      rw [hls, hoff, Nat.zero_add]
      show FFT3D.plan_backward_z root (w.at_rank 0)
        (FFT3D.z_load gvec.reduced (w.at_rank 0) gvec
          ((iz + (distr.offsets 0 + i) * e.grid_.size 2) /
            e.grid_.size 2) (data 0) (fun _ => 0))
        ((iz + (distr.offsets 0 + i) * e.grid_.size 2) %
          e.grid_.size 2) = _
      rw [d1, d2, plan_backward_z_grid root _ e (hgrid 0 h0),
        z_load_grid gvec.reduced _ e (hgrid 0 h0)]
    · show (Function.update w.at_rank 0 r0.1 0).fft_buffer_ _ = _
      rw [Function.update_same]
      have hb := hbuf iz hiz' p (by rw [hgrid 0 h0]; exact hpp)
      rw [hgrid 0 h0] at hb
      rw [hb]
      exact congrFun (plan_backward_xy_grid root _ e (hgrid 0 h0) _) p
  · -- several ranks: Column Stage, exchange, Plane Stage
    unfold FFT3D_comm.transform
    rw [if_neg hs, if_neg]
    swap
    · rintro ⟨r, hr, hf⟩
      rw [hp r hr] at hf
      exact absurd hf (by decide)
    simp only [if_true]
    obtain ⟨r1, hr1, hsz1, hf1, ha1⟩ := comm_z_parallel_backward_spec root gvec.reduced
      ({ w with at_rank := fun r =>
          { w.at_rank r with
            fft_buffer_aux1_ := (w.at_rank r).realloc (w.sz_max gvec distr r)
              (w.at_rank r).fft_buffer_aux1_ } } : FFT3D_comm K) gvec distr data
      (fun r => (w.at_rank r).realloc (w.sz_max gvec distr r) (w.at_rank r).fft_buffer_aux1_)
      e hgrid hlsz hN hd
    rw [hr1]
    obtain ⟨r2, hr2, _, hb2⟩ := comm_xy_backward_spec root gvec.reduced r1.1 gvec r1.2.2
    simp only [Except.bind]
    rw [hr2]
    refine ⟨_, rfl, ?_⟩
    intro me hme iz hiz p hpp
    obtain ⟨g1, g2, g3⟩ := hf1 me
    have hg : (r1.1.at_rank me).grid_ = e.grid_ := g1.trans (hgrid me hme)
    have hl : (r1.1.at_rank me).local_size_z_ = w.spl_z_.local_size me :=
      g2.trans (hlsz me hme)
    refine ⟨r1.1.at_rank me, (r1.2.2 me).data, g3, hl, ?_, ?_⟩
    · intro q hq i hi
      exact ha1 me hme q hq i hi iz hiz
    · have hb := hb2 me (by rw [hsz1]; exact hme) iz (by rw [hl]; exact hiz) p
        (by rw [hg]; exact hpp)
      rw [hg] at hb
      show (r2.1.at_rank me).fft_buffer_ _ = _
      rw [hb]
      exact congrFun (plan_backward_xy_grid root _ e hg _) p

/-- Decomposition equivalence for any field: the main buffers of the ranks after the
distributed backward transform are the slabs of the main buffer of the single-process backward
transform. -/
theorem distributed_backward_eq_serial (root : ℕ → K) (w : FFT3D_comm K) (e : FFT3D K)
    (gvec : Gvec_partition) (distr : block_data_descriptor) (data : ℕ → ℕ → K) (c : ℕ → K)
    (hP : 1 ≤ w.size)
    (hgrid : ∀ r, r < w.size → (w.at_rank r).grid_ = e.grid_)
    (hlsz : ∀ r, r < w.size → (w.at_rank r).local_size_z_ = w.spl_z_.local_size r)
    (hN : w.spl_z_.global_offset w.size = e.grid_.size 2)
    (hl : e.local_size_z_ = e.grid_.size 2)
    (hd : gvec.distributed distr w.size)
    (hdata : ∀ r, r < w.size → ∀ i, i < distr.counts r →
      ∀ j, j < (gvec.zcol (distr.offsets r + i)).z.length →
        data r (gvec.zcol_offs (distr.offsets r + i) + j) =
          c (gvec.zcol_offs (distr.offsets r + i) + j)) :
    ∃ rw rs, (w.prepare gvec).transform root 1 gvec distr data = Except.ok rw ∧
      (e.prepare gvec).transform root 1 gvec c = Except.ok rs ∧
      ∀ r, r < w.size → ∀ iz, iz < w.spl_z_.local_size r →
        ∀ p, p < e.grid_.size 0 * e.grid_.size 1 →
          (rw.1.at_rank r).fft_buffer_ (iz * (e.grid_.size 0 * e.grid_.size 1) + p) =
            rs.1.fft_buffer_
              ((w.spl_z_.global_offset r + iz) * (e.grid_.size 0 * e.grid_.size 1) + p) := by
  obtain ⟨rs, hrs, _, _, _, _, _, hbs⟩ :=
    transform_backward_spec root (e.prepare gvec) gvec c rfl hl
  obtain ⟨rw, hrw, hbw⟩ := comm_transform_backward_spec root (w.prepare gvec) gvec distr data e
    hP (fun _ _ => rfl) hgrid hlsz hN hd
  refine ⟨rw, rs, hrw, hrs, ?_⟩
  intro me hme iz hiz p hp
  obtain ⟨E, A, hpos, hEl, hA, hbuf⟩ := hbw me hme iz hiz p hp
  have hz : w.spl_z_.global_offset me + iz < e.grid_.size 2 := by
    rw [← hN]
    have := prefix_sum_succ_le w.spl_z_.counts me w.size hme
    have hiz' : iz < w.spl_z_.counts me := hiz
    show ∑ q ∈ range me, w.spl_z_.counts q + iz < ∑ q ∈ range w.size, w.spl_z_.counts q
    omega
  have hs := hbs (w.spl_z_.global_offset me + iz) hz p hp
  refine hbuf.trans (Eq.trans ?_ hs.symm)
  show e.plan_backward_xy root _ p = e.plan_backward_xy root _ p
  congr 1
  refine xy_load_congr_engine gvec.reduced E (e.prepare gvec) gvec _ _ _ _ _
    (hpos.trans (prepare_table_grid _ _ gvec (hgrid me hme))) (fun icol hicol => ?_)
  obtain ⟨q, hq, i, hi, hqi⟩ := prefix_sum_block distr.counts w.size icol
    (by rw [hd.2]; exact hicol)
  rw [← hd.1 q (le_of_lt hq)] at hqi
  subst hqi
  rw [hEl, hA q hq i hi]
  have hls : (e.prepare gvec).local_size_z_ = e.grid_.size 2 := hl
  obtain ⟨d1, d2⟩ := aux_index_div_mod (w.spl_z_.global_offset me + iz)
    (distr.offsets q + i) _ hz
  rw [hls]
  show _ = FFT3D.plan_backward_z root e
    (FFT3D.z_load gvec.reduced e gvec
      ((w.spl_z_.global_offset me + iz + (distr.offsets q + i) * e.grid_.size 2) /
        e.grid_.size 2) c (fun _ => 0))
    ((w.spl_z_.global_offset me + iz + (distr.offsets q + i) * e.grid_.size 2) %
      e.grid_.size 2)
  rw [d1, d2, z_load_congr_data gvec.reduced e gvec _ (data q) c _ (hdata q hq i hi)]
  rfl

end Distributed

/-- C13. Decomposition equivalence: for every grid, every number of processes `P ≥ 1`, every
split of the z-extent into `P` slabs whose depths add up to the grid depth and every
contiguous distribution of the columns over the `P` processes, with the all-to-all taken as a
pure exchange of the per-peer blocks, the distributed backward transform
(`transform_z_parallel`, exchange, `transform_xy`; the serial stages for `P = 1`) and the
single-process backward transform of the same coefficients on the same column set return, and
the main buffer of rank `r` is the slab of the single-process main buffer that starts at the
z-offset of `r`: the concatenation of the main buffers in rank order is the single-process
main buffer. -/
theorem C13_distributed_backward_equals_serial (root : ℕ → ℂ) (w : FFT3D_comm ℂ)
    (e : FFT3D ℂ) (gvec : Gvec_partition) (zcol_distr_fft : block_data_descriptor)
    (data : ℕ → ℕ → ℂ) (c : ℕ → ℂ)
    (hP : 1 ≤ w.size)
    (hgrid : ∀ r, r < w.size → (w.at_rank r).grid_ = e.grid_)
    (hlsz : ∀ r, r < w.size → (w.at_rank r).local_size_z_ = w.spl_z_.local_size r)
    (hsplit : w.spl_z_.global_offset w.size = e.grid_.size 2)
    (hl : e.local_size_z_ = e.grid_.size 2)
    (hdistr : gvec.distributed zcol_distr_fft w.size)
    (hdata : ∀ r, r < w.size → ∀ i, i < zcol_distr_fft.counts r →
      ∀ j, j < (gvec.zcol (zcol_distr_fft.offsets r + i)).z.length →
        data r (gvec.zcol_offs (zcol_distr_fft.offsets r + i) + j) =
          c (gvec.zcol_offs (zcol_distr_fft.offsets r + i) + j)) :
    ∃ rw rs, (w.prepare gvec).transform root 1 gvec zcol_distr_fft data = Except.ok rw ∧
      (e.prepare gvec).transform root 1 gvec c = Except.ok rs ∧
      ∀ r, r < w.size → ∀ iz, iz < w.spl_z_.local_size r →
        ∀ p, p < e.grid_.size 0 * e.grid_.size 1 →
          (rw.1.at_rank r).fft_buffer_ (iz * (e.grid_.size 0 * e.grid_.size 1) + p) =
            rs.1.fft_buffer_
              ((w.spl_z_.global_offset r + iz) * (e.grid_.size 0 * e.grid_.size 1) + p) :=
  distributed_backward_eq_serial root w e gvec zcol_distr_fft data c hP hgrid hlsz hsplit hl
    hdistr hdata

theorem sample_split_total :
    (⟨fun r => if r = 0 then 3 else 1⟩ : splindex).global_offset 2 = scenario_grid.size 2 := by
  decide

theorem sample_distributed :
    sample_reduced_partition.distributed
      ⟨fun r => if r = 0 then 2 else 3, fun r => if r = 0 then 0 else if r = 1 then 2 else 5⟩
      2 := by
  decide

/-- Witness of C13: two ranks on the 4 × 4 × 4 grid whose slabs have the depths 3 and 1, the
reduced sample partition with the columns distributed 2 + 3. -/
theorem C13_distributed_backward_equals_serial_witness :
    (1 ≤ (FFT3D_comm.create scenario_grid 2 ⟨fun r => if r = 0 then 3 else 1⟩
        (fun _ _ => (0 : ℂ))).size ∧
      (⟨fun r => if r = 0 then 3 else 1⟩ : splindex).global_offset 2 = scenario_grid.size 2 ∧
      sample_reduced_partition.distributed
        ⟨fun r => if r = 0 then 2 else 3, fun r => if r = 0 then 0 else if r = 1 then 2 else 5⟩
        2) ∧
    ∃ rw rs,
      ((FFT3D_comm.create scenario_grid 2 ⟨fun r => if r = 0 then 3 else 1⟩
          (fun _ _ => (0 : ℂ))).prepare sample_reduced_partition).transform
          (fun n => Complex.exp (2 * (Real.pi : ℂ) * Complex.I / (n : ℂ))) 1
          sample_reduced_partition
          ⟨fun r => if r = 0 then 2 else 3, fun r => if r = 0 then 0 else if r = 1 then 2 else 5⟩
          (fun _ => sample_coeffs) = Except.ok rw ∧
      ((sample_engine4 : FFT3D ℂ).prepare sample_reduced_partition).transform
          (fun n => Complex.exp (2 * (Real.pi : ℂ) * Complex.I / (n : ℂ))) 1
          sample_reduced_partition sample_coeffs = Except.ok rs ∧
      ∀ r, r < 2 → ∀ iz, iz < (⟨fun r => if r = 0 then 3 else 1⟩ : splindex).local_size r →
        ∀ p, p < scenario_grid.size 0 * scenario_grid.size 1 →
          (rw.1.at_rank r).fft_buffer_ (iz * (scenario_grid.size 0 * scenario_grid.size 1) + p) =
            rs.1.fft_buffer_
              (((⟨fun r => if r = 0 then 3 else 1⟩ : splindex).global_offset r + iz) *
                (scenario_grid.size 0 * scenario_grid.size 1) + p) :=
  ⟨⟨by decide, sample_split_total, sample_distributed⟩,
    C13_distributed_backward_equals_serial _
      (FFT3D_comm.create scenario_grid 2 ⟨fun r => if r = 0 then 3 else 1⟩ (fun _ _ => (0 : ℂ)))
      sample_engine4 sample_reduced_partition
      ⟨fun r => if r = 0 then 2 else 3, fun r => if r = 0 then 0 else if r = 1 then 2 else 5⟩
      (fun _ => sample_coeffs) sample_coeffs (by decide) (fun _ _ => rfl) (fun _ _ => rfl)
      sample_split_total rfl sample_distributed (fun _ _ _ _ _ _ => rfl)⟩

/-- C19. Auxiliary buffers grow and never shrink.  A single-field transform call that returns
leaves on every rank the first auxiliary buffer with the size `max(previous size, R)` and the
second auxiliary buffer unchanged; a paired-field call that returns leaves both auxiliary
buffers with the size `max(previous size, R)`; here `R = sizeZ * numColumns` for one process
and `R = max(sizeZ * localColumnCount, localVolume)` for several.  Along every sequence of
transform calls (single or paired, any directions and partitions) that all return, the size of
each auxiliary buffer of every rank does not decrease. -/
theorem C19_aux_buffers_grow (root : ℕ → ℂ) (w : FFT3D_comm ℂ) :
    (∀ (direction : ℤ) (gvec : Gvec_partition) (distr : block_data_descriptor)
        (data : ℕ → ℕ → ℂ) (r : FFT3D_comm ℂ × (ℕ → ℕ → ℂ)),
      w.transform root direction gvec distr data = Except.ok r →
      ∀ rank, rank < w.size →
        (r.1.at_rank rank).fft_buffer_aux1_.size =
          max (w.at_rank rank).fft_buffer_aux1_.size
            (if 1 < w.size then
              max ((w.at_rank rank).grid_.size 2 * distr.counts rank) (w.at_rank rank).local_size
            else (w.at_rank rank).grid_.size 2 * gvec.num_zcol) ∧
        (r.1.at_rank rank).fft_buffer_aux2_ = (w.at_rank rank).fft_buffer_aux2_) ∧
    (∀ (direction : ℤ) (gvec : Gvec_partition) (distr : block_data_descriptor)
        (data1 data2 : ℕ → ℕ → ℂ) (r : FFT3D_comm ℂ × (ℕ → ℕ → ℂ) × (ℕ → ℕ → ℂ)),
      w.transform2 root Complex.I direction gvec distr data1 data2 = Except.ok r →
      ∀ rank, rank < w.size →
        (r.1.at_rank rank).fft_buffer_aux1_.size =
          max (w.at_rank rank).fft_buffer_aux1_.size
            (if 1 < w.size then
              max ((w.at_rank rank).grid_.size 2 * distr.counts rank) (w.at_rank rank).local_size
            else (w.at_rank rank).grid_.size 2 * gvec.num_zcol) ∧
        (r.1.at_rank rank).fft_buffer_aux2_.size =
          max (w.at_rank rank).fft_buffer_aux2_.size
            (if 1 < w.size then
              max ((w.at_rank rank).grid_.size 2 * distr.counts rank) (w.at_rank rank).local_size
            else (w.at_rank rank).grid_.size 2 * gvec.num_zcol)) ∧
    (∀ (calls : List (transform_call ℂ)) (w1 : FFT3D_comm ℂ),
      w.calls root Complex.I calls = Except.ok w1 →
      ∀ rank,
        (w.at_rank rank).fft_buffer_aux1_.size ≤ (w1.at_rank rank).fft_buffer_aux1_.size ∧
        (w.at_rank rank).fft_buffer_aux2_.size ≤ (w1.at_rank rank).fft_buffer_aux2_.size) := by
  refine ⟨fun direction gvec distr data r h rank hrank => ?_,
    fun direction gvec distr data1 data2 r h rank hrank => ?_,
    fun calls w1 h => (comm_calls_aux root Complex.I calls w w1 h).2⟩
  · obtain ⟨_, k1, _, k3⟩ := comm_transform_aux root direction w gvec distr data r h
    exact ⟨k1 rank hrank, k3 rank⟩
  · obtain ⟨_, k1, _⟩ := comm_transform2_aux root Complex.I direction w gvec distr data1 data2 r h
    exact k1 rank hrank

/-- Witness of C19: the backward transform of the reduced sample partition on two prepared
ranks of the 4 × 4 × 4 grid returns, and the first auxiliary buffer of rank 1, empty before,
then has `max (4 * 3) (4 * 4 * 1) = 16` entries. -/
theorem C19_aux_buffers_grow_witness :
    ∃ r,
      ((FFT3D_comm.create scenario_grid 2 ⟨fun r => if r = 0 then 3 else 1⟩
          (fun _ _ => (0 : ℂ))).prepare sample_reduced_partition).transform
          (fun _ => 1) 1 sample_reduced_partition
          ⟨fun r => if r = 0 then 2 else 3, fun r => if r = 0 then 0 else if r = 1 then 2 else 5⟩
          (fun _ => sample_coeffs) = Except.ok r ∧
      (r.1.at_rank 1).fft_buffer_aux1_.size = 16 := by
  obtain ⟨r, hr, _⟩ := comm_transform_backward_spec (fun _ => (1 : ℂ))
    ((FFT3D_comm.create scenario_grid 2 ⟨fun r => if r = 0 then 3 else 1⟩
      (fun _ _ => (0 : ℂ))).prepare sample_reduced_partition) sample_reduced_partition
    ⟨fun r => if r = 0 then 2 else 3, fun r => if r = 0 then 0 else if r = 1 then 2 else 5⟩
    (fun _ => sample_coeffs) sample_engine4 (by decide) (fun _ _ => rfl) (fun _ _ => rfl)
    (fun _ _ => rfl) sample_split_total sample_distributed
  exact ⟨r, hr, ((C19_aux_buffers_grow (fun _ => 1) _).1 1 sample_reduced_partition _ _ r hr 1
    (by decide)).1⟩

section Counts

/-- The descriptor `send` of the forward exchange. -/
theorem z_parallel_send_forward (spl : splindex) (distr : block_data_descriptor) (rank : ℕ) :
    FFT3D.z_parallel_send (-1) spl distr rank =
      ⟨fun r => spl.local_size rank * distr.counts r,
        fun r => ∑ q ∈ range r, spl.local_size rank * distr.counts q⟩ := by
  unfold FFT3D.z_parallel_send
  rw [if_pos rfl]
  rfl

/-- The descriptor `recv` of the forward exchange. -/
theorem z_parallel_recv_forward (spl : splindex) (distr : block_data_descriptor) (rank : ℕ) :
    FFT3D.z_parallel_recv (-1) spl distr rank =
      ⟨fun r => spl.local_size r * distr.counts rank,
        fun r => ∑ q ∈ range r, spl.local_size q * distr.counts rank⟩ := by
  unfold FFT3D.z_parallel_recv
  rw [if_pos rfl]
  rfl

/-- The sum over all ordered pairs of ranks of `depth(b) * columns(a)` is the product of the
two totals. -/
theorem sum_counts_product (P : ℕ) (c d : ℕ → ℕ) :
    ∑ a ∈ range P, ∑ b ∈ range P, d b * c a = (∑ a ∈ range P, c a) * ∑ b ∈ range P, d b := by
  rw [Finset.sum_mul_sum]
  refine Finset.sum_congr rfl (fun a _ => Finset.sum_congr rfl (fun b _ => ?_))
  exact Nat.mul_comm _ _

end Counts

/-- C22. Communication volume: for every number of processes `P`, every split of the z-extent
whose slab depths add up to `sizeZ` and every column distribution whose counts add up to
`numColumns`, the number of values sent in the all-to-all of a transform call, summed over
all ranks and all destination peers, is `numColumns * sizeZ` in the backward and in the
forward direction; the extents in x and y do not enter. -/
theorem C22_communication_volume (P : ℕ) (spl : splindex) (zcol_distr_fft : block_data_descriptor)
    (gvec : Gvec_partition) (grid : FFT3D_grid)
    (hz : spl.global_offset P = grid.size 2)
    (hc : ∑ q ∈ range P, zcol_distr_fft.counts q = gvec.num_zcol) :
    ∑ rank ∈ range P, ∑ r ∈ range P,
        (FFT3D.z_parallel_send 1 spl zcol_distr_fft rank).counts r =
      gvec.num_zcol * grid.size 2 ∧
    ∑ rank ∈ range P, ∑ r ∈ range P,
        (FFT3D.z_parallel_send (-1) spl zcol_distr_fft rank).counts r =
      gvec.num_zcol * grid.size 2 := by
  have hz' : ∑ b ∈ range P, spl.local_size b = grid.size 2 := hz
  constructor
  · simp only [z_parallel_send_backward]
    rw [sum_counts_product P zcol_distr_fft.counts spl.local_size, hc, hz']
  · simp only [z_parallel_send_forward]
    rw [Finset.sum_comm, sum_counts_product P zcol_distr_fft.counts spl.local_size, hc, hz']

/-- Witness of C22: two ranks on the 4 × 4 × 4 grid with the slab depths 3 and 1 and the five
columns of the reduced sample partition distributed 2 + 3: 20 values are sent. -/
theorem C22_communication_volume_witness :
    ((⟨fun r => if r = 0 then 3 else 1⟩ : splindex).global_offset 2 = scenario_grid.size 2 ∧
      ∑ q ∈ range 2, (⟨fun r => if r = 0 then 2 else 3, fun r => if r = 0 then 0 else 2⟩ :
        block_data_descriptor).counts q = sample_reduced_partition.num_zcol) ∧
    ∑ rank ∈ range 2, ∑ r ∈ range 2,
        (FFT3D.z_parallel_send 1 ⟨fun r => if r = 0 then 3 else 1⟩
          ⟨fun r => if r = 0 then 2 else 3, fun r => if r = 0 then 0 else 2⟩ rank).counts r =
      sample_reduced_partition.num_zcol * scenario_grid.size 2 :=
  ⟨⟨by decide, by decide⟩,
    (C22_communication_volume 2 ⟨fun r => if r = 0 then 3 else 1⟩
      ⟨fun r => if r = 0 then 2 else 3, fun r => if r = 0 then 0 else 2⟩
      sample_reduced_partition scenario_grid (by decide) (by decide)).1⟩

/-- C26. The exchange counts are mutually consistent (with `calc_offsets` modelled from the
specification): for every split of the z-extent, every column distribution and every ordered
pair of ranks `(a, b)`, the number of values rank `a` is set to send to rank `b` is the number
rank `b` is set to receive from rank `a`, namely `localSizeZ(b) * columnCount(a)` in the
backward exchange and `localSizeZ(a) * columnCount(b)` in the forward exchange; and the send
and receive offsets of every rank are the prefix sums of its counts. -/
theorem C26_exchange_counts_consistent (spl : splindex) (zcol_distr_fft : block_data_descriptor)
    (a b : ℕ) :
    ((FFT3D.z_parallel_send 1 spl zcol_distr_fft a).counts b =
        spl.local_size b * zcol_distr_fft.counts a ∧
      (FFT3D.z_parallel_recv 1 spl zcol_distr_fft b).counts a =
        spl.local_size b * zcol_distr_fft.counts a) ∧
    ((FFT3D.z_parallel_send (-1) spl zcol_distr_fft a).counts b =
        spl.local_size a * zcol_distr_fft.counts b ∧
      (FFT3D.z_parallel_recv (-1) spl zcol_distr_fft b).counts a =
        spl.local_size a * zcol_distr_fft.counts b) ∧
    (∀ r, (FFT3D.z_parallel_send 1 spl zcol_distr_fft a).offsets r =
        ∑ q ∈ range r, (FFT3D.z_parallel_send 1 spl zcol_distr_fft a).counts q) ∧
    (∀ r, (FFT3D.z_parallel_recv 1 spl zcol_distr_fft a).offsets r =
        ∑ q ∈ range r, (FFT3D.z_parallel_recv 1 spl zcol_distr_fft a).counts q) ∧
    (∀ r, (FFT3D.z_parallel_send (-1) spl zcol_distr_fft a).offsets r =
        ∑ q ∈ range r, (FFT3D.z_parallel_send (-1) spl zcol_distr_fft a).counts q) ∧
    (∀ r, (FFT3D.z_parallel_recv (-1) spl zcol_distr_fft a).offsets r =
        ∑ q ∈ range r, (FFT3D.z_parallel_recv (-1) spl zcol_distr_fft a).counts q) := by
  rw [z_parallel_send_backward, z_parallel_recv_backward, z_parallel_send_forward,
    z_parallel_recv_forward, z_parallel_recv_backward, z_parallel_recv_forward]
  exact ⟨⟨rfl, rfl⟩, ⟨rfl, rfl⟩, fun _ => rfl, fun _ => rfl, fun _ => rfl, fun _ => rfl⟩

/-- C23. `input` and `output` are bulk copies of the main buffer: on a CPU engine, after
`input(d)` the main buffer entry `i` is `d[i]` for every `i < localSize()`; `output` into a
complex array returns the buffer entries, so `output(input(d)) = d`; `output` into a real
array returns the real part of every entry, so for a real array `x`
`output(input(x)) = x`; neither `output` changes the engine, in particular not the main
buffer.  Entries of the caller's array from `localSize()` on are not written. -/
theorem C23_input_output_bulk_copy (e : FFT3D ℂ) (d out : ℕ → ℂ) (x outr : ℕ → ℝ) :
    (∀ i, i < e.local_size → (e.input d).fft_buffer_ i = d i) ∧
    (∀ i, i < e.local_size → (e.output out).2 i = e.fft_buffer_ i) ∧
    (∀ i, i < e.local_size → ((e.input d).output out).2 i = d i) ∧
    (∀ i, i < e.local_size → (e.output_real outr).2 i = (e.fft_buffer_ i).re) ∧
    (∀ i, i < e.local_size → ((e.input_real x).output_real outr).2 i = x i) ∧
    (e.output out).1 = e ∧ (e.output_real outr).1 = e ∧
    (e.output out).1.fft_buffer_ = e.fft_buffer_ ∧
    (e.output_real outr).1.fft_buffer_ = e.fft_buffer_ ∧
    (∀ i, e.local_size ≤ i → (e.output out).2 i = out i ∧ (e.output_real outr).2 i = outr i) := by
  have hin : ∀ (e : FFT3D ℂ) (d : ℕ → ℂ) i, i < e.local_size → (e.input d).fft_buffer_ i = d i := by
    intro e d i hi
    show (if i < e.local_size then d i else e.fft_buffer_ i) = d i
    rw [if_pos hi]
  have hout : ∀ (e : FFT3D ℂ) (out : ℕ → ℂ) i, i < e.local_size →
      (e.output out).2 i = e.fft_buffer_ i := by
    intro e out i hi
    show copy_range e.fft_buffer_ 0 e.local_size out 0 i = _
    have := copy_range_inside e.fft_buffer_ 0 e.local_size out 0 i hi
    simpa using this
  have houtr : ∀ (e : FFT3D ℂ) (outr : ℕ → ℝ) i, i < e.local_size →
      (e.output_real outr).2 i = (e.fft_buffer_ i).re := by
    intro e outr i hi
    show forLoop e.local_size (fun i d => Function.update d i (e.fft_buffer_ i).re) outr i = _
    exact forLoop_update_of_inj e.local_size (fun j => j) (fun j => (e.fft_buffer_ j).re) outr
      (fun _ _ _ _ h => h) i hi
  refine ⟨hin e d, hout e out, fun i hi => ?_, houtr e outr, fun i hi => ?_, rfl, rfl, rfl, rfl,
    fun i hi => ⟨?_, ?_⟩⟩
  · rw [hout (e.input d) out i hi]
    exact hin e d i hi
  · rw [houtr (e.input_real x) outr i hi]
    show ((e.input (fun i => ((x i : ℝ) : ℂ))).fft_buffer_ i).re = x i
    rw [hin e _ i hi]
    exact Complex.ofReal_re (x i)
  · show copy_range e.fft_buffer_ 0 e.local_size out 0 i = _
    exact copy_range_outside _ _ _ _ _ _ (Or.inr (by omega))
  · show forLoop e.local_size (fun i d => Function.update d i (e.fft_buffer_ i).re) outr i = _
    exact forLoop_update_of_ne e.local_size (fun j => j) (fun j => (e.fft_buffer_ j).re) outr i
      (fun j hj => by
        show j ≠ i
        omega)

section Exchange
variable {K : Type} [Field K] [StarRing K]

omit [Field K] [StarRing K] in
/-- The all-to-all of the backward exchange: the block that rank `b` receives from rank `a`
is the block that `a` laid out for `b`. -/
theorem exchange_backward_block (w : FFT3D_comm K) (gvec : Gvec_partition)
    (distr : block_data_descriptor) (aux : ℕ → ℕ → K) (a b : ℕ) (ha : a < w.size) (t : ℕ)
    (ht : t < w.spl_z_.local_size b * distr.counts a) :
    (w.exchange_backward gvec distr aux).1 b
        (∑ q ∈ range a, w.spl_z_.local_size b * distr.counts q + t) =
      aux a (∑ q ∈ range b, w.spl_z_.local_size q * distr.counts a + t) := by
  show alltoall w.size aux (FFT3D.z_parallel_send 1 w.spl_z_ distr)
      (fun r => (w.at_rank r).fft_buffer_) (FFT3D.z_parallel_recv 1 w.spl_z_ distr) b _ = _
  have h := alltoall_block w.size aux (FFT3D.z_parallel_send 1 w.spl_z_ distr)
    (fun r => (w.at_rank r).fft_buffer_) (FFT3D.z_parallel_recv 1 w.spl_z_ distr) b
    (by
      intro r r' hr hr'
      rw [z_parallel_recv_backward, z_parallel_send_backward]
      exact prefix_sum_succ_le (fun q => w.spl_z_.local_size b * distr.counts q) r r' hr)
    a ha t (by rw [z_parallel_send_backward]; exact ht)
  rw [z_parallel_recv_backward, z_parallel_send_backward] at h
  exact h

omit [Field K] [StarRing K] in
/-- The all-to-all of the forward exchange, for any send and receive buffers: the block that
rank `a` receives from rank `b` is the block that `b` holds for `a`. -/
theorem exchange_forward_block (P : ℕ) (spl : splindex) (distr : block_data_descriptor)
    (fb aux : ℕ → ℕ → K) (a b : ℕ) (hb : b < P) (t : ℕ)
    (ht : t < spl.local_size b * distr.counts a) :
    alltoall P fb (FFT3D.z_parallel_send (-1) spl distr) aux
        (FFT3D.z_parallel_recv (-1) spl distr) a
        (∑ q ∈ range b, spl.local_size q * distr.counts a + t) =
      fb b (∑ q ∈ range a, spl.local_size b * distr.counts q + t) := by
  have h := alltoall_block P fb (FFT3D.z_parallel_send (-1) spl distr) aux
    (FFT3D.z_parallel_recv (-1) spl distr) a
    (by
      intro r r' hr hr'
      rw [z_parallel_recv_forward, z_parallel_send_forward]
      exact prefix_sum_succ_le (fun q => spl.local_size q * distr.counts a) r r' hr)
    b hb t (by rw [z_parallel_send_forward]; exact ht)
  rw [z_parallel_recv_forward, z_parallel_send_forward] at h
  exact h

omit [Field K] [StarRing K] in
/-- The forward exchange undoes the backward exchange on the first
`depth * localColumnCount` entries of the auxiliary buffer of every rank. -/
theorem exchange_roundtrip (w : FFT3D_comm K) (gvec : Gvec_partition)
    (distr : block_data_descriptor) (aux : ℕ → ℕ → K)
    (hlsz : ∀ r, r < w.size → (w.at_rank r).local_size_z_ = w.spl_z_.local_size r)
    (hc : ∑ q ∈ range w.size, distr.counts q = gvec.num_zcol)
    (a : ℕ) (ha : a < w.size) (k : ℕ)
    (hk : k < w.spl_z_.global_offset w.size * distr.counts a) :
    (({ w with at_rank := fun r =>
          { w.at_rank r with fft_buffer_ := (w.exchange_backward gvec distr aux).1 r } } :
        FFT3D_comm K).exchange_forward gvec distr (w.exchange_backward gvec distr aux).2).2 a k =
      aux a k := by
  have hk' : k < ∑ q ∈ range w.size, w.spl_z_.local_size q * distr.counts a := by
    rw [← sum_mul]
    exact hk
  obtain ⟨b, hb, t, ht, hkt⟩ :=
    prefix_sum_block (fun q => w.spl_z_.local_size q * distr.counts a) w.size k hk'
  have ht' : t < w.spl_z_.local_size b * distr.counts a := ht
  have hkt' : k = ∑ q ∈ range b, w.spl_z_.local_size q * distr.counts a + t := hkt
  -- the entry of the block inside the copied prefix of rank `b`
  have hin : ∑ q ∈ range a, w.spl_z_.local_size b * distr.counts q + t <
      gvec.num_zcol * (w.at_rank b).local_size_z_ := by
    rw [hlsz b hb, ← hc, Nat.mul_comm, mul_sum]
    have := prefix_sum_succ_le (fun q => w.spl_z_.local_size b * distr.counts q) a w.size ha
    exact lt_of_lt_of_le (Nat.add_lt_add_left ht' _) this
  show alltoall w.size
      (fun r => copy_range
        (copy_range ((w.exchange_backward gvec distr aux).1 r) 0
          (gvec.num_zcol * (w.at_rank r).local_size_z_) (aux r) 0) 0
        (gvec.num_zcol * (w.at_rank r).local_size_z_)
        ((w.exchange_backward gvec distr aux).1 r) 0)
      (FFT3D.z_parallel_send (-1) w.spl_z_ distr)
      (fun r => copy_range ((w.exchange_backward gvec distr aux).1 r) 0
        (gvec.num_zcol * (w.at_rank r).local_size_z_) (aux r) 0)
      (FFT3D.z_parallel_recv (-1) w.spl_z_ distr) a k = aux a k
  rw [hkt', exchange_forward_block w.size w.spl_z_ distr _ _ a b hb t ht']
  have h0 : ∀ x : ℕ, x = 0 + x := fun x => (Nat.zero_add x).symm
  rw [h0 (∑ q ∈ range a, w.spl_z_.local_size b * distr.counts q + t),
    copy_range_inside _ _ _ _ _ _ hin, copy_range_inside _ _ _ _ _ _ hin, Nat.zero_add]
  exact exchange_backward_block w gvec distr aux a b ha t ht'

end Exchange

/-- C21. The forward exchange inverts the backward exchange: for the ranks of a communicator
of any size (in particular `P ≥ 2`), with the all-to-all a pure exchange of the per-peer
blocks, slab depths that add up to `sizeZ` and column counts that add up to `numColumns`, for
every assignment of auxiliary-buffer contents to the ranks, the backward exchange (all-to-all
into the main buffer, copy of `numColumns * localSizeZ` entries into the auxiliary buffer)
followed by the forward exchange (copy into the main buffer, all-to-all with the send and
receive counts swapped) restores on every rank the first `sizeZ * localColumnCount` entries of
the auxiliary buffer. -/
theorem C21_forward_exchange_inverts_backward (w : FFT3D_comm ℂ) (gvec : Gvec_partition)
    (zcol_distr_fft : block_data_descriptor) (aux : ℕ → ℕ → ℂ)
    (hlsz : ∀ r, r < w.size → (w.at_rank r).local_size_z_ = w.spl_z_.local_size r)
    (hz : ∀ r, r < w.size → w.spl_z_.global_offset w.size = (w.at_rank r).grid_.size 2)
    (hc : ∑ q ∈ range w.size, zcol_distr_fft.counts q = gvec.num_zcol) :
    ∀ rank, rank < w.size →
      ∀ k, k < (w.at_rank rank).grid_.size 2 * zcol_distr_fft.counts rank →
        (({ w with at_rank := fun r =>
              { w.at_rank r with
                fft_buffer_ := (w.exchange_backward gvec zcol_distr_fft aux).1 r } } :
            FFT3D_comm ℂ).exchange_forward gvec zcol_distr_fft
          (w.exchange_backward gvec zcol_distr_fft aux).2).2 rank k = aux rank k := by
  intro rank hrank k hk
  rw [← hz rank hrank] at hk
  exact exchange_roundtrip w gvec zcol_distr_fft aux hlsz hc rank hrank k hk

/-- Witness of C21: two ranks on the 4 × 4 × 4 grid with the slab depths 3 and 1, the five
columns of the reduced sample partition distributed 2 + 3, and the auxiliary buffers
`aux r [k] = 100 r + k`: entry 7 of rank 1 is restored. -/
theorem C21_forward_exchange_inverts_backward_witness :
    ((∀ r, r < (FFT3D_comm.create scenario_grid 2 ⟨fun r => if r = 0 then 3 else 1⟩
          (fun _ _ => (0 : ℂ))).size →
        ((FFT3D_comm.create scenario_grid 2 ⟨fun r => if r = 0 then 3 else 1⟩
            (fun _ _ => (0 : ℂ))).at_rank r).local_size_z_ =
          (FFT3D_comm.create scenario_grid 2 ⟨fun r => if r = 0 then 3 else 1⟩
            (fun _ _ => (0 : ℂ))).spl_z_.local_size r) ∧
      ∑ q ∈ range 2, (⟨fun r => if r = 0 then 2 else 3, fun r => if r = 0 then 0 else 2⟩ :
        block_data_descriptor).counts q = sample_reduced_partition.num_zcol) ∧
    (({ FFT3D_comm.create scenario_grid 2 ⟨fun r => if r = 0 then 3 else 1⟩
            (fun _ _ => (0 : ℂ)) with
          at_rank := fun r =>
            { (FFT3D_comm.create scenario_grid 2 ⟨fun r => if r = 0 then 3 else 1⟩
                (fun _ _ => (0 : ℂ))).at_rank r with
              fft_buffer_ :=
                ((FFT3D_comm.create scenario_grid 2 ⟨fun r => if r = 0 then 3 else 1⟩
                  (fun _ _ => (0 : ℂ))).exchange_backward sample_reduced_partition
                  ⟨fun r => if r = 0 then 2 else 3, fun r => if r = 0 then 0 else 2⟩
                  (fun r k => ((100 * r + k : ℕ) : ℂ))).1 r } } :
        FFT3D_comm ℂ).exchange_forward sample_reduced_partition
      ⟨fun r => if r = 0 then 2 else 3, fun r => if r = 0 then 0 else 2⟩
      ((FFT3D_comm.create scenario_grid 2 ⟨fun r => if r = 0 then 3 else 1⟩
        (fun _ _ => (0 : ℂ))).exchange_backward sample_reduced_partition
        ⟨fun r => if r = 0 then 2 else 3, fun r => if r = 0 then 0 else 2⟩
        (fun r k => ((100 * r + k : ℕ) : ℂ))).2).2 1 7 =
      (fun r k => ((100 * r + k : ℕ) : ℂ)) 1 7 :=
  ⟨⟨fun _ _ => rfl, by decide⟩,
    C21_forward_exchange_inverts_backward
      (FFT3D_comm.create scenario_grid 2 ⟨fun r => if r = 0 then 3 else 1⟩ (fun _ _ => (0 : ℂ)))
      sample_reduced_partition
      ⟨fun r => if r = 0 then 2 else 3, fun r => if r = 0 then 0 else 2⟩
      (fun r k => ((100 * r + k : ℕ) : ℂ)) (fun _ _ => rfl) (fun _ _ => sample_split_total)
      (by decide) 1 (by decide) 7 (by decide)⟩

section Completion
variable {K : Type} [Field K] [StarRing K]

/-- The serial Column Stage completes column `i` exactly when `i = 0`. -/
theorem z_load_by_index (e : FFT3D K) (gvec : Gvec_partition) (i : ℕ) (data b : ℕ → K) :
    (i = 0 →
      e.z_load true gvec i data b =
        forLoop (gvec.zcol i).z.length
          (fun j c => Function.update c (e.grid.coord_by_gvec (-(gvec.zfreq i j)) 2).toNat
            (star (data (gvec.zcol_offs i + j)))) (e.z_load false gvec i data b)) ∧
    (i ≠ 0 → e.z_load true gvec i data b = e.z_load false gvec i data b) := by
  constructor
  · intro h0
    subst h0
    unfold FFT3D.z_load
    rw [if_pos ⟨rfl, rfl⟩, if_neg (fun h => absurd h.1 (by decide))]
  · intro h0
    unfold FFT3D.z_load
    rw [if_neg (fun h => h0 h.2), if_neg (fun h => h0 h.2)]

/-- The distributed Column Stage completes the column of global index `icol` exactly when
`icol = 0`. -/
theorem z_load_parallel_by_index (e : FFT3D K) (gvec : Gvec_partition) (icol : ℕ)
    (data b : ℕ → K) :
    (icol = 0 →
      e.z_load_parallel true gvec icol data b =
        forLoop (gvec.zcol icol).z.length
          (fun j c => Function.update c (e.grid.coord_by_gvec (-(gvec.zfreq icol j)) 2).toNat
            (star (data (gvec.zcol_offs icol + j)))) (e.z_load_parallel false gvec icol data b)) ∧
    (icol ≠ 0 → e.z_load_parallel true gvec icol data b =
      e.z_load_parallel false gvec icol data b) := by
  constructor
  · intro h0
    subst h0
    unfold FFT3D.z_load_parallel
    rw [if_pos ⟨rfl, rfl⟩, if_neg (fun h => absurd h.1 (by decide))]
  · intro h0
    unfold FFT3D.z_load_parallel
    rw [if_neg (fun h => h0 h.2), if_neg (fun h => h0 h.2)]

end Completion

section PairLoop
variable {K : Type}

/-- The scatter loop of the Plane Stage at the negated position of a column other than
column 0. -/
theorem forLoop_pair_update_neg_at (n : ℕ) (p0 p1 : ℕ → ℕ) (v u : ℕ → K) (b : ℕ → K)
    (hneg : ∀ i, i < n → ∀ l, l < n → l ≠ 0 → p1 l ≠ p0 i)
    (hinj1 : ∀ i, i < n → ∀ l, l < n → i ≠ 0 → l ≠ 0 → p1 i = p1 l → i = l)
    (i : ℕ) (hi : i < n) (hi0 : i ≠ 0) :
    forLoop n
      (fun i c =>
        if true = true ∧ i ≠ 0 then
          Function.update (Function.update c (p0 i) (v i)) (p1 i) (u i)
        else Function.update c (p0 i) (v i)) b (p1 i) = u i := by
  induction n with
  | zero => exact absurd hi (Nat.not_lt_zero i)
  | succ m ih =>
    rw [forLoop_succ]
    rcases Nat.lt_succ_iff_lt_or_eq.mp hi with hlt | heq
    · have hm := Nat.lt_succ_self m
      have h10 : p1 i ≠ p0 m := hneg m hm i hi hi0
      have ih' := ih (fun a ha l hl => hneg a (Nat.lt_succ_of_lt ha) l (Nat.lt_succ_of_lt hl))
        (fun a ha l hl => hinj1 a (Nat.lt_succ_of_lt ha) l (Nat.lt_succ_of_lt hl)) hlt
      by_cases hm0 : m ≠ 0
      · have h11 : p1 i ≠ p1 m := fun h =>
          absurd (hinj1 i hi m hm hi0 hm0 h) (Nat.ne_of_lt hlt)
        rw [if_pos ⟨rfl, hm0⟩, Function.update_noteq h11, Function.update_noteq h10]
        exact ih'
      · beta_reduce
        rw [if_neg (fun h => hm0 h.2), Function.update_noteq h10]
        exact ih'
    · subst heq
      rw [if_pos ⟨rfl, hi0⟩, Function.update_same]

/-- The scatter loop of the Plane Stage away from every position it writes. -/
theorem forLoop_pair_update_other (n : ℕ) (ur : Bool) (p0 p1 : ℕ → ℕ) (v u : ℕ → K)
    (b : ℕ → K) (k : ℕ) (hk : ∀ i, i < n → p0 i ≠ k ∧ (i ≠ 0 → p1 i ≠ k)) :
    forLoop n
      (fun i c =>
        if ur = true ∧ i ≠ 0 then
          Function.update (Function.update c (p0 i) (v i)) (p1 i) (u i)
        else Function.update c (p0 i) (v i)) b k = b k := by
  induction n with
  | zero => rfl
  | succ m ih =>
    rw [forLoop_succ]
    have hm := hk m (Nat.lt_succ_self m)
    have ih' := ih (fun i hi => hk i (Nat.lt_succ_of_lt hi))
    by_cases hc : ur = true ∧ m ≠ 0
    · rw [if_pos hc, Function.update_noteq (hm.2 hc.2).symm, Function.update_noteq hm.1.symm]
      exact ih'
    · rw [if_neg hc, Function.update_noteq hm.1.symm]
      exact ih'

end PairLoop

section PlaneLoad
variable {K : Type} [Field K] [StarRing K]

/-- What the dense-plane scratch holds after the scatter loop of the backward Plane Stage with
`use_reduction`, for a table whose positions are pairwise distinct. -/
theorem xy_load_reduced_at (e : FFT3D K) (gvec : Gvec_partition) (iz : ℕ) (aux b : ℕ → K)
    (hpos0 : ∀ i, i < gvec.num_zcol → ∀ l, l < gvec.num_zcol →
      (e.z_col_pos_.data i 0).toNat = (e.z_col_pos_.data l 0).toNat → i = l)
    (hpos1 : ∀ i, i < gvec.num_zcol → ∀ l, l < gvec.num_zcol → i ≠ 0 → l ≠ 0 →
      (e.z_col_pos_.data i 1).toNat = (e.z_col_pos_.data l 1).toNat → i = l)
    (hpos01 : ∀ i, i < gvec.num_zcol → ∀ l, l < gvec.num_zcol → l ≠ 0 →
      (e.z_col_pos_.data l 1).toNat ≠ (e.z_col_pos_.data i 0).toNat) :
    (∀ i, i < gvec.num_zcol →
      e.xy_load true gvec iz aux b (e.z_col_pos_.data i 0).toNat =
        aux (iz + i * e.local_size_z_)) ∧
    (∀ i, i < gvec.num_zcol → i ≠ 0 →
      e.xy_load true gvec iz aux b (e.z_col_pos_.data i 1).toNat =
        star (aux (iz + i * e.local_size_z_))) ∧
    (∀ p, (∀ i, i < gvec.num_zcol →
        (e.z_col_pos_.data i 0).toNat ≠ p ∧ (i ≠ 0 → (e.z_col_pos_.data i 1).toNat ≠ p)) →
      e.xy_load true gvec iz aux b p = b p) := by
  refine ⟨fun i hi => ?_, fun i hi hi0 => ?_, fun p hp => ?_⟩
  · rw [xy_load_eq]
    exact forLoop_pair_update_at gvec.num_zcol true _ _ _ _ b hpos0 hpos01 i hi
  · rw [xy_load_eq]
    exact forLoop_pair_update_neg_at gvec.num_zcol _ _ _ _ b hpos01 hpos1 i hi hi0
  · rw [xy_load_eq]
    exact forLoop_pair_update_other gvec.num_zcol true _ _ _ _ b p hp

end PlaneLoad

/-- C24 fails as stated: the completion follows the column index, not `(x, y)`.  On the
4 × 4 × 4 grid with a reduced partition whose column 0 is `(1, 0)` and whose column 1 is
`(0, 0)`, both storing the z-frequencies `{0, 1}`, the `(0, 0)` column is loaded without
completion (the scratch entry of the frequency `-1` stays `0`, while the conjugate of the
loaded coefficient is `4`), and the `(1, 0)` column is completed (the scratch entry of the
frequency `-1` holds the conjugate `2`, which a load without completion leaves `0`); the same
in the serial and in the distributed Column Stage. -/
theorem C24_completion_follows_index :
    (swapped_partition.reduced = true ∧
      (swapped_partition.zcol 1).x = 0 ∧ (swapped_partition.zcol 1).y = 0 ∧
      (swapped_partition.zcol 0).x ≠ 0 ∧
      scenario_grid.coord_by_gvec (-(swapped_partition.zfreq 1 1)) 2 = 3 ∧
      scenario_grid.coord_by_gvec (-(swapped_partition.zfreq 0 1)) 2 = 3) ∧
    ((sample_engine4 : FFT3D ℂ).z_load true swapped_partition 1 sample_coeffs (fun _ => 0) 3 = 0 ∧
      (sample_engine4 : FFT3D ℂ).z_load_parallel true swapped_partition 1 sample_coeffs
        (fun _ => 0) 3 = 0 ∧
      star ((sample_coeffs : ℕ → ℂ) (swapped_partition.zcol_offs 1 + 1)) = 4) ∧
    ((sample_engine4 : FFT3D ℂ).z_load true swapped_partition 0 sample_coeffs (fun _ => 0) 3 = 2 ∧
      (sample_engine4 : FFT3D ℂ).z_load_parallel true swapped_partition 0 sample_coeffs
        (fun _ => 0) 3 = 2 ∧
      (sample_engine4 : FFT3D ℂ).z_load false swapped_partition 0 sample_coeffs
        (fun _ => 0) 3 = 0) := by
  refine ⟨⟨rfl, rfl, rfl, by decide, by decide, by decide⟩, ⟨?_, ?_, ?_⟩, ⟨?_, ?_, ?_⟩⟩
  · simp [FFT3D.z_load, forLoop, swapped_partition, sample_engine4, FFT3D.create, scenario_grid,
      FFT3D.grid, FFT3D_grid.coord_by_gvec, FFT3D_grid.size, Gvec_partition.zcol,
      Gvec_partition.zfreq, Gvec_partition.zcol_offs, Function.update]
  · simp [FFT3D.z_load_parallel, forLoop, swapped_partition, sample_engine4, FFT3D.create,
      scenario_grid, FFT3D.grid, FFT3D_grid.coord_by_gvec, FFT3D_grid.size, Gvec_partition.zcol,
      Gvec_partition.zfreq, Gvec_partition.zcol_offs, Function.update]
  · simp [sample_coeffs, swapped_partition, Gvec_partition.zcol_offs]
  · simp [FFT3D.z_load, forLoop, swapped_partition, sample_engine4, FFT3D.create, scenario_grid,
      FFT3D.grid, FFT3D_grid.coord_by_gvec, FFT3D_grid.size, Gvec_partition.zcol,
      Gvec_partition.zfreq, Gvec_partition.zcol_offs, Function.update, sample_coeffs]
  · simp [FFT3D.z_load_parallel, forLoop, swapped_partition, sample_engine4, FFT3D.create,
      scenario_grid, FFT3D.grid, FFT3D_grid.coord_by_gvec, FFT3D_grid.size, Gvec_partition.zcol,
      Gvec_partition.zfreq, Gvec_partition.zcol_offs, Function.update, sample_coeffs]
  · simp [FFT3D.z_load, forLoop, swapped_partition, sample_engine4, FFT3D.create, scenario_grid,
      FFT3D.grid, FFT3D_grid.coord_by_gvec, FFT3D_grid.size, Gvec_partition.zcol,
      Gvec_partition.zfreq, Gvec_partition.zcol_offs, Function.update]

/-- C24, amended. Hermitian completion is applied to the column of index 0 only: in the
backward Column Stage under a reduced partition, for every partition and every column `i`,
the negative-frequency half of the scratch column is filled with conjugates of the loaded
coefficients if `i = 0` (global index 0 in the distributed stage), and the column is loaded
without completion if `i ≠ 0`.  On a partition whose column 0 is the `(0, 0)` column and that
has no other column at `(0, 0)`, column `i` is therefore completed if its `(x, y)` is `(0, 0)`
and loaded without completion otherwise; the same holds in the serial and the distributed
Column Stage. -/
theorem C24_completion_on_first_column (e : FFT3D ℂ) (gvec : Gvec_partition)
    (data b : ℕ → ℂ) :
    (∀ i,
      (i = 0 →
        e.z_load true gvec i data b =
          forLoop (gvec.zcol i).z.length
            (fun j c => Function.update c (e.grid.coord_by_gvec (-(gvec.zfreq i j)) 2).toNat
              (star (data (gvec.zcol_offs i + j)))) (e.z_load false gvec i data b) ∧
        e.z_load_parallel true gvec i data b =
          forLoop (gvec.zcol i).z.length
            (fun j c => Function.update c (e.grid.coord_by_gvec (-(gvec.zfreq i j)) 2).toNat
              (star (data (gvec.zcol_offs i + j)))) (e.z_load_parallel false gvec i data b)) ∧
      (i ≠ 0 →
        e.z_load true gvec i data b = e.z_load false gvec i data b ∧
        e.z_load_parallel true gvec i data b = e.z_load_parallel false gvec i data b)) ∧
    (((gvec.zcol 0).x = 0 ∧ (gvec.zcol 0).y = 0) →
      (∀ i, i < gvec.num_zcol → (gvec.zcol i).x = 0 → (gvec.zcol i).y = 0 → i = 0) →
      ∀ i, i < gvec.num_zcol →
        (((gvec.zcol i).x = 0 ∧ (gvec.zcol i).y = 0) →
          e.z_load true gvec i data b =
            forLoop (gvec.zcol i).z.length
              (fun j c => Function.update c (e.grid.coord_by_gvec (-(gvec.zfreq i j)) 2).toNat
                (star (data (gvec.zcol_offs i + j)))) (e.z_load false gvec i data b) ∧
          e.z_load_parallel true gvec i data b =
            forLoop (gvec.zcol i).z.length
              (fun j c => Function.update c (e.grid.coord_by_gvec (-(gvec.zfreq i j)) 2).toNat
                (star (data (gvec.zcol_offs i + j))))
              (e.z_load_parallel false gvec i data b)) ∧
        (¬((gvec.zcol i).x = 0 ∧ (gvec.zcol i).y = 0) →
          e.z_load true gvec i data b = e.z_load false gvec i data b ∧
          e.z_load_parallel true gvec i data b = e.z_load_parallel false gvec i data b)) := by
  have hidx : ∀ i,
      (i = 0 →
        e.z_load true gvec i data b =
          forLoop (gvec.zcol i).z.length
            (fun j c => Function.update c (e.grid.coord_by_gvec (-(gvec.zfreq i j)) 2).toNat
              (star (data (gvec.zcol_offs i + j)))) (e.z_load false gvec i data b) ∧
        e.z_load_parallel true gvec i data b =
          forLoop (gvec.zcol i).z.length
            (fun j c => Function.update c (e.grid.coord_by_gvec (-(gvec.zfreq i j)) 2).toNat
              (star (data (gvec.zcol_offs i + j)))) (e.z_load_parallel false gvec i data b)) ∧
      (i ≠ 0 →
        e.z_load true gvec i data b = e.z_load false gvec i data b ∧
        e.z_load_parallel true gvec i data b = e.z_load_parallel false gvec i data b) :=
    fun i =>
      ⟨fun h0 => ⟨(z_load_by_index e gvec i data b).1 h0,
          (z_load_parallel_by_index e gvec i data b).1 h0⟩,
        fun h0 => ⟨(z_load_by_index e gvec i data b).2 h0,
          (z_load_parallel_by_index e gvec i data b).2 h0⟩⟩
  refine ⟨hidx, fun hdc hu i hi => ⟨fun hxy => ?_, fun hxy => ?_⟩⟩
  · exact (hidx i).1 (hu i hi hxy.1 hxy.2)
  · exact (hidx i).2 (fun h => hxy (by rw [h]; exact hdc))

/-- Witness of C24, amended: the reduced sample partition on the 4 × 4 × 4 grid, whose column 0
is the only `(0, 0)` column; column 2, at `(0, 1)`, is loaded without completion. -/
theorem C24_completion_on_first_column_witness :
    (((sample_reduced_partition.zcol 0).x = 0 ∧ (sample_reduced_partition.zcol 0).y = 0) ∧
      (∀ i, i < sample_reduced_partition.num_zcol → (sample_reduced_partition.zcol i).x = 0 →
        (sample_reduced_partition.zcol i).y = 0 → i = 0) ∧
      ¬((sample_reduced_partition.zcol 2).x = 0 ∧ (sample_reduced_partition.zcol 2).y = 0)) ∧
    (sample_engine4 : FFT3D ℂ).z_load true sample_reduced_partition 2 sample_coeffs (fun _ => 0) =
      (sample_engine4 : FFT3D ℂ).z_load false sample_reduced_partition 2 sample_coeffs
        (fun _ => 0) :=
  ⟨⟨by decide, by decide, by decide⟩,
    (((C24_completion_on_first_column sample_engine4 sample_reduced_partition sample_coeffs
      (fun _ => 0)).2 (by decide) (by decide) 2 (by decide)).2 (by decide)).1⟩

/-- C25 fails as stated for column 0: on the 4 × 4 × 4 grid with the reduced sample partition,
whose column 0 is the `(0, 0)` column, and an auxiliary buffer filled with `i`, the
dense-plane scratch of plane 0 holds at `table(0, 1)`, which is `table(0, 0)`, the value `i`
of the column and not its conjugate `-i`. -/
theorem C25_dc_column_not_conjugated :
    (sample_reduced_partition.reduced = true ∧
      (sample_reduced_partition.zcol 0).x = 0 ∧ (sample_reduced_partition.zcol 0).y = 0 ∧
      ((sample_engine4 : FFT3D ℂ).prepare sample_reduced_partition).z_col_pos_.data 0 1 =
        ((sample_engine4 : FFT3D ℂ).prepare sample_reduced_partition).z_col_pos_.data 0 0) ∧
    ((sample_engine4 : FFT3D ℂ).prepare sample_reduced_partition).xy_load
        sample_reduced_partition.reduced sample_reduced_partition 0 (fun _ => Complex.I)
        (fill_zero (scenario_grid.size 0 * scenario_grid.size 1) (fun _ => 0))
        (((sample_engine4 : FFT3D ℂ).prepare sample_reduced_partition).z_col_pos_.data
          0 1).toNat = Complex.I ∧
    ((sample_engine4 : FFT3D ℂ).prepare sample_reduced_partition).xy_load
        sample_reduced_partition.reduced sample_reduced_partition 0 (fun _ => Complex.I)
        (fill_zero (scenario_grid.size 0 * scenario_grid.size 1) (fun _ => 0))
        (((sample_engine4 : FFT3D ℂ).prepare sample_reduced_partition).z_col_pos_.data
          0 1).toNat ≠
      star ((fun _ => Complex.I : ℕ → ℂ)
        (0 + 0 * ((sample_engine4 : FFT3D ℂ).prepare sample_reduced_partition).local_size_z_)) := by
  have h01 : ((sample_engine4 : FFT3D ℂ).prepare sample_reduced_partition).z_col_pos_.data 0 1 =
      ((sample_engine4 : FFT3D ℂ).prepare sample_reduced_partition).z_col_pos_.data 0 0 := by
    decide
  have hv := (xy_load_reduced_at ((sample_engine4 : FFT3D ℂ).prepare sample_reduced_partition)
    sample_reduced_partition 0 (fun _ => Complex.I)
    (fill_zero (scenario_grid.size 0 * scenario_grid.size 1) (fun _ => 0))
    (by decide) (by decide) (by decide)).1 0 (by decide)
  have hv' : ((sample_engine4 : FFT3D ℂ).prepare sample_reduced_partition).xy_load
      sample_reduced_partition.reduced sample_reduced_partition 0 (fun _ => Complex.I)
      (fill_zero (scenario_grid.size 0 * scenario_grid.size 1) (fun _ => 0))
      (((sample_engine4 : FFT3D ℂ).prepare sample_reduced_partition).z_col_pos_.data
        0 1).toNat = Complex.I := by
    rw [h01]
    exact hv
  refine ⟨⟨rfl, rfl, rfl, h01⟩, hv', ?_⟩
  rw [hv']
  intro h
  have h2 : Complex.I = -Complex.I := by simpa using h
  have h3 : (2 : ℂ) * Complex.I = 0 := by linear_combination h2
  simp at h3

/-- C25, amended. Backward Plane Stage loading under a reduced partition: for every local
z-plane `iz`, with the columns at pairwise distinct table positions, just before the 2-D
inverse transform the dense-plane scratch holds for every column `i` the column's value
`aux[iz + i * localSizeZ]` at `table(i, 0)`, for every column `i` other than column 0 the
complex conjugate of that value at `table(i, 1)`, and zero at every position of the plane
that is neither `table(i, 0)` of a column nor `table(i, 1)` of a column other than column 0.
For column 0 no conjugate is written: where `table(0, 1) = table(0, 0)`, as for the `(0, 0)`
column, that position holds the value itself. -/
theorem C25_plane_loading_reduced (e : FFT3D ℂ) (gvec : Gvec_partition) (iz : ℕ)
    (aux b : ℕ → ℂ) (hr : gvec.reduced = true)
    (hpos0 : ∀ i, i < gvec.num_zcol → ∀ l, l < gvec.num_zcol →
      (e.z_col_pos_.data i 0).toNat = (e.z_col_pos_.data l 0).toNat → i = l)
    (hpos1 : ∀ i, i < gvec.num_zcol → ∀ l, l < gvec.num_zcol → i ≠ 0 → l ≠ 0 →
      (e.z_col_pos_.data i 1).toNat = (e.z_col_pos_.data l 1).toNat → i = l)
    (hpos01 : ∀ i, i < gvec.num_zcol → ∀ l, l < gvec.num_zcol → l ≠ 0 →
      (e.z_col_pos_.data l 1).toNat ≠ (e.z_col_pos_.data i 0).toNat) :
    (∀ i, i < gvec.num_zcol →
      e.xy_load gvec.reduced gvec iz aux (fill_zero (e.grid_.size 0 * e.grid_.size 1) b)
          (e.z_col_pos_.data i 0).toNat = aux (iz + i * e.local_size_z_)) ∧
    (∀ i, i < gvec.num_zcol → i ≠ 0 →
      e.xy_load gvec.reduced gvec iz aux (fill_zero (e.grid_.size 0 * e.grid_.size 1) b)
          (e.z_col_pos_.data i 1).toNat = star (aux (iz + i * e.local_size_z_))) ∧
    (0 < gvec.num_zcol → e.z_col_pos_.data 0 1 = e.z_col_pos_.data 0 0 →
      e.xy_load gvec.reduced gvec iz aux (fill_zero (e.grid_.size 0 * e.grid_.size 1) b)
          (e.z_col_pos_.data 0 1).toNat = aux (iz + 0 * e.local_size_z_)) ∧
    (∀ p, p < e.grid_.size 0 * e.grid_.size 1 →
      (∀ i, i < gvec.num_zcol →
        (e.z_col_pos_.data i 0).toNat ≠ p ∧ (i ≠ 0 → (e.z_col_pos_.data i 1).toNat ≠ p)) →
      e.xy_load gvec.reduced gvec iz aux (fill_zero (e.grid_.size 0 * e.grid_.size 1) b) p =
        0) := by
  rw [hr]
  obtain ⟨k0, k1, k2⟩ := xy_load_reduced_at e gvec iz aux
    (fill_zero (e.grid_.size 0 * e.grid_.size 1) b) hpos0 hpos1 hpos01
  refine ⟨k0, k1, fun hn h01 => ?_, fun p hp hne => ?_⟩
  · rw [h01]
    exact k0 0 hn
  · rw [k2 p hne]
    exact fill_zero_inside _ _ _ hp

/-- Witness of C25, amended: the reduced sample partition on the 4 × 4 × 4 grid; column 1, at
`(1, 0)`, has its conjugate at `table(1, 1)`. -/
theorem C25_plane_loading_reduced_witness :
    (sample_reduced_partition.reduced = true ∧
      (1 : ℕ) < sample_reduced_partition.num_zcol) ∧
    ((sample_engine4 : FFT3D ℂ).prepare sample_reduced_partition).xy_load
        sample_reduced_partition.reduced sample_reduced_partition 2 sample_coeffs
        (fill_zero
          (((sample_engine4 : FFT3D ℂ).prepare sample_reduced_partition).grid_.size 0 *
            ((sample_engine4 : FFT3D ℂ).prepare sample_reduced_partition).grid_.size 1)
          (fun _ => 7))
        (((sample_engine4 : FFT3D ℂ).prepare sample_reduced_partition).z_col_pos_.data
          1 1).toNat =
      star ((sample_coeffs : ℕ → ℂ)
        (2 + 1 * ((sample_engine4 : FFT3D ℂ).prepare sample_reduced_partition).local_size_z_)) :=
  ⟨⟨rfl, by decide⟩,
    (C25_plane_loading_reduced ((sample_engine4 : FFT3D ℂ).prepare sample_reduced_partition)
      sample_reduced_partition 2 sample_coeffs (fun _ => 7) rfl (by decide) (by decide)
      (by decide)).2.1 1 (by decide) (by decide)⟩

section RadialIndex

/-- The constructor succeeds on non-negative arguments. -/
theorem descriptor_create_ok (l order : ℕ) (idxlo : ℤ) :
    radial_function_index_descriptor.create (l : ℤ) (order : ℤ) idxlo =
      Except.ok ⟨l, order, idxlo⟩ := by
  unfold radial_function_index_descriptor.create
  rw [if_neg (by omega), if_neg (by omega), Int.toNat_natCast, Int.toNat_natCast]

theorem push_aw_eq (l : ℕ) (r : radial_functions_index) :
    r.push_aw l =
      Except.ok
        { r with
          radial_function_index_descriptors_ :=
            r.radial_function_index_descriptors_ ++ [⟨l, r.num_rf_ l, -1⟩]
          num_rf_ := Function.update r.num_rf_ l (r.num_rf_ l + 1) } := by
  unfold radial_functions_index.push_aw
  rw [descriptor_create_ok]
  rfl

theorem push_lo_eq (lo : List local_orbital_descriptor) (idxlo : ℕ) (r : radial_functions_index)
    (h : 0 ≤ (lo.getD idxlo ⟨0⟩).l) :
    r.push_lo lo idxlo =
      Except.ok
        { r with
          radial_function_index_descriptors_ :=
            r.radial_function_index_descriptors_ ++
              [⟨(lo.getD idxlo ⟨0⟩).l.toNat, r.num_rf_ (lo.getD idxlo ⟨0⟩).l.toNat, (idxlo : ℤ)⟩]
          num_rf_ := Function.update r.num_rf_ (lo.getD idxlo ⟨0⟩).l.toNat
            (r.num_rf_ (lo.getD idxlo ⟨0⟩).l.toNat + 1)
          num_lo_ := Function.update r.num_lo_ (lo.getD idxlo ⟨0⟩).l.toNat
            (r.num_lo_ (lo.getD idxlo ⟨0⟩).l.toNat + 1) } := by
  unfold radial_functions_index.push_lo
  have hl : (lo.getD idxlo ⟨0⟩).l = (((lo.getD idxlo ⟨0⟩).l.toNat : ℕ) : ℤ) :=
    (Int.toNat_of_nonneg h).symm
  dsimp only
  rw [show radial_function_index_descriptor.create (lo.getD idxlo ⟨0⟩).l
      ((r.num_rf_ (lo.getD idxlo ⟨0⟩).l.toNat : ℕ) : ℤ) (idxlo : ℤ) =
      Except.ok ⟨(lo.getD idxlo ⟨0⟩).l.toNat, r.num_rf_ (lo.getD idxlo ⟨0⟩).l.toNat, (idxlo : ℤ)⟩
    from by
      conv_lhs => rw [hl]
      rw [descriptor_create_ok, Int.toNat_natCast]]
  rfl

/-- Appending the descriptor `(l, num_rf[l])` and incrementing `num_rf[l]` keeps, for every
`l`, the orders of the descriptors with this `l` equal to `0, …, num_rf[l] - 1` in index
order. -/
theorem orders_push (ds : List radial_function_index_descriptor) (nr : ℕ → ℕ) (l : ℕ) (x : ℤ)
    (h : ∀ l', (ds.filter (fun d => decide (d.l = l'))).map (fun d => d.order) =
      List.range (nr l')) :
    ∀ l', ((ds ++ [(⟨l, nr l, x⟩ : radial_function_index_descriptor)]).filter (fun d => decide (d.l = l'))).map (fun d => d.order) =
      List.range (Function.update nr l (nr l + 1) l') := by
  intro l'
  rw [List.filter_append, List.map_append, h l']
  by_cases hl : l = l'
  · subst hl
    rw [Function.update_same, List.range_succ]
    simp
  · rw [Function.update_noteq (Ne.symm hl)]
    simp [hl]

/-- The loop over the functions of one `l` of the augmented-wave part. -/
theorem push_aw_loop (l n : ℕ) (r : radial_functions_index) :
    ∃ ds nr,
      forLoopE n (fun _ r => r.push_aw l) r =
        Except.ok { r with
          radial_function_index_descriptors_ := r.radial_function_index_descriptors_ ++ ds
          num_rf_ := nr } ∧
      ds.map (fun d => (d.l, d.idxlo)) = List.replicate n (l, (-1 : ℤ)) ∧
      ((∀ l', (r.radial_function_index_descriptors_.filter (fun d => decide (d.l = l'))).map
          (fun d => d.order) = List.range (r.num_rf_ l')) →
        ∀ l', ((r.radial_function_index_descriptors_ ++ ds).filter
          (fun d => decide (d.l = l'))).map (fun d => d.order) = List.range (nr l')) := by
  induction n with
  | zero =>
    refine ⟨[], r.num_rf_, ?_, rfl, fun h => ?_⟩
    · show Except.ok r = _
      rw [List.append_nil]
    · rw [List.append_nil]
      exact h
  | succ m ih =>
    obtain ⟨ds, nr, h1, h2, h3⟩ := ih
    refine ⟨ds ++ [⟨l, nr l, -1⟩], Function.update nr l (nr l + 1), ?_, ?_, fun h => ?_⟩
    · rw [forLoopE_succ, h1]
      show radial_functions_index.push_aw l _ = _
      rw [push_aw_eq]
      show Except.ok _ = Except.ok _
      congr 1
      show ({ r with
        radial_function_index_descriptors_ :=
          (r.radial_function_index_descriptors_ ++ ds) ++ [⟨l, nr l, -1⟩]
        num_rf_ := Function.update nr l (nr l + 1) } : radial_functions_index) = _
      rw [List.append_assoc]
    · rw [List.map_append, h2, List.replicate_succ']
      rfl
    · rw [← List.append_assoc]
      exact orders_push _ nr l (-1) (h3 h)

/-- The loop over `l` of the augmented-wave part. -/
theorem aw_loop (aw : List ℕ) (haw : ∀ l, l < aw.length → aw.getD l 0 ≤ 3) (m : ℕ)
    (hm : m ≤ aw.length) (r : radial_functions_index) :
    ∃ ds nr,
      forLoopE m
        (fun l r =>
          if aw.getD l 0 > 3 then
            Except.error "assertion aw_descriptors[l].size() <= 3 failed"
          else forLoopE (aw.getD l 0) (fun _ r => r.push_aw l) r) r =
        Except.ok { r with
          radial_function_index_descriptors_ := r.radial_function_index_descriptors_ ++ ds
          num_rf_ := nr } ∧
      ds.map (fun d => (d.l, d.idxlo)) =
        (List.range m).flatMap (fun l => List.replicate (aw.getD l 0) (l, (-1 : ℤ))) ∧
      ((∀ l', (r.radial_function_index_descriptors_.filter (fun d => decide (d.l = l'))).map
          (fun d => d.order) = List.range (r.num_rf_ l')) →
        ∀ l', ((r.radial_function_index_descriptors_ ++ ds).filter
          (fun d => decide (d.l = l'))).map (fun d => d.order) = List.range (nr l')) := by
  induction m with
  | zero =>
    refine ⟨[], r.num_rf_, ?_, rfl, fun h => ?_⟩
    · show Except.ok r = _
      rw [List.append_nil]
    · rw [List.append_nil]
      exact h
  | succ k ih =>
    obtain ⟨ds, nr, h1, h2, h3⟩ := ih (Nat.le_of_succ_le hm)
    obtain ⟨ds', nr', g1, g2, g3⟩ := push_aw_loop k (aw.getD k 0)
      { r with
        radial_function_index_descriptors_ := r.radial_function_index_descriptors_ ++ ds
        num_rf_ := nr }
    refine ⟨ds ++ ds', nr', ?_, ?_, fun h => ?_⟩
    · rw [forLoopE_succ, h1]
      show (if aw.getD k 0 > 3 then _ else _) = _
      rw [if_neg (by have := haw k (by omega); omega), g1]
      show Except.ok _ = Except.ok _
      congr 1
      show ({ r with
        radial_function_index_descriptors_ :=
          (r.radial_function_index_descriptors_ ++ ds) ++ ds'
        num_rf_ := nr' } : radial_functions_index) = _
      rw [List.append_assoc]
    · rw [List.map_append, h2, g2, List.range_succ, List.flatMap_append]
      simp
    · rw [← List.append_assoc]
      exact g3 (h3 h)

/-- The loop over the local orbitals. -/
theorem lo_loop (lo : List local_orbital_descriptor)
    (hlo : ∀ k, k < lo.length → 0 ≤ (lo.getD k ⟨0⟩).l) (m : ℕ) (hm : m ≤ lo.length)
    (r : radial_functions_index) :
    ∃ ds nr nl,
      forLoopE m (fun idxlo r => r.push_lo lo idxlo) r =
        Except.ok { r with
          radial_function_index_descriptors_ := r.radial_function_index_descriptors_ ++ ds
          num_rf_ := nr
          num_lo_ := nl } ∧
      ds.map (fun d => (d.l, d.idxlo)) =
        (List.range m).map (fun k => ((lo.getD k ⟨0⟩).l.toNat, (k : ℤ))) ∧
      ((∀ l', (r.radial_function_index_descriptors_.filter (fun d => decide (d.l = l'))).map
          (fun d => d.order) = List.range (r.num_rf_ l')) →
        ∀ l', ((r.radial_function_index_descriptors_ ++ ds).filter
          (fun d => decide (d.l = l'))).map (fun d => d.order) = List.range (nr l')) := by
  induction m with
  | zero =>
    refine ⟨[], r.num_rf_, r.num_lo_, ?_, rfl, fun h => ?_⟩
    · show Except.ok r = _
      rw [List.append_nil]
    · rw [List.append_nil]
      exact h
  | succ k ih =>
    obtain ⟨ds, nr, nl, h1, h2, h3⟩ := ih (Nat.le_of_succ_le hm)
    refine ⟨ds ++ [⟨(lo.getD k ⟨0⟩).l.toNat, nr (lo.getD k ⟨0⟩).l.toNat, (k : ℤ)⟩],
      Function.update nr (lo.getD k ⟨0⟩).l.toNat (nr (lo.getD k ⟨0⟩).l.toNat + 1),
      Function.update nl (lo.getD k ⟨0⟩).l.toNat (nl (lo.getD k ⟨0⟩).l.toNat + 1), ?_, ?_,
      fun h => ?_⟩
    · rw [forLoopE_succ, h1]
      show radial_functions_index.push_lo lo k _ = _
      rw [push_lo_eq lo k _ (hlo k (by omega))]
      show Except.ok _ = Except.ok _
      congr 1
      show ({ r with
        radial_function_index_descriptors_ :=
          (r.radial_function_index_descriptors_ ++ ds) ++
            [⟨(lo.getD k ⟨0⟩).l.toNat, nr (lo.getD k ⟨0⟩).l.toNat, (k : ℤ)⟩]
        num_rf_ := Function.update nr (lo.getD k ⟨0⟩).l.toNat (nr (lo.getD k ⟨0⟩).l.toNat + 1)
        num_lo_ := Function.update nl (lo.getD k ⟨0⟩).l.toNat
          (nl (lo.getD k ⟨0⟩).l.toNat + 1) } : radial_functions_index) = _
      rw [List.append_assoc]
    · rw [List.map_append, h2, List.range_succ, List.map_append]
      rfl
    · rw [← List.append_assoc]
      exact orders_push _ nr _ _ (h3 h)

end RadialIndex

section RadialIndexTables

theorem except_ok_bind {α β : Type} (a : α) (f : α → Except String β) :
    (Except.ok a : Except String α).bind f = f a := rfl

/-- The last loop of `init` writes the index arrays only; the table `index_by_l_order_` is
the result of the scatter loop over the descriptors. -/
theorem fill_loop (m : ℕ) (r : radial_functions_index) :
    ∃ t1, forLoop m (fun i r => r.fill_index i) r =
      { r with
        index_by_l_order_ :=
          forLoop m
            (fun i t =>
              Function.update t (r.radial_function_index_descriptors_.getD i ⟨0, 0, -1⟩).l
                (Function.update (t (r.radial_function_index_descriptors_.getD i ⟨0, 0, -1⟩).l)
                  (r.radial_function_index_descriptors_.getD i ⟨0, 0, -1⟩).order (i : ℤ)))
            r.index_by_l_order_
        index_by_idxlo_ := t1 } := by
  induction m with
  | zero => exact ⟨r.index_by_idxlo_, rfl⟩
  | succ k ih =>
    obtain ⟨t1, h⟩ := ih
    rw [forLoop_succ, h]
    exact ⟨_, rfl⟩

/-- With pairwise distinct keys `(l, order)` every iteration of the scatter loop into the
two-dimensional table survives. -/
theorem forLoop_update2_of_inj (n : ℕ) (kl ko : ℕ → ℕ) (t : ℕ → ℕ → ℤ)
    (hinj : ∀ i, i < n → ∀ j, j < n → kl i = kl j → ko i = ko j → i = j) (i : ℕ) (hi : i < n) :
    forLoop n
      (fun i t => Function.update t (kl i) (Function.update (t (kl i)) (ko i) (i : ℤ))) t
      (kl i) (ko i) = (i : ℤ) := by
  induction n with
  | zero => exact absurd hi (Nat.not_lt_zero i)
  | succ m ih =>
    rw [forLoop_succ]
    rcases Nat.lt_succ_iff_lt_or_eq.mp hi with hlt | heq
    · have ih' := ih (fun a ha b hb => hinj a (Nat.lt_succ_of_lt ha) b (Nat.lt_succ_of_lt hb)) hlt
      by_cases h1 : kl i = kl m
      · have h2 : ko i ≠ ko m := fun h =>
          absurd (hinj i hi m (Nat.lt_succ_self m) h1 h) (Nat.ne_of_lt hlt)
        rw [← h1, Function.update_same, Function.update_noteq h2]
        exact ih'
      · beta_reduce
        rw [Function.update_noteq h1]
        exact ih'
    · subst heq
      rw [Function.update_same, Function.update_same]

/-- If for every `l` the orders of the descriptors with this `l` are `0, 1, …` in index
order, two different descriptors differ in `l` or in the order. -/
theorem orders_distinct (ds : List radial_function_index_descriptor) (nr : ℕ → ℕ)
    (h : ∀ l', (ds.filter (fun d => decide (d.l = l'))).map (fun d => d.order) =
      List.range (nr l'))
    (i j : ℕ) (hi : i < ds.length) (hj : j < ds.length)
    (hl : (ds.getD i ⟨0, 0, -1⟩).l = (ds.getD j ⟨0, 0, -1⟩).l)
    (ho : (ds.getD i ⟨0, 0, -1⟩).order = (ds.getD j ⟨0, 0, -1⟩).order) : i = j := by
  rw [List.getD_eq_getElem ds _ hi, List.getD_eq_getElem ds _ hj] at hl ho
  have hnd : ((ds.filter (fun d => decide (d.l = ds[i].l))).map (fun d => d.order)).Nodup := by
    rw [h]
    exact List.nodup_range _
  unfold List.Nodup at hnd
  rw [List.pairwise_map, List.pairwise_filter, List.pairwise_iff_getElem] at hnd
  rcases lt_trichotomy i j with hlt | heq | hgt
  · exact absurd ho (hnd i j hi hj hlt rfl hl.symm)
  · exact heq
  · exact absurd ho.symm (hnd j i hj hi hgt hl.symm rfl)

/-- The numbers of descriptors per `l` add up to the number of descriptors. -/
theorem sum_count_by_l (ds : List radial_function_index_descriptor) (M : ℕ)
    (h : ∀ d, d ∈ ds → d.l < M) :
    ∑ l ∈ Finset.range M, (ds.filter (fun d => decide (d.l = l))).length = ds.length := by
  induction ds with
  | nil => simp
  | cons d ds ih =>
    have hstep : ∀ l, ((d :: ds).filter (fun d => decide (d.l = l))).length =
        (ds.filter (fun d => decide (d.l = l))).length + (if d.l = l then 1 else 0) := by
      intro l
      by_cases hdl : d.l = l <;> simp [List.filter_cons, hdl]
    simp only [hstep]
    rw [Finset.sum_add_distrib, ih (fun x hx => h x (List.mem_cons_of_mem d hx)),
      Finset.sum_ite_eq, if_pos (Finset.mem_range.mpr (h d (List.mem_cons_self d ds))),
      List.length_cons]

/-- `lmax_lo_` is at least the `l` of every local orbital. -/
theorem lmax_lo_ge (lo : List local_orbital_descriptor) (m k : ℕ) (hk : k < m) :
    (lo.getD k ⟨0⟩).l ≤
      forLoop m (fun idxlo a => max a (lo.getD idxlo ⟨0⟩).l) (-1 : ℤ) := by
  induction m with
  | zero => exact absurd hk (Nat.not_lt_zero k)
  | succ n ih =>
    rw [forLoop_succ]
    rcases Nat.lt_succ_iff_lt_or_eq.mp hk with hlt | heq
    · exact le_trans (ih hlt) (le_max_left _ _)
    · subst heq
      exact le_max_right _ _

theorem length_flatMap_range {α : Type} (f : ℕ → List α) (m : ℕ) :
    ((List.range m).flatMap f).length = ∑ l ∈ Finset.range m, (f l).length := by
  induction m with
  | zero => rfl
  | succ n ih =>
    rw [List.range_succ, List.flatMap_append, List.length_append, ih, Finset.sum_range_succ]
    simp

/-- What `init` returns: the descriptors in the order augmented waves by `l`, then local
orbitals; the counters; the scattered table. -/
theorem init_spec (aw : List ℕ) (lo : List local_orbital_descriptor) (mem2 : ℕ → ℕ → ℤ)
    (mem1 : ℕ → ℤ) (haw : ∀ l, l < aw.length → aw.getD l 0 ≤ 3)
    (hlo : ∀ k, k < lo.length → 0 ≤ (lo.getD k ⟨0⟩).l) :
    ∃ ds nr nl t1 mx,
      radial_functions_index.init aw lo mem2 mem1 =
        Except.ok
          ⟨ds,
            forLoop ds.length
              (fun i t =>
                Function.update t (ds.getD i ⟨0, 0, -1⟩).l
                  (Function.update (t (ds.getD i ⟨0, 0, -1⟩).l)
                    (ds.getD i ⟨0, 0, -1⟩).order (i : ℤ))) mem2,
            t1, nr, nl, mx, (aw.length : ℤ) - 1,
            forLoop lo.length (fun idxlo a => max a (lo.getD idxlo ⟨0⟩).l) (-1 : ℤ),
            max ((aw.length : ℤ) - 1)
              (forLoop lo.length (fun idxlo a => max a (lo.getD idxlo ⟨0⟩).l) (-1 : ℤ))⟩ ∧
      ds.map (fun d => (d.l, d.idxlo)) =
        (List.range aw.length).flatMap (fun l => List.replicate (aw.getD l 0) (l, (-1 : ℤ))) ++
          (List.range lo.length).map (fun k => ((lo.getD k ⟨0⟩).l.toNat, (k : ℤ))) ∧
      ∀ l', (ds.filter (fun d => decide (d.l = l'))).map (fun d => d.order) =
        List.range (nr l') := by
  obtain ⟨ds1, nr1, h1, h2, h3⟩ := aw_loop aw haw aw.length (le_refl _)
    ⟨[], mem2, mem1, fun _ => 0, fun _ => 0, 0, (aw.length : ℤ) - 1,
      forLoop lo.length (fun idxlo a => max a (lo.getD idxlo ⟨0⟩).l) (-1 : ℤ),
      max ((aw.length : ℤ) - 1)
        (forLoop lo.length (fun idxlo a => max a (lo.getD idxlo ⟨0⟩).l) (-1 : ℤ))⟩
  obtain ⟨ds2, nr2, nl2, g1, g2, g3⟩ := lo_loop lo hlo lo.length (le_refl _)
    ⟨[] ++ ds1, mem2, mem1, nr1, fun _ => 0, 0, (aw.length : ℤ) - 1,
      forLoop lo.length (fun idxlo a => max a (lo.getD idxlo ⟨0⟩).l) (-1 : ℤ),
      max ((aw.length : ℤ) - 1)
        (forLoop lo.length (fun idxlo a => max a (lo.getD idxlo ⟨0⟩).l) (-1 : ℤ))⟩
  obtain ⟨t1, hf⟩ := fill_loop (([] ++ ds1) ++ ds2).length
    ⟨([] ++ ds1) ++ ds2, mem2, mem1, nr2, nl2,
      forLoop (max ((aw.length : ℤ) - 1)
        (forLoop lo.length (fun idxlo a => max a (lo.getD idxlo ⟨0⟩).l) (-1 : ℤ)) + 1).toNat
        (fun l m => max m (nr2 l)) 0,
      (aw.length : ℤ) - 1,
      forLoop lo.length (fun idxlo a => max a (lo.getD idxlo ⟨0⟩).l) (-1 : ℤ),
      max ((aw.length : ℤ) - 1)
        (forLoop lo.length (fun idxlo a => max a (lo.getD idxlo ⟨0⟩).l) (-1 : ℤ))⟩
  refine ⟨([] ++ ds1) ++ ds2, nr2, nl2, t1,
    forLoop (max ((aw.length : ℤ) - 1)
      (forLoop lo.length (fun idxlo a => max a (lo.getD idxlo ⟨0⟩).l) (-1 : ℤ)) + 1).toNat
      (fun l m => max m (nr2 l)) 0, ?_, ?_, ?_⟩
  · have h1' : forLoopE aw.length
        (fun l r =>
          if aw.getD l 0 > 3 then
            Except.error "assertion aw_descriptors[l].size() <= 3 failed"
          else forLoopE (aw.getD l 0) (fun _ r => r.push_aw l) r)
        (⟨[], mem2, mem1, fun _ => 0, fun _ => 0, 0, (aw.length : ℤ) - 1,
          forLoop lo.length (fun idxlo a => max a (lo.getD idxlo ⟨0⟩).l) (-1 : ℤ),
          max ((aw.length : ℤ) - 1)
            (forLoop lo.length (fun idxlo a => max a (lo.getD idxlo ⟨0⟩).l) (-1 : ℤ))⟩ :
          radial_functions_index) =
        Except.ok ⟨[] ++ ds1, mem2, mem1, nr1, fun _ => 0, 0, (aw.length : ℤ) - 1,
          forLoop lo.length (fun idxlo a => max a (lo.getD idxlo ⟨0⟩).l) (-1 : ℤ),
          max ((aw.length : ℤ) - 1)
            (forLoop lo.length (fun idxlo a => max a (lo.getD idxlo ⟨0⟩).l) (-1 : ℤ))⟩ := h1
    have g1' : forLoopE lo.length (fun idxlo r => r.push_lo lo idxlo)
        (⟨[] ++ ds1, mem2, mem1, nr1, fun _ => 0, 0, (aw.length : ℤ) - 1,
          forLoop lo.length (fun idxlo a => max a (lo.getD idxlo ⟨0⟩).l) (-1 : ℤ),
          max ((aw.length : ℤ) - 1)
            (forLoop lo.length (fun idxlo a => max a (lo.getD idxlo ⟨0⟩).l) (-1 : ℤ))⟩ :
          radial_functions_index) =
        Except.ok ⟨([] ++ ds1) ++ ds2, mem2, mem1, nr2, nl2, 0, (aw.length : ℤ) - 1,
          forLoop lo.length (fun idxlo a => max a (lo.getD idxlo ⟨0⟩).l) (-1 : ℤ),
          max ((aw.length : ℤ) - 1)
            (forLoop lo.length (fun idxlo a => max a (lo.getD idxlo ⟨0⟩).l) (-1 : ℤ))⟩ := g1
    unfold radial_functions_index.init
    dsimp only
    rw [h1', except_ok_bind, g1', except_ok_bind]
    exact congrArg Except.ok hf
  · rw [List.map_append, List.map_append, g2, h2]
    rfl
  · have e0 : ∀ l', (([] : List radial_function_index_descriptor).filter
        (fun d => decide (d.l = l'))).map (fun d => d.order) = List.range ((fun _ => 0) l') :=
      fun _ => rfl
    exact g3 (h3 e0)

end RadialIndexTables

/-- C27. `radial_functions_index` is a bijective index mapping.  If the assertions of `init`
hold (at most three augmented-wave functions per `l`, every local-orbital `l ≥ 0`), then
`init(aw_descriptors, lo_descriptors)` returns, and afterwards: the descriptors are, in index
order, those of the augmented waves by `l` (with `idxlo = -1`) followed by those of the local
orbitals in list order (with `idxlo` their position); for every composite index `i` in
`[0, size())`, `index_by_l_order(desc[i].l, desc[i].order) = i`; for every `l` in
`[0, lmax]` the orders of the descriptors with that `l` are, in index order, exactly
`0, …, num_rf(l) - 1`; distinct indices have distinct `(l, order)`; and `size()` is the sum
over `l` of `num_rf(l)`, which is the total number of augmented-wave descriptors plus the
number of local orbitals. -/
theorem C27_radial_functions_index_bijective (aw_descriptors : List ℕ)
    (lo_descriptors : List local_orbital_descriptor) (mem2 : ℕ → ℕ → ℤ) (mem1 : ℕ → ℤ)
    (haw : ∀ l, l < aw_descriptors.length → aw_descriptors.getD l 0 ≤ 3)
    (hlo : ∀ k, k < lo_descriptors.length → 0 ≤ (lo_descriptors.getD k ⟨0⟩).l) :
    ∃ r, radial_functions_index.init aw_descriptors lo_descriptors mem2 mem1 = Except.ok r ∧
      r.radial_function_index_descriptors_.map (fun d => (d.l, d.idxlo)) =
        (List.range aw_descriptors.length).flatMap
            (fun l => List.replicate (aw_descriptors.getD l 0) (l, (-1 : ℤ))) ++
          (List.range lo_descriptors.length).map
            (fun k => ((lo_descriptors.getD k ⟨0⟩).l.toNat, (k : ℤ))) ∧
      (∀ i : ℕ, i < r.size →
        ∃ d, r.get (i : ℤ) = Except.ok d ∧ r.index_by_l_order d.l d.order = (i : ℤ)) ∧
      (∀ l : ℕ, (l : ℤ) ≤ r.lmax_ →
        r.num_rf (l : ℤ) = Except.ok (r.num_rf_ l) ∧
        (r.radial_function_index_descriptors_.filter (fun d => decide (d.l = l))).map
          (fun d => d.order) = List.range (r.num_rf_ l)) ∧
      (∀ i j : ℕ, i < r.size → j < r.size → ∀ di dj,
        r.get (i : ℤ) = Except.ok di → r.get (j : ℤ) = Except.ok dj →
        di.l = dj.l → di.order = dj.order → i = j) ∧
      r.size = ∑ l ∈ Finset.range (r.lmax_ + 1).toNat, r.num_rf_ l ∧
      r.size = ∑ l ∈ Finset.range aw_descriptors.length, aw_descriptors.getD l 0 +
        lo_descriptors.length := by
  obtain ⟨ds, nr, nl, t1, mx, hinit, hseq, hord⟩ :=
    init_spec aw_descriptors lo_descriptors mem2 mem1 haw hlo
  have hget : ∀ i : ℕ, i < ds.length →
      radial_functions_index.get
        ⟨ds,
          forLoop ds.length
            (fun i t =>
              Function.update t (ds.getD i ⟨0, 0, -1⟩).l
                (Function.update (t (ds.getD i ⟨0, 0, -1⟩).l)
                  (ds.getD i ⟨0, 0, -1⟩).order (i : ℤ))) mem2,
          t1, nr, nl, mx, (aw_descriptors.length : ℤ) - 1,
          forLoop lo_descriptors.length
            (fun idxlo a => max a (lo_descriptors.getD idxlo ⟨0⟩).l) (-1 : ℤ),
          max ((aw_descriptors.length : ℤ) - 1)
            (forLoop lo_descriptors.length
              (fun idxlo a => max a (lo_descriptors.getD idxlo ⟨0⟩).l) (-1 : ℤ))⟩ (i : ℤ) =
        Except.ok (ds.getD i ⟨0, 0, -1⟩) := by
    intro i hi
    unfold radial_functions_index.get
    rw [if_pos ⟨Int.natCast_nonneg i, by exact_mod_cast hi⟩, Int.toNat_natCast]
  have hdist := orders_distinct ds nr hord
  refine ⟨_, hinit, hseq, fun i hi => ⟨ds.getD i ⟨0, 0, -1⟩, hget i hi, ?_⟩, fun l hl => ⟨?_, hord l⟩,
    fun i j hi hj di dj hgi hgj hl ho => ?_, ?_, ?_⟩
  · exact forLoop_update2_of_inj ds.length (fun i => (ds.getD i ⟨0, 0, -1⟩).l)
      (fun i => (ds.getD i ⟨0, 0, -1⟩).order) mem2
      (fun a ha b hb h1 h2 => hdist a b ha hb h1 h2) i hi
  · unfold radial_functions_index.num_rf
    rw [if_pos ⟨Int.natCast_nonneg l, Int.lt_add_one_iff.mpr hl⟩, Int.toNat_natCast]
  · rw [hget i hi] at hgi
    rw [hget j hj] at hgj
    have e1 := Except.ok.inj hgi
    have e2 := Except.ok.inj hgj
    subst e1
    subst e2
    exact hdist i j hi hj hl ho
  · have hlen : ∀ l, nr l = (ds.filter (fun d => decide (d.l = l))).length := by
      intro l
      have := congrArg List.length (hord l)
      rw [List.length_map, List.length_range] at this
      exact this.symm
    have hb : ∀ d, d ∈ ds → d.l <
        (max ((aw_descriptors.length : ℤ) - 1)
          (forLoop lo_descriptors.length
            (fun idxlo a => max a (lo_descriptors.getD idxlo ⟨0⟩).l) (-1 : ℤ)) + 1).toNat := by
      intro d hd
      have hmem : (d.l, d.idxlo) ∈ ds.map (fun d => (d.l, d.idxlo)) :=
        List.mem_map_of_mem (fun d => (d.l, d.idxlo)) hd
      rw [hseq, List.mem_append] at hmem
      rw [Int.lt_toNat]
      rcases hmem with h1 | h2
      · obtain ⟨l, hlr, hrep⟩ := List.mem_flatMap.mp h1
        have heq := List.eq_of_mem_replicate hrep
        have hdl : d.l = l := congrArg Prod.fst heq
        have hl := List.mem_range.mp hlr
        have := le_max_left ((aw_descriptors.length : ℤ) - 1)
          (forLoop lo_descriptors.length
            (fun idxlo a => max a (lo_descriptors.getD idxlo ⟨0⟩).l) (-1 : ℤ))
        omega
      · obtain ⟨k, hkr, hk⟩ := List.mem_map.mp h2
        have hdl : (lo_descriptors.getD k ⟨0⟩).l.toNat = d.l := congrArg Prod.fst hk
        have hk' := List.mem_range.mp hkr
        have h0 := hlo k hk'
        have h1 := lmax_lo_ge lo_descriptors lo_descriptors.length k hk'
        have h2 := le_max_right ((aw_descriptors.length : ℤ) - 1)
          (forLoop lo_descriptors.length
            (fun idxlo a => max a (lo_descriptors.getD idxlo ⟨0⟩).l) (-1 : ℤ))
        omega
    show ds.length = ∑ l ∈ Finset.range _, nr l
    rw [Finset.sum_congr rfl (fun l _ => hlen l)]
    exact (sum_count_by_l ds _ hb).symm
  · show ds.length = _
    have := congrArg List.length hseq
    rw [List.length_map, List.length_append, length_flatMap_range, List.length_map,
      List.length_range] at this
    rw [this]
    simp

/-- Witness of C27: two augmented-wave functions for `l = 0`, one for `l = 1`, and the local
orbitals with `l = 1, 0, 2`: `init` returns six descriptors. -/
theorem C27_radial_functions_index_bijective_witness :
    ((∀ l, l < [2, 1].length → [2, 1].getD l 0 ≤ 3) ∧
      ∀ k, k < ([⟨1⟩, ⟨0⟩, ⟨2⟩] : List local_orbital_descriptor).length →
        0 ≤ (([⟨1⟩, ⟨0⟩, ⟨2⟩] : List local_orbital_descriptor).getD k ⟨0⟩).l) ∧
    ∃ r, radial_functions_index.init [2, 1] [⟨1⟩, ⟨0⟩, ⟨2⟩] (fun _ _ => -1) (fun _ => -1) =
        Except.ok r ∧
      r.size = ∑ l ∈ Finset.range [2, 1].length, [2, 1].getD l 0 +
        ([⟨1⟩, ⟨0⟩, ⟨2⟩] : List local_orbital_descriptor).length :=
  ⟨⟨by decide, by decide⟩,
    (C27_radial_functions_index_bijective [2, 1] [⟨1⟩, ⟨0⟩, ⟨2⟩] (fun _ _ => -1) (fun _ => -1)
      (by decide) (by decide)).imp (fun _ h => ⟨h.1, h.2.2.2.2.2.2⟩)⟩

section Bounds

end Bounds

section ScratchFree
variable {K : Type} [Field K] [StarRing K]

omit [Field K] [StarRing K] in
/-- A linear index of the box is a plane index and a position in the plane. -/
theorem plane_index_decomp (n0 n1 n2 idx : ℕ) (h : idx < n0 * n1 * n2) :
    ∃ iz, iz < n2 ∧ ∃ p, p < n0 * n1 ∧ idx = iz * (n0 * n1) + p := by
  have hxy : 0 < n0 * n1 := by
    rcases Nat.eq_zero_or_pos (n0 * n1) with h0 | hpos
    · rw [h0, Nat.zero_mul] at h
      exact absurd h (Nat.not_lt_zero _)
    · exact hpos
  exact ⟨idx / (n0 * n1), (Nat.div_lt_iff_lt_mul hxy).mpr (by rw [Nat.mul_comm]; exact h),
    idx % (n0 * n1), Nat.mod_lt _ hxy, (Nat.div_add_mod' idx _).symm⟩

/-- The main buffer after the backward transform is the same for two engines on the same grid,
whatever their buffers held before. -/
theorem backward_scratch_free (root : ℕ → K) (e e' : FFT3D K) (gvec : Gvec_partition)
    (data : ℕ → K) (hg : e'.grid_ = e.grid_) (hl : e.local_size_z_ = e.grid_.size 2)
    (hl' : e'.local_size_z_ = e'.grid_.size 2) :
    ∃ r r', (e.prepare gvec).transform root 1 gvec data = Except.ok r ∧
      (e'.prepare gvec).transform root 1 gvec data = Except.ok r' ∧
      r.2 = data ∧ r.1.z_col_pos_ = (e.prepare gvec).z_col_pos_ ∧
      ∀ idx, idx < e.size → r.1.fft_buffer_ idx = r'.1.fft_buffer_ idx := by
  obtain ⟨r, hr, hdat, _, _, htab, _, hbuf⟩ :=
    transform_backward_spec root (e.prepare gvec) gvec data rfl hl
  obtain ⟨r', hr', _, _, _, _, _, hbuf'⟩ :=
    transform_backward_spec root (e'.prepare gvec) gvec data rfl hl'
  refine ⟨r, r', hr, hr', hdat, htab, fun idx hidx => ?_⟩
  have hE : (e.prepare gvec).grid_ = e.grid_ := rfl
  have hE' : (e'.prepare gvec).grid_ = e.grid_ := hg
  rw [hE] at hbuf
  rw [hE'] at hbuf'
  obtain ⟨iz, hiz, p, hp, hidx'⟩ :=
    plane_index_decomp (e.grid_.size 0) (e.grid_.size 1) (e.grid_.size 2) idx hidx
  rw [hidx', hbuf iz hiz p hp, hbuf' iz hiz p hp,
    plan_backward_xy_grid root (e.prepare gvec) (e'.prepare gvec) (hE.trans hE'.symm)]
  congr 1
  refine xy_load_congr_engine gvec.reduced (e.prepare gvec) (e'.prepare gvec) gvec iz iz _ _ _
    (prepare_table_grid e e' gvec hg.symm) (fun i _ => ?_)
  have h1 : (e.prepare gvec).local_size_z_ = e.grid_.size 2 := hl
  have h2 : (e'.prepare gvec).local_size_z_ = e.grid_.size 2 := by
    show e'.local_size_z_ = _
    rw [hl', hg]
  rw [h1, h2, plan_backward_z_grid root (e.prepare gvec) (e'.prepare gvec) (hE.trans hE'.symm),
    z_load_grid gvec.reduced (e.prepare gvec) (e'.prepare gvec) (hE.trans hE'.symm)]

/-- The coefficients written by the forward transform are the same for two engines on the same
grid whose main buffers agree on the box, whatever their other buffers and the coefficient
arrays held before. -/
theorem forward_scratch_free (root : ℕ → K) (e e' : FFT3D K) (gvec : Gvec_partition)
    (d d' : ℕ → K) (hg : e'.grid_ = e.grid_) (hl : e.local_size_z_ = e.grid_.size 2)
    (hl' : e'.local_size_z_ = e'.grid_.size 2) (hfit : gvec.fits e.grid_)
    (hbuf : ∀ idx, idx < e.size → e.fft_buffer_ idx = e'.fft_buffer_ idx) :
    ∃ r r', (e.prepare gvec).transform root (-1) gvec d = Except.ok r ∧
      (e'.prepare gvec).transform root (-1) gvec d' = Except.ok r' ∧
      ∀ i, i < gvec.num_zcol → ∀ j, j < (gvec.zcol i).z.length →
        r.2 (gvec.zcol_offs i + j) = r'.2 (gvec.zcol_offs i + j) := by
  rcases e' with ⟨g', lz', oz', fb', a1', a2', bz', bxy', tbl', pr', un'⟩
  dsimp only at hg hl' hbuf
  subst hg
  have hpos : ∀ i, i < gvec.num_zcol →
      ((e.prepare gvec).z_col_pos_.data i 0).toNat < e.grid_.size 0 * e.grid_.size 1 := by
    intro i hi
    have := prepare_pos0_lt e gvec hfit i hi
    rw [Nat.mul_comm] at this
    exact this
  have hz : ∀ i, i < gvec.num_zcol → ∀ j, j < (gvec.zcol i).z.length →
      (e.grid_.coord_by_gvec (gvec.zfreq i j) 2).toNat < e.grid_.size 2 :=
    fun i hi j hj => coord_by_gvec_toNat_lt _ _ _ ((hfit i hi).2.2 j hj)
  obtain ⟨r, hr, _, _, _, _, _, hd⟩ := transform_forward_spec root (e.prepare gvec) gvec d rfl hl
    hpos hz
  obtain ⟨r', hr', _, _, _, _, _, hd'⟩ := transform_forward_spec root
    ((⟨e.grid_, lz', oz', fb', a1', a2', bz', bxy', tbl', pr', un'⟩ : FFT3D K).prepare gvec)
    gvec d' rfl hl' hpos hz
  refine ⟨r, r', hr, hr', fun i hi j hj => ?_⟩
  rw [hd, hd']
  have hval : ∀ i', i' < gvec.num_zcol → ∀ j', j' < (gvec.zcol i').z.length →
      (e.prepare gvec).plan_forward_z root
        (fun k => (e.prepare gvec).plan_forward_xy root
          (fun p => e.fft_buffer_ (k * (e.grid_.size 0 * e.grid_.size 1) + p))
          ((e.prepare gvec).z_col_pos_.data i' 0).toNat)
        (e.grid_.coord_by_gvec (gvec.zfreq i' j') 2).toNat * (1 / ((e.prepare gvec).size : K)) =
      (e.prepare gvec).plan_forward_z root
        (fun k => (e.prepare gvec).plan_forward_xy root
          (fun p => fb' (k * (e.grid_.size 0 * e.grid_.size 1) + p))
          ((e.prepare gvec).z_col_pos_.data i' 0).toNat)
        (e.grid_.coord_by_gvec (gvec.zfreq i' j') 2).toNat *
          (1 / ((e.prepare gvec).size : K)) := by
    intro i' hi' j' hj'
    congr 1
    show fftw_dft_1d _ (e.grid_.size 2) _ _ = fftw_dft_1d _ (e.grid_.size 2) _ _
    refine fftw_dft_1d_congr _ _ _ _ (fun k hk => ?_) _ (hz i' hi' j' hj')
    show fftw_dft_2d _ _ (e.grid_.size 1) (e.grid_.size 0) _ _ =
      fftw_dft_2d _ _ (e.grid_.size 1) (e.grid_.size 0) _ _
    refine fftw_dft_2d_congr _ _ _ _ _ _ (fun p hp => ?_) _ (prepare_pos0_lt e gvec hfit i' hi')
    refine hbuf _ ?_
    have hp' : p < e.grid_.size 0 * e.grid_.size 1 := by rw [Nat.mul_comm]; exact hp
    have := block_index_lt k (e.grid_.size 2) (e.grid_.size 0 * e.grid_.size 1) p hk hp'
    show _ < e.grid_.size 0 * e.grid_.size 1 * e.grid_.size 2
    rw [Nat.mul_comm (e.grid_.size 0 * e.grid_.size 1)]
    exact this
  have key := nested_update_linear_at (1 : K) 0 gvec.num_zcol
    (fun i => (gvec.zcol i).z.length) (fun i j => gvec.zcol_offs i + j)
    (fun i j => (e.prepare gvec).plan_forward_z root
      (fun k => (e.prepare gvec).plan_forward_xy root
        (fun p => e.fft_buffer_ (k * (e.grid_.size 0 * e.grid_.size 1) + p))
        ((e.prepare gvec).z_col_pos_.data i 0).toNat)
      (e.grid_.coord_by_gvec (gvec.zfreq i j) 2).toNat * (1 / ((e.prepare gvec).size : K)))
    (fun i j => (e.prepare gvec).plan_forward_z root
      (fun k => (e.prepare gvec).plan_forward_xy root
        (fun p => fb' (k * (e.grid_.size 0 * e.grid_.size 1) + p))
        ((e.prepare gvec).z_col_pos_.data i 0).toNat)
      (e.grid_.coord_by_gvec (gvec.zfreq i j) 2).toNat * (1 / ((e.prepare gvec).size : K)))
    (fun i j => (e.prepare gvec).plan_forward_z root
      (fun k => (e.prepare gvec).plan_forward_xy root
        (fun p => fb' (k * (e.grid_.size 0 * e.grid_.size 1) + p))
        ((e.prepare gvec).z_col_pos_.data i 0).toNat)
      (e.grid_.coord_by_gvec (gvec.zfreq i j) 2).toNat * (1 / ((e.prepare gvec).size : K)))
    (fun i' hi' j' hj' => by
      rw [one_mul, zero_mul, add_zero]
      exact hval i' hi' j' hj')
    d d' d' (gvec.zcol_offs i + j) (Or.inr ⟨i, hi, j, hj, rfl⟩)
  rw [one_mul, zero_mul, add_zero] at key
  exact key

end ScratchFree

section Frames
variable {K : Type} [Field K] [StarRing K]

/-- The paired backward transform returns the two coefficient arrays and the table as they
were. -/
theorem transform2_backward_frame (root : ℕ → K) (I : K) (e : FFT3D K) (gvec : Gvec_partition)
    (d1 d2 : ℕ → K) (hp : e.prepared_ = true) (hr : gvec.reduced = true) :
    ∃ r, e.transform2 root I 1 gvec d1 d2 = Except.ok r ∧ r.2.1 = d1 ∧ r.2.2 = d2 ∧
      r.1.z_col_pos_ = e.z_col_pos_ := by
  unfold FFT3D.transform2
  rw [if_neg (by simp [hp]), if_neg (by simp [hr])]
  simp only [if_true, run_z_backward, Except.bind]
  rw [transform_xy2_backward _ _ _ _ _ hr]
  simp only [Except.bind]
  refine ⟨_, rfl, ?_, ?_, rfl⟩
  · exact (z_backward_loop root true _ gvec _ gvec.num_zcol).1
  · exact (z_backward_loop root true _ gvec _ gvec.num_zcol).1

/-- The paired forward transform returns the main buffer and the table as they were. -/
theorem transform2_forward_frame (root : ℕ → K) (I : K) (e : FFT3D K) (gvec : Gvec_partition)
    (d1 d2 : ℕ → K) (hp : e.prepared_ = true) (hr : gvec.reduced = true)
    (hpos0 : ∀ i, i < gvec.num_zcol →
      (e.z_col_pos_.data i 0).toNat < e.grid_.size 0 * e.grid_.size 1)
    (hpos1 : ∀ i, i < gvec.num_zcol →
      (e.z_col_pos_.data i 1).toNat < e.grid_.size 0 * e.grid_.size 1) :
    ∃ r, e.transform2 root I (-1) gvec d1 d2 = Except.ok r ∧
      r.1.fft_buffer_ = e.fft_buffer_ ∧ r.1.z_col_pos_ = e.z_col_pos_ := by
  unfold FFT3D.transform2
  rw [if_neg (by simp [hp]), if_neg (by simp [hr])]
  simp only [show ((-1 : ℤ) = 1) = False from by decide, if_false, if_true]
  rw [transform_xy2_forward _ _ _ _ _ hr]
  simp only [Except.bind, run_z_forward]
  refine ⟨_, rfl, ?_, rfl⟩
  exact (xy2_forward_loop root I
    { e with
      fft_buffer_aux1_ := e.realloc (e.grid_.size 2 * gvec.num_zcol) e.fft_buffer_aux1_
      fft_buffer_aux2_ := e.realloc (e.grid_.size 2 * gvec.num_zcol) e.fft_buffer_aux2_ }
    gvec hpos0 hpos1 _ _ (le_refl _)).1

omit [Field K] [StarRing K] in
/-- A nested scatter loop leaves every entry that is no slot as it was. -/
theorem nested_update_frame (m : ℕ) (len : ℕ → ℕ) (slot : ℕ → ℕ → ℕ) (val : ℕ → ℕ → K)
    (d : ℕ → K) (k : ℕ) (hk : ∀ i, i < m → ∀ j, j < len i → slot i j ≠ k) :
    forLoop m (fun i c => forLoop (len i)
      (fun j c => Function.update c (slot i j) (val i j)) c) d k = d k := by
  rcases nested_update_cases m len slot val d k with ⟨h, _⟩ | ⟨i, hi, j, hj, hs, _⟩
  · exact h
  · exact absurd hs (hk i hi j hj)

end Frames

/-- C29. Results do not depend on stale scratch state: on a single-process CPU engine, for
every partition it is prepared with and every input, two runs on engines `e`, `e'` of the
same grid that differ in any way in the prior contents and sizes of the auxiliary buffers, in
the z and plane scratch buffers, in what fresh memory contains and, for the backward
transform, in the main buffer, both return, and the main buffer after the backward transform
is the same at every grid point.  For the forward transform of the same main-buffer contents,
with the frequencies of the partition on the grid, the coefficient-array entries written are
the same, whatever the two coefficient arrays held before. -/
theorem C29_no_stale_scratch (root : ℕ → ℂ) (e e' : FFT3D ℂ) (gvec : Gvec_partition)
    (data d d' : ℕ → ℂ) (hg : e'.grid_ = e.grid_) (hl : e.local_size_z_ = e.grid_.size 2)
    (hl' : e'.local_size_z_ = e'.grid_.size 2) :
    (∃ r r', (e.prepare gvec).transform root 1 gvec data = Except.ok r ∧
      (e'.prepare gvec).transform root 1 gvec data = Except.ok r' ∧
      ∀ idx, idx < e.size → r.1.fft_buffer_ idx = r'.1.fft_buffer_ idx) ∧
    (gvec.fits e.grid_ → (∀ idx, idx < e.size → e.fft_buffer_ idx = e'.fft_buffer_ idx) →
      ∃ r r', (e.prepare gvec).transform root (-1) gvec d = Except.ok r ∧
        (e'.prepare gvec).transform root (-1) gvec d' = Except.ok r' ∧
        ∀ i, i < gvec.num_zcol → ∀ j, j < (gvec.zcol i).z.length →
          r.2 (gvec.zcol_offs i + j) = r'.2 (gvec.zcol_offs i + j)) := by
  constructor
  · obtain ⟨r, r', h1, h2, _, _, h3⟩ := backward_scratch_free root e e' gvec data hg hl hl'
    exact ⟨r, r', h1, h2, h3⟩
  · intro hfit hbuf
    exact forward_scratch_free root e e' gvec d d' hg hl hl' hfit hbuf

/-- Witness of C29: the fresh engine of the 4 × 4 × 4 grid and an engine of the same grid whose
main, auxiliary and scratch buffers hold other values and whose first auxiliary buffer already
has 100 entries, with the reduced sample partition. -/
theorem C29_no_stale_scratch_witness :
    ((⟨scenario_grid, 4, 0, fun _ => 5, ⟨100, fun _ => 7⟩, ⟨3, fun k => (k : ℂ)⟩, fun _ => 3,
        fun _ => Complex.I, ⟨0, 0, fun _ _ => 9⟩, false, fun _ => 11⟩ : FFT3D ℂ).grid_ =
        (sample_engine4 : FFT3D ℂ).grid_ ∧
      (sample_engine4 : FFT3D ℂ).local_size_z_ = (sample_engine4 : FFT3D ℂ).grid_.size 2) ∧
    ∃ r r', ((sample_engine4 : FFT3D ℂ).prepare sample_reduced_partition).transform
        (fun n => Complex.exp (2 * (Real.pi : ℂ) * Complex.I / (n : ℂ))) 1
        sample_reduced_partition sample_coeffs = Except.ok r ∧
      ((⟨scenario_grid, 4, 0, fun _ => 5, ⟨100, fun _ => 7⟩, ⟨3, fun k => (k : ℂ)⟩, fun _ => 3,
        fun _ => Complex.I, ⟨0, 0, fun _ _ => 9⟩, false, fun _ => 11⟩ : FFT3D ℂ).prepare
          sample_reduced_partition).transform
        (fun n => Complex.exp (2 * (Real.pi : ℂ) * Complex.I / (n : ℂ))) 1
        sample_reduced_partition sample_coeffs = Except.ok r' ∧
      ∀ idx, idx < (sample_engine4 : FFT3D ℂ).size →
        r.1.fft_buffer_ idx = r'.1.fft_buffer_ idx :=
  ⟨⟨rfl, rfl⟩,
    (C29_no_stale_scratch _ sample_engine4
      ⟨scenario_grid, 4, 0, fun _ => 5, ⟨100, fun _ => 7⟩, ⟨3, fun k => (k : ℂ)⟩, fun _ => 3,
        fun _ => Complex.I, ⟨0, 0, fun _ _ => 9⟩, false, fun _ => 11⟩
      sample_reduced_partition sample_coeffs sample_coeffs sample_coeffs rfl rfl rfl).1⟩

/-- C30. Frame of the transforms on a single-process CPU engine prepared with a partition
whose frequencies lie on the grid.  The forward transform, single and (for a reduced
partition whose negated column frequencies lie on the grid) paired, returns, leaves every
entry of the main buffer and the Column Position Table unchanged and leaves unchanged every
coefficient-array entry that is not an entry `zcol_offs(i) + j` of a stored coefficient.  The
backward transform, single and (for a reduced partition with at least one column) paired,
returns, leaves the coefficient array(s) and the Column Position Table unchanged and
overwrites every entry of the main buffer: the entry it leaves at a grid point is the same
for every prior content `m` of the main buffer. -/
theorem C30_transform_frame (root : ℕ → ℂ) (e : FFT3D ℂ) (gvec : Gvec_partition)
    (data d1 d2 m : ℕ → ℂ) (hl : e.local_size_z_ = e.grid_.size 2)
    (hfit : gvec.fits e.grid_) :
    (∃ r, (e.prepare gvec).transform root (-1) gvec data = Except.ok r ∧
      r.1.fft_buffer_ = (e.prepare gvec).fft_buffer_ ∧
      r.1.z_col_pos_ = (e.prepare gvec).z_col_pos_ ∧
      ∀ k, (∀ i, i < gvec.num_zcol → ∀ j, j < (gvec.zcol i).z.length →
        gvec.zcol_offs i + j ≠ k) → r.2 k = data k) ∧
    (gvec.reduced = true → gvec.fits_neg e.grid_ →
      ∃ r, (e.prepare gvec).transform2 root Complex.I (-1) gvec d1 d2 = Except.ok r ∧
        r.1.fft_buffer_ = (e.prepare gvec).fft_buffer_ ∧
        r.1.z_col_pos_ = (e.prepare gvec).z_col_pos_ ∧
        ∀ k, (∀ i, i < gvec.num_zcol → ∀ j, j < (gvec.zcol i).z.length →
          gvec.zcol_offs i + j ≠ k) → r.2.1 k = d1 k ∧ r.2.2 k = d2 k) ∧
    (∃ r r', (e.prepare gvec).transform root 1 gvec data = Except.ok r ∧
      (({ e with fft_buffer_ := m } : FFT3D ℂ).prepare gvec).transform root 1 gvec data =
        Except.ok r' ∧
      r.2 = data ∧ r.1.z_col_pos_ = (e.prepare gvec).z_col_pos_ ∧
      ∀ idx, idx < e.size → r.1.fft_buffer_ idx = r'.1.fft_buffer_ idx) ∧
    (gvec.reduced = true → 0 < gvec.num_zcol →
      ∃ r r', (e.prepare gvec).transform2 root Complex.I 1 gvec d1 d2 = Except.ok r ∧
        (({ e with fft_buffer_ := m } : FFT3D ℂ).prepare gvec).transform2 root Complex.I 1 gvec
          d1 d2 = Except.ok r' ∧
        r.2.1 = d1 ∧ r.2.2 = d2 ∧ r.1.z_col_pos_ = (e.prepare gvec).z_col_pos_ ∧
        ∀ idx, idx < e.size → r.1.fft_buffer_ idx = r'.1.fft_buffer_ idx) := by
  have hpos : ∀ i, i < gvec.num_zcol →
      ((e.prepare gvec).z_col_pos_.data i 0).toNat < e.grid_.size 0 * e.grid_.size 1 := by
    intro i hi
    have := prepare_pos0_lt e gvec hfit i hi
    rw [Nat.mul_comm] at this
    exact this
  have hz : ∀ i, i < gvec.num_zcol → ∀ j, j < (gvec.zcol i).z.length →
      (e.grid_.coord_by_gvec (gvec.zfreq i j) 2).toNat < e.grid_.size 2 :=
    fun i hi j hj => coord_by_gvec_toNat_lt _ _ _ ((hfit i hi).2.2 j hj)
  refine ⟨?_, fun hr hfn => ?_, ?_, fun hr hne => ?_⟩
  · obtain ⟨r, hr, hb, _, _, ht, _, hd⟩ :=
      transform_forward_spec root (e.prepare gvec) gvec data rfl hl hpos hz
    refine ⟨r, hr, hb, ht, fun k hk => ?_⟩
    rw [hd]
    exact nested_update_frame gvec.num_zcol (fun i => (gvec.zcol i).z.length)
      (fun i j => gvec.zcol_offs i + j) _ data k hk
  · have hpos1 : ∀ i, i < gvec.num_zcol →
        ((e.prepare gvec).z_col_pos_.data i 1).toNat < e.grid_.size 0 * e.grid_.size 1 := by
      intro i hi
      have := prepare_pos1_lt e gvec hr hfn i hi
      rw [Nat.mul_comm] at this
      exact this
    obtain ⟨r, hrr, h1, h2⟩ := transform2_forward_spec root Complex.I (e.prepare gvec) gvec
      d1 d2 rfl hl hr hpos hpos1 hz
    obtain ⟨r0, hr0, hb, ht⟩ := transform2_forward_frame root Complex.I (e.prepare gvec) gvec
      d1 d2 rfl hr hpos hpos1
    have hrr0 : r0 = r := Except.ok.inj (hr0.symm.trans hrr)
    subst hrr0
    refine ⟨r0, hrr, hb, ht, fun k hk => ⟨?_, ?_⟩⟩
    · rw [h1]
      exact nested_update_frame gvec.num_zcol (fun i => (gvec.zcol i).z.length)
        (fun i j => gvec.zcol_offs i + j) _ d1 k hk
    · rw [h2]
      exact nested_update_frame gvec.num_zcol (fun i => (gvec.zcol i).z.length)
        (fun i j => gvec.zcol_offs i + j) _ d2 k hk
  · exact backward_scratch_free root e { e with fft_buffer_ := m } gvec data rfl hl hl
  · obtain ⟨r, hrr, hbuf⟩ := transform2_backward_spec root Complex.I (e.prepare gvec) gvec
      d1 d2 rfl hl hr hne
    obtain ⟨r', hrr', hbuf'⟩ := transform2_backward_spec root Complex.I
      (({ e with fft_buffer_ := m } : FFT3D ℂ).prepare gvec) gvec d1 d2 rfl hl hr hne
    obtain ⟨r0, hr0, hd1, hd2, ht⟩ := transform2_backward_frame root Complex.I (e.prepare gvec)
      gvec d1 d2 rfl hr
    have hrr0 : r0 = r := Except.ok.inj (hr0.symm.trans hrr)
    subst hrr0
    refine ⟨r0, r', hrr, hrr', hd1, hd2, ht, fun idx hidx => ?_⟩
    obtain ⟨iz, hiz, p, hp, hidx'⟩ :=
      plane_index_decomp (e.grid_.size 0) (e.grid_.size 1) (e.grid_.size 2) idx hidx
    rw [hidx']
    exact (hbuf iz hiz p hp).trans (hbuf' iz hiz p hp).symm

/-- Witness of C30: the engine of the 4 × 4 × 4 grid prepared with the reduced sample partition;
the forward transform leaves the main buffer as it was. -/
theorem C30_transform_frame_witness :
    ((sample_engine4 : FFT3D ℂ).local_size_z_ = (sample_engine4 : FFT3D ℂ).grid_.size 2 ∧
      sample_reduced_partition.fits (sample_engine4 : FFT3D ℂ).grid_) ∧
    ∃ r, ((sample_engine4 : FFT3D ℂ).prepare sample_reduced_partition).transform
        (fun n => Complex.exp (2 * (Real.pi : ℂ) * Complex.I / (n : ℂ))) (-1)
        sample_reduced_partition sample_coeffs = Except.ok r ∧
      r.1.fft_buffer_ =
        ((sample_engine4 : FFT3D ℂ).prepare sample_reduced_partition).fft_buffer_ :=
  ⟨⟨rfl, sample_reduced_fits⟩,
    (C30_transform_frame _ sample_engine4 sample_reduced_partition sample_coeffs sample_coeffs
      sample_coeffs (fun _ => 1) rfl sample_reduced_fits).1.imp (fun _ h => ⟨h.1, h.2.1⟩)⟩

/-! ### The checked stages return what the stages return -/

section CheckedStages
variable {K : Type} [Field K] [StarRing K]

end CheckedStages

section CheckedParallel
variable {K : Type} [Field K] [StarRing K]

/-! #### Column stage, distributed -/

end CheckedParallel

section AuxSize
variable {K : Type} [Field K] [StarRing K]

end AuxSize

/-- An auxiliary buffer that is too small is detected: with 19 entries, one less than
`numColumns * localSizeZ = 5 * 4`, the checked Plane Stage of the 4 × 4 × 4 engine ends at the
read of `fft_buffer_aux[3 + 4 * 4]`. -/
theorem transform_xy_checked_small_buffer :
    ((sample_engine4 : FFT3D ℂ).prepare sample_reduced_partition).transform_xy_checked
      (fun _ => 1) 1 true sample_reduced_partition 19 ⟨fun _ => 0, fun _ => 0, fun _ => 0⟩ =
      Except.error "index out of range" := by
  rfl

/-- With 19 entries, one less than `sizeZ * numColumns = 4 * 5`, the checked serial Column
Stage of the 4 × 4 × 4 engine ends at the copy of the last column into
`fft_buffer_aux[4 * 4 .. 4 * 4 + 4)`. -/
theorem transform_z_serial_checked_small_buffer :
    ((sample_engine4 : FFT3D ℂ).prepare sample_reduced_partition).transform_z_serial_checked
      (fun _ => 1) 1 true sample_reduced_partition 19 ⟨fun _ => 0, fun _ => 0, fun _ => 0⟩ =
      Except.error "index out of range" := by
  rfl

end sddk
